import Mathlib

/-!
# Memory-Management-Simulator: a verification development

Shallow embedding of the four simulation engines of the repository

* `src/src/allocator/memory_allocator.cpp` (contiguous first/best/worst-fit allocator),
* `src/src/buddy/buddy_allocator.cpp` (buddy allocator),
* `src/src/cache/cache.cpp` (set-associative cache hierarchy),
* `src/src/virtual_memory/virtual_memory.cpp` (paged virtual memory),

and of the integrated pipeline of `src/src/main.cpp` that feeds the translated address to
the cache hierarchy, followed by theorems about them.

Conventions of the embedding.

* `size_t` values are natural numbers; every `size_t` operation of the source that can
  leave the 64-bit range is written with an explicit reduction modulo `2^64`.
* `int` block ids and time stamps are mathematical integers: signed overflow of a
  counter (after `2^31 - 1` increments) is undefined behaviour in C++ and lies
  outside the model.
* A doubly linked list of heap nodes is the Lean list of its nodes read from `head`;
  a node pointer returned by a search is the position of the node in that list.
* A `std::map` is an association list kept sorted by key; a `std::vector` is a list.
* Integer division by zero and a shift by 32 bits or more are undefined in C++ (the
  division kills the program).  The definitions are total: they give Lean's `x / 0 = 0`
  and `x % 0 = x` there, which describes no run of the program.  The places are named
  at the definitions (`CacheLevel.new`, `CacheLevel.getSetIndex`, `CacheLevel.getTag`,
  `VirtualMemory.new`), and `CacheLevel.WellFormed` is the condition under which the
  index arithmetic of a cache level is defined.
* Output to `cout`/`cerr` is not modelled.
-/

/-- The modulus of `size_t` arithmetic. -/
def SIZE_MOD : Nat := 2 ^ 64

/-! ## Ordered maps (`std::map`) -/

/-- Insertion or overwrite at key `k` in a key-sorted association list (`m[k] = v`). -/
def mapInsert {κ α : Type} [LinearOrder κ] (k : κ) (v : α) : List (κ × α) → List (κ × α)
  | [] => [(k, v)]
  | (k', v') :: rest =>
    if k < k' then (k, v) :: (k', v') :: rest
    else if k = k' then (k, v) :: rest
    else (k', v') :: mapInsert k v rest

/-- Removal of key `k` (`m.erase(k)`). -/
def mapErase {κ α : Type} [DecidableEq κ] (k : κ) (m : List (κ × α)) : List (κ × α) :=
  m.filter (fun e => decide (e.1 ≠ k))

/-- Lookup of key `k` (`m.find(k)`). -/
def mapFind {κ α : Type} [DecidableEq κ] (k : κ) : List (κ × α) → Option α
  | [] => none
  | (k', v) :: rest => if k' = k then some v else mapFind k rest

/-- Insertion of a key into a sorted list of keys (the key set of a `std::map`). -/
def keyInsert {κ : Type} [LinearOrder κ] (k : κ) : List κ → List κ
  | [] => [k]
  | k' :: rest =>
    if k < k' then k :: k' :: rest
    else if k = k' then k :: rest
    else k' :: keyInsert k rest

/-- In-place update of position `i` of a list; positions past the end leave it unchanged. -/
def modifyAt {α : Type} (f : α → α) : List α → Nat → List α
  | [], _ => []
  | x :: rest, 0 => f x :: rest
  | x :: rest, i + 1 => x :: modifyAt f rest i

/-! ## Contiguous allocator (`memory_block.h`, `memory_allocator.cpp`) -/

/-- A node of the block ledger (`class MemoryBlock`); the `next`/`prev` links are the
list structure of the ledger. -/
structure MemoryBlock where
  address : Nat
  size : Nat
  is_free : Bool
  block_id : Int
deriving DecidableEq, Repr

/-- The placement policy (`enum class AllocationStrategy`). -/
inductive AllocationStrategy where
  | FIRST_FIT
  | BEST_FIT
  | WORST_FIT
deriving DecidableEq, Repr

/-- State of `class MemoryAllocator`.  `head` is the ledger read from the head pointer.
`allocated_blocks` holds the keys of `map<int, MemoryBlock *>`: the pointer stored
under key `k` is the ledger node whose `block_id` is `k` (`malloc` writes the id into
the node and the node into the map in the same step). -/
structure MemoryAllocator where
  head : List MemoryBlock
  total_memory : Nat
  used_memory : Nat
  strategy : AllocationStrategy
  next_block_id : Int
  allocated_blocks : List Int
  requested_sizes : List (Int × Nat)
deriving DecidableEq, Repr

namespace MemoryAllocator

/-- Constructor `MemoryAllocator::MemoryAllocator(memory_size)`. -/
def new (memory_size : Nat) : MemoryAllocator :=
  { head := [{ address := 0, size := memory_size, is_free := true, block_id := -1 }]
    total_memory := memory_size
    used_memory := 0
    strategy := AllocationStrategy.FIRST_FIT
    next_block_id := 1
    allocated_blocks := []
    requested_sizes := [] }

/-- Method `setStrategy`. -/
def setStrategy (a : MemoryAllocator) (strat : AllocationStrategy) : MemoryAllocator :=
  { a with strategy := strat }

/-- The scan of `findFreeBlock`: `idx` is the position of the node under `current`,
`best_fit` and `worst_fit` are the candidate pointers (position and node). -/
def findFreeBlockFrom (strategy : AllocationStrategy) (size : Nat) :
    List MemoryBlock → Nat → Option (Nat × MemoryBlock) → Option (Nat × MemoryBlock) →
    Option (Nat × MemoryBlock)
  | [], _, best_fit, worst_fit =>
    match strategy with
    | AllocationStrategy.BEST_FIT => best_fit
    | AllocationStrategy.WORST_FIT => worst_fit
    | AllocationStrategy.FIRST_FIT => none
  | current :: rest, idx, best_fit, worst_fit =>
    if current.is_free && decide (current.size ≥ size) then
      match strategy with
      | AllocationStrategy.FIRST_FIT => some (idx, current)
      | AllocationStrategy.BEST_FIT =>
        match best_fit with
        | none => findFreeBlockFrom strategy size rest (idx + 1) (some (idx, current)) worst_fit
        | some bf =>
          if current.size < bf.2.size then
            findFreeBlockFrom strategy size rest (idx + 1) (some (idx, current)) worst_fit
          else findFreeBlockFrom strategy size rest (idx + 1) best_fit worst_fit
      | AllocationStrategy.WORST_FIT =>
        match worst_fit with
        | none => findFreeBlockFrom strategy size rest (idx + 1) best_fit (some (idx, current))
        | some wf =>
          if current.size > wf.2.size then
            findFreeBlockFrom strategy size rest (idx + 1) best_fit (some (idx, current))
          else findFreeBlockFrom strategy size rest (idx + 1) best_fit worst_fit
    else findFreeBlockFrom strategy size rest (idx + 1) best_fit worst_fit

/-- Method `findFreeBlock`: the position of the chosen node, `none` for `nullptr`. -/
def findFreeBlock (a : MemoryAllocator) (size : Nat) : Option Nat :=
  (findFreeBlockFrom a.strategy size a.head 0 none none).map Prod.fst

/-- Method `splitBlock` applied to the node at position `i`. -/
def splitBlock : List MemoryBlock → Nat → Nat → List MemoryBlock
  | [], _, _ => []
  | block :: rest, 0, size =>
    if block.size > size then
      { block with size := size } ::
        { address := (block.address + size) % SIZE_MOD, size := block.size - size,
          is_free := true, block_id := -1 } :: rest
    else block :: rest
  | block :: rest, i + 1, size => block :: splitBlock rest i size

/-- The loop of `coalesceBlocks` with the node `current` and the nodes after it. -/
def coalesceFrom (current : MemoryBlock) : List MemoryBlock → List MemoryBlock
  | [] => [current]
  | next :: rest =>
    if current.is_free && next.is_free then
      coalesceFrom { current with size := (current.size + next.size) % SIZE_MOD } rest
    else current :: coalesceFrom next rest

/-- Method `coalesceBlocks`. -/
def coalesceBlocks : List MemoryBlock → List MemoryBlock
  | [] => []
  | current :: rest => coalesceFrom current rest

/-- Method `malloc`: the new state and the returned id (`-1` on failure). -/
def malloc (a : MemoryAllocator) (size : Nat) : MemoryAllocator × Int :=
  if size = 0 then (a, -1)
  else
    match a.findFreeBlock size with
    | none => (a, -1)
    | some i =>
      let id := a.next_block_id
      let ledger := modifyAt (fun b => { b with is_free := false, block_id := id })
        (splitBlock a.head i size) i
      let block_size := (ledger.get? i).elim 0 MemoryBlock.size
      ({ a with
          head := ledger
          next_block_id := id + 1
          allocated_blocks := keyInsert id a.allocated_blocks
          requested_sizes := mapInsert id size a.requested_sizes
          used_memory := (a.used_memory + block_size) % SIZE_MOD }, id)

/-- The node a stored pointer of key `block_id` designates: the first ledger node carrying
that id. -/
def findBlock (block_id : Int) : List MemoryBlock → Option Nat
  | [] => none
  | b :: rest => if b.block_id = block_id then some 0 else (findBlock block_id rest).map (· + 1)

/-- Method `free`: the new state and the returned flag. -/
def free (a : MemoryAllocator) (block_id : Int) : MemoryAllocator × Bool :=
  if block_id ∈ a.allocated_blocks then
    match findBlock block_id a.head with
    | none => (a, false)
    | some i =>
      let block_size := (a.head.get? i).elim 0 MemoryBlock.size
      let ledger := modifyAt (fun b => { b with is_free := true, block_id := -1 }) a.head i
      ({ a with
          head := coalesceBlocks ledger
          used_memory := (a.used_memory + SIZE_MOD - block_size % SIZE_MOD) % SIZE_MOD
          allocated_blocks := a.allocated_blocks.filter (fun k => decide (k ≠ block_id))
          requested_sizes := mapErase block_id a.requested_sizes }, true)
  else (a, false)

end MemoryAllocator

/-- One call of the public interface of `MemoryAllocator`. -/
inductive AllocOp where
  | malloc (size : Nat)
  | free (block_id : Int)
  | setStrategy (strat : AllocationStrategy)
deriving DecidableEq, Repr

namespace MemoryAllocator

/-- The state after one call. -/
def step (a : MemoryAllocator) : AllocOp → MemoryAllocator
  | AllocOp.malloc size => (a.malloc size).1
  | AllocOp.free block_id => (a.free block_id).1
  | AllocOp.setStrategy strat => a.setStrategy strat

/-- The state after a sequence of calls, in order. -/
def run (a : MemoryAllocator) (ops : List AllocOp) : MemoryAllocator :=
  ops.foldl step a

end MemoryAllocator

/-- The blocks of `l`, in order, lie end to end from `start` to `stop`. -/
def Tiles : Nat → List MemoryBlock → Nat → Prop
  | start, [], stop => start = stop
  | start, b :: rest, stop => b.address = start ∧ Tiles (start + b.size) rest stop

/-- The ledger `l` partitions `[0, total)`: it is not empty, starts at address 0, each
block ends where the next one starts, the last block ends at `total`, the blocks are in
address order with disjoint ranges, every block lies inside `[0, total)` and every
address below `total` lies in some block. -/
structure LedgerPartition (l : List MemoryBlock) (total : Nat) : Prop where
  first : l.head?.map MemoryBlock.address = some 0
  adjacent : ∀ (i : Nat) (x y : MemoryBlock), l.get? i = some x → l.get? (i + 1) = some y →
    x.address + x.size = y.address
  last : l.getLast?.map (fun b => b.address + b.size) = some total
  sorted : l.Pairwise (fun x y => x.address ≤ y.address)
  disjoint : l.Pairwise (fun x y => x.address + x.size ≤ y.address)
  inside : ∀ b ∈ l, b.address + b.size ≤ total
  covered : ∀ p, p < total → ∃ b ∈ l, b.address ≤ p ∧ p < b.address + b.size

/-- The inductive invariant behind the partition property. -/
def LedgerOk (a : MemoryAllocator) : Prop :=
  a.head ≠ [] ∧ Tiles 0 a.head a.total_memory ∧ a.total_memory < SIZE_MOD

/-- The block `b` is free and large enough for a request of `size` bytes. -/
def Qualifies (size : Nat) (b : MemoryBlock) : Prop :=
  b.is_free = true ∧ size ≤ b.size

/-- No two neighbours of the ledger are both free. -/
def NoAdjacentFree : List MemoryBlock → Prop
  | [] => True
  | [_] => True
  | x :: y :: rest => ¬ (x.is_free = true ∧ y.is_free = true) ∧ NoAdjacentFree (y :: rest)

namespace MemoryAllocator

/-- The allocator of the first-fit scenario after `malloc(100)`, `malloc(200)`, `free(1)`:
a free hole of 100 bytes at address 0, a used block, and the free tail. -/
def scenario : MemoryAllocator :=
  (MemoryAllocator.new 1024).run [AllocOp.malloc 100, AllocOp.malloc 200, AllocOp.free 1]

end MemoryAllocator

/-! ## Cache hierarchy (`cache.h`, `cache.cpp`) -/

/-- The replacement policy of a cache level (`enum class ReplacementPolicy`). -/
inductive ReplacementPolicy where
  | FIFO
  | LRU
  | LFU
deriving DecidableEq, Repr

/-- One line of a set (`struct CacheLine`), created invalid with all fields 0. -/
structure CacheLine where
  valid : Bool := false
  tag : Nat := 0
  data : Nat := 0
  frequency : Int := 0
  timestamp : Int := 0
deriving DecidableEq, Repr

/-- State of `class CacheLevel`.  Every set of `cache_sets` has exactly `associativity`
lines, so a loop over the ways `i < associativity` is a loop over the lines of the set.
The member `lru_lists` is never read or written by the source and is left out. -/
structure CacheLevel where
  cache_size : Nat
  block_size : Nat
  num_sets : Nat
  associativity : Nat
  policy : ReplacementPolicy
  cache_sets : List (List CacheLine)
  current_time : Int
  hits : Nat
  misses : Nat
deriving DecidableEq, Repr

namespace CacheLevel

/-- Constructor `CacheLevel::CacheLevel(size, block_sz, assoc, pol)`.  The source divides
`size` by the 64-bit product `block_sz * assoc`; when that product is 0 the division is
undefined in C++ and the program is killed, so no level is constructed.  The definition is
total and gives `num_sets = 0` there, which describes no `CacheLevel` object. -/
def new (size block_sz assoc : Nat) (pol : ReplacementPolicy) : CacheLevel :=
  let num_sets := size / ((block_sz * assoc) % SIZE_MOD)
  { cache_size := size
    block_size := block_sz
    num_sets := num_sets
    associativity := assoc
    policy := pol
    cache_sets := List.replicate num_sets (List.replicate assoc {})
    current_time := 0
    hits := 0
    misses := 0 }

/-- Method `getSetIndex`.  With `block_size = 0` or `num_sets = 0` the source divides by
zero and the program is killed; the value of the definition there (`x / 0 = 0`,
`x % 0 = x`) describes no call.  The definition is the method on levels with
`block_size ≥ 1` and `num_sets ≥ 1`. -/
def getSetIndex (c : CacheLevel) (address : Nat) : Nat :=
  (address / c.block_size) % c.num_sets

/-- Method `getTag`.  When the 64-bit product `block_size * num_sets` is 0 the source
divides by zero and the program is killed; the value of the definition there (0)
describes no call.  The definition is the method on levels with a product that is not
0. -/
def getTag (c : CacheLevel) (address : Nat) : Nat :=
  address / ((c.block_size * c.num_sets) % SIZE_MOD)

/-- The level is the state of a `CacheLevel` object on which `access` and `insert` are
defined: the divisors of `getSetIndex` and `getTag` are not 0, there is at least one way,
and `cache_sets` has `num_sets` sets of `associativity` lines, as the constructor builds
it.  A constructor call that returns with `num_sets ≥ 1` gives such a level; on a level
with `num_sets = 0`, which `CacheLevel(1, 1, 2, LRU)` constructs, every `access` and
`insert` of the source divides by zero. -/
abbrev WellFormed (c : CacheLevel) : Prop :=
  1 ≤ c.block_size ∧ 1 ≤ c.num_sets ∧ 1 ≤ c.associativity ∧
  (c.block_size * c.num_sets) % SIZE_MOD ≠ 0 ∧
  c.cache_sets.length = c.num_sets ∧ ∀ set ∈ c.cache_sets, set.length = c.associativity

/-- The first loop of `findVictim`: the lowest way whose line is not valid. -/
def firstInvalid : List CacheLine → Option Nat
  | [] => none
  | line :: rest => if !line.valid then some 0 else (firstInvalid rest).map (· + 1)

/-- The minimum scan of `findVictim` over the ways from `i` on, for the key `key`
(`timestamp` under FIFO and LRU, `frequency` under LFU): a way replaces the candidate
only when its key is strictly smaller. -/
def minWay (key : CacheLine → Int) : List CacheLine → Nat → Nat → Int → Nat
  | [], _, best_way, _ => best_way
  | line :: rest, i, best_way, best_key =>
    if key line < best_key then minWay key rest (i + 1) i (key line)
    else minWay key rest (i + 1) best_way best_key

/-- Method `findVictim` on the lines of the set. -/
def findVictim (policy : ReplacementPolicy) (set : List CacheLine) : Nat :=
  match firstInvalid set with
  | some i => i
  | none =>
    match set with
    | [] => 0
    | line0 :: rest =>
      match policy with
      | ReplacementPolicy.FIFO => minWay CacheLine.timestamp rest 1 0 line0.timestamp
      | ReplacementPolicy.LRU => minWay CacheLine.timestamp rest 1 0 line0.timestamp
      | ReplacementPolicy.LFU => minWay CacheLine.frequency rest 1 0 line0.frequency

/-- Method `updateLRU`. -/
def updateLRU (c : CacheLevel) (set_index way : Nat) : CacheLevel :=
  { c with
    cache_sets := modifyAt (fun set => modifyAt (fun line =>
      { line with
        timestamp := c.current_time
        frequency := if c.policy = ReplacementPolicy.LFU then line.frequency + 1
          else line.frequency }) set way) c.cache_sets set_index
    current_time := c.current_time + 1 }

/-- The hit loop of `access`: the lowest way holding a valid line with the tag. -/
def findLine (tag : Nat) : List CacheLine → Option Nat
  | [] => none
  | line :: rest =>
    if line.valid && decide (line.tag = tag) then some 0 else (findLine tag rest).map (· + 1)

/-- Method `access`: the new state and the data on a hit, `none` on a miss. -/
def access (c : CacheLevel) (address : Nat) : CacheLevel × Option Nat :=
  let set_index := c.getSetIndex address
  let tag := c.getTag address
  let set := c.cache_sets.getD set_index []
  match findLine tag set with
  | some i =>
    let data := (set.getD i {}).data
    (updateLRU { c with hits := (c.hits + 1) % SIZE_MOD } set_index i, some data)
  | none => ({ c with misses := (c.misses + 1) % SIZE_MOD }, none)

/-- Method `insert`. -/
def insert (c : CacheLevel) (address data : Nat) : CacheLevel :=
  let set_index := c.getSetIndex address
  let tag := c.getTag address
  let victim_way := findVictim c.policy (c.cache_sets.getD set_index [])
  { c with
    cache_sets := modifyAt (fun set => modifyAt (fun line =>
      { line with
        valid := true
        tag := tag
        data := data
        timestamp := c.current_time
        frequency := if c.policy = ReplacementPolicy.LFU then 1 else line.frequency })
      set victim_way) c.cache_sets set_index
    current_time := c.current_time + 1 }

end CacheLevel

/-- State of `class CacheHierarchy`: the levels from L1 on and the backing store. -/
structure CacheHierarchy where
  levels : List CacheLevel
  main_memory : List Nat
  memory_size : Nat
deriving DecidableEq, Repr

namespace CacheHierarchy

/-- Constructor `CacheHierarchy::CacheHierarchy(mem_size)`. -/
def new (mem_size : Nat) : CacheHierarchy :=
  { levels := [], main_memory := List.replicate mem_size 0, memory_size := mem_size }

/-- Method `addLevel`. -/
def addLevel (h : CacheHierarchy) (size block_size associativity : Nat)
    (policy : ReplacementPolicy) : CacheHierarchy :=
  { h with levels := h.levels ++ [CacheLevel.new size block_size associativity policy] }

/-- The lookup loop of `read`: the levels are accessed in order up to the first hit. -/
def readLevels (address : Nat) : List CacheLevel → List CacheLevel × Option Nat
  | [] => ([], none)
  | level :: rest =>
    match level.access address with
    | (level', some data) => (level' :: rest, some data)
    | (level', none) => ((level' :: (readLevels address rest).1), (readLevels address rest).2)

/-- Method `read`: the new state and the returned word. -/
def read (h : CacheHierarchy) (address : Nat) : CacheHierarchy × Nat :=
  if address ≥ h.memory_size then (h, 0)
  else
    match readLevels address h.levels with
    | (levels, some data) => ({ h with levels := levels }, data)
    | (levels, none) =>
      let data := h.main_memory.getD address 0
      ({ h with levels := levels.map (fun level => level.insert address data) }, data)

/-- Method `write`. -/
def write (h : CacheHierarchy) (address data : Nat) : CacheHierarchy :=
  if address ≥ h.memory_size then h
  else
    { h with
      main_memory := modifyAt (fun _ => data) h.main_memory address
      levels := h.levels.map (fun level =>
        match level.access address with
        | (level', some _) => level'.insert address data
        | (level', none) => level') }

end CacheHierarchy

/-- No set of the level holds two valid lines with the same tag. -/
def UniqueTags (c : CacheLevel) : Prop :=
  ∀ set ∈ c.cache_sets, ∀ (i j : Nat) (x y : CacheLine),
    set.get? i = some x → set.get? j = some y → i ≠ j →
    x.valid = true → y.valid = true → x.tag ≠ y.tag

/-! ## Virtual memory (`virtual_memory.h`, `virtual_memory.cpp`) -/

/-- The page replacement policy (`enum class PageReplacementPolicy`). -/
inductive PageReplacementPolicy where
  | FIFO
  | LRU
  | CLOCK
deriving DecidableEq, Repr

/-- One entry of the page table (`struct PageTableEntry`), created invalid with all
fields 0. -/
structure PageTableEntry where
  valid : Bool := false
  frame_number : Nat := 0
  dirty : Bool := false
  reference : Bool := false
  timestamp : Int := 0
  load_time : Int := 0
deriving DecidableEq, Repr

/-- State of `class VirtualMemory`.  `fifo_queue` is read from its front. -/
structure VirtualMemory where
  virtual_address_bits : Nat
  physical_address_bits : Nat
  page_size : Nat
  num_virtual_pages : Nat
  num_physical_frames : Nat
  page_table : List PageTableEntry
  frame_allocation : List Bool
  frame_to_page : List Nat
  policy : PageReplacementPolicy
  fifo_queue : List Nat
  clock_hand : Nat
  current_time : Int
  page_faults : Nat
  page_hits : Nat
deriving DecidableEq, Repr

namespace VirtualMemory

/-- The operand `(1 << bits)` of the divisions in the constructor.  The shift is done in
32-bit `int` and the result is converted to `size_t` for the division by `page_size`: up
to 30 bits this is `2 ^ bits`; at 31 bits the `int` is `INT_MIN = -2^31`, which converts
to `2^64 - 2^31`.  From 32 bits on the shift is undefined in C++; the definition keeps
`2 ^ bits` there, which describes no run of the program. -/
def shiftOne (bits : Nat) : Nat :=
  if bits = 31 then SIZE_MOD - 2 ^ 31 else 2 ^ bits

/-- Constructor `VirtualMemory::VirtualMemory(virtual_bits, physical_bits, page_sz, pol)`:
`num_virtual_pages = (1 << virtual_bits) / page_size` and likewise for the frames, with
the shift as in `shiftOne`.  With `page_sz = 0` the source divides by zero and the program
is killed; the definition gives an engine without pages and frames there, which describes
no `VirtualMemory` object.  The definition is the constructor for `virtual_bits ≤ 31`,
`physical_bits ≤ 31` and `page_sz ≥ 1`. -/
def new (virtual_bits physical_bits page_sz : Nat) (pol : PageReplacementPolicy) :
    VirtualMemory :=
  let num_virtual_pages := shiftOne virtual_bits / page_sz
  let num_physical_frames := shiftOne physical_bits / page_sz
  { virtual_address_bits := virtual_bits
    physical_address_bits := physical_bits
    page_size := page_sz
    num_virtual_pages := num_virtual_pages
    num_physical_frames := num_physical_frames
    page_table := List.replicate num_virtual_pages {}
    frame_allocation := List.replicate num_physical_frames false
    frame_to_page := List.replicate num_physical_frames 0
    policy := pol
    fifo_queue := []
    clock_hand := 0
    current_time := 0
    page_faults := 0
    page_hits := 0 }

/-- Method `getPageNumber`. -/
def getPageNumber (vm : VirtualMemory) (virtual_address : Nat) : Nat :=
  virtual_address / vm.page_size

/-- Method `getOffset`. -/
def getOffset (vm : VirtualMemory) (virtual_address : Nat) : Nat :=
  virtual_address % vm.page_size

/-- The scan of `findFreeFrame` over the frames from `i` on. -/
def findFreeFrameFrom : List Bool → Nat → Option Nat
  | [], _ => none
  | allocated :: rest, i => if !allocated then some i else findFreeFrameFrom rest (i + 1)

/-- Method `findFreeFrame`: `none` for `-1`.  The vector `frame_allocation` has exactly
`num_physical_frames` entries. -/
def findFreeFrame (vm : VirtualMemory) : Option Nat :=
  findFreeFrameFrom vm.frame_allocation 0

/-- The LRU scan of `selectVictimPage` over the pages from `i` on, with the candidate
`lru_page` (`none` for `-1`) and its time `oldest_time`. -/
def lruScan : List PageTableEntry → Nat → Option Nat → Int → Option Nat
  | [], _, lru_page, _ => lru_page
  | entry :: rest, i, lru_page, oldest_time =>
    if entry.valid && decide (entry.timestamp < oldest_time) then
      lruScan rest (i + 1) (some i) entry.timestamp
    else lruScan rest (i + 1) lru_page oldest_time

/-- The `while (true)` loop of the CLOCK case of `selectVictimPage`, run for at most
`fuel` iterations.  `none` stands for a call that does not return: the hand is outside
the frame table (possible only with 0 frames, where the source indexes an empty vector
and takes a remainder by 0), or the fuel is used up.  One turn of the hand clears the
reference bit of every frame that holds its page, so a search that has not returned
after `2 * num_physical_frames` iterations never returns. -/
def clockLoop : Nat → VirtualMemory → Option (VirtualMemory × Nat)
  | 0, _ => none
  | fuel + 1, vm =>
    let frame := vm.clock_hand
    match vm.frame_to_page.get? frame with
    | none => none
    | some page =>
      let entry := vm.page_table.getD page {}
      let next_hand := (vm.clock_hand + 1) % vm.num_physical_frames
      if entry.valid && decide (entry.frame_number = frame) then
        if !entry.reference then
          some ({ vm with clock_hand := next_hand }, page)
        else
          clockLoop fuel { vm with
            page_table := modifyAt (fun e => { e with reference := false }) vm.page_table page
            clock_hand := next_hand }
      else clockLoop fuel { vm with clock_hand := next_hand }

/-- Method `selectVictimPage`: `none` when the call does not return, otherwise the new
state and the victim page (`none` for `-1`). -/
def selectVictimPage (vm : VirtualMemory) : Option (VirtualMemory × Option Nat) :=
  match vm.policy with
  | PageReplacementPolicy.FIFO =>
    match vm.fifo_queue with
    | [] => some (vm, none)
    | victim_page :: rest => some ({ vm with fifo_queue := rest }, some victim_page)
  | PageReplacementPolicy.LRU =>
    some (vm, lruScan vm.page_table 0 none vm.current_time)
  | PageReplacementPolicy.CLOCK =>
    (clockLoop (2 * vm.num_physical_frames) vm).map (fun r => (r.1, some r.2))

/-- Method `loadPage`. -/
def loadPage (vm : VirtualMemory) (page_number frame_number : Nat) : VirtualMemory :=
  { vm with
    page_table := modifyAt (fun e =>
      { e with
        valid := true
        frame_number := frame_number
        timestamp := vm.current_time
        load_time := vm.current_time + 1
        reference := true }) vm.page_table page_number
    current_time := vm.current_time + 1
    frame_allocation := modifyAt (fun _ => true) vm.frame_allocation frame_number
    frame_to_page := modifyAt (fun _ => page_number) vm.frame_to_page frame_number
    fifo_queue :=
      if vm.policy = PageReplacementPolicy.FIFO then vm.fifo_queue ++ [page_number]
      else vm.fifo_queue }

/-- Method `evictPage`. -/
def evictPage (vm : VirtualMemory) (frame_number : Nat) : VirtualMemory :=
  let old_page := vm.frame_to_page.getD frame_number 0
  let entry := vm.page_table.getD old_page {}
  { vm with
    page_table :=
      if entry.valid && decide (entry.frame_number = frame_number) then
        modifyAt (fun e => { e with valid := false }) vm.page_table old_page
      else vm.page_table
    frame_allocation := modifyAt (fun _ => false) vm.frame_allocation frame_number }

/-- Method `translate`: `none` when the call does not return, otherwise the new state
and the returned physical address. -/
def translate (vm : VirtualMemory) (virtual_address : Nat) : Option (VirtualMemory × Nat) :=
  let page_number := vm.getPageNumber virtual_address
  let offset := vm.getOffset virtual_address
  if page_number ≥ vm.num_virtual_pages then some (vm, 0)
  else if !(vm.page_table.getD page_number {}).valid then
    let vm1 := { vm with page_faults := (vm.page_faults + 1) % SIZE_MOD }
    match vm1.findFreeFrame with
    | some frame =>
      let vm2 := vm1.loadPage page_number frame
      some (vm2, ((vm2.page_table.getD page_number {}).frame_number * vm2.page_size + offset)
        % SIZE_MOD)
    | none =>
      match vm1.selectVictimPage with
      | none => none
      | some (vm2, none) => some (vm2, 0)
      | some (vm2, some victim_page) =>
        let frame := (vm2.page_table.getD victim_page {}).frame_number
        let vm3 := (vm2.evictPage frame).loadPage page_number frame
        some (vm3, ((vm3.page_table.getD page_number {}).frame_number * vm3.page_size + offset)
          % SIZE_MOD)
  else
    let vm1 := { vm with
      page_hits := (vm.page_hits + 1) % SIZE_MOD
      page_table := modifyAt (fun e => { e with timestamp := vm.current_time, reference := true })
        vm.page_table page_number
      current_time := vm.current_time + 1 }
    some (vm1, ((vm1.page_table.getD page_number {}).frame_number * vm1.page_size + offset)
      % SIZE_MOD)

/-- The state after a sequence of `translate` calls, `none` when one of them does not
return. -/
def run (vm : VirtualMemory) : List Nat → Option VirtualMemory
  | [] => some vm
  | virtual_address :: rest =>
    match vm.translate virtual_address with
    | none => none
    | some (vm', _) => run vm' rest

end VirtualMemory

/-- The part of a page-table entry that the frame bookkeeping depends on. -/
def PageTableEntry.key (e : PageTableEntry) : Bool × Nat := (e.valid, e.frame_number)

/-- The frame tables agree with the page table whose entries have the keys `K`: an
allocated frame holds a valid page mapped to it, and a valid page sits in an allocated
frame that points back to it. -/
structure FrameInv (K : List (Bool × Nat)) (fa : List Bool) (ftp : List Nat) : Prop where
  len : fa.length = ftp.length
  frame_page : ∀ f, fa.get? f = some true → ∃ p, ftp.get? f = some p ∧ K.get? p = some (true, f)
  page_frame : ∀ p f, K.get? p = some (true, f) → fa.get? f = some true ∧ ftp.get? f = some p

/-- The inductive invariant of the virtual-memory engine. -/
structure VMInv (vm : VirtualMemory) : Prop where
  pt_len : vm.page_table.length = vm.num_virtual_pages
  fa_len : vm.frame_allocation.length = vm.num_physical_frames
  frames : FrameInv (vm.page_table.map PageTableEntry.key) vm.frame_allocation vm.frame_to_page
  queue_nodup : vm.fifo_queue.Nodup
  queue_valid : ∀ p ∈ vm.fifo_queue, ∃ f, (vm.page_table.map PageTableEntry.key).get? p = some (true, f)
  queue_policy : vm.policy ≠ PageReplacementPolicy.FIFO → vm.fifo_queue = []

namespace VirtualMemory

/-- The state of the FIFO scenario (4 virtual pages, 2 frames, pages of 16 bytes) after
the accesses 0, 16, 32, 0: page 0 in frame 1, page 2 in frame 0. -/
def scenario : VirtualMemory :=
  { virtual_address_bits := 6
    physical_address_bits := 5
    page_size := 16
    num_virtual_pages := 4
    num_physical_frames := 2
    page_table :=
      [{ valid := true, frame_number := 1, reference := true, timestamp := 3, load_time := 4 },
       { valid := false, frame_number := 1, reference := true, timestamp := 1, load_time := 2 },
       { valid := true, frame_number := 0, reference := true, timestamp := 2, load_time := 3 },
       {}]
    frame_allocation := [true, true]
    frame_to_page := [2, 0]
    policy := PageReplacementPolicy.FIFO
    fifo_queue := [2, 0]
    clock_hand := 0
    current_time := 4
    page_faults := 4
    page_hits := 0 }

end VirtualMemory

/-! ## Buddy allocator (`buddy_allocator.h`, `buddy_allocator.cpp`) -/

/-- A block of the buddy allocator (`struct BuddyBlock`). -/
structure BuddyBlock where
  address : Nat
  size : Nat
  is_free : Bool := true
  block_id : Int := -1
deriving DecidableEq, Repr

/-- The free lists `map<size_t, vector<BuddyBlock *>>`: for every key present, the vector
of the blocks in that bucket, in order. -/
abbrev FreeLists := List (Nat × List BuddyBlock)

/-- The vector read by `free_lists[k]`: empty when the key is not present. -/
def bucket (fl : FreeLists) (k : Nat) : List BuddyBlock :=
  (mapFind k fl).getD []

/-- The side effect of reading `free_lists[k]`: `operator[]` creates an empty vector
under a key that is not present. -/
def touch (k : Nat) (fl : FreeLists) : FreeLists :=
  match mapFind k fl with
  | some _ => fl
  | none => mapInsert k [] fl

/-- Statement `free_lists[k].push_back(b)`. -/
def pushBack (k : Nat) (b : BuddyBlock) (fl : FreeLists) : FreeLists :=
  mapInsert k (bucket fl k ++ [b]) fl

/-- Statement `free_lists[k].pop_back()`. -/
def popBack (k : Nat) (fl : FreeLists) : FreeLists :=
  mapInsert k (bucket fl k).dropLast fl

/-- State of `class BuddyAllocator`.  A block is owned either by one free list or by
`allocated_blocks`, so the maps hold the blocks themselves. -/
structure BuddyAllocator where
  total_memory : Nat
  min_block_size : Nat
  free_lists : FreeLists
  allocated_blocks : List (Int × BuddyBlock)
  requested_sizes : List (Int × Nat)
  next_block_id : Int
deriving DecidableEq, Repr

namespace BuddyAllocator

/-- Method `isPowerOf2`. -/
def isPowerOf2 (n : Nat) : Bool :=
  decide (n > 0) && ((n &&& (n - 1)) == 0)

/-- Method `roundUpToPowerOf2`, on 64-bit `size_t`. -/
def roundUpToPowerOf2 (size : Nat) : Nat :=
  if size = 0 then 1
  else
    let s0 := size - 1
    let s1 := s0 ||| (s0 >>> 1)
    let s2 := s1 ||| (s1 >>> 2)
    let s3 := s2 ||| (s2 >>> 4)
    let s4 := s3 ||| (s3 >>> 8)
    let s5 := s4 ||| (s4 >>> 16)
    let s6 := s5 ||| (s5 >>> 32)
    (s6 + 1) % SIZE_MOD

/-- Method `getBuddyAddress`. -/
def getBuddyAddress (address size : Nat) : Nat :=
  address ^^^ size

/-- Constructor `BuddyAllocator::BuddyAllocator(memory_size, min_size)`. -/
def new (memory_size : Nat) (min_size : Nat := 64) : BuddyAllocator :=
  let total_memory := if isPowerOf2 memory_size then memory_size else roundUpToPowerOf2 memory_size
  { total_memory := total_memory
    min_block_size := min_size
    free_lists := pushBack total_memory { address := 0, size := total_memory } []
    allocated_blocks := []
    requested_sizes := []
    next_block_id := 1 }

/-- The `while (block_size > size)` loop of `splitBlock`, run for at most `fuel`
iterations; `block_size` is halved in every iteration, so 64 iterations bring any 64-bit
value to 0.  `none` stands for `back()` on an empty vector or for used-up fuel. -/
def splitDown (size : Nat) : Nat → Nat → FreeLists → Option (Nat × FreeLists)
  | 0, block_size, fl => if block_size > size then none else some (block_size, fl)
  | fuel + 1, block_size, fl =>
    if block_size > size then
      match (bucket fl block_size).getLast? with
      | none => none
      | some block =>
        let fl1 := popBack block_size fl
        let half_size := block_size / 2
        let left : BuddyBlock := { address := block.address, size := half_size }
        let right : BuddyBlock :=
          { address := (block.address + half_size) % SIZE_MOD, size := half_size }
        splitDown size fuel half_size (pushBack half_size right (pushBack half_size left fl1))
    else some (block_size, fl)

/-- The `for` loop of `splitBlock`, run for at most `fuel` iterations: the returned block
(`none` for `nullptr`) and the free lists.  The outer `none` stands for a call that does
not return. -/
def splitLoop (total_memory size : Nat) :
    Nat → Nat → FreeLists → Option (Option BuddyBlock × FreeLists)
  | 0, _, _ => none
  | fuel + 1, block_size, fl =>
    if block_size ≤ total_memory then
      let fl1 := touch block_size fl
      if bucket fl1 block_size ≠ [] then
        match splitDown size 64 block_size fl1 with
        | none => none
        | some (block_size', fl2) =>
          let fl3 := touch size fl2
          match (bucket fl3 size).getLast? with
          | some result => some (some result, popBack size fl3)
          | none => splitLoop total_memory size fuel ((block_size' * 2) % SIZE_MOD) fl3
      else splitLoop total_memory size fuel ((block_size * 2) % SIZE_MOD) fl1
    else some (none, fl)

/-- Method `splitBlock`.  From `size ≥ 1` the probes `size * 2^k` exceed `total_memory`,
find a block, or wrap to 0 modulo `2^64` within 65 doublings; at 0 the source loop never
ends (the bucket of 0 is empty), which the used-up fuel reports as `none`. -/
def splitBlock (a : BuddyAllocator) (size : Nat) : Option (Option BuddyBlock × FreeLists) :=
  splitLoop a.total_memory size 65 size a.free_lists

/-- The inner `for (j ...)` loop of `mergeBuddies`: the first position `j ≠ i` whose
block lies at `buddy_addr`. -/
def findBuddy (buddy_addr i : Nat) : List BuddyBlock → Nat → Option Nat
  | [], _ => none
  | b :: rest, j =>
    if i ≠ j ∧ b.address = buddy_addr then some j else findBuddy buddy_addr i rest (j + 1)

/-- The `for (i ...)` loop of `mergeBuddies` over the blocks from position `i` on: the
first pair `(i, j)` of buddies in the vector `blocks`. -/
def findPair (size : Nat) (blocks : List BuddyBlock) : List BuddyBlock → Nat → Option (Nat × Nat)
  | [], _ => none
  | b :: rest, i =>
    match findBuddy (getBuddyAddress b.address size) i blocks 0 with
    | some j => some (i, j)
    | none => findPair size blocks rest (i + 1)

/-- The merge of the pair at positions `i`, `j` of bucket `size`: the merged block is
pushed to bucket `size * 2`, then the two buddies are erased, the higher position first. -/
def mergePair (size i j : Nat) (fl : FreeLists) : FreeLists :=
  let blocks := bucket fl size
  let bi := blocks.getD i { address := 0, size := 0 }
  let bj := blocks.getD j { address := 0, size := 0 }
  let merged_block : BuddyBlock :=
    { address := min bi.address bj.address, size := (size * 2) % SIZE_MOD }
  let fl1 := pushBack ((size * 2) % SIZE_MOD) merged_block fl
  mapInsert size (((bucket fl1 size).eraseIdx (max i j)).eraseIdx (min i j)) fl1

/-- One pass of the `for (size ...)` loop of `mergeBuddies`, run for at most `fuel`
iterations: `some (some fl)` when a pair was merged, `some none` when the scan ended
without a merge, `none` when `size` has wrapped to 0 below `total_memory` without a pair
there (the loop then never ends) or the fuel is used up (65 doublings bring any 64-bit
value to 0). -/
def mergeScan (total_memory : Nat) : Nat → Nat → FreeLists → Option (Option FreeLists × FreeLists)
  | 0, _, _ => none
  | fuel + 1, size, fl =>
    if size < total_memory then
      let fl1 := touch size fl
      match findPair size (bucket fl1 size) (bucket fl1 size) 0 with
      | some (i, j) => some (some (mergePair size i j fl1), fl1)
      | none =>
        if size = 0 then none
        else mergeScan total_memory fuel ((size * 2) % SIZE_MOD) fl1
    else some (none, fl)

/-- The `while (merged)` loop of `mergeBuddies`, run for at most `fuel` passes. -/
def mergeLoop (total_memory min_block_size : Nat) : Nat → FreeLists → Option FreeLists
  | 0, _ => none
  | fuel + 1, fl =>
    match mergeScan total_memory 66 min_block_size fl with
    | none => none
    | some (none, fl1) => some fl1
    | some (some fl2, _) => mergeLoop total_memory min_block_size fuel fl2

/-- The number of blocks in the free lists. -/
def freeCount (fl : FreeLists) : Nat :=
  (fl.map (fun e => e.2.length)).sum

/-- Method `mergeBuddies`; `none` when the call does not return.  Every pass but the
last removes two blocks and adds one, so the number of passes is at most the number of
free blocks plus one. -/
def mergeBuddies (a : BuddyAllocator) : Option BuddyAllocator :=
  (mergeLoop a.total_memory a.min_block_size (freeCount a.free_lists + 1) a.free_lists).map
    (fun fl => { a with free_lists := fl })

/-- Method `malloc`: `none` when the call does not return, otherwise the new state and
the returned id (`-1` on failure). -/
def malloc (a : BuddyAllocator) (size : Nat) : Option (BuddyAllocator × Int) :=
  if size = 0 then some (a, -1)
  else
    let alloc_size := max a.min_block_size (roundUpToPowerOf2 size)
    if alloc_size > a.total_memory then some (a, -1)
    else
      match a.splitBlock alloc_size with
      | none => none
      | some (none, fl) => some ({ a with free_lists := fl }, -1)
      | some (some block, fl) =>
        let id := a.next_block_id
        some ({ a with
                free_lists := fl
                next_block_id := id + 1
                allocated_blocks :=
                  mapInsert id { block with is_free := false, block_id := id } a.allocated_blocks
                requested_sizes := mapInsert id size a.requested_sizes }, id)

/-- Method `free`: `none` when the call does not return, otherwise the new state and the
returned flag. -/
def free (a : BuddyAllocator) (block_id : Int) : Option (BuddyAllocator × Bool) :=
  match mapFind block_id a.allocated_blocks with
  | none => some (a, false)
  | some block =>
    let freed : BuddyBlock := { block with is_free := true, block_id := -1 }
    (mergeBuddies { a with
        free_lists := pushBack freed.size freed a.free_lists
        allocated_blocks := mapErase block_id a.allocated_blocks
        requested_sizes := mapErase block_id a.requested_sizes }).map (fun a' => (a', true))

end BuddyAllocator

/-- One call of the public interface of `BuddyAllocator`. -/
inductive BuddyOp where
  | malloc (size : Nat)
  | free (block_id : Int)
deriving DecidableEq, Repr

namespace BuddyAllocator

/-- The state after one call, `none` when the call does not return. -/
def step (a : BuddyAllocator) : BuddyOp → Option BuddyAllocator
  | BuddyOp.malloc size => (a.malloc size).map Prod.fst
  | BuddyOp.free block_id => (a.free block_id).map Prod.fst

/-- The state after a sequence of calls, `none` when one of them does not return. -/
def run (a : BuddyAllocator) : List BuddyOp → Option BuddyAllocator
  | [] => some a
  | op :: rest =>
    match a.step op with
    | none => none
    | some a' => run a' rest

end BuddyAllocator

/-- The block `b` covers the address `x`. -/
def BuddyBlock.covers (b : BuddyBlock) (x : Nat) : Prop :=
  b.address ≤ x ∧ x < b.address + b.size

/-- The block `b` is live: it is in some free list or in the allocated map. -/
def BuddyLive (fl : FreeLists) (al : List (Int × BuddyBlock)) (b : BuddyBlock) : Prop :=
  (∃ k, b ∈ bucket fl k) ∨ (∃ id, (id, b) ∈ al)

/-- The blocks of the free lists `fl` and of the allocated map `al` tile `[0, total)`
with aligned power-of-two blocks. -/
structure BuddyCore (total min_size : Nat) (fl : FreeLists) (al : List (Int × BuddyBlock)) :
    Prop where
  key : ∀ k, ∀ b ∈ bucket fl k, b.size = k ∧ b.is_free = true ∧ b.block_id = -1
  alloc : ∀ id b, (id, b) ∈ al → b.block_id = id ∧ b.is_free = false
  alloc_nodup : (al.map Prod.fst).Nodup
  shape : ∀ b, BuddyLive fl al b →
    (∃ e, b.size = 2 ^ e) ∧ b.size ∣ b.address ∧ b.address + b.size ≤ total ∧
    (min_size ≤ b.size ∨ b.size = total)
  nodup : ∀ k, (bucket fl k).Nodup
  disjoint : ∀ b c x, BuddyLive fl al b → BuddyLive fl al c → b.covers x → c.covers x → b = c
  cover : ∀ x, x < total → ∃ b, BuddyLive fl al b ∧ b.covers x

/-- No two blocks of the vector `l`, taken as the bucket of size `k`, are mutual buddies. -/
def BucketNoBuddies (l : List BuddyBlock) (k : Nat) : Prop :=
  ∀ b ∈ l, ∀ c ∈ l, c.address ≠ BuddyAllocator.getBuddyAddress b.address k

/-- No free list holds two blocks whose addresses are mutual buddies. -/
def NoFreeBuddies (fl : FreeLists) : Prop :=
  ∀ k, BucketNoBuddies (bucket fl k) k

/-- The inductive invariant of the buddy allocator. -/
structure BuddyInv (a : BuddyAllocator) : Prop where
  total : ∃ t, t ≤ 63 ∧ a.total_memory = 2 ^ t
  min : ∃ e, a.min_block_size = 2 ^ e
  core : BuddyCore a.total_memory a.min_block_size a.free_lists a.allocated_blocks
  fresh : ∀ id b, (id, b) ∈ a.allocated_blocks → id < a.next_block_id
  nobuddy : NoFreeBuddies a.free_lists

/-- The free lists after one iteration of the splitting loop of `splitBlock` on the
bucket `b`, whose last block is `block`. -/
def splitStep (b : Nat) (block : BuddyBlock) (fl : FreeLists) : FreeLists :=
  pushBack (b / 2) { address := (block.address + b / 2) % SIZE_MOD, size := b / 2 }
    (pushBack (b / 2) { address := block.address, size := b / 2 } (popBack b fl))

namespace BuddyAllocator

/-- The state of `BuddyAllocator(256, 64)` after `malloc(50)`, `malloc(50)`, `free(1)`. -/
def scenarioOneFreed : BuddyAllocator :=
  { total_memory := 256
    min_block_size := 64
    free_lists := [(64, [{ address := 192, size := 64 }]), (128, [{ address := 0, size := 128 }]),
      (256, [])]
    allocated_blocks := [(2, { address := 128, size := 64, is_free := false, block_id := 2 })]
    requested_sizes := [(2, 50)]
    next_block_id := 3 }

/-- The state of `BuddyAllocator(256, 64)` after `malloc(50)`, `malloc(50)`, `free(1)`,
`free(2)`. -/
def scenarioAllFreed : BuddyAllocator :=
  { total_memory := 256
    min_block_size := 64
    free_lists := [(64, []), (128, []), (256, [{ address := 0, size := 256 }])]
    allocated_blocks := []
    requested_sizes := []
    next_block_id := 3 }

end BuddyAllocator

namespace CacheHierarchy

/-- A hierarchy of 16 words with a one-line L1 and a two-way L2 after `write(0, 7)`,
`read(0)`, `read(1)`: L1 holds the line of address 1, L2 the lines of addresses 0 and 1. -/
def scenario : CacheHierarchy :=
  ((((((CacheHierarchy.new 16).addLevel 1 1 1 ReplacementPolicy.LRU).addLevel 2 1 2
    ReplacementPolicy.LRU).write 0 7).read 0).1.read 1).1

end CacheHierarchy

/-- The used blocks of a ledger, in ledger order. -/
def usedBlocks (l : List MemoryBlock) : List MemoryBlock :=
  l.filter (fun b => !b.is_free)

/-- The sum of the sizes of the used blocks of a ledger. -/
def usedSum (l : List MemoryBlock) : Nat :=
  ((usedBlocks l).map MemoryBlock.size).sum

/-- The bookkeeping invariant of the contiguous allocator: free blocks carry the id `-1`;
the used blocks carry pairwise distinct ids, which are exactly the keys of
`allocated_blocks` (so the pointer stored under a key is the one used node with that id);
the keys lie between 1 and `next_block_id`; and `used_memory` is the sum of the sizes of
the used blocks. -/
structure IdsOk (a : MemoryAllocator) : Prop where
  pos : 1 ≤ a.next_block_id
  free_id : ∀ b ∈ a.head, b.is_free = true → b.block_id = -1
  used_id : ∀ b ∈ usedBlocks a.head, b.block_id ∈ a.allocated_blocks
  present : ∀ k ∈ a.allocated_blocks, ∃ b ∈ usedBlocks a.head, b.block_id = k
  keys : ∀ k ∈ a.allocated_blocks, 1 ≤ k ∧ k < a.next_block_id
  nodup : ((usedBlocks a.head).map MemoryBlock.block_id).Nodup
  used : a.used_memory = usedSum a.head

namespace MemoryAllocator

/-- The ids returned by the successful `malloc` calls of a sequence of calls, in the
order of the calls. -/
def returnedIds (a : MemoryAllocator) : List AllocOp → List Int
  | [] => []
  | AllocOp.malloc size :: rest =>
    if (a.malloc size).2 = -1 then returnedIds (a.malloc size).1 rest
    else (a.malloc size).2 :: returnedIds (a.malloc size).1 rest
  | AllocOp.free block_id :: rest => returnedIds (a.free block_id).1 rest
  | AllocOp.setStrategy strat :: rest => returnedIds (a.setStrategy strat) rest

/-- The ids that are currently allocated according to the history of calls: `live`
extended by every id returned by a successful `malloc` and reduced by every id passed to
`free` since. -/
def liveIds (a : MemoryAllocator) (live : List Int) : List AllocOp → List Int
  | [] => live
  | AllocOp.malloc size :: rest =>
    liveIds (a.malloc size).1
      (if (a.malloc size).2 = -1 then live else live ++ [(a.malloc size).2]) rest
  | AllocOp.free block_id :: rest =>
    liveIds (a.free block_id).1 (live.filter (fun k => decide (k ≠ block_id))) rest
  | AllocOp.setStrategy strat :: rest => liveIds (a.setStrategy strat) live rest

end MemoryAllocator

/-- The least power of two that is not below `n`: the `next_power_of_two` of the
specification. -/
def nextPowerOfTwo (n : Nat) : Nat :=
  2 ^ Nat.clog 2 n

namespace VirtualMemory

/-- The states of the FIFO scenario on an engine with `m + 3` virtual pages, 2 frames and
pages of 16 bytes: `fifoTrace vb m k` is the state after the first `k` of the accesses
0, 16, 32, 0 (`k` up to 4). -/
def fifoTrace (vb m : Nat) : Nat → VirtualMemory
  | 0 =>
    { virtual_address_bits := vb, physical_address_bits := 5, page_size := 16,
      num_virtual_pages := m + 3, num_physical_frames := 2,
      page_table := {} :: {} :: {} :: List.replicate m {},
      frame_allocation := [false, false], frame_to_page := [0, 0],
      policy := PageReplacementPolicy.FIFO, fifo_queue := [], clock_hand := 0,
      current_time := 0, page_faults := 0, page_hits := 0 }
  | 1 =>
    { virtual_address_bits := vb, physical_address_bits := 5, page_size := 16,
      num_virtual_pages := m + 3, num_physical_frames := 2,
      page_table :=
        { valid := true, frame_number := 0, reference := true, timestamp := 0, load_time := 1 } ::
        {} :: {} :: List.replicate m {},
      frame_allocation := [true, false], frame_to_page := [0, 0],
      policy := PageReplacementPolicy.FIFO, fifo_queue := [0], clock_hand := 0,
      current_time := 1, page_faults := 1, page_hits := 0 }
  | 2 =>
    { virtual_address_bits := vb, physical_address_bits := 5, page_size := 16,
      num_virtual_pages := m + 3, num_physical_frames := 2,
      page_table :=
        { valid := true, frame_number := 0, reference := true, timestamp := 0, load_time := 1 } ::
        { valid := true, frame_number := 1, reference := true, timestamp := 1, load_time := 2 } ::
        {} :: List.replicate m {},
      frame_allocation := [true, true], frame_to_page := [0, 1],
      policy := PageReplacementPolicy.FIFO, fifo_queue := [0, 1], clock_hand := 0,
      current_time := 2, page_faults := 2, page_hits := 0 }
  | 3 =>
    { virtual_address_bits := vb, physical_address_bits := 5, page_size := 16,
      num_virtual_pages := m + 3, num_physical_frames := 2,
      page_table :=
        { valid := false, frame_number := 0, reference := true, timestamp := 0, load_time := 1 } ::
        { valid := true, frame_number := 1, reference := true, timestamp := 1, load_time := 2 } ::
        { valid := true, frame_number := 0, reference := true, timestamp := 2, load_time := 3 } ::
        List.replicate m {},
      frame_allocation := [true, true], frame_to_page := [2, 1],
      policy := PageReplacementPolicy.FIFO, fifo_queue := [1, 2], clock_hand := 0,
      current_time := 3, page_faults := 3, page_hits := 0 }
  | _ =>
    { virtual_address_bits := vb, physical_address_bits := 5, page_size := 16,
      num_virtual_pages := m + 3, num_physical_frames := 2,
      page_table :=
        { valid := true, frame_number := 1, reference := true, timestamp := 3, load_time := 4 } ::
        { valid := false, frame_number := 1, reference := true, timestamp := 1, load_time := 2 } ::
        { valid := true, frame_number := 0, reference := true, timestamp := 2, load_time := 3 } ::
        List.replicate m {},
      frame_allocation := [true, true], frame_to_page := [2, 0],
      policy := PageReplacementPolicy.FIFO, fifo_queue := [2, 0], clock_hand := 0,
      current_time := 4, page_faults := 4, page_hits := 0 }

end VirtualMemory

/-- One call of the public read/write interface of `CacheHierarchy`. -/
inductive CacheOp where
  | read (address : Nat)
  | write (address data : Nat)
deriving DecidableEq, Repr

namespace CacheHierarchy

/-- A hierarchy on which no `read` or `write` has been performed yet: constructed with
`mem_size` words and given one level per entry `(size, block_size, associativity, policy)`
of `specs` by `addLevel`, in order. -/
def build (mem_size : Nat) (specs : List (Nat × Nat × Nat × ReplacementPolicy)) :
    CacheHierarchy :=
  specs.foldl (fun h s => h.addLevel s.1 s.2.1 s.2.2.1 s.2.2.2) (CacheHierarchy.new mem_size)

/-- The state after one call. -/
def step (h : CacheHierarchy) : CacheOp → CacheHierarchy
  | CacheOp.read address => (h.read address).1
  | CacheOp.write address data => h.write address data

/-- The state after a sequence of calls, in order. -/
def run (h : CacheHierarchy) (ops : List CacheOp) : CacheHierarchy :=
  ops.foldl step h

end CacheHierarchy

/-- The lines that a fresh LRU set holds after the tags `tags` were inserted one after the
other from clock value `n` on, each with data 0. -/
def lruLines : List Nat → Int → List CacheLine
  | [], _ => []
  | t :: rest, n => { valid := true, tag := t, data := 0, timestamp := n } :: lruLines rest (n + 1)

/-- The level `c` has the geometry of `c0` and the policy LRU, its clock stands at
`tags.length`, and the ways of its set `s` hold, from way 0 on, the tags `tags` in the
order of their insertion, followed by invalid lines up to `k` ways. -/
def LruFilled (c0 c : CacheLevel) (s k : Nat) (tags : List Nat) : Prop :=
  c.block_size = c0.block_size ∧ c.num_sets = c0.num_sets ∧
  c.policy = ReplacementPolicy.LRU ∧ c.current_time = tags.length ∧
  c.cache_sets.get? s = some (lruLines tags 0 ++ List.replicate (k - tags.length) ({} : CacheLine))

/-- The merge sweep of the specification with the node `current` and the nodes after it:
one pass from left to right that merges `current` with its right neighbour while both are
free, in exact arithmetic, and else moves on to the neighbour. -/
def mergeSweepFrom (current : MemoryBlock) : List MemoryBlock → List MemoryBlock
  | [] => [current]
  | next :: rest =>
    if current.is_free && next.is_free then
      mergeSweepFrom { current with size := current.size + next.size } rest
    else current :: mergeSweepFrom next rest

/-- The single left-to-right merge sweep of the specification over a ledger. -/
def mergeSweep : List MemoryBlock → List MemoryBlock
  | [] => []
  | current :: rest => mergeSweepFrom current rest

/-- The ledger of the specification after the block `B`, standing between the blocks `P`
and the blocks `S`, has been freed: `B` is merged with its predecessor (the last block of
`P`) if that is free and with its successor (the first block of `S`) if that is free into
one free block with id `-1` that starts where the first merged block starts and whose size
is the sum of the merged sizes; all other blocks stay as they are. -/
def mergedLedger (P : List MemoryBlock) (B : MemoryBlock) (S : List MemoryBlock) :
    List MemoryBlock :=
  let pred := P.getLast?.filter MemoryBlock.is_free
  let succ := S.head?.filter MemoryBlock.is_free
  (if pred.isSome then P.dropLast else P) ++
    { address := (pred.map MemoryBlock.address).getD B.address
      size := (pred.map MemoryBlock.size).getD 0 + B.size + (succ.map MemoryBlock.size).getD 0
      is_free := true
      block_id := -1 } ::
    (if succ.isSome then S.tail else S)

/-- One call of the public interface of `CacheLevel`. -/
inductive LevelOp where
  | access (address : Nat)
  | insert (address data : Nat)
deriving DecidableEq, Repr

namespace CacheLevel

/-- The state after one call and what the call returns: the data of a hit for `access`
(`none` for the flag `false`), nothing for `insert`. -/
def stepOp (c : CacheLevel) : LevelOp → CacheLevel × Option Nat
  | LevelOp.access address => c.access address
  | LevelOp.insert address data => (c.insert address data, none)

/-- The states after each call of a sequence of calls, in order, each with what the call
returned. -/
def trace (c : CacheLevel) : List LevelOp → List (CacheLevel × Option Nat)
  | [] => []
  | op :: rest => c.stepOp op :: trace (c.stepOp op).1 rest

/-- The level with its policy field replaced: everything `printStats`, `access` and
`insert` can show of a level except the policy it was built with. -/
def withPolicy (c : CacheLevel) (pol : ReplacementPolicy) : CacheLevel :=
  { c with policy := pol }

end CacheLevel

/-- The order of the timestamps and load times that the victim choices of FIFO and LRU rely
on, for a page table `pt`, the clock `ct` and the queue `queue`: the timestamp of a valid
page lies below the clock, two valid pages have different timestamps, the load time of a
valid page is at most the clock, the load times increase strictly along the queue, and
under FIFO (`fifo`) every valid page is in the queue. -/
structure StampInv (pt : List PageTableEntry) (ct : Int) (queue : List Nat) (fifo : Prop) :
    Prop where
  ts_lt : ∀ q, (pt.getD q {}).valid = true → (pt.getD q {}).timestamp < ct
  ts_inj : ∀ q q', (pt.getD q {}).valid = true → (pt.getD q' {}).valid = true →
    (pt.getD q {}).timestamp = (pt.getD q' {}).timestamp → q = q'
  load_le : ∀ q, (pt.getD q {}).valid = true → (pt.getD q {}).load_time ≤ ct
  queue_sorted : (queue.map (fun q => (pt.getD q {}).load_time)).Pairwise (fun x y => x < y)
  queue_complete : fifo → ∀ q, (pt.getD q {}).valid = true → q ∈ queue

/-- The second inductive invariant of the virtual-memory engine: the hand is inside a
non-empty frame table, and the timestamps, load times and queue are ordered as the victim
choices need. -/
structure VictimInv (vm : VirtualMemory) : Prop where
  hand : 0 < vm.num_physical_frames → vm.clock_hand < vm.num_physical_frames
  stamps : StampInv vm.page_table vm.current_time vm.fifo_queue
    (vm.policy = PageReplacementPolicy.FIFO)

namespace VirtualMemory

/-- The state of `translate` after `page_faults++` at the start of the fault branch. -/
def faulted (vm : VirtualMemory) : VirtualMemory :=
  { vm with page_faults := (vm.page_faults + 1) % SIZE_MOD }

/-- The state of `translate` after the hit branch on page `page_number`. -/
def touched (vm : VirtualMemory) (page_number : Nat) : VirtualMemory :=
  { vm with
    page_hits := (vm.page_hits + 1) % SIZE_MOD
    page_table := modifyAt (fun e => { e with timestamp := vm.current_time, reference := true })
      vm.page_table page_number
    current_time := vm.current_time + 1 }

end VirtualMemory

/-! ## Integrated pipeline (`main.cpp`) -/

/-- `handleInitIntegrated`: the engine and the default two-level hierarchy over a backing
store of `1 << phys_bits` words.  The shifts are done in `int`.  For `phys_bits ≤ 30` the
store has `2 ^ phys_bits` words; at 31 bits its size converts to `2^64 - 2^31` words,
which `new size_t[...]` cannot allocate, and from 32 bits on the shift is undefined.  The
engine is constructed for `virt_bits ≤ 31` and `page_size ≥ 1` (see `VirtualMemory.new`).
Outside these ranges the call does not produce a pipeline, which is reported as `none`. -/
def integratedInit (virt_bits phys_bits page_size : Nat) (policy : PageReplacementPolicy) :
    Option (VirtualMemory × CacheHierarchy) :=
  if virt_bits ≤ 31 ∧ phys_bits ≤ 30 ∧ 1 ≤ page_size then
    some (VirtualMemory.new virt_bits phys_bits page_size policy,
      ((CacheHierarchy.new (2 ^ phys_bits)).addLevel 512 16 4 ReplacementPolicy.LRU).addLevel
        2048 32 8 ReplacementPolicy.LRU)
  else none

/-- `handleIntegratedRead`: `translate`, then `read` of the hierarchy at the physical
address; `none` when `translate` does not return. -/
def integratedRead (s : VirtualMemory × CacheHierarchy) (virt_addr : Nat) :
    Option ((VirtualMemory × CacheHierarchy) × Nat) :=
  match s.1.translate virt_addr with
  | none => none
  | some (vm', phys_addr) => some ((vm', (s.2.read phys_addr).1), (s.2.read phys_addr).2)

/-- `handleIntegratedWrite`: `translate`, then `write` of the hierarchy at the physical
address. -/
def integratedWrite (s : VirtualMemory × CacheHierarchy) (virt_addr data : Nat) :
    Option (VirtualMemory × CacheHierarchy) :=
  match s.1.translate virt_addr with
  | none => none
  | some (vm', phys_addr) => some (vm', s.2.write phys_addr data)

namespace VirtualMemory

/-- The LRU engine with 4 virtual pages, 2 frames and pages of 16 bytes after the accesses
0, 16, 0: page 0 in frame 0 was used last, page 1 in frame 1 is the least recently
used. -/
def lruScenario : VirtualMemory :=
  { virtual_address_bits := 6
    physical_address_bits := 5
    page_size := 16
    num_virtual_pages := 4
    num_physical_frames := 2
    page_table :=
      [{ valid := true, frame_number := 0, reference := true, timestamp := 2, load_time := 1 },
       { valid := true, frame_number := 1, reference := true, timestamp := 1, load_time := 2 },
       {}, {}]
    frame_allocation := [true, true]
    frame_to_page := [0, 1]
    policy := PageReplacementPolicy.LRU
    fifo_queue := []
    clock_hand := 0
    current_time := 3
    page_faults := 2
    page_hits := 1 }

end VirtualMemory
namespace VirtualMemory

/-- The frame `j` positions after the hand, in circular order. -/
def frameAfter (vm : VirtualMemory) (j : Nat) : Nat :=
  (vm.clock_hand + j) % vm.num_physical_frames

/-- The page recorded for the frame `j` positions after the hand. -/
def pageAfter (vm : VirtualMemory) (j : Nat) : Nat :=
  vm.frame_to_page.getD (vm.frameAfter j) 0

/-- The reference bit of the page of the frame `j` positions after the hand. -/
def refAfter (vm : VirtualMemory) (j : Nat) : Bool :=
  (vm.page_table.getD (vm.pageAfter j) {}).reference

/-- The page table after the reference bits of the pages `pages` have been cleared. -/
def clearRefs (pt : List PageTableEntry) (pages : List Nat) : List PageTableEntry :=
  pages.foldl (fun pt q => modifyAt (fun e => { e with reference := false }) pt q) pt

/-- The state in which the CLOCK search leaves the engine after it passed over the first
`k` frames from the hand and took its victim from the next one. -/
def clockResult (vm : VirtualMemory) (k : Nat) : VirtualMemory :=
  { vm with
    page_table := clearRefs vm.page_table ((List.range k).map vm.pageAfter)
    clock_hand := (vm.clock_hand + k + 1) % vm.num_physical_frames }

end VirtualMemory

/-- The precondition of the CLOCK search in `translate`: the frame tables agree with the
page table, every frame is allocated, and the hand is inside the frame table. -/
structure ClockReady (vm : VirtualMemory) : Prop where
  frames : FrameInv (vm.page_table.map PageTableEntry.key) vm.frame_allocation vm.frame_to_page
  fa_len : vm.frame_allocation.length = vm.num_physical_frames
  full : ∀ b ∈ vm.frame_allocation, b = true
  hand : vm.clock_hand < vm.num_physical_frames

namespace VirtualMemory

/-- The state after an iteration of the CLOCK loop that passes over the frame under the
hand: the reference bit of its page is cleared and the hand moves on. -/
def clockAdvance (vm : VirtualMemory) : VirtualMemory :=
  { vm with
    page_table := modifyAt (fun e => { e with reference := false }) vm.page_table
      (vm.pageAfter 0)
    clock_hand := (vm.clock_hand + 1) % vm.num_physical_frames }

/-- The CLOCK engine with 2 frames and pages of 16 bytes after the accesses 0, 16: both
frames hold a page with its reference bit set and the hand is at frame 0. -/
def clockScenario : VirtualMemory :=
  { virtual_address_bits := 6
    physical_address_bits := 5
    page_size := 16
    num_virtual_pages := 4
    num_physical_frames := 2
    page_table :=
      [{ valid := true, frame_number := 0, reference := true, timestamp := 0, load_time := 1 },
       { valid := true, frame_number := 1, reference := true, timestamp := 1, load_time := 2 },
       {}, {}]
    frame_allocation := [true, true]
    frame_to_page := [0, 1]
    policy := PageReplacementPolicy.CLOCK
    fifo_queue := []
    clock_hand := 0
    current_time := 2
    page_faults := 2
    page_hits := 0 }

end VirtualMemory

/-- The keys of the free lists are strictly increasing: a `std::map` holds each key once,
in key order. -/
def KeysSorted (fl : FreeLists) : Prop :=
  (fl.map Prod.fst).Pairwise (fun x y => x < y)

/-- The blocks of all free lists, bucket after bucket in key order. -/
def freeBlocks (fl : FreeLists) : List BuddyBlock :=
  fl.flatMap Prod.snd

namespace BuddyAllocator

/-- All blocks of the allocator: those of the free lists, then those of the allocated
map. -/
def blocks (a : BuddyAllocator) : List BuddyBlock :=
  freeBlocks a.free_lists ++ a.allocated_blocks.map Prod.snd

end BuddyAllocator

/-- The address ranges of the blocks `b` and `c` do not overlap. -/
def BuddyBlock.apart (b c : BuddyBlock) : Prop :=
  b.address + b.size ≤ c.address ∨ c.address + c.size ≤ b.address

/-- The tiling invariant of a buddy allocator whose total memory is a power of two: the
blocks tile `[0, total_memory)` with aligned power-of-two blocks, whatever the value of
`min_block_size`. -/
structure TileInv (a : BuddyAllocator) : Prop where
  total : ∃ t, t ≤ 63 ∧ a.total_memory = 2 ^ t
  core : BuddyCore a.total_memory 0 a.free_lists a.allocated_blocks
  fresh : ∀ id b, (id, b) ∈ a.allocated_blocks → id < a.next_block_id

/-- The invariant of a buddy allocator whose total memory is 0 (the rounding of a memory
size above `2^63` wraps to 0): every block is the empty block at address 0, and the free
ones lie in the bucket of 0. -/
structure ZeroInv (a : BuddyAllocator) : Prop where
  total : a.total_memory = 0
  free : ∀ k, ∀ b ∈ bucket a.free_lists k, k = 0 ∧ b.address = 0 ∧ b.size = 0
  alloc : ∀ id b, (id, b) ∈ a.allocated_blocks → b.address = 0 ∧ b.size = 0

/-! ## Theorems: contiguous allocator -/

theorem tiles_le : ∀ (l : List MemoryBlock) (s t : Nat), Tiles s l t → s ≤ t := by
  intro l
  induction l with
  | nil => intro s t h; simp [Tiles] at h; omega
  | cons b rest ih =>
    intro s t h
    have := ih _ _ h.2
    omega

theorem tiles_splitBlock : ∀ (l : List MemoryBlock) (i size s t : Nat),
    t < SIZE_MOD → Tiles s l t → Tiles s (MemoryAllocator.splitBlock l i size) t := by
  intro l
  induction l with
  | nil => intro i size s t _ h; simpa [MemoryAllocator.splitBlock] using h
  | cons b rest ih =>
    intro i size s t ht h
    cases i with
    | zero =>
      simp only [MemoryAllocator.splitBlock]
      split
      · rename_i hgt
        have hle := tiles_le _ _ _ h.2
        have hmod : (b.address + size) % SIZE_MOD = b.address + size := by
          apply Nat.mod_eq_of_lt
          have := h.1
          omega
        refine ⟨h.1, ?_, ?_⟩
        · simp only [hmod]; have := h.1; omega
        · have e : s + size + (b.size - size) = s + b.size := by omega
          simp only [e]
          exact h.2
      · exact h
    | succ i =>
      simp only [MemoryAllocator.splitBlock]
      exact ⟨h.1, ih _ _ _ _ ht h.2⟩

theorem tiles_modifyAt (f : MemoryBlock → MemoryBlock)
    (hf : ∀ b, (f b).address = b.address ∧ (f b).size = b.size) :
    ∀ (l : List MemoryBlock) (i s t : Nat), Tiles s l t → Tiles s (modifyAt f l i) t := by
  intro l
  induction l with
  | nil => intro i s t h; simpa [modifyAt] using h
  | cons b rest ih =>
    intro i s t h
    cases i with
    | zero =>
      simp only [modifyAt, Tiles]
      rw [(hf b).1, (hf b).2]
      exact h
    | succ i =>
      simp only [modifyAt]
      exact ⟨h.1, ih _ _ _ h.2⟩

theorem tiles_coalesceFrom : ∀ (rest : List MemoryBlock) (cur : MemoryBlock) (s t : Nat),
    t < SIZE_MOD → Tiles s (cur :: rest) t →
    Tiles s (MemoryAllocator.coalesceFrom cur rest) t := by
  intro rest
  induction rest with
  | nil => intro cur s t _ h; simpa [MemoryAllocator.coalesceFrom] using h
  | cons n rest ih =>
    intro cur s t ht h
    simp only [MemoryAllocator.coalesceFrom]
    split
    · apply ih _ _ _ ht
      obtain ⟨h1, h2, h3⟩ := h
      have hle := tiles_le _ _ _ h3
      have hmod : (cur.size + n.size) % SIZE_MOD = cur.size + n.size := by
        apply Nat.mod_eq_of_lt
        omega
      refine ⟨h1, ?_⟩
      simp only [hmod]
      have e : s + (cur.size + n.size) = s + cur.size + n.size := by omega
      rw [e]
      exact h3
    · exact ⟨h.1, ih _ _ _ ht h.2⟩

theorem tiles_coalesceBlocks (l : List MemoryBlock) (s t : Nat) (ht : t < SIZE_MOD)
    (h : Tiles s l t) : Tiles s (MemoryAllocator.coalesceBlocks l) t := by
  cases l with
  | nil => simpa [MemoryAllocator.coalesceBlocks] using h
  | cons b rest => exact tiles_coalesceFrom rest b s t ht h

theorem tiles_bounds : ∀ (l : List MemoryBlock) (s t : Nat), Tiles s l t →
    ∀ b ∈ l, s ≤ b.address ∧ b.address + b.size ≤ t := by
  intro l
  induction l with
  | nil => intro s t _ b hb; simp at hb
  | cons x rest ih =>
    intro s t h b hb
    have hle := tiles_le _ _ _ h.2
    rcases List.mem_cons.1 hb with rfl | hb
    · have := h.1; omega
    · have := ih _ _ h.2 b hb
      omega

theorem tiles_adjacent : ∀ (l : List MemoryBlock) (s t : Nat), Tiles s l t →
    ∀ (i : Nat) (x y : MemoryBlock), l.get? i = some x → l.get? (i + 1) = some y →
      x.address + x.size = y.address := by
  intro l
  induction l with
  | nil => intro s t _ i x y hx; simp at hx
  | cons b rest ih =>
    intro s t h i x y hx hy
    cases i with
    | zero =>
      simp only [List.get?_cons_zero, Option.some.injEq] at hx
      subst hx
      cases rest with
      | nil => simp at hy
      | cons c rest' =>
        simp only [List.get?_cons_succ, List.get?_cons_zero, Option.some.injEq] at hy
        subst hy
        have h1 := h.1
        have h2 := h.2.1
        omega
    | succ i =>
      simp only [List.get?_cons_succ] at hx hy
      exact ih _ _ h.2 i x y hx hy

theorem tiles_last : ∀ (l : List MemoryBlock) (s t : Nat), Tiles s l t → l ≠ [] →
    l.getLast?.map (fun b => b.address + b.size) = some t := by
  intro l
  induction l with
  | nil => intro s t _ hne; exact absurd rfl hne
  | cons b rest ih =>
    intro s t h _
    cases rest with
    | nil =>
      have h1 := h.1
      have h2 : s + b.size = t := h.2
      simp only [List.getLast?_singleton, Option.map_some', Option.some.injEq]
      omega
    | cons c rest' =>
      rw [List.getLast?_cons_cons]
      exact ih _ _ h.2 (by simp)

theorem tiles_disjoint : ∀ (l : List MemoryBlock) (s t : Nat), Tiles s l t →
    l.Pairwise (fun x y => x.address + x.size ≤ y.address) := by
  intro l
  induction l with
  | nil => intro s t _; exact List.Pairwise.nil
  | cons b rest ih =>
    intro s t h
    refine List.Pairwise.cons ?_ (ih _ _ h.2)
    intro y hy
    have := tiles_bounds _ _ _ h.2 y hy
    have := h.1
    omega

theorem tiles_covered : ∀ (l : List MemoryBlock) (s t : Nat), Tiles s l t →
    ∀ p, s ≤ p → p < t → ∃ b ∈ l, b.address ≤ p ∧ p < b.address + b.size := by
  intro l
  induction l with
  | nil =>
    intro s t h p h1 h2
    have : s = t := h
    omega
  | cons b rest ih =>
    intro s t h p h1 h2
    by_cases hp : p < s + b.size
    · exact ⟨b, List.mem_cons_self _ _, by have := h.1; omega, by have := h.1; omega⟩
    · obtain ⟨c, hc, hc'⟩ := ih _ _ h.2 p (by omega) h2
      exact ⟨c, List.mem_cons_of_mem _ hc, hc'⟩

theorem ledgerPartition_of_tiles (l : List MemoryBlock) (t : Nat) (h : Tiles 0 l t)
    (hne : l ≠ []) : LedgerPartition l t where
  first := by
    cases l with
    | nil => exact absurd rfl hne
    | cons b rest => simp [h.1]
  adjacent := tiles_adjacent l 0 t h
  last := tiles_last l 0 t h hne
  sorted := (tiles_disjoint l 0 t h).imp (by intro x y hxy; omega)
  disjoint := tiles_disjoint l 0 t h
  inside := fun b hb => (tiles_bounds l 0 t h b hb).2
  covered := fun p hp => tiles_covered l 0 t h p (Nat.zero_le _) hp

theorem splitBlock_ne_nil (l : List MemoryBlock) (i size : Nat) (h : l ≠ []) :
    MemoryAllocator.splitBlock l i size ≠ [] := by
  cases l with
  | nil => exact absurd rfl h
  | cons b rest =>
    cases i with
    | zero => simp only [MemoryAllocator.splitBlock]; split <;> simp
    | succ i => simp [MemoryAllocator.splitBlock]

theorem modifyAt_ne_nil {α : Type} (f : α → α) (l : List α) (i : Nat) (h : l ≠ []) :
    modifyAt f l i ≠ [] := by
  cases l with
  | nil => exact absurd rfl h
  | cons b rest => cases i <;> simp [modifyAt]

theorem coalesceFrom_ne_nil : ∀ (rest : List MemoryBlock) (cur : MemoryBlock),
    MemoryAllocator.coalesceFrom cur rest ≠ [] := by
  intro rest
  induction rest with
  | nil => intro cur; simp [MemoryAllocator.coalesceFrom]
  | cons n rest ih =>
    intro cur
    simp only [MemoryAllocator.coalesceFrom]
    split
    · exact ih _
    · simp

theorem coalesceBlocks_ne_nil (l : List MemoryBlock) (h : l ≠ []) :
    MemoryAllocator.coalesceBlocks l ≠ [] := by
  cases l with
  | nil => exact absurd rfl h
  | cons b rest => exact coalesceFrom_ne_nil rest b

theorem ledgerOk_malloc (a : MemoryAllocator) (size : Nat) (h : LedgerOk a) :
    LedgerOk (a.malloc size).1 := by
  unfold MemoryAllocator.malloc
  split
  · exact h
  · split
    · exact h
    · obtain ⟨h1, h2, h3⟩ := h
      refine ⟨modifyAt_ne_nil _ _ _ (splitBlock_ne_nil _ _ _ h1), ?_, h3⟩
      show Tiles 0 (modifyAt _ (MemoryAllocator.splitBlock a.head _ size) _) a.total_memory
      apply tiles_modifyAt
      · intro b; exact ⟨rfl, rfl⟩
      · exact tiles_splitBlock _ _ _ _ _ h3 h2

theorem ledgerOk_free (a : MemoryAllocator) (block_id : Int) (h : LedgerOk a) :
    LedgerOk (a.free block_id).1 := by
  unfold MemoryAllocator.free
  split
  · split
    · exact h
    · obtain ⟨h1, h2, h3⟩ := h
      refine ⟨coalesceBlocks_ne_nil _ (modifyAt_ne_nil _ _ _ h1), ?_, h3⟩
      show Tiles 0 (MemoryAllocator.coalesceBlocks (modifyAt _ a.head _)) a.total_memory
      apply tiles_coalesceBlocks _ _ _ h3
      apply tiles_modifyAt
      · intro b; exact ⟨rfl, rfl⟩
      · exact h2
  · exact h

theorem ledgerOk_step (a : MemoryAllocator) (op : AllocOp) (h : LedgerOk a) :
    LedgerOk (a.step op) := by
  cases op with
  | malloc size => exact ledgerOk_malloc a size h
  | free block_id => exact ledgerOk_free a block_id h
  | setStrategy strat => exact h

theorem ledgerOk_run (ops : List AllocOp) : ∀ (a : MemoryAllocator), LedgerOk a →
    LedgerOk (a.run ops) := by
  induction ops with
  | nil => intro a h; exact h
  | cons op ops ih => intro a h; exact ih _ (ledgerOk_step a op h)

theorem ledgerOk_new (memory_size : Nat) (h : memory_size < SIZE_MOD) :
    LedgerOk (MemoryAllocator.new memory_size) := by
  refine ⟨by simp [MemoryAllocator.new], ?_, h⟩
  simp [MemoryAllocator.new, Tiles]

theorem total_memory_run (ops : List AllocOp) : ∀ (a : MemoryAllocator),
    (a.run ops).total_memory = a.total_memory := by
  induction ops with
  | nil => intro a; rfl
  | cons op ops ih =>
    intro a
    show ((a.step op).run ops).total_memory = _
    rw [ih]
    cases op with
    | malloc size =>
      simp only [MemoryAllocator.step, MemoryAllocator.malloc]
      split
      · rfl
      · split <;> rfl
    | free block_id =>
      simp only [MemoryAllocator.step, MemoryAllocator.free]
      split
      · split <;> rfl
      · rfl
    | setStrategy strat => rfl

/-- **C1** (ledger partition invariant).  For every `total_memory` representable in
`size_t` and every finite sequence of `malloc`/`free` (and `setStrategy`) calls on a
freshly constructed `MemoryAllocator`, the ledger read from `head` is sorted by address,
starts at address 0, each block ends where the next one starts, and the last block ends
at `total_memory`: the blocks are disjoint and their union is `[0, total_memory)`. -/
theorem C1_ledger_partition (memory_size : Nat) (h : memory_size < SIZE_MOD)
    (ops : List AllocOp) :
    LedgerPartition ((MemoryAllocator.new memory_size).run ops).head memory_size := by
  have hok := ledgerOk_run ops _ (ledgerOk_new memory_size h)
  have ht := total_memory_run ops (MemoryAllocator.new memory_size)
  obtain ⟨h1, h2, _⟩ := hok
  rw [ht] at h2
  exact ledgerPartition_of_tiles _ _ h2 h1

/-- Witness of **C1**: the first-fit scenario of the specification on 1024 bytes. -/
theorem C1_ledger_partition_witness :
    LedgerPartition ((MemoryAllocator.new 1024).run
      [AllocOp.malloc 100, AllocOp.malloc 200, AllocOp.free 1, AllocOp.malloc 50]).head 1024 :=
  C1_ledger_partition 1024 (by decide) _

theorem fits_iff (size : Nat) (b : MemoryBlock) :
    (b.is_free && decide (b.size ≥ size)) = true ↔ Qualifies size b := by
  simp [Qualifies]

theorem findFirst_spec (size : Nat) : ∀ (l : List MemoryBlock) (idx : Nat)
    (bf wf : Option (Nat × MemoryBlock)),
    (MemoryAllocator.findFreeBlockFrom AllocationStrategy.FIRST_FIT size l idx bf wf = none ∧
      ∀ b ∈ l, ¬ Qualifies size b) ∨
    (∃ j blk, MemoryAllocator.findFreeBlockFrom AllocationStrategy.FIRST_FIT size l idx bf wf
        = some (idx + j, blk) ∧
      l.get? j = some blk ∧ Qualifies size blk ∧
      ∀ j' b, j' < j → l.get? j' = some b → ¬ Qualifies size b) := by
  intro l
  induction l with
  | nil =>
    intro idx bf wf
    left
    simp [MemoryAllocator.findFreeBlockFrom]
  | cons c rest ih =>
    intro idx bf wf
    by_cases hq : Qualifies size c
    · right
      refine ⟨0, c, ?_, rfl, hq, ?_⟩
      · simp [MemoryAllocator.findFreeBlockFrom, (fits_iff size c).2 hq]
      · intro j' b hj; omega
    · have hq' : ¬ ((c.is_free && decide (c.size ≥ size)) = true) := fun h => hq ((fits_iff _ _).1 h)
      have e : MemoryAllocator.findFreeBlockFrom AllocationStrategy.FIRST_FIT size (c :: rest)
          idx bf wf =
          MemoryAllocator.findFreeBlockFrom AllocationStrategy.FIRST_FIT size rest (idx + 1) bf wf := by
        rw [MemoryAllocator.findFreeBlockFrom, if_neg hq']
      rw [e]
      rcases ih (idx + 1) bf wf with ⟨h1, h2⟩ | ⟨j, blk, h1, h2, h3, h4⟩
      · left
        refine ⟨h1, ?_⟩
        intro b hb
        rcases List.mem_cons.1 hb with rfl | hb
        · exact hq
        · exact h2 b hb
      · right
        refine ⟨j + 1, blk, ?_, by simpa using h2, h3, ?_⟩
        · rw [h1]; congr 2; omega
        · intro j' b hj hb
          cases j' with
          | zero =>
            simp only [List.get?_cons_zero, Option.some.injEq] at hb
            subst hb; exact hq
          | succ j' =>
            simp only [List.get?_cons_succ] at hb
            exact h4 j' b (by omega) hb

/-- Postcondition of the best-fit scan started with candidate `bf`. -/
theorem findBest_spec (size : Nat) : ∀ (l : List MemoryBlock) (idx : Nat)
    (bf wf : Option (Nat × MemoryBlock)),
    (MemoryAllocator.findFreeBlockFrom AllocationStrategy.BEST_FIT size l idx bf wf = bf ∧
      ∀ b ∈ l, Qualifies size b → ∃ v, bf = some v ∧ v.2.size ≤ b.size) ∨
    (∃ j blk, MemoryAllocator.findFreeBlockFrom AllocationStrategy.BEST_FIT size l idx bf wf
        = some (idx + j, blk) ∧
      l.get? j = some blk ∧ Qualifies size blk ∧
      (∀ v, bf = some v → blk.size < v.2.size) ∧
      ∀ j' b, l.get? j' = some b → Qualifies size b →
        blk.size ≤ b.size ∧ (j' < j → blk.size < b.size)) := by
  intro l
  induction l with
  | nil =>
    intro idx bf wf
    left
    simp [MemoryAllocator.findFreeBlockFrom]
  | cons c rest ih =>
    intro idx bf wf
    by_cases hq : Qualifies size c
    · have hq' := (fits_iff size c).2 hq
      -- does `c` replace the candidate?
      by_cases hrep : ∀ v, bf = some v → c.size < v.2.size
      · have e : MemoryAllocator.findFreeBlockFrom AllocationStrategy.BEST_FIT size (c :: rest)
            idx bf wf =
            MemoryAllocator.findFreeBlockFrom AllocationStrategy.BEST_FIT size rest (idx + 1)
              (some (idx, c)) wf := by
          cases bf with
          | none => simp only [MemoryAllocator.findFreeBlockFrom, hq', if_true]
          | some v => simp only [MemoryAllocator.findFreeBlockFrom, hq', if_true, if_pos (hrep v rfl)]
        rw [e]
        right
        rcases ih (idx + 1) (some (idx, c)) wf with ⟨h1, h2⟩ | ⟨j, blk, h1, h2, h3, h4, h5⟩
        · refine ⟨0, c, by rw [h1]; rfl, rfl, hq, hrep, ?_⟩
          intro j' b hb hqb
          cases j' with
          | zero =>
            simp only [List.get?_cons_zero, Option.some.injEq] at hb
            subst hb
            exact ⟨le_refl _, fun h => absurd h (by omega)⟩
          | succ j' =>
            simp only [List.get?_cons_succ] at hb
            obtain ⟨v, hv, hle⟩ := h2 b (List.get?_mem hb) hqb
            simp only [Option.some.injEq] at hv
            subst hv
            exact ⟨hle, fun h => absurd h (by omega)⟩
        · have hlt := h4 (idx, c) rfl
          refine ⟨j + 1, blk, by rw [h1]; congr 2; omega, by simpa using h2, h3, ?_, ?_⟩
          · intro v hv
            have := hrep v hv
            simp only at hlt
            omega
          · intro j' b hb hqb
            cases j' with
            | zero =>
              simp only [List.get?_cons_zero, Option.some.injEq] at hb
              subst hb
              simp only at hlt
              exact ⟨by omega, fun _ => hlt⟩
            | succ j' =>
              simp only [List.get?_cons_succ] at hb
              have := h5 j' b hb hqb
              exact ⟨this.1, fun h => this.2 (by omega)⟩
      · -- the candidate stays
        have hex : ∃ v, bf = some v ∧ v.2.size ≤ c.size := by
          by_contra hcon
          apply hrep
          intro v hv
          by_contra hlt
          exact hcon ⟨v, hv, by omega⟩
        obtain ⟨v, hv, hle⟩ := hex
        have e : MemoryAllocator.findFreeBlockFrom AllocationStrategy.BEST_FIT size (c :: rest)
            idx bf wf =
            MemoryAllocator.findFreeBlockFrom AllocationStrategy.BEST_FIT size rest (idx + 1)
              bf wf := by
          subst hv
          simp only [MemoryAllocator.findFreeBlockFrom, hq', if_true,
            if_neg (show ¬ c.size < v.2.size by omega)]
        rw [e]
        rcases ih (idx + 1) bf wf with ⟨h1, h2⟩ | ⟨j, blk, h1, h2, h3, h4, h5⟩
        · left
          refine ⟨h1, ?_⟩
          intro b hb hqb
          rcases List.mem_cons.1 hb with rfl | hb
          · exact ⟨v, hv, hle⟩
          · exact h2 b hb hqb
        · right
          have hlt := h4 v hv
          refine ⟨j + 1, blk, by rw [h1]; congr 2; omega, by simpa using h2, h3, h4, ?_⟩
          intro j' b hb hqb
          cases j' with
          | zero =>
            simp only [List.get?_cons_zero, Option.some.injEq] at hb
            subst hb
            exact ⟨by omega, fun _ => by omega⟩
          | succ j' =>
            simp only [List.get?_cons_succ] at hb
            have := h5 j' b hb hqb
            exact ⟨this.1, fun h => this.2 (by omega)⟩
    · have hq' : ¬ ((c.is_free && decide (c.size ≥ size)) = true) := fun h => hq ((fits_iff _ _).1 h)
      have e : MemoryAllocator.findFreeBlockFrom AllocationStrategy.BEST_FIT size (c :: rest)
          idx bf wf =
          MemoryAllocator.findFreeBlockFrom AllocationStrategy.BEST_FIT size rest (idx + 1) bf wf := by
        simp only [MemoryAllocator.findFreeBlockFrom, if_neg hq']
      rw [e]
      rcases ih (idx + 1) bf wf with ⟨h1, h2⟩ | ⟨j, blk, h1, h2, h3, h4, h5⟩
      · left
        refine ⟨h1, ?_⟩
        intro b hb hqb
        rcases List.mem_cons.1 hb with rfl | hb
        · exact absurd hqb hq
        · exact h2 b hb hqb
      · right
        refine ⟨j + 1, blk, by rw [h1]; congr 2; omega, by simpa using h2, h3, h4, ?_⟩
        intro j' b hb hqb
        cases j' with
        | zero =>
          simp only [List.get?_cons_zero, Option.some.injEq] at hb
          subst hb
          exact absurd hqb hq
        | succ j' =>
          simp only [List.get?_cons_succ] at hb
          have := h5 j' b hb hqb
          exact ⟨this.1, fun h => this.2 (by omega)⟩

/-- Postcondition of the worst-fit scan started with candidate `bf`. -/
theorem findWorst_spec (size : Nat) : ∀ (l : List MemoryBlock) (idx : Nat)
    (bf wf : Option (Nat × MemoryBlock)),
    (MemoryAllocator.findFreeBlockFrom AllocationStrategy.WORST_FIT size l idx bf wf = wf ∧
      ∀ b ∈ l, Qualifies size b → ∃ v, wf = some v ∧ b.size ≤ v.2.size) ∨
    (∃ j blk, MemoryAllocator.findFreeBlockFrom AllocationStrategy.WORST_FIT size l idx bf wf
        = some (idx + j, blk) ∧
      l.get? j = some blk ∧ Qualifies size blk ∧
      (∀ v, wf = some v → v.2.size < blk.size) ∧
      ∀ j' b, l.get? j' = some b → Qualifies size b →
        b.size ≤ blk.size ∧ (j' < j → b.size < blk.size)) := by
  intro l
  induction l with
  | nil =>
    intro idx bf wf
    left
    simp [MemoryAllocator.findFreeBlockFrom]
  | cons c rest ih =>
    intro idx bf wf
    by_cases hq : Qualifies size c
    · have hq' := (fits_iff size c).2 hq
      -- does `c` replace the candidate?
      by_cases hrep : ∀ v, wf = some v → v.2.size < c.size
      · have e : MemoryAllocator.findFreeBlockFrom AllocationStrategy.WORST_FIT size (c :: rest)
            idx bf wf =
            MemoryAllocator.findFreeBlockFrom AllocationStrategy.WORST_FIT size rest (idx + 1)
              bf (some (idx, c)) := by
          cases wf with
          | none => simp only [MemoryAllocator.findFreeBlockFrom, hq', if_true]
          | some v => simp only [MemoryAllocator.findFreeBlockFrom, hq', if_true, if_pos (hrep v rfl)]
        rw [e]
        right
        rcases ih (idx + 1) bf (some (idx, c)) with ⟨h1, h2⟩ | ⟨j, blk, h1, h2, h3, h4, h5⟩
        · refine ⟨0, c, by rw [h1]; rfl, rfl, hq, hrep, ?_⟩
          intro j' b hb hqb
          cases j' with
          | zero =>
            simp only [List.get?_cons_zero, Option.some.injEq] at hb
            subst hb
            exact ⟨le_refl _, fun h => absurd h (by omega)⟩
          | succ j' =>
            simp only [List.get?_cons_succ] at hb
            obtain ⟨v, hv, hle⟩ := h2 b (List.get?_mem hb) hqb
            simp only [Option.some.injEq] at hv
            subst hv
            exact ⟨hle, fun h => absurd h (by omega)⟩
        · have hlt := h4 (idx, c) rfl
          refine ⟨j + 1, blk, by rw [h1]; congr 2; omega, by simpa using h2, h3, ?_, ?_⟩
          · intro v hv
            have := hrep v hv
            simp only at hlt
            omega
          · intro j' b hb hqb
            cases j' with
            | zero =>
              simp only [List.get?_cons_zero, Option.some.injEq] at hb
              subst hb
              simp only at hlt
              exact ⟨by omega, fun _ => hlt⟩
            | succ j' =>
              simp only [List.get?_cons_succ] at hb
              have := h5 j' b hb hqb
              exact ⟨this.1, fun h => this.2 (by omega)⟩
      · -- the candidate stays
        have hex : ∃ v, wf = some v ∧ c.size ≤ v.2.size := by
          by_contra hcon
          apply hrep
          intro v hv
          by_contra hlt
          exact hcon ⟨v, hv, by omega⟩
        obtain ⟨v, hv, hle⟩ := hex
        have e : MemoryAllocator.findFreeBlockFrom AllocationStrategy.WORST_FIT size (c :: rest)
            idx bf wf =
            MemoryAllocator.findFreeBlockFrom AllocationStrategy.WORST_FIT size rest (idx + 1)
              bf wf := by
          subst hv
          simp only [MemoryAllocator.findFreeBlockFrom, hq', if_true,
            if_neg (show ¬ c.size > v.2.size by omega)]
        rw [e]
        rcases ih (idx + 1) bf wf with ⟨h1, h2⟩ | ⟨j, blk, h1, h2, h3, h4, h5⟩
        · left
          refine ⟨h1, ?_⟩
          intro b hb hqb
          rcases List.mem_cons.1 hb with rfl | hb
          · exact ⟨v, hv, hle⟩
          · exact h2 b hb hqb
        · right
          have hlt := h4 v hv
          refine ⟨j + 1, blk, by rw [h1]; congr 2; omega, by simpa using h2, h3, h4, ?_⟩
          intro j' b hb hqb
          cases j' with
          | zero =>
            simp only [List.get?_cons_zero, Option.some.injEq] at hb
            subst hb
            exact ⟨by omega, fun _ => by omega⟩
          | succ j' =>
            simp only [List.get?_cons_succ] at hb
            have := h5 j' b hb hqb
            exact ⟨this.1, fun h => this.2 (by omega)⟩
    · have hq' : ¬ ((c.is_free && decide (c.size ≥ size)) = true) := fun h => hq ((fits_iff _ _).1 h)
      have e : MemoryAllocator.findFreeBlockFrom AllocationStrategy.WORST_FIT size (c :: rest)
          idx bf wf =
          MemoryAllocator.findFreeBlockFrom AllocationStrategy.WORST_FIT size rest (idx + 1) bf wf := by
        simp only [MemoryAllocator.findFreeBlockFrom, if_neg hq']
      rw [e]
      rcases ih (idx + 1) bf wf with ⟨h1, h2⟩ | ⟨j, blk, h1, h2, h3, h4, h5⟩
      · left
        refine ⟨h1, ?_⟩
        intro b hb hqb
        rcases List.mem_cons.1 hb with rfl | hb
        · exact absurd hqb hq
        · exact h2 b hb hqb
      · right
        refine ⟨j + 1, blk, by rw [h1]; congr 2; omega, by simpa using h2, h3, h4, ?_⟩
        intro j' b hb hqb
        cases j' with
        | zero =>
          simp only [List.get?_cons_zero, Option.some.injEq] at hb
          subst hb
          exact absurd hqb hq
        | succ j' =>
          simp only [List.get?_cons_succ] at hb
          have := h5 j' b hb hqb
          exact ⟨this.1, fun h => this.2 (by omega)⟩

theorem findFreeBlock_none_iff (a : MemoryAllocator) (size : Nat) :
    a.findFreeBlock size = none ↔ ∀ b ∈ a.head, ¬ Qualifies size b := by
  unfold MemoryAllocator.findFreeBlock
  cases hs : a.strategy with
  | FIRST_FIT =>
    rcases findFirst_spec size a.head 0 none none with ⟨h1, h2⟩ | ⟨j, blk, h1, h2, h3, _⟩
    · simp only [h1, Option.map_none', true_iff]
      exact h2
    · simp only [h1, Option.map_some', reduceCtorEq, false_iff]
      intro h
      exact h blk (List.get?_mem h2) h3
  | BEST_FIT =>
    rcases findBest_spec size a.head 0 none none with ⟨h1, h2⟩ | ⟨j, blk, h1, h2, h3, _⟩
    · simp only [h1, Option.map_none', true_iff]
      intro b hb hq
      obtain ⟨v, hv, _⟩ := h2 b hb hq
      exact absurd hv (by simp)
    · simp only [h1, Option.map_some', reduceCtorEq, false_iff]
      intro h
      exact h blk (List.get?_mem h2) h3
  | WORST_FIT =>
    rcases findWorst_spec size a.head 0 none none with ⟨h1, h2⟩ | ⟨j, blk, h1, h2, h3, _⟩
    · simp only [h1, Option.map_none', true_iff]
      intro b hb hq
      obtain ⟨v, hv, _⟩ := h2 b hb hq
      exact absurd hv (by simp)
    · simp only [h1, Option.map_some', reduceCtorEq, false_iff]
      intro h
      exact h blk (List.get?_mem h2) h3

theorem findFreeBlock_some (a : MemoryAllocator) (size i : Nat)
    (h : a.findFreeBlock size = some i) :
    ∃ blk, a.head.get? i = some blk ∧ Qualifies size blk := by
  unfold MemoryAllocator.findFreeBlock at h
  cases hs : a.strategy with
  | FIRST_FIT =>
    rw [hs] at h
    rcases findFirst_spec size a.head 0 none none with ⟨h1, _⟩ | ⟨j, blk, h1, h2, h3, _⟩
    · simp [h1] at h
    · simp only [h1, Option.map_some', Option.some.injEq] at h
      exact ⟨blk, by rw [← h, Nat.zero_add]; exact h2, h3⟩
  | BEST_FIT =>
    rw [hs] at h
    rcases findBest_spec size a.head 0 none none with ⟨h1, _⟩ | ⟨j, blk, h1, h2, h3, _⟩
    · simp [h1] at h
    · simp only [h1, Option.map_some', Option.some.injEq] at h
      exact ⟨blk, by rw [← h, Nat.zero_add]; exact h2, h3⟩
  | WORST_FIT =>
    rw [hs] at h
    rcases findWorst_spec size a.head 0 none none with ⟨h1, _⟩ | ⟨j, blk, h1, h2, h3, _⟩
    · simp [h1] at h
    · simp only [h1, Option.map_some', Option.some.injEq] at h
      exact ⟨blk, by rw [← h, Nat.zero_add]; exact h2, h3⟩

theorem pairwise_get? {α : Type} (R : α → α → Prop) : ∀ (l : List α), l.Pairwise R →
    ∀ (i j : Nat) (x y : α), i < j → l.get? i = some x → l.get? j = some y → R x y := by
  intro l
  induction l with
  | nil => intro _ i j x y _ hx; simp at hx
  | cons c rest ih =>
    intro hp i j x y hij hx hy
    rw [List.pairwise_cons] at hp
    cases j with
    | zero => omega
    | succ j =>
      simp only [List.get?_cons_succ] at hy
      cases i with
      | zero =>
        simp only [List.get?_cons_zero, Option.some.injEq] at hx
        subst hx
        exact hp.1 y (List.get?_mem hy)
      | succ i =>
        simp only [List.get?_cons_succ] at hx
        exact ih hp.2 i j x y (by omega) hx hy

theorem splitBlock_get?_self : ∀ (l : List MemoryBlock) (i size : Nat) (blk : MemoryBlock),
    l.get? i = some blk → size ≤ blk.size →
    (MemoryAllocator.splitBlock l i size).get? i = some { blk with size := size } := by
  intro l
  induction l with
  | nil => intro i size blk h; simp at h
  | cons c rest ih =>
    intro i size blk h hle
    cases i with
    | zero =>
      simp only [List.get?_cons_zero, Option.some.injEq] at h
      subst h
      simp only [MemoryAllocator.splitBlock]
      split
      · rfl
      · have e : c.size = size := by omega
        subst e
        rfl
    | succ i =>
      simp only [List.get?_cons_succ] at h
      simpa [MemoryAllocator.splitBlock] using ih i size blk h hle

theorem modifyAt_get?_self {α : Type} (f : α → α) : ∀ (l : List α) (i : Nat) (x : α),
    l.get? i = some x → (modifyAt f l i).get? i = some (f x) := by
  intro l
  induction l with
  | nil => intro i x h; simp at h
  | cons c rest ih =>
    intro i x h
    cases i with
    | zero =>
      simp only [List.get?_cons_zero, Option.some.injEq] at h
      subst h
      rfl
    | succ i =>
      simp only [List.get?_cons_succ] at h
      simpa [modifyAt] using ih i x h

/-- What a successful `malloc` does, given the position chosen by `findFreeBlock`. -/
theorem malloc_of_find (a : MemoryAllocator) (size i : Nat) (blk : MemoryBlock)
    (hsize : size ≠ 0) (hfind : a.findFreeBlock size = some i)
    (hget : a.head.get? i = some blk) (hle : size ≤ blk.size) :
    (a.malloc size).2 = a.next_block_id ∧
    (a.malloc size).1.head.get? i =
      some { address := blk.address, size := size, is_free := false,
             block_id := a.next_block_id } := by
  unfold MemoryAllocator.malloc
  rw [if_neg hsize, hfind]
  refine ⟨rfl, ?_⟩
  show (modifyAt _ (MemoryAllocator.splitBlock a.head i size) i).get? i = _
  rw [modifyAt_get?_self _ _ _ _ (splitBlock_get?_self _ _ _ _ hget hle)]

theorem noAdjacentFree_get? : ∀ (l : List MemoryBlock), NoAdjacentFree l →
    ∀ (i : Nat) (x y : MemoryBlock), l.get? i = some x → l.get? (i + 1) = some y →
      ¬ (x.is_free = true ∧ y.is_free = true) := by
  intro l
  induction l with
  | nil => intro _ i x y hx; simp at hx
  | cons c rest ih =>
    intro h i x y hx hy
    cases rest with
    | nil => simp at hy
    | cons d rest' =>
      cases i with
      | zero =>
        simp only [List.get?_cons_zero, List.get?_cons_succ, Option.some.injEq] at hx hy
        subst hx; subst hy
        exact h.1
      | succ i =>
        simp only [List.get?_cons_succ] at hx hy
        exact ih h.2 i x y hx (by simpa using hy)

theorem noAdjacentFree_cons (c : MemoryBlock) (l : List MemoryBlock)
    (hl : NoAdjacentFree l)
    (hc : ∀ d, l.head? = some d → ¬ (c.is_free = true ∧ d.is_free = true)) :
    NoAdjacentFree (c :: l) := by
  cases l with
  | nil => trivial
  | cons d rest => exact ⟨hc d rfl, hl⟩

theorem noAdjacentFree_tail (c : MemoryBlock) (l : List MemoryBlock)
    (h : NoAdjacentFree (c :: l)) :
    NoAdjacentFree l ∧ ∀ d, l.head? = some d → ¬ (c.is_free = true ∧ d.is_free = true) := by
  cases l with
  | nil => exact ⟨trivial, by intro d hd; simp at hd⟩
  | cons d rest =>
    refine ⟨h.2, ?_⟩
    intro d' hd'
    simp only [List.head?_cons, Option.some.injEq] at hd'
    subst hd'
    exact h.1

theorem coalesceFrom_head : ∀ (rest : List MemoryBlock) (cur : MemoryBlock),
    ∀ d, (MemoryAllocator.coalesceFrom cur rest).head? = some d → d.is_free = cur.is_free := by
  intro rest
  induction rest with
  | nil =>
    intro cur d hd
    simp only [MemoryAllocator.coalesceFrom, List.head?_cons, Option.some.injEq] at hd
    subst hd; rfl
  | cons n rest ih =>
    intro cur d hd
    simp only [MemoryAllocator.coalesceFrom] at hd
    split at hd
    · have := ih _ d hd
      simpa using this
    · simp only [List.head?_cons, Option.some.injEq] at hd
      subst hd; rfl

theorem noAdjacentFree_coalesceFrom : ∀ (rest : List MemoryBlock) (cur : MemoryBlock),
    NoAdjacentFree (MemoryAllocator.coalesceFrom cur rest) := by
  intro rest
  induction rest with
  | nil => intro cur; simp [MemoryAllocator.coalesceFrom, NoAdjacentFree]
  | cons n rest ih =>
    intro cur
    simp only [MemoryAllocator.coalesceFrom]
    split
    · exact ih _
    · rename_i hnot
      apply noAdjacentFree_cons _ _ (ih n)
      intro d hd
      have := coalesceFrom_head rest n d hd
      rw [this]
      simpa using hnot

theorem noAdjacentFree_coalesceBlocks (l : List MemoryBlock) :
    NoAdjacentFree (MemoryAllocator.coalesceBlocks l) := by
  cases l with
  | nil => trivial
  | cons c rest => exact noAdjacentFree_coalesceFrom rest c

theorem noAdjacentFree_mark (size : Nat) (id : Int) : ∀ (l : List MemoryBlock) (i : Nat)
    (blk : MemoryBlock), NoAdjacentFree l → l.get? i = some blk → blk.is_free = true →
    NoAdjacentFree (modifyAt (fun b => { b with is_free := false, block_id := id })
      (MemoryAllocator.splitBlock l i size) i) := by
  intro l
  induction l with
  | nil => intro i blk _ h; simp at h
  | cons c rest ih =>
    intro i blk h hget hfree
    obtain ⟨hrest, hhead⟩ := noAdjacentFree_tail c rest h
    cases i with
    | zero =>
      simp only [List.get?_cons_zero, Option.some.injEq] at hget
      subst hget
      simp only [MemoryAllocator.splitBlock]
      split
      · simp only [modifyAt]
        apply noAdjacentFree_cons
        · apply noAdjacentFree_cons _ _ hrest
          intro d hd hcon
          exact hhead d hd ⟨hfree, hcon.2⟩
        · intro d hd hcon
          simp at hcon
      · simp only [modifyAt]
        apply noAdjacentFree_cons _ _ hrest
        intro d hd hcon
        simp at hcon
    | succ i =>
      simp only [List.get?_cons_succ] at hget
      simp only [MemoryAllocator.splitBlock, modifyAt]
      apply noAdjacentFree_cons _ _ (ih i blk hrest hget hfree)
      intro d hd
      cases rest with
      | nil => simp at hget
      | cons e rest' =>
        cases i with
        | zero =>
          simp only [MemoryAllocator.splitBlock] at hd
          split at hd
          · simp only [modifyAt, List.head?_cons, Option.some.injEq] at hd
            subst hd
            simp
          · simp only [modifyAt, List.head?_cons, Option.some.injEq] at hd
            subst hd
            simp
        | succ i =>
          simp only [MemoryAllocator.splitBlock, modifyAt, List.head?_cons,
            Option.some.injEq] at hd
          subst hd
          exact hhead _ rfl

theorem noAdjacentFree_malloc (a : MemoryAllocator) (size : Nat)
    (h : NoAdjacentFree a.head) : NoAdjacentFree (a.malloc size).1.head := by
  unfold MemoryAllocator.malloc
  split
  · exact h
  · split
    · exact h
    · rename_i i hf
      obtain ⟨blk, hget, hq⟩ := findFreeBlock_some a size i hf
      exact noAdjacentFree_mark size _ _ _ blk h hget hq.1

theorem noAdjacentFree_free (a : MemoryAllocator) (block_id : Int)
    (h : NoAdjacentFree a.head) : NoAdjacentFree (a.free block_id).1.head := by
  unfold MemoryAllocator.free
  split
  · split
    · exact h
    · exact noAdjacentFree_coalesceBlocks _
  · exact h

theorem noAdjacentFree_run (ops : List AllocOp) : ∀ (a : MemoryAllocator),
    NoAdjacentFree a.head → NoAdjacentFree (a.run ops).head := by
  induction ops with
  | nil => intro a h; exact h
  | cons op ops ih =>
    intro a h
    apply ih
    cases op with
    | malloc size => exact noAdjacentFree_malloc a size h
    | free block_id => exact noAdjacentFree_free a block_id h
    | setStrategy strat => exact h

/-- **C2** (no adjacent free blocks).  In every state of the contiguous allocator reached
from construction by `malloc`/`free` (and `setStrategy`) calls, successful or failed, no
two blocks that are adjacent in the ledger are both free. -/
theorem C2_no_adjacent_free (memory_size : Nat) (ops : List AllocOp) (i : Nat)
    (x y : MemoryBlock) :
    ((MemoryAllocator.new memory_size).run ops).head.get? i = some x →
    ((MemoryAllocator.new memory_size).run ops).head.get? (i + 1) = some y →
    ¬ (x.is_free = true ∧ y.is_free = true) :=
  noAdjacentFree_get? _ (noAdjacentFree_run ops _ (by simp [MemoryAllocator.new, NoAdjacentFree]))
    i x y

theorem next_block_id_step (a : MemoryAllocator) (op : AllocOp) (h : 1 ≤ a.next_block_id) :
    1 ≤ (a.step op).next_block_id := by
  cases op with
  | malloc size =>
    simp only [MemoryAllocator.step, MemoryAllocator.malloc]
    split
    · exact h
    · split
      · exact h
      · show 1 ≤ a.next_block_id + 1
        omega
  | free block_id =>
    simp only [MemoryAllocator.step, MemoryAllocator.free]
    split
    · split <;> exact h
    · exact h
  | setStrategy strat => exact h

/-- The id counter is positive in every reachable state. -/
theorem next_block_id_run (ops : List AllocOp) : ∀ (a : MemoryAllocator),
    1 ≤ a.next_block_id → 1 ≤ (a.run ops).next_block_id := by
  induction ops with
  | nil => intro a h; exact h
  | cons op ops ih => intro a h; exact ih _ (next_block_id_step a op h)

/-- The ledger of every reachable state is address-ordered with disjoint blocks. -/
theorem reachable_ledger_ordered (memory_size : Nat) (h : memory_size < SIZE_MOD)
    (ops : List AllocOp) :
    ((MemoryAllocator.new memory_size).run ops).head.Pairwise
      (fun x y => x.address + x.size ≤ y.address) :=
  tiles_disjoint _ _ _ (ledgerOk_run ops _ (ledgerOk_new memory_size h)).2.1

/-- **C7** (first-fit selection).  Under `FIRST_FIT`, for every address-ordered ledger and
every `size > 0` for which some free block has `size >= requested`, `malloc` succeeds and
places the allocation at the address of the lowest-address qualifying free block: the
block `blk` at the chosen position `i` qualifies, every other qualifying block has a
strictly larger address, and after the call position `i` holds the used block of exactly
`size` bytes at `blk.address` carrying the returned id. -/
theorem C7_first_fit (a : MemoryAllocator) (size : Nat)
    (hstrat : a.strategy = AllocationStrategy.FIRST_FIT) (hsize : 0 < size)
    (hsorted : a.head.Pairwise (fun x y => x.address + x.size ≤ y.address))
    (hex : ∃ b ∈ a.head, Qualifies size b) :
    ∃ i blk, a.findFreeBlock size = some i ∧ a.head.get? i = some blk ∧ Qualifies size blk ∧
      (∀ j b, a.head.get? j = some b → Qualifies size b → j ≠ i → blk.address < b.address) ∧
      (a.malloc size).2 = a.next_block_id ∧
      (a.malloc size).1.head.get? i =
        some { address := blk.address, size := size, is_free := false,
               block_id := a.next_block_id } := by
  rcases findFirst_spec size a.head 0 none none with ⟨_, h2⟩ | ⟨i, blk, h1, h2, h3, h4⟩
  · obtain ⟨b, hb, hq⟩ := hex
    exact absurd hq (h2 b hb)
  · have hfind : a.findFreeBlock size = some i := by
      unfold MemoryAllocator.findFreeBlock
      rw [hstrat, h1]
      simp
    refine ⟨i, blk, hfind, h2, h3, ?_, malloc_of_find a size i blk (by omega) hfind h2 h3.2⟩
    intro j b hb hq hne
    rcases Nat.lt_or_gt_of_ne hne with hlt | hgt
    · exact absurd hq (h4 j b hlt hb)
    · have := pairwise_get? _ _ hsorted i j blk b hgt h2 hb
      have := h3.2
      omega

/-- **C8** (best-fit selection).  Under `BEST_FIT`, for every address-ordered ledger and
`size > 0` with at least one qualifying free block, the block chosen by `findFreeBlock`
qualifies, has the minimum size among all qualifying blocks, and every other qualifying
block of that same size has a strictly larger address. -/
theorem C8_best_fit (a : MemoryAllocator) (size : Nat)
    (hstrat : a.strategy = AllocationStrategy.BEST_FIT) (hsize : 0 < size)
    (hsorted : a.head.Pairwise (fun x y => x.address + x.size ≤ y.address))
    (hex : ∃ b ∈ a.head, Qualifies size b) :
    ∃ i blk, a.findFreeBlock size = some i ∧ a.head.get? i = some blk ∧ Qualifies size blk ∧
      (∀ b ∈ a.head, Qualifies size b → blk.size ≤ b.size) ∧
      (∀ j b, a.head.get? j = some b → Qualifies size b → b.size = blk.size → j ≠ i →
        blk.address < b.address) := by
  rcases findBest_spec size a.head 0 none none with ⟨_, h2⟩ | ⟨i, blk, h1, h2, h3, _, h5⟩
  · obtain ⟨b, hb, hq⟩ := hex
    obtain ⟨v, hv, _⟩ := h2 b hb hq
    exact absurd hv (by simp)
  · have hfind : a.findFreeBlock size = some i := by
      unfold MemoryAllocator.findFreeBlock
      rw [hstrat, h1]
      simp
    refine ⟨i, blk, hfind, h2, h3, ?_, ?_⟩
    · intro b hb hq
      obtain ⟨j, hj⟩ := List.get?_of_mem hb
      exact (h5 j b hj hq).1
    · intro j b hb hq hsz hne
      rcases Nat.lt_or_gt_of_ne hne with hlt | hgt
      · have := (h5 j b hb hq).2 hlt
        omega
      · have := pairwise_get? _ _ hsorted i j blk b hgt h2 hb
        have := h3.2
        omega

/-- **C9** (worst-fit selection).  Under `WORST_FIT`, for every address-ordered ledger and
`size > 0` with at least one qualifying free block, the block chosen by `findFreeBlock`
qualifies, has the maximum size among all qualifying blocks, and every other qualifying
block of that same size has a strictly larger address. -/
theorem C9_worst_fit (a : MemoryAllocator) (size : Nat)
    (hstrat : a.strategy = AllocationStrategy.WORST_FIT) (hsize : 0 < size)
    (hsorted : a.head.Pairwise (fun x y => x.address + x.size ≤ y.address))
    (hex : ∃ b ∈ a.head, Qualifies size b) :
    ∃ i blk, a.findFreeBlock size = some i ∧ a.head.get? i = some blk ∧ Qualifies size blk ∧
      (∀ b ∈ a.head, Qualifies size b → b.size ≤ blk.size) ∧
      (∀ j b, a.head.get? j = some b → Qualifies size b → b.size = blk.size → j ≠ i →
        blk.address < b.address) := by
  rcases findWorst_spec size a.head 0 none none with ⟨_, h2⟩ | ⟨i, blk, h1, h2, h3, _, h5⟩
  · obtain ⟨b, hb, hq⟩ := hex
    obtain ⟨v, hv, _⟩ := h2 b hb hq
    exact absurd hv (by simp)
  · have hfind : a.findFreeBlock size = some i := by
      unfold MemoryAllocator.findFreeBlock
      rw [hstrat, h1]
      simp
    refine ⟨i, blk, hfind, h2, h3, ?_, ?_⟩
    · intro b hb hq
      obtain ⟨j, hj⟩ := List.get?_of_mem hb
      exact (h5 j b hj hq).1
    · intro j b hb hq hsz hne
      rcases Nat.lt_or_gt_of_ne hne with hlt | hgt
      · have := (h5 j b hb hq).2 hlt
        omega
      · have := pairwise_get? _ _ hsorted i j blk b hgt h2 hb
        have := h3.2
        omega

/-- **C10** (failure of `malloc`).  In every allocator state whose id counter is positive
(it starts at 1 and only grows), for every strategy and size, `malloc(size)` returns `-1`
if and only if `size == 0` or no free block of the ledger has `size >= size`; and whenever
it returns `-1` the whole state (ledger, `used_memory`, both maps, `next_block_id`) is
unchanged. -/
theorem C10_malloc_failure (a : MemoryAllocator) (size : Nat) (hid : 1 ≤ a.next_block_id) :
    ((a.malloc size).2 = -1 ↔ (size = 0 ∨ ∀ b ∈ a.head, ¬ Qualifies size b)) ∧
    ((a.malloc size).2 = -1 → (a.malloc size).1 = a) := by
  unfold MemoryAllocator.malloc
  by_cases hs : size = 0
  · simp [hs]
  · rw [if_neg hs]
    cases hf : a.findFreeBlock size with
    | none =>
      have := (findFreeBlock_none_iff a size).1 hf
      exact ⟨⟨fun _ => Or.inr this, fun _ => rfl⟩, fun _ => rfl⟩
    | some i =>
      obtain ⟨blk, hget, hq⟩ := findFreeBlock_some a size i hf
      have hne : ¬ ∀ b ∈ a.head, ¬ Qualifies size b := fun h => h blk (List.get?_mem hget) hq
      have hid' : a.next_block_id ≠ -1 := by omega
      simp only [hs, hne, or_self, iff_false]
      exact ⟨hid', fun h => absurd h hid'⟩

/-- Witness of **C2** on the first-fit scenario followed by `malloc(50)`: the used block
at position 0 and the free remainder at position 1. -/
theorem C2_no_adjacent_free_witness :
    ((MemoryAllocator.new 1024).run
        [AllocOp.malloc 100, AllocOp.malloc 200, AllocOp.free 1, AllocOp.malloc 50]).head.get? 0
      = some { address := 0, size := 50, is_free := false, block_id := 3 } ∧
    ((MemoryAllocator.new 1024).run
        [AllocOp.malloc 100, AllocOp.malloc 200, AllocOp.free 1, AllocOp.malloc 50]).head.get? 1
      = some { address := 50, size := 50, is_free := true, block_id := -1 } ∧
    ¬ ((false = true) ∧ (true = true)) :=
  ⟨by decide, by decide,
    C2_no_adjacent_free 1024
      [AllocOp.malloc 100, AllocOp.malloc 200, AllocOp.free 1, AllocOp.malloc 50] 0
      { address := 0, size := 50, is_free := false, block_id := 3 }
      { address := 50, size := 50, is_free := true, block_id := -1 } (by decide) (by decide)⟩

/-- Witness of **C7**: first fit on the scenario ledger picks the 100-byte hole at 0. -/
theorem C7_first_fit_witness :
    ∃ i blk, MemoryAllocator.scenario.findFreeBlock 50 = some i ∧
      MemoryAllocator.scenario.head.get? i = some blk ∧ Qualifies 50 blk ∧
      (∀ j b, MemoryAllocator.scenario.head.get? j = some b → Qualifies 50 b → j ≠ i →
        blk.address < b.address) ∧
      (MemoryAllocator.scenario.malloc 50).2 = MemoryAllocator.scenario.next_block_id ∧
      (MemoryAllocator.scenario.malloc 50).1.head.get? i =
        some { address := blk.address, size := 50, is_free := false,
               block_id := MemoryAllocator.scenario.next_block_id } :=
  C7_first_fit MemoryAllocator.scenario 50 (by decide) (by decide) (by decide)
    ⟨{ address := 0, size := 100, is_free := true, block_id := -1 }, by decide,
      by decide, by decide⟩

/-- Witness of **C8**: best fit on the scenario ledger. -/
theorem C8_best_fit_witness :
    ∃ i blk, (MemoryAllocator.scenario.setStrategy AllocationStrategy.BEST_FIT).findFreeBlock 50
        = some i ∧
      (MemoryAllocator.scenario.setStrategy AllocationStrategy.BEST_FIT).head.get? i = some blk ∧
      Qualifies 50 blk ∧
      (∀ b ∈ (MemoryAllocator.scenario.setStrategy AllocationStrategy.BEST_FIT).head,
        Qualifies 50 b → blk.size ≤ b.size) ∧
      (∀ j b, (MemoryAllocator.scenario.setStrategy AllocationStrategy.BEST_FIT).head.get? j
          = some b → Qualifies 50 b → b.size = blk.size → j ≠ i → blk.address < b.address) :=
  C8_best_fit (MemoryAllocator.scenario.setStrategy AllocationStrategy.BEST_FIT) 50
    (by decide) (by decide) (by decide)
    ⟨{ address := 0, size := 100, is_free := true, block_id := -1 }, by decide,
      by decide, by decide⟩

/-- Witness of **C9**: worst fit on the scenario ledger. -/
theorem C9_worst_fit_witness :
    ∃ i blk, (MemoryAllocator.scenario.setStrategy AllocationStrategy.WORST_FIT).findFreeBlock 50
        = some i ∧
      (MemoryAllocator.scenario.setStrategy AllocationStrategy.WORST_FIT).head.get? i = some blk ∧
      Qualifies 50 blk ∧
      (∀ b ∈ (MemoryAllocator.scenario.setStrategy AllocationStrategy.WORST_FIT).head,
        Qualifies 50 b → b.size ≤ blk.size) ∧
      (∀ j b, (MemoryAllocator.scenario.setStrategy AllocationStrategy.WORST_FIT).head.get? j
          = some b → Qualifies 50 b → b.size = blk.size → j ≠ i → blk.address < b.address) :=
  C9_worst_fit (MemoryAllocator.scenario.setStrategy AllocationStrategy.WORST_FIT) 50
    (by decide) (by decide) (by decide)
    ⟨{ address := 0, size := 100, is_free := true, block_id := -1 }, by decide,
      by decide, by decide⟩

/-- Witness of **C10**: a request larger than every free block of the scenario ledger. -/
theorem C10_malloc_failure_witness :
    1 ≤ MemoryAllocator.scenario.next_block_id ∧
    (((MemoryAllocator.scenario.malloc 800).2 = -1 ↔
      (800 = 0 ∨ ∀ b ∈ MemoryAllocator.scenario.head, ¬ Qualifies 800 b)) ∧
    ((MemoryAllocator.scenario.malloc 800).2 = -1 →
      (MemoryAllocator.scenario.malloc 800).1 = MemoryAllocator.scenario)) :=
  ⟨by decide, C10_malloc_failure MemoryAllocator.scenario 800 (by decide)⟩

/-! ## Theorems: cache hierarchy -/

/-- **C6** (unique tags) fails on the code.  On a hierarchy with one 2-way level of one
set, `read(0)` fills way 0 with tag 0; the following `write(0, 5)` hits way 0 and then
calls `insert`, which takes the invalid way 1 as victim without looking for the line that
is already there: the set ends with two valid lines of tag 0 (the stale data 0 in way 0,
the new data 5 in way 1), and the next `read(0)` returns the stale 0. -/
theorem C6_write_duplicates_tag :
    ((((CacheHierarchy.new 16).addLevel 2 1 2 ReplacementPolicy.LRU).read 0).1.write 0 5).levels.map
        CacheLevel.cache_sets
      = [[[{ valid := true, tag := 0, data := 0, frequency := 0, timestamp := 1 },
           { valid := true, tag := 0, data := 5, frequency := 0, timestamp := 2 }]]] ∧
    (∃ level ∈ ((((CacheHierarchy.new 16).addLevel 2 1 2 ReplacementPolicy.LRU).read 0).1.write
        0 5).levels, ¬ UniqueTags level) ∧
    (((((CacheHierarchy.new 16).addLevel 2 1 2 ReplacementPolicy.LRU).read 0).1.write 0 5).read
        0).2 = 0 := by
  refine ⟨by decide, ?_, by decide⟩
  have hl : ((((CacheHierarchy.new 16).addLevel 2 1 2 ReplacementPolicy.LRU).read 0).1.write
      0 5).levels =
      [{ cache_size := 2, block_size := 1, num_sets := 1, associativity := 2,
         policy := ReplacementPolicy.LRU,
         cache_sets := [[{ valid := true, tag := 0, data := 0, frequency := 0, timestamp := 1 },
                         { valid := true, tag := 0, data := 5, frequency := 0, timestamp := 2 }]],
         current_time := 3, hits := 1, misses := 1 }] := by decide
  rw [hl]
  refine ⟨_, List.mem_singleton.2 rfl, ?_⟩
  intro h
  exact h [{ valid := true, tag := 0, data := 0, frequency := 0, timestamp := 1 },
           { valid := true, tag := 0, data := 5, frequency := 0, timestamp := 2 }]
    (List.mem_singleton.2 rfl) 0 1 _ _ rfl rfl (by decide) rfl rfl rfl

/-! ## Theorems: virtual memory -/

theorem get?_modifyAt {α : Type} (f : α → α) : ∀ (l : List α) (i j : Nat),
    (modifyAt f l i).get? j = if j = i then (l.get? j).map f else l.get? j := by
  intro l
  induction l with
  | nil => intro i j; simp [modifyAt]
  | cons c rest ih =>
    intro i j
    cases i with
    | zero =>
      cases j with
      | zero => simp [modifyAt]
      | succ j => simp [modifyAt]
    | succ i =>
      cases j with
      | zero => simp [modifyAt]
      | succ j =>
        simp only [modifyAt, List.get?_cons_succ, ih]
        by_cases e : j = i <;> simp [e]

theorem length_modifyAt {α : Type} (f : α → α) : ∀ (l : List α) (i : Nat),
    (modifyAt f l i).length = l.length := by
  intro l
  induction l with
  | nil => intro i; rfl
  | cons c rest ih =>
    intro i
    cases i with
    | zero => rfl
    | succ i => simp [modifyAt, ih]

theorem map_modifyAt {α β : Type} (g : α → β) (f : α → α) (f' : β → β)
    (h : ∀ x, g (f x) = f' (g x)) : ∀ (l : List α) (i : Nat),
    (modifyAt f l i).map g = modifyAt f' (l.map g) i := by
  intro l
  induction l with
  | nil => intro i; rfl
  | cons c rest ih =>
    intro i
    cases i with
    | zero => simp [modifyAt, h]
    | succ i => simp [modifyAt, ih]

theorem modifyAt_id {α : Type} (f : α → α) (h : ∀ x, f x = x) : ∀ (l : List α) (i : Nat),
    modifyAt f l i = l := by
  intro l
  induction l with
  | nil => intro i; rfl
  | cons c rest ih =>
    intro i
    cases i with
    | zero => simp [modifyAt, h]
    | succ i => simp [modifyAt, ih]

theorem getD_eq_get? {α : Type} (l : List α) (i : Nat) (d : α) :
    l.getD i d = (l.get? i).getD d := by
  simp [List.getD_eq_getElem?_getD]

/-- Loading the invalid page `p` into the free frame `f`. -/
theorem frameInv_load (K : List (Bool × Nat)) (fa : List Bool) (ftp : List Nat) (p f : Nat)
    (k : Bool × Nat) (h : FrameInv K fa ftp) (hp : K.get? p = some k) (hk : k.1 = false)
    (hf : fa.get? f = some false) :
    FrameInv (modifyAt (fun _ => (true, f)) K p) (modifyAt (fun _ => true) fa f)
      (modifyAt (fun _ => p) ftp f) := by
  have hflen : f < ftp.length := by
    rw [← h.len]
    by_contra hcon
    rw [List.get?_eq_none.2 (by omega)] at hf
    exact absurd hf (by simp)
  have hftp : ∃ q, ftp.get? f = some q := ⟨ftp.get ⟨f, hflen⟩, List.get?_eq_get hflen⟩
  obtain ⟨q, hq⟩ := hftp
  constructor
  · simp [length_modifyAt, h.len]
  · intro f' hf'
    rw [get?_modifyAt] at hf'
    by_cases e : f' = f
    · subst e
      refine ⟨p, ?_, ?_⟩
      · rw [get?_modifyAt, if_pos rfl, hq]; rfl
      · rw [get?_modifyAt, if_pos rfl, hp]; rfl
    · rw [if_neg e] at hf'
      obtain ⟨p', h1, h2⟩ := h.frame_page f' hf'
      refine ⟨p', ?_, ?_⟩
      · rw [get?_modifyAt, if_neg e]; exact h1
      · have hne : p' ≠ p := by
          intro hpp
          subst hpp
          rw [hp] at h2
          simp only [Option.some.injEq] at h2
          rw [h2] at hk
          simp at hk
        rw [get?_modifyAt, if_neg hne]; exact h2
  · intro p' f' hk'
    rw [get?_modifyAt] at hk'
    by_cases e : p' = p
    · subst e
      rw [if_pos rfl, hp] at hk'
      simp only [Option.map_some', Option.some.injEq, Prod.mk.injEq, true_and] at hk'
      subst hk'
      constructor
      · rw [get?_modifyAt, if_pos rfl, hf]; rfl
      · rw [get?_modifyAt, if_pos rfl, hq]; rfl
    · rw [if_neg e] at hk'
      obtain ⟨h1, h2⟩ := h.page_frame p' f' hk'
      have hne : f' ≠ f := by
        intro hff
        subst hff
        rw [hf] at h1
        simp at h1
      constructor
      · rw [get?_modifyAt, if_neg hne]; exact h1
      · rw [get?_modifyAt, if_neg hne]; exact h2

/-- Evicting the valid page `v` from its frame `f`. -/
theorem frameInv_evict (K : List (Bool × Nat)) (fa : List Bool) (ftp : List Nat) (v f : Nat)
    (h : FrameInv K fa ftp) (hv : K.get? v = some (true, f)) :
    FrameInv (modifyAt (fun k => (false, k.2)) K v) (modifyAt (fun _ => false) fa f) ftp ∧
    (modifyAt (fun _ => false) fa f).get? f = some false := by
  obtain ⟨hfa, hftp⟩ := h.page_frame v f hv
  have hfree : (modifyAt (fun _ => false) fa f).get? f = some false := by
    rw [get?_modifyAt, if_pos rfl, hfa]; rfl
  refine ⟨⟨?_, ?_, ?_⟩, hfree⟩
  · simp [length_modifyAt, h.len]
  · intro f' hf'
    have e : f' ≠ f := by
      intro hff
      subst hff
      rw [hfree] at hf'
      simp at hf'
    rw [get?_modifyAt, if_neg e] at hf'
    obtain ⟨p', h1, h2⟩ := h.frame_page f' hf'
    refine ⟨p', h1, ?_⟩
    have hne : p' ≠ v := by
      intro hpp
      subst hpp
      rw [hv] at h2
      simp only [Option.some.injEq, Prod.mk.injEq, true_and] at h2
      exact e h2.symm
    rw [get?_modifyAt, if_neg hne]; exact h2
  · intro p' f' hk'
    rw [get?_modifyAt] at hk'
    by_cases e : p' = v
    · subst e
      rw [if_pos rfl, hv] at hk'
      simp at hk'
    · rw [if_neg e] at hk'
      obtain ⟨h1, h2⟩ := h.page_frame p' f' hk'
      have hne : f' ≠ f := by
        intro hff
        subst hff
        rw [hftp] at h2
        simp only [Option.some.injEq] at h2
        exact e h2.symm
      exact ⟨by rw [get?_modifyAt, if_neg hne]; exact h1, h2⟩

theorem findFreeFrameFrom_some : ∀ (l : List Bool) (i f : Nat),
    VirtualMemory.findFreeFrameFrom l i = some f → ∃ j, f = i + j ∧ l.get? j = some false := by
  intro l
  induction l with
  | nil => intro i f h; simp [VirtualMemory.findFreeFrameFrom] at h
  | cons b rest ih =>
    intro i f h
    simp only [VirtualMemory.findFreeFrameFrom] at h
    split at h
    · rename_i hb
      simp only [Option.some.injEq] at h
      refine ⟨0, by omega, ?_⟩
      simpa using hb
    · obtain ⟨j, h1, h2⟩ := ih (i + 1) f h
      exact ⟨j + 1, by omega, by simpa using h2⟩

/-- The invariant only reads the keys of the page table, the frame tables, the queue,
the policy and the two table sizes. -/
theorem vmInv_congr (vm vm' : VirtualMemory) (h : VMInv vm)
    (hk : vm'.page_table.map PageTableEntry.key = vm.page_table.map PageTableEntry.key)
    (hfa : vm'.frame_allocation = vm.frame_allocation)
    (hftp : vm'.frame_to_page = vm.frame_to_page)
    (hq : vm'.fifo_queue = vm.fifo_queue) (hpol : vm'.policy = vm.policy)
    (hnv : vm'.num_virtual_pages = vm.num_virtual_pages)
    (hnf : vm'.num_physical_frames = vm.num_physical_frames) : VMInv vm' := by
  constructor
  · have := congrArg List.length hk
    simp only [List.length_map] at this
    rw [this, hnv]; exact h.pt_len
  · rw [hfa, hnf]; exact h.fa_len
  · rw [hk, hfa, hftp]; exact h.frames
  · rw [hq]; exact h.queue_nodup
  · rw [hq, hk]; exact h.queue_valid
  · rw [hq, hpol]; exact h.queue_policy

theorem keys_get? (pt : List PageTableEntry) (p : Nat) :
    (pt.map PageTableEntry.key).get? p = (pt.get? p).map PageTableEntry.key := by
  simp

theorem vmInv_load (vm : VirtualMemory) (p f : Nat) (e : PageTableEntry) (h : VMInv vm)
    (hp : vm.page_table.get? p = some e) (he : e.valid = false)
    (hf : vm.frame_allocation.get? f = some false) : VMInv (vm.loadPage p f) := by
  have hkeys : (vm.loadPage p f).page_table.map PageTableEntry.key =
      modifyAt (fun _ => (true, f)) (vm.page_table.map PageTableEntry.key) p := by
    show (modifyAt _ vm.page_table p).map PageTableEntry.key = _
    apply map_modifyAt
    intro x
    rfl
  have hkp : (vm.page_table.map PageTableEntry.key).get? p = some e.key := by
    rw [keys_get?, hp]; rfl
  have hnotin : p ∉ vm.fifo_queue := by
    intro hin
    obtain ⟨f', hf'⟩ := h.queue_valid p hin
    rw [hkp] at hf'
    simp only [Option.some.injEq] at hf'
    have : e.valid = true := congrArg Prod.fst hf'
    rw [he] at this
    exact absurd this (by simp)
  constructor
  · show (modifyAt _ vm.page_table p).length = vm.num_virtual_pages
    rw [length_modifyAt]; exact h.pt_len
  · show (modifyAt _ vm.frame_allocation f).length = vm.num_physical_frames
    rw [length_modifyAt]; exact h.fa_len
  · rw [hkeys]
    exact frameInv_load _ _ _ p f e.key h.frames hkp he hf
  · show (if vm.policy = PageReplacementPolicy.FIFO then vm.fifo_queue ++ [p]
      else vm.fifo_queue).Nodup
    split
    · rw [List.nodup_append]
      exact ⟨h.queue_nodup, List.nodup_singleton p, by
        intro a ha hb
        simp only [List.mem_singleton] at hb
        subst hb
        exact hnotin ha⟩
    · exact h.queue_nodup
  · intro q hq
    rw [hkeys, get?_modifyAt]
    have hq' : q ∈ (if vm.policy = PageReplacementPolicy.FIFO then vm.fifo_queue ++ [p]
      else vm.fifo_queue) := hq
    by_cases e' : q = p
    · subst e'
      rw [if_pos rfl, hkp]
      exact ⟨f, rfl⟩
    · rw [if_neg e']
      apply h.queue_valid
      split at hq'
      · rcases List.mem_append.1 hq' with h1 | h1
        · exact h1
        · simp only [List.mem_singleton] at h1
          exact absurd h1 e'
      · exact hq'
  · intro hpol
    have hpol' : vm.policy ≠ PageReplacementPolicy.FIFO := hpol
    show (if vm.policy = PageReplacementPolicy.FIFO then vm.fifo_queue ++ [p]
      else vm.fifo_queue) = []
    rw [if_neg hpol']
    exact h.queue_policy hpol'

/-- Eviction of the valid page `v`, which is no longer queued, followed by the load of
the invalid page `p` into the frame of `v`. -/
theorem vmInv_evict_load (vm : VirtualMemory) (v p : Nat) (e : PageTableEntry) (h : VMInv vm)
    (hv : ∃ f, (vm.page_table.map PageTableEntry.key).get? v = some (true, f))
    (hvq : v ∉ vm.fifo_queue)
    (hp : vm.page_table.get? p = some e) (he : e.valid = false) :
    VMInv ((vm.evictPage (vm.page_table.getD v {}).frame_number).loadPage p
      (vm.page_table.getD v {}).frame_number) := by
  obtain ⟨f, hvf⟩ := hv
  rw [keys_get?] at hvf
  cases hve : vm.page_table.get? v with
  | none => rw [hve] at hvf; simp at hvf
  | some ev =>
    rw [hve] at hvf
    simp only [Option.map_some', Option.some.injEq, PageTableEntry.key, Prod.mk.injEq] at hvf
    obtain ⟨hvalid, hframe⟩ := hvf
    have hgetD : vm.page_table.getD v {} = ev := by
      rw [getD_eq_get?, hve]; rfl
    rw [hgetD, hframe]
    have hkv : (vm.page_table.map PageTableEntry.key).get? v = some (true, f) := by
      rw [keys_get?, hve]; simp [PageTableEntry.key, hvalid, hframe]
    obtain ⟨hfa, hftp⟩ := h.frames.page_frame v f hkv
    have hold : vm.frame_to_page.getD f 0 = v := by
      rw [getD_eq_get?, hftp]; rfl
    have hcond : ((vm.page_table.getD v {}).valid &&
        decide ((vm.page_table.getD v {}).frame_number = f)) = true := by
      rw [hgetD]; simp [hvalid, hframe]
    have hpt : (vm.evictPage f).page_table =
        modifyAt (fun e => { e with valid := false }) vm.page_table v := by
      unfold VirtualMemory.evictPage
      simp only [hold, hcond, ↓reduceIte]
    have hkeys : (vm.evictPage f).page_table.map PageTableEntry.key =
        modifyAt (fun k => (false, k.2)) (vm.page_table.map PageTableEntry.key) v := by
      rw [hpt]
      apply map_modifyAt
      intro x
      rfl
    obtain ⟨hinv, hfree⟩ := frameInv_evict _ _ _ v f h.frames hkv
    have hne : p ≠ v := by
      intro hpv
      subst hpv
      rw [hp] at hve
      simp only [Option.some.injEq] at hve
      subst hve
      rw [he] at hvalid
      simp at hvalid
    have hev : VMInv (vm.evictPage f) := by
      constructor
      · rw [hpt, length_modifyAt]; exact h.pt_len
      · show (modifyAt _ vm.frame_allocation f).length = vm.num_physical_frames
        rw [length_modifyAt]; exact h.fa_len
      · rw [hkeys]; exact hinv
      · exact h.queue_nodup
      · intro q hq
        have hqv : q ≠ v := fun hqv => hvq (hqv ▸ hq)
        rw [hkeys, get?_modifyAt, if_neg hqv]
        exact h.queue_valid q hq
      · exact h.queue_policy
    apply vmInv_load (vm.evictPage f) p f e hev
    · rw [hpt, get?_modifyAt, if_neg hne]; exact hp
    · exact he
    · exact hfree

theorem lruScan_some : ∀ (l : List PageTableEntry) (i : Nat) (cand : Option Nat) (t : Int)
    (v : Nat), VirtualMemory.lruScan l i cand t = some v →
    cand = some v ∨ ∃ j e, v = i + j ∧ l.get? j = some e ∧ e.valid = true := by
  intro l
  induction l with
  | nil => intro i cand t v h; left; simpa [VirtualMemory.lruScan] using h
  | cons c rest ih =>
    intro i cand t v h
    simp only [VirtualMemory.lruScan] at h
    split at h
    · rename_i hc
      rcases ih _ _ _ _ h with h1 | ⟨j, e, h1, h2, h3⟩
      · simp only [Option.some.injEq] at h1
        right
        refine ⟨0, c, by omega, rfl, ?_⟩
        simp only [Bool.and_eq_true] at hc
        exact hc.1
      · right
        exact ⟨j + 1, e, by omega, by simpa using h2, h3⟩
    · rcases ih _ _ _ _ h with h1 | ⟨j, e, h1, h2, h3⟩
      · left; exact h1
      · right
        exact ⟨j + 1, e, by omega, by simpa using h2, h3⟩

theorem keys_modifyAt_same (f : PageTableEntry → PageTableEntry)
    (hf : ∀ e, (f e).key = e.key) (pt : List PageTableEntry) (i : Nat) :
    (modifyAt f pt i).map PageTableEntry.key = pt.map PageTableEntry.key := by
  rw [map_modifyAt PageTableEntry.key f id hf]
  exact modifyAt_id _ (fun x => rfl) _ _

theorem clockLoop_some : ∀ (fuel : Nat) (vm vm' : VirtualMemory) (v : Nat),
    VirtualMemory.clockLoop fuel vm = some (vm', v) →
    (∃ f, (vm'.page_table.map PageTableEntry.key).get? v = some (true, f)) ∧
    vm'.page_table.map PageTableEntry.key = vm.page_table.map PageTableEntry.key ∧
    vm'.frame_allocation = vm.frame_allocation ∧ vm'.frame_to_page = vm.frame_to_page ∧
    vm'.fifo_queue = vm.fifo_queue ∧ vm'.policy = vm.policy ∧
    vm'.num_virtual_pages = vm.num_virtual_pages ∧
    vm'.num_physical_frames = vm.num_physical_frames := by
  intro fuel
  induction fuel with
  | zero => intro vm vm' v h; simp [VirtualMemory.clockLoop] at h
  | succ fuel ih =>
    intro vm vm' v h
    simp only [VirtualMemory.clockLoop] at h
    split at h
    · exact absurd h (by simp)
    · rename_i page hpage
      split at h
      · rename_i hmapped
        split at h
        · simp only [Option.some.injEq, Prod.mk.injEq] at h
          obtain ⟨h1, h2⟩ := h
          subst h1; subst h2
          refine ⟨?_, rfl, rfl, rfl, rfl, rfl, rfl, rfl⟩
          simp only [Bool.and_eq_true, decide_eq_true_eq] at hmapped
          show ∃ f, (vm.page_table.map PageTableEntry.key).get? page = some (true, f)
          rw [keys_get?]
          cases hg : vm.page_table.get? page with
          | none =>
            rw [getD_eq_get?, hg] at hmapped
            simp at hmapped
          | some e =>
            rw [getD_eq_get?, hg] at hmapped
            simp only [Option.getD_some] at hmapped
            exact ⟨e.frame_number, by simp [PageTableEntry.key, hmapped.1]⟩
        · obtain ⟨h1, h2, h3, h4, h5, h6, h7, h8⟩ := ih _ _ _ h
          refine ⟨h1, ?_, h3, h4, h5, h6, h7, h8⟩
          rw [h2]
          show (modifyAt _ vm.page_table page).map PageTableEntry.key = _
          apply keys_modifyAt_same
          intro x
          rfl
      · obtain ⟨h1, h2, h3, h4, h5, h6, h7, h8⟩ := ih _ _ _ h
        exact ⟨h1, h2, h3, h4, h5, h6, h7, h8⟩

theorem select_some (vm vm2 : VirtualMemory) (v : Nat) (h : VMInv vm)
    (hs : vm.selectVictimPage = some (vm2, some v)) :
    VMInv vm2 ∧ (∃ f, (vm2.page_table.map PageTableEntry.key).get? v = some (true, f)) ∧
    v ∉ vm2.fifo_queue ∧
    vm2.page_table.map PageTableEntry.key = vm.page_table.map PageTableEntry.key := by
  unfold VirtualMemory.selectVictimPage at hs
  cases hpol : vm.policy with
  | FIFO =>
    rw [hpol] at hs
    simp only at hs
    cases hq : vm.fifo_queue with
    | nil => rw [hq] at hs; simp at hs
    | cons w rest =>
      rw [hq] at hs
      simp only [Option.some.injEq, Prod.mk.injEq] at hs
      obtain ⟨h1, h2⟩ := hs
      subst h1; subst h2
      have hnd := h.queue_nodup
      rw [hq, List.nodup_cons] at hnd
      refine ⟨?_, ?_, hnd.1, rfl⟩
      · constructor
        · exact h.pt_len
        · exact h.fa_len
        · exact h.frames
        · exact hnd.2
        · intro p hp
          exact h.queue_valid p (by rw [hq]; exact List.mem_cons_of_mem _ hp)
        · intro hne
          exact absurd rfl hne
      · exact h.queue_valid w (by rw [hq]; exact List.mem_cons_self _ _)
  | LRU =>
    rw [hpol] at hs
    simp only [Option.some.injEq, Prod.mk.injEq] at hs
    obtain ⟨h1, h2⟩ := hs
    subst h1
    have hq : vm.fifo_queue = [] := h.queue_policy (by rw [hpol]; simp)
    refine ⟨h, ?_, by rw [hq]; simp, rfl⟩
    rcases lruScan_some _ _ _ _ _ h2 with h3 | ⟨j, e, h3, h4, h5⟩
    · simp at h3
    · rw [Nat.zero_add] at h3
      subst h3
      exact ⟨e.frame_number, by rw [keys_get?, h4]; simp [PageTableEntry.key, h5]⟩
  | CLOCK =>
    rw [hpol] at hs
    simp only at hs
    cases hc : VirtualMemory.clockLoop (2 * vm.num_physical_frames) vm with
    | none => rw [hc] at hs; simp at hs
    | some r =>
      rw [hc] at hs
      simp only [Option.map_some', Option.some.injEq, Prod.mk.injEq] at hs
      obtain ⟨h1, h2⟩ := hs
      obtain ⟨g1, g2, g3, g4, g5, g6, g7, g8⟩ := clockLoop_some _ _ r.1 r.2 hc
      subst h1; subst h2
      have hq : vm.fifo_queue = [] := h.queue_policy (by rw [hpol]; simp)
      exact ⟨vmInv_congr vm r.1 h g2 g3 g4 g5 g6 g7 g8, g1, by rw [g5, hq]; simp, g2⟩

theorem select_none (vm vm2 : VirtualMemory) (h : VMInv vm)
    (hs : vm.selectVictimPage = some (vm2, none)) : VMInv vm2 := by
  unfold VirtualMemory.selectVictimPage at hs
  cases hpol : vm.policy with
  | FIFO =>
    rw [hpol] at hs
    simp only at hs
    cases hq : vm.fifo_queue with
    | nil =>
      rw [hq] at hs
      simp only [Option.some.injEq, Prod.mk.injEq, and_true] at hs
      subst hs; exact h
    | cons w rest => rw [hq] at hs; simp at hs
  | LRU =>
    rw [hpol] at hs
    simp only [Option.some.injEq, Prod.mk.injEq] at hs
    rw [← hs.1]; exact h
  | CLOCK =>
    rw [hpol] at hs
    simp only at hs
    cases hc : VirtualMemory.clockLoop (2 * vm.num_physical_frames) vm with
    | none => rw [hc] at hs; simp at hs
    | some r => rw [hc] at hs; simp at hs

theorem vmInv_translate (vm vm' : VirtualMemory) (a r : Nat) (h : VMInv vm)
    (ht : vm.translate a = some (vm', r)) : VMInv vm' := by
  unfold VirtualMemory.translate at ht
  simp only at ht
  split at ht
  · simp only [Option.some.injEq, Prod.mk.injEq] at ht
    rw [← ht.1]; exact h
  · rename_i hlt
    have hlt' : vm.getPageNumber a < vm.page_table.length := by rw [h.pt_len]; omega
    have hget : vm.page_table.get? (vm.getPageNumber a) =
        some (vm.page_table.get ⟨_, hlt'⟩) := List.get?_eq_get hlt'
    generalize vm.page_table.get ⟨_, hlt'⟩ = e at hget
    split at ht
    · rename_i hinv
      rw [getD_eq_get?, hget] at hinv
      simp only [Option.getD_some, Bool.not_eq_true', ] at hinv
      have h1 : VMInv { vm with page_faults := (vm.page_faults + 1) % SIZE_MOD } :=
        vmInv_congr vm _ h rfl rfl rfl rfl rfl rfl rfl
      split at ht
      · rename_i frame hfree
        simp only [Option.some.injEq, Prod.mk.injEq] at ht
        rw [← ht.1]
        obtain ⟨j, hj, hfa⟩ := findFreeFrameFrom_some _ _ _ hfree
        rw [Nat.zero_add] at hj
        subst hj
        exact vmInv_load _ _ _ e h1 hget hinv hfa
      · split at ht
        · exact absurd ht (by simp)
        · rename_i vm2 hsel
          simp only [Option.some.injEq, Prod.mk.injEq] at ht
          rw [← ht.1]
          exact select_none _ _ h1 hsel
        · rename_i vm2 victim hsel
          simp only [Option.some.injEq, Prod.mk.injEq] at ht
          rw [← ht.1]
          obtain ⟨g1, g2, g3, g4⟩ := select_some _ _ _ h1 hsel
          have hk : (vm2.page_table.map PageTableEntry.key).get? (vm.getPageNumber a) =
              some e.key := by
            rw [g4]
            show (vm.page_table.map PageTableEntry.key).get? _ = _
            rw [keys_get?, hget]; rfl
          rw [keys_get?] at hk
          cases hg2 : vm2.page_table.get? (vm.getPageNumber a) with
          | none => rw [hg2] at hk; simp at hk
          | some e2 =>
            rw [hg2] at hk
            simp only [Option.map_some', Option.some.injEq] at hk
            have he2 : e2.valid = false := by
              have := congrArg Prod.fst hk
              simp only [PageTableEntry.key] at this
              rw [this]; exact hinv
            exact vmInv_evict_load vm2 victim _ e2 g1 g2 g3 hg2 he2
    · simp only [Option.some.injEq, Prod.mk.injEq] at ht
      rw [← ht.1]
      refine vmInv_congr vm _ h ?_ rfl rfl rfl rfl rfl rfl
      show (modifyAt _ vm.page_table _).map PageTableEntry.key = _
      apply keys_modifyAt_same
      intro x
      rfl

theorem vmInv_run : ∀ (addrs : List Nat) (vm vm' : VirtualMemory), VMInv vm →
    vm.run addrs = some vm' → VMInv vm' := by
  intro addrs
  induction addrs with
  | nil =>
    intro vm vm' h hr
    simp only [VirtualMemory.run, Option.some.injEq] at hr
    rw [← hr]; exact h
  | cons a rest ih =>
    intro vm vm' h hr
    simp only [VirtualMemory.run] at hr
    split at hr
    · exact absurd hr (by simp)
    · rename_i vm1 r1 ht
      exact ih vm1 vm' (vmInv_translate vm vm1 a r1 h ht) hr

theorem vmInv_new (vb pb ps : Nat) (pol : PageReplacementPolicy) :
    VMInv (VirtualMemory.new vb pb ps pol) := by
  constructor
  · simp [VirtualMemory.new]
  · simp [VirtualMemory.new]
  · constructor
    · simp [VirtualMemory.new]
    · intro f hf
      have : true = false := by
        have hm := List.get?_mem hf
        simp only [VirtualMemory.new] at hm
        exact List.eq_of_mem_replicate hm
      exact absurd this (by simp)
    · intro p f hp
      have hm := List.get?_mem hp
      simp only [VirtualMemory.new, List.map_replicate] at hm
      have := List.eq_of_mem_replicate hm
      simp [PageTableEntry.key] at this
  · simp [VirtualMemory.new]
  · intro p hp
    simp [VirtualMemory.new] at hp
  · intro _
    rfl

theorem key_of_valid (vm : VirtualMemory) (h : VMInv vm) (p f : Nat)
    (hp : p < vm.num_virtual_pages) :
    ((vm.page_table.getD p {}).valid = true ∧ (vm.page_table.getD p {}).frame_number = f) ↔
    (vm.page_table.map PageTableEntry.key).get? p = some (true, f) := by
  have hlt : p < vm.page_table.length := by rw [h.pt_len]; exact hp
  have hget : vm.page_table.get? p = some (vm.page_table.get ⟨p, hlt⟩) := List.get?_eq_get hlt
  generalize vm.page_table.get ⟨p, hlt⟩ = e at hget
  rw [keys_get?, getD_eq_get?, hget]
  simp [PageTableEntry.key]

theorem key_lt (vm : VirtualMemory) (h : VMInv vm) (p : Nat) (k : Bool × Nat)
    (hk : (vm.page_table.map PageTableEntry.key).get? p = some k) :
    p < vm.num_virtual_pages := by
  rw [← h.pt_len]
  by_contra hcon
  rw [keys_get?, List.get?_eq_none.2 (by omega)] at hk
  simp at hk

theorem alloc_get? (vm : VirtualMemory) (h : VMInv vm) (f : Nat)
    (hf : f < vm.num_physical_frames) :
    vm.frame_allocation.getD f false = true ↔ vm.frame_allocation.get? f = some true := by
  have hlt : f < vm.frame_allocation.length := by rw [h.fa_len]; exact hf
  have hget : vm.frame_allocation.get? f = some (vm.frame_allocation.get ⟨f, hlt⟩) :=
    List.get?_eq_get hlt
  generalize vm.frame_allocation.get ⟨f, hlt⟩ = b at hget
  rw [getD_eq_get?, hget]
  simp

/-- **C5** (frame-table invariant).  In every state reached from construction by
`translate` calls that return, under FIFO, LRU and CLOCK: for every physical frame `f`,
`frame_allocation[f]` is true if and only if exactly one page-table entry is valid
with `frame_number = f`; in that case `frame_to_page[f]` is that page; and no two valid
pages share a frame. -/
theorem C5_frame_table (virtual_bits physical_bits page_sz : Nat) (pol : PageReplacementPolicy)
    (addrs : List Nat) (vm : VirtualMemory)
    (hrun : (VirtualMemory.new virtual_bits physical_bits page_sz pol).run addrs = some vm) :
    (∀ f, f < vm.num_physical_frames →
      (vm.frame_allocation.getD f false = true ↔
        ∃! p, p < vm.num_virtual_pages ∧ (vm.page_table.getD p {}).valid = true ∧
          (vm.page_table.getD p {}).frame_number = f)) ∧
    (∀ f, f < vm.num_physical_frames → vm.frame_allocation.getD f false = true →
      vm.frame_to_page.getD f 0 < vm.num_virtual_pages ∧
      (vm.page_table.getD (vm.frame_to_page.getD f 0) {}).valid = true ∧
      (vm.page_table.getD (vm.frame_to_page.getD f 0) {}).frame_number = f) ∧
    (∀ p q, p < vm.num_virtual_pages → q < vm.num_virtual_pages →
      (vm.page_table.getD p {}).valid = true → (vm.page_table.getD q {}).valid = true →
      (vm.page_table.getD p {}).frame_number = (vm.page_table.getD q {}).frame_number →
      p = q) := by
  have h : VMInv vm := vmInv_run addrs _ vm (vmInv_new _ _ _ _) hrun
  have hpart2 : ∀ f, f < vm.num_physical_frames → vm.frame_allocation.getD f false = true →
      vm.frame_to_page.getD f 0 < vm.num_virtual_pages ∧
      (vm.page_table.getD (vm.frame_to_page.getD f 0) {}).valid = true ∧
      (vm.page_table.getD (vm.frame_to_page.getD f 0) {}).frame_number = f := by
    intro f hf ha
    obtain ⟨p, h1, h2⟩ := h.frames.frame_page f ((alloc_get? vm h f hf).1 ha)
    have hp := key_lt vm h p _ h2
    have e : vm.frame_to_page.getD f 0 = p := by rw [getD_eq_get?, h1]; rfl
    rw [e]
    exact ⟨hp, (key_of_valid vm h p f hp).2 h2⟩
  have hpart3 : ∀ p q f, p < vm.num_virtual_pages → q < vm.num_virtual_pages →
      (vm.page_table.getD p {}).valid = true → (vm.page_table.getD q {}).valid = true →
      (vm.page_table.getD p {}).frame_number = f →
      (vm.page_table.getD q {}).frame_number = f → p = q := by
    intro p q f hp hq vp vq fp fq
    have kp := (key_of_valid vm h p f hp).1 ⟨vp, fp⟩
    have kq := (key_of_valid vm h q f hq).1 ⟨vq, fq⟩
    have h1 := (h.frames.page_frame p f kp).2
    have h2 := (h.frames.page_frame q f kq).2
    rw [h1] at h2
    simpa using h2
  refine ⟨?_, hpart2, ?_⟩
  · intro f hf
    constructor
    · intro ha
      obtain ⟨g1, g2, g3⟩ := hpart2 f hf ha
      refine ⟨vm.frame_to_page.getD f 0, ⟨g1, g2, g3⟩, ?_⟩
      intro q ⟨hq, vq, fq⟩
      exact hpart3 q _ f hq g1 vq g2 fq g3
    · intro ⟨p, ⟨hp, vp, fp⟩, _⟩
      have kp := (key_of_valid vm h p f hp).1 ⟨vp, fp⟩
      exact (alloc_get? vm h f hf).2 (h.frames.page_frame p f kp).1
  · intro p q hp hq vp vq hfr
    exact hpart3 p q _ hp hq vp vq hfr rfl

/-- Witness of **C5**: the FIFO scenario with 2 frames and pages of 16 bytes, after the
accesses 0, 16, 32, 0. -/
theorem C5_frame_table_witness :
    (∀ f, f < (VirtualMemory.scenario).num_physical_frames →
      ((VirtualMemory.scenario).frame_allocation.getD f false = true ↔
        ∃! p, p < (VirtualMemory.scenario).num_virtual_pages ∧
          ((VirtualMemory.scenario).page_table.getD p {}).valid = true ∧
          ((VirtualMemory.scenario).page_table.getD p {}).frame_number = f)) ∧
    (∀ f, f < (VirtualMemory.scenario).num_physical_frames →
      (VirtualMemory.scenario).frame_allocation.getD f false = true →
      (VirtualMemory.scenario).frame_to_page.getD f 0 < (VirtualMemory.scenario).num_virtual_pages ∧
      ((VirtualMemory.scenario).page_table.getD
        ((VirtualMemory.scenario).frame_to_page.getD f 0) {}).valid = true ∧
      ((VirtualMemory.scenario).page_table.getD
        ((VirtualMemory.scenario).frame_to_page.getD f 0) {}).frame_number = f) ∧
    (∀ p q, p < (VirtualMemory.scenario).num_virtual_pages →
      q < (VirtualMemory.scenario).num_virtual_pages →
      ((VirtualMemory.scenario).page_table.getD p {}).valid = true →
      ((VirtualMemory.scenario).page_table.getD q {}).valid = true →
      ((VirtualMemory.scenario).page_table.getD p {}).frame_number =
        ((VirtualMemory.scenario).page_table.getD q {}).frame_number → p = q) :=
  C5_frame_table 6 5 16 PageReplacementPolicy.FIFO [0, 16, 32, 0] VirtualMemory.scenario
    (by decide)

/-! ## Theorems: buddy allocator -/

theorem mapFind_mapInsert {α : Type} (k k' : Nat) (v : α) : ∀ (m : List (Nat × α)),
    mapFind k' (mapInsert k v m) = if k' = k then some v else mapFind k' m := by
  intro m
  induction m with
  | nil =>
    by_cases h : k' = k
    · simp [mapInsert, mapFind, h]
    · have : ¬ k = k' := fun e => h e.symm
      simp [mapInsert, mapFind, h, this]
  | cons x rest ih =>
    obtain ⟨kx, vx⟩ := x
    simp only [mapInsert]
    split
    · by_cases h : k' = k
      · simp [mapFind, h]
      · have : ¬ k = k' := fun e => h e.symm
        simp [mapFind, h, this]
    · split
      · rename_i h1 h2
        subst h2
        by_cases h : k' = k
        · simp [mapFind, h]
        · have : ¬ k = k' := fun e => h e.symm
          simp [mapFind, h, this]
      · rename_i h1 h2
        by_cases h : k' = k
        · subst h
          have : ¬ kx = k' := fun e => h2 e.symm
          simp only [mapFind, this, if_false, ih, if_true]
        · simp only [mapFind, ih, if_neg h]

theorem bucket_mapInsert (k k' : Nat) (v : List BuddyBlock) (fl : FreeLists) :
    bucket (mapInsert k v fl) k' = if k' = k then v else bucket fl k' := by
  unfold bucket
  rw [mapFind_mapInsert]
  split <;> rfl

theorem bucket_touch (k k' : Nat) (fl : FreeLists) : bucket (touch k fl) k' = bucket fl k' := by
  unfold touch
  cases h : mapFind k fl with
  | some v => rfl
  | none =>
    simp only
    rw [bucket_mapInsert]
    split
    · rename_i e
      subst e
      simp [bucket, h]
    · rfl

theorem bucket_pushBack (k k' : Nat) (b : BuddyBlock) (fl : FreeLists) :
    bucket (pushBack k b fl) k' = if k' = k then bucket fl k ++ [b] else bucket fl k' := by
  unfold pushBack
  rw [bucket_mapInsert]

theorem bucket_popBack (k k' : Nat) (fl : FreeLists) :
    bucket (popBack k fl) k' = if k' = k then (bucket fl k).dropLast else bucket fl k' := by
  unfold popBack
  rw [bucket_mapInsert]

theorem mapInsert_fresh {α : Type} (k : Int) (v : α) : ∀ (m : List (Int × α)),
    (∀ x ∈ m, x.1 < k) → mapInsert k v m = m ++ [(k, v)] := by
  intro m
  induction m with
  | nil => intro _; rfl
  | cons y rest ih =>
    intro h
    obtain ⟨ky, vy⟩ := y
    have hy : ky < k := h (ky, vy) (List.mem_cons_self _ _)
    simp only [mapInsert]
    rw [if_neg (by omega), if_neg (by omega), ih (fun x hx => h x (List.mem_cons_of_mem _ hx))]
    rfl

theorem mapFind_mem {κ α : Type} [DecidableEq κ] (k : κ) (v : α) : ∀ (m : List (κ × α)),
    mapFind k m = some v → (k, v) ∈ m := by
  intro m
  induction m with
  | nil => intro h; simp [mapFind] at h
  | cons y rest ih =>
    intro h
    obtain ⟨ky, vy⟩ := y
    simp only [mapFind] at h
    split at h
    · rename_i e
      simp only [Option.some.injEq] at h
      subst e; subst h
      exact List.mem_cons_self _ _
    · exact List.mem_cons_of_mem _ (ih h)

theorem two_mul_xor_one (q : Nat) : (2 * q) ^^^ 1 = 2 * q + 1 := by
  apply Nat.eq_of_testBit_eq
  intro i
  rw [Nat.testBit_xor]
  cases i with
  | zero => simp [Nat.testBit_zero]; omega
  | succ i =>
    rw [Nat.testBit_succ, Nat.testBit_succ, Nat.testBit_succ]
    have h1 : (2 * q) / 2 = q := by omega
    have h2 : (2 * q + 1) / 2 = q := by omega
    simp [h1, h2]

theorem two_mul_add_one_xor_one (q : Nat) : (2 * q + 1) ^^^ 1 = 2 * q := by
  apply Nat.eq_of_testBit_eq
  intro i
  rw [Nat.testBit_xor]
  cases i with
  | zero => simp [Nat.testBit_zero]; omega
  | succ i =>
    rw [Nat.testBit_succ, Nat.testBit_succ, Nat.testBit_succ]
    have h1 : (2 * q) / 2 = q := by omega
    have h2 : (2 * q + 1) / 2 = q := by omega
    simp [h1, h2]

theorem mul_xor_two_pow (e m : Nat) : (2 ^ e * m) ^^^ 2 ^ e = 2 ^ e * (m ^^^ 1) := by
  apply Nat.eq_of_testBit_eq
  intro i
  rw [Nat.testBit_xor, Nat.testBit_mul_pow_two, Nat.testBit_mul_pow_two, Nat.testBit_two_pow,
    Nat.testBit_xor]
  by_cases h : e ≤ i
  · by_cases h' : e = i
    · subst h'
      simp
    · have : i - e ≠ 0 := by omega
      obtain ⟨j, hj⟩ := Nat.exists_eq_succ_of_ne_zero this
      simp [h, h', hj, Nat.testBit_succ]
  · have : e ≠ i := by omega
    simp [h, this]

/-- The buddy of an aligned block: the two buddies are the halves of the parent block at
`p`, a multiple of twice the size. -/
theorem buddy_cases (e a : Nat) (h : 2 ^ e ∣ a) :
    ∃ p, 2 ^ (e + 1) ∣ p ∧
      ((a = p ∧ BuddyAllocator.getBuddyAddress a (2 ^ e) = p + 2 ^ e) ∨
       (a = p + 2 ^ e ∧ BuddyAllocator.getBuddyAddress a (2 ^ e) = p)) := by
  obtain ⟨m, rfl⟩ := h
  unfold BuddyAllocator.getBuddyAddress
  rw [mul_xor_two_pow]
  rcases Nat.even_or_odd' m with ⟨q, hq | hq⟩
  · subst hq
    refine ⟨2 ^ (e + 1) * q, Dvd.intro _ rfl, Or.inl ⟨by ring, ?_⟩⟩
    rw [two_mul_xor_one]; ring
  · subst hq
    refine ⟨2 ^ (e + 1) * q, Dvd.intro _ rfl, Or.inr ⟨by ring, ?_⟩⟩
    rw [two_mul_add_one_xor_one]; ring

/-- Replacing the live blocks `removed` by the blocks `added`, which cover the same
addresses, keeps the tiling. -/
theorem core_update (total min_size : Nat) (fl fl' : FreeLists)
    (al al' : List (Int × BuddyBlock)) (removed added : List BuddyBlock)
    (h : BuddyCore total min_size fl al)
    (hkey : ∀ k, ∀ b ∈ bucket fl' k, b.size = k ∧ b.is_free = true ∧ b.block_id = -1)
    (halloc : ∀ id b, (id, b) ∈ al' → b.block_id = id ∧ b.is_free = false)
    (hallocnd : (al'.map Prod.fst).Nodup)
    (hnodup : ∀ k, (bucket fl' k).Nodup)
    (hold : ∀ b, BuddyLive fl' al' b → (BuddyLive fl al b ∧ b ∉ removed) ∨ b ∈ added)
    (hkeep : ∀ b, BuddyLive fl al b → b ∉ removed → BuddyLive fl' al' b)
    (hadded : ∀ b ∈ added, BuddyLive fl' al' b)
    (hshape : ∀ b ∈ added, (∃ e, b.size = 2 ^ e) ∧ b.size ∣ b.address ∧
      b.address + b.size ≤ total ∧ (min_size ≤ b.size ∨ b.size = total))
    (hrem : ∀ r ∈ removed, ∀ x, r.covers x → ∃ a ∈ added, a.covers x)
    (hadd : ∀ a ∈ added, ∀ x, a.covers x → ∃ r ∈ removed, BuddyLive fl al r ∧ r.covers x)
    (hdisj : ∀ a ∈ added, ∀ a' ∈ added, ∀ x, a.covers x → a'.covers x → a = a') :
    BuddyCore total min_size fl' al' := by
  refine ⟨hkey, halloc, hallocnd, ?_, hnodup, ?_, ?_⟩
  · intro b hb
    rcases hold b hb with ⟨h1, _⟩ | h1
    · exact h.shape b h1
    · exact hshape b h1
  · intro b c x hb hc hbx hcx
    rcases hold b hb with ⟨hb1, hb2⟩ | hb1
    · rcases hold c hc with ⟨hc1, hc2⟩ | hc1
      · exact h.disjoint b c x hb1 hc1 hbx hcx
      · obtain ⟨r, hr, hrl, hrx⟩ := hadd c hc1 x hcx
        have := h.disjoint r b x hrl hb1 hrx hbx
        subst this
        exact absurd hr hb2
    · rcases hold c hc with ⟨hc1, hc2⟩ | hc1
      · obtain ⟨r, hr, hrl, hrx⟩ := hadd b hb1 x hbx
        have := h.disjoint r c x hrl hc1 hrx hcx
        subst this
        exact absurd hr hc2
      · exact hdisj b hb1 c hc1 x hbx hcx
  · intro x hx
    obtain ⟨b, hb, hbx⟩ := h.cover x hx
    by_cases hr : b ∈ removed
    · obtain ⟨a, ha, hax⟩ := hrem b hr x hbx
      exact ⟨a, hadded a ha, hax⟩
    · exact ⟨b, hkeep b hb hr, hbx⟩

/-- The core invariant only reads the contents of the buckets. -/
theorem core_congr (total min_size : Nat) (fl fl' : FreeLists) (al : List (Int × BuddyBlock))
    (h : BuddyCore total min_size fl al) (hb : ∀ k, bucket fl' k = bucket fl k) :
    BuddyCore total min_size fl' al := by
  have hl : ∀ b, BuddyLive fl' al b ↔ BuddyLive fl al b := by
    intro b
    unfold BuddyLive
    simp only [hb]
  refine ⟨?_, h.alloc, h.alloc_nodup, ?_, ?_, ?_, ?_⟩
  · intro k b hk; rw [hb] at hk; exact h.key k b hk
  · intro b hlb; exact h.shape b ((hl b).1 hlb)
  · intro k; rw [hb]; exact h.nodup k
  · intro b c x h1 h2; exact h.disjoint b c x ((hl b).1 h1) ((hl c).1 h2)
  · intro x hx
    obtain ⟨b, h1, h2⟩ := h.cover x hx
    exact ⟨b, (hl b).2 h1, h2⟩

theorem bucket_splitStep (b : Nat) (block : BuddyBlock) (fl : FreeLists) (k : Nat)
    (hb : 0 < b) :
    bucket (splitStep b block fl) k =
      if k = b / 2 then
        bucket fl (b / 2) ++ [{ address := block.address, size := b / 2 },
          { address := (block.address + b / 2) % SIZE_MOD, size := b / 2 }]
      else if k = b then (bucket fl b).dropLast else bucket fl k := by
  have hne : b / 2 ≠ b := by omega
  unfold splitStep
  rw [bucket_pushBack, bucket_pushBack, bucket_pushBack, bucket_popBack, bucket_popBack]
  by_cases h1 : k = b / 2
  · subst h1
    simp [hne]
  · simp [h1]

theorem live_free (fl : FreeLists) (al : List (Int × BuddyBlock)) (k : Nat) (b : BuddyBlock)
    (h : b ∈ bucket fl k) : BuddyLive fl al b := Or.inl ⟨k, h⟩

theorem live_alloc (fl : FreeLists) (al : List (Int × BuddyBlock)) (id : Int) (b : BuddyBlock)
    (h : (id, b) ∈ al) : BuddyLive fl al b := Or.inr ⟨id, h⟩

theorem getLast?_split {α : Type} (l : List α) (a : α) (h : l.getLast? = some a) :
    l = l.dropLast ++ [a] := (List.dropLast_append_getLast? a h).symm

theorem core_splitStep (total min_size : Nat) (fl : FreeLists) (al : List (Int × BuddyBlock))
    (b e : Nat) (block : BuddyBlock) (h : BuddyCore total min_size fl al)
    (hlast : (bucket fl b).getLast? = some block) (hb : b = 2 ^ (e + 1))
    (hmin : min_size ≤ 2 ^ e) (htot : total < SIZE_MOD) :
    BuddyCore total min_size (splitStep b block fl) al := by
  have hsplit := getLast?_split _ _ hlast
  have hmem : block ∈ bucket fl b := by rw [hsplit]; simp
  have hlive : BuddyLive fl al block := live_free fl al b block hmem
  obtain ⟨hsz, hfree, _⟩ := h.key b block hmem
  obtain ⟨_, hdvd, hin, _⟩ := h.shape block hlive
  have hpos : 0 < 2 ^ e := Nat.two_pow_pos e
  have hb2 : b = 2 * 2 ^ e := by rw [hb, pow_succ]; ring
  have hhalf : b / 2 = 2 ^ e := by omega
  generalize 2 ^ e = hh at hpos hb2 hhalf hmin
  have hbpos : 0 < b := by omega
  have hmod : (block.address + hh) % SIZE_MOD = block.address + hh :=
    Nat.mod_eq_of_lt (by omega)
  have hdvd' : hh ∣ block.address := by
    rw [hsz] at hdvd
    exact dvd_trans ⟨2, by omega⟩ hdvd
  have hnd := h.nodup b
  rw [hsplit, List.nodup_append] at hnd
  have hnotin : block ∉ (bucket fl b).dropLast := fun hc => hnd.2.2 hc (by simp)
  have hbk : ∀ k, bucket (splitStep b block fl) k =
      if k = hh then
        bucket fl hh ++ [{ address := block.address, size := hh },
          { address := block.address + hh, size := hh }]
      else if k = b then (bucket fl b).dropLast else bucket fl k := by
    intro k
    rw [bucket_splitStep b block fl k hbpos, hhalf, hmod]
  have hLnot : ∀ c ∈ bucket fl hh, c.covers block.address → False := by
    intro c hc hcov
    have := h.disjoint c block block.address (live_free fl al hh c hc) hlive hcov
      ⟨le_refl _, by omega⟩
    have hs := (h.key hh c hc).1
    rw [this] at hs
    omega
  have hRnot : ∀ c ∈ bucket fl hh, c.covers (block.address + hh) → False := by
    intro c hc hcov
    have := h.disjoint c block (block.address + hh) (live_free fl al hh c hc) hlive hcov
      ⟨by omega, by omega⟩
    have hs := (h.key hh c hc).1
    rw [this] at hs
    omega
  apply core_update total min_size fl (splitStep b block fl) al al [block]
    [{ address := block.address, size := hh }, { address := block.address + hh, size := hh }] h
  · intro k c hc
    rw [hbk] at hc
    split at hc
    · rename_i hk
      subst hk
      rcases List.mem_append.1 hc with h1 | h1
      · exact h.key _ c h1
      · simp only [List.mem_cons, List.mem_singleton, List.not_mem_nil, or_false] at h1
        rcases h1 with rfl | rfl <;> exact ⟨rfl, rfl, rfl⟩
    · split at hc
      · rename_i _ hk
        subst hk
        exact h.key _ c (List.mem_of_mem_dropLast hc)
      · exact h.key k c hc
  · exact h.alloc
  · exact h.alloc_nodup
  · intro k
    rw [hbk]
    split
    · rw [List.nodup_append]
      refine ⟨h.nodup hh, ?_, ?_⟩
      · simp only [List.nodup_cons, List.mem_singleton, BuddyBlock.mk.injEq, and_true,
          List.not_mem_nil, not_false_eq_true, List.nodup_nil]
        omega
      · intro c hc hc'
        simp only [List.mem_cons, List.mem_singleton, List.not_mem_nil, or_false] at hc'
        rcases hc' with rfl | rfl
        · exact hLnot _ hc ⟨le_refl _, by simp only; omega⟩
        · exact hRnot _ hc ⟨le_refl _, by simp only; omega⟩
    · split
      · exact (h.nodup b).sublist (List.dropLast_sublist _)
      · exact h.nodup k
  · intro c hc
    rcases hc with ⟨k, hk⟩ | ⟨id, hid⟩
    · rw [hbk] at hk
      split at hk
      · rename_i hkh
        rcases List.mem_append.1 hk with h1 | h1
        · left
          refine ⟨live_free fl al hh c h1, ?_⟩
          simp only [List.mem_singleton]
          intro hcb
          have hs := (h.key hh c h1).1
          rw [hcb] at hs
          omega
        · right; exact h1
      · split at hk
        · left
          refine ⟨live_free fl al b c (List.mem_of_mem_dropLast hk), ?_⟩
          simp only [List.mem_singleton]
          intro hcb
          subst hcb
          exact hnotin hk
        · rename_i hk1 hk2
          left
          refine ⟨live_free fl al k c hk, ?_⟩
          simp only [List.mem_singleton]
          intro hcb
          have hs := (h.key k c hk).1
          rw [hcb] at hs
          omega
    · left
      refine ⟨live_alloc fl al id c hid, ?_⟩
      simp only [List.mem_singleton]
      intro hcb
      have := (h.alloc id c hid).2
      rw [hcb, hfree] at this
      exact absurd this (by simp)
  · intro c hc hnr
    simp only [List.mem_singleton] at hnr
    rcases hc with ⟨k, hk⟩ | ⟨id, hid⟩
    · left
      refine ⟨k, ?_⟩
      rw [hbk]
      split
      · rename_i hkh
        subst hkh
        exact List.mem_append_left _ hk
      · split
        · rename_i _ hkb
          subst hkb
          rw [hsplit] at hk
          rcases List.mem_append.1 hk with h1 | h1
          · exact h1
          · simp only [List.mem_singleton] at h1
            exact absurd h1 hnr
        · exact hk
    · exact live_alloc _ al id c hid
  · intro c hc
    left
    refine ⟨hh, ?_⟩
    rw [hbk, if_pos rfl]
    exact List.mem_append_right _ hc
  · intro c hc
    simp only [List.mem_cons, List.mem_singleton, List.not_mem_nil, or_false] at hc
    rcases hc with rfl | rfl
    · exact ⟨⟨e, by simp only; omega⟩, hdvd', by simp only; omega, Or.inl hmin⟩
    · refine ⟨⟨e, by simp only; omega⟩, ?_, by simp only; omega, Or.inl hmin⟩
      exact Dvd.dvd.add hdvd' (dvd_refl _)
  · intro r hr x hx
    simp only [List.mem_singleton] at hr
    subst hr
    obtain ⟨h1, h2⟩ := hx
    by_cases hlt : x < r.address + hh
    · exact ⟨_, List.mem_cons_self _ _, ⟨h1, hlt⟩⟩
    · exact ⟨_, List.mem_cons_of_mem _ (List.mem_singleton.2 rfl), ⟨by simp only; omega, by
        simp only; omega⟩⟩
  · intro a ha x hx
    simp only [List.mem_cons, List.mem_singleton, List.not_mem_nil, or_false] at ha
    refine ⟨block, List.mem_singleton.2 rfl, hlive, ?_⟩
    obtain ⟨h1, h2⟩ := hx
    rcases ha with rfl | rfl
    · simp only at h1 h2
      exact ⟨h1, by omega⟩
    · simp only at h1 h2
      exact ⟨by omega, by omega⟩
  · intro a ha a' ha' x hx hx'
    simp only [List.mem_cons, List.mem_singleton, List.not_mem_nil, or_false] at ha ha'
    obtain ⟨h1, h2⟩ := hx
    obtain ⟨h3, h4⟩ := hx'
    rcases ha with rfl | rfl <;> rcases ha' with rfl | rfl <;> simp only at h1 h2 h3 h4 <;>
      first | rfl | omega

theorem keys_unique {α : Type} : ∀ (l : List (Int × α)) (k : Int) (v v' : α),
    (l.map Prod.fst).Nodup → (k, v) ∈ l → (k, v') ∈ l → v = v' := by
  intro l
  induction l with
  | nil => intro k v v' _ h; simp at h
  | cons y rest ih =>
    intro k v v' hnd h1 h2
    simp only [List.map_cons, List.nodup_cons, List.mem_map, not_exists, not_and] at hnd
    rcases List.mem_cons.1 h1 with e1 | e1
    · rcases List.mem_cons.1 h2 with e2 | e2
      · rw [← e1] at e2
        exact (Prod.mk.inj e2).2.symm
      · exact absurd (by rw [← e1]) (hnd.1 (k, v') e2)
    · rcases List.mem_cons.1 h2 with e2 | e2
      · exact absurd (by rw [← e2]) (hnd.1 (k, v) e1)
      · exact ih k v v' hnd.2 e1 e2

/-- The end of a successful `malloc`: the last block of bucket `size` moves to the
allocated map under the fresh id. -/
theorem core_take (total min_size : Nat) (fl : FreeLists) (al : List (Int × BuddyBlock))
    (size : Nat) (id : Int) (r : BuddyBlock) (h : BuddyCore total min_size fl al)
    (hlast : (bucket fl size).getLast? = some r) (hfresh : ∀ x ∈ al, x.1 < id) :
    BuddyCore total min_size (popBack size fl)
      (mapInsert id { r with is_free := false, block_id := id } al) := by
  have hsplit := getLast?_split _ _ hlast
  have hmem : r ∈ bucket fl size := by rw [hsplit]; simp
  have hlive : BuddyLive fl al r := live_free fl al size r hmem
  obtain ⟨hsz, hfree, _⟩ := h.key size r hmem
  have hnd := h.nodup size
  rw [hsplit, List.nodup_append] at hnd
  have hnotin : r ∉ (bucket fl size).dropLast := fun hc => hnd.2.2 hc (by simp)
  rw [mapInsert_fresh id _ al hfresh]
  have hbk : ∀ k, bucket (popBack size fl) k =
      if k = size then (bucket fl size).dropLast else bucket fl k := fun k => bucket_popBack _ _ _
  have hsub : ∀ k c, c ∈ bucket (popBack size fl) k → c ∈ bucket fl k ∧ c ≠ r := by
    intro k c hc
    rw [hbk] at hc
    split at hc
    · rename_i hk
      subst hk
      exact ⟨List.mem_of_mem_dropLast hc, fun e => hnotin (e ▸ hc)⟩
    · rename_i hk
      refine ⟨hc, fun e => hk ?_⟩
      rw [← (h.key k c hc).1, e, hsz]
  apply core_update total min_size fl _ al _ [r] [{ r with is_free := false, block_id := id }] h
  · intro k c hc
    exact h.key k c (hsub k c hc).1
  · intro id' c hc
    rcases List.mem_append.1 hc with h1 | h1
    · exact h.alloc id' c h1
    · simp only [List.mem_singleton, Prod.mk.injEq] at h1
      obtain ⟨rfl, rfl⟩ := h1
      exact ⟨rfl, rfl⟩
  · rw [List.map_append, List.nodup_append]
    refine ⟨h.alloc_nodup, by simp, ?_⟩
    intro a ha ha'
    simp only [List.map_cons, List.map_nil, List.mem_singleton] at ha'
    obtain ⟨x, hx, hxa⟩ := List.mem_map.1 ha
    have := hfresh x hx
    omega
  · intro k
    rw [hbk]
    split
    · exact (h.nodup size).sublist (List.dropLast_sublist _)
    · exact h.nodup k
  · intro c hc
    rcases hc with ⟨k, hk⟩ | ⟨id', hid⟩
    · left
      obtain ⟨h1, h2⟩ := hsub k c hk
      exact ⟨live_free fl al k c h1, by simpa using h2⟩
    · rcases List.mem_append.1 hid with h1 | h1
      · left
        refine ⟨live_alloc fl al id' c h1, ?_⟩
        simp only [List.mem_singleton]
        intro e
        have := (h.alloc id' c h1).2
        rw [e, hfree] at this
        exact absurd this (by simp)
      · right
        simp only [List.mem_singleton, Prod.mk.injEq] at h1
        simp [h1.2]
  · intro c hc hnr
    simp only [List.mem_singleton] at hnr
    rcases hc with ⟨k, hk⟩ | ⟨id', hid⟩
    · left
      refine ⟨k, ?_⟩
      rw [hbk]
      split
      · rename_i hks
        subst hks
        rw [hsplit] at hk
        rcases List.mem_append.1 hk with h1 | h1
        · exact h1
        · simp only [List.mem_singleton] at h1
          exact absurd h1 hnr
      · exact hk
    · exact live_alloc _ _ id' c (List.mem_append_left _ hid)
  · intro c hc
    simp only [List.mem_singleton] at hc
    subst hc
    exact live_alloc _ _ id _ (List.mem_append_right _ (List.mem_singleton.2 rfl))
  · intro c hc
    simp only [List.mem_singleton] at hc
    subst hc
    exact h.shape r hlive
  · intro c hc x hx
    simp only [List.mem_singleton] at hc
    subst hc
    exact ⟨_, List.mem_singleton.2 rfl, hx⟩
  · intro c hc x hx
    simp only [List.mem_singleton] at hc
    subst hc
    exact ⟨r, List.mem_singleton.2 rfl, hlive, hx⟩
  · intro a ha a' ha' x _ _
    simp only [List.mem_singleton] at ha ha'
    rw [ha, ha']

/-- The start of a successful `free`: the block of the id moves from the allocated map to
the bucket of its size. -/
theorem core_release (total min_size : Nat) (fl : FreeLists) (al : List (Int × BuddyBlock))
    (id : Int) (blk : BuddyBlock) (h : BuddyCore total min_size fl al)
    (hfind : mapFind id al = some blk) :
    BuddyCore total min_size
      (pushBack blk.size { blk with is_free := true, block_id := -1 } fl)
      (mapErase id al) := by
  have hmem : (id, blk) ∈ al := mapFind_mem id blk al hfind
  have hlive : BuddyLive fl al blk := live_alloc fl al id blk hmem
  obtain ⟨hbid, hbfree⟩ := h.alloc id blk hmem
  obtain ⟨⟨e, he⟩, _, _, _⟩ := h.shape blk hlive
  have hpos : 0 < blk.size := by rw [he]; exact Nat.two_pow_pos e
  have hbk : ∀ k, bucket (pushBack blk.size { blk with is_free := true, block_id := -1 } fl) k =
      if k = blk.size then bucket fl blk.size ++ [{ blk with is_free := true, block_id := -1 }]
      else bucket fl k := fun k => bucket_pushBack _ _ _ _
  have hfl : ∀ k c, c ∈ bucket fl k → c ≠ blk := by
    intro k c hc e
    have := (h.key k c hc).2.1
    rw [e, hbfree] at this
    exact absurd this (by simp)
  have hal : ∀ id' c, (id', c) ∈ mapErase id al ↔ (id', c) ∈ al ∧ id' ≠ id := by
    intro id' c
    unfold mapErase
    simp [List.mem_filter]
  apply core_update total min_size fl _ al _ [blk] [{ blk with is_free := true, block_id := -1 }] h
  · intro k c hc
    rw [hbk] at hc
    split at hc
    · rename_i hk
      subst hk
      rcases List.mem_append.1 hc with h1 | h1
      · exact h.key _ c h1
      · simp only [List.mem_singleton] at h1
        subst h1
        exact ⟨rfl, rfl, rfl⟩
    · exact h.key k c hc
  · intro id' c hc
    exact h.alloc id' c ((hal id' c).1 hc).1
  · unfold mapErase
    exact h.alloc_nodup.sublist ((List.filter_sublist _).map _)
  · intro k
    rw [hbk]
    split
    · rw [List.nodup_append]
      refine ⟨h.nodup _, by simp, ?_⟩
      intro c hc hc'
      simp only [List.mem_singleton] at hc'
      have := h.disjoint c blk blk.address (live_free fl al _ c hc) hlive
        (by rw [hc']; exact ⟨le_refl _, by simp only; omega⟩) ⟨le_refl _, by omega⟩
      exact hfl _ c hc this
    · exact h.nodup k
  · intro c hc
    rcases hc with ⟨k, hk⟩ | ⟨id', hid⟩
    · rw [hbk] at hk
      split at hk
      · rcases List.mem_append.1 hk with h1 | h1
        · left
          exact ⟨live_free fl al _ c h1, by simpa using hfl _ c h1⟩
        · right; exact h1
      · left
        exact ⟨live_free fl al _ c hk, by simpa using hfl _ c hk⟩
    · left
      obtain ⟨h1, h2⟩ := (hal id' c).1 hid
      refine ⟨live_alloc fl al id' c h1, ?_⟩
      simp only [List.mem_singleton]
      intro e
      have := (h.alloc id' c h1).1
      rw [e, hbid] at this
      exact h2 this.symm
  · intro c hc hnr
    simp only [List.mem_singleton] at hnr
    rcases hc with ⟨k, hk⟩ | ⟨id', hid⟩
    · left
      refine ⟨k, ?_⟩
      rw [hbk]
      split
      · rename_i hks
        subst hks
        exact List.mem_append_left _ hk
      · exact hk
    · right
      refine ⟨id', (hal id' c).2 ⟨hid, ?_⟩⟩
      intro e
      subst e
      exact hnr (keys_unique al id' c blk h.alloc_nodup hid hmem)
  · intro c hc
    simp only [List.mem_singleton] at hc
    subst hc
    left
    refine ⟨blk.size, ?_⟩
    rw [hbk, if_pos rfl]
    exact List.mem_append_right _ (List.mem_singleton.2 rfl)
  · intro c hc
    simp only [List.mem_singleton] at hc
    subst hc
    exact h.shape blk hlive
  · intro c hc x hx
    simp only [List.mem_singleton] at hc
    subst hc
    exact ⟨_, List.mem_singleton.2 rfl, hx⟩
  · intro c hc x hx
    simp only [List.mem_singleton] at hc
    subst hc
    exact ⟨blk, List.mem_singleton.2 rfl, hlive, hx⟩
  · intro a ha a' ha' x _ _
    simp only [List.mem_singleton] at ha ha'
    rw [ha, ha']

theorem mem_eraseIdx_nodup {α : Type} (l : List α) (k : Nat) (y c : α) (hnd : l.Nodup)
    (hk : l[k]? = some y) : c ∈ l.eraseIdx k ↔ c ∈ l ∧ c ≠ y := by
  rw [List.mem_eraseIdx_iff_getElem?]
  constructor
  · rintro ⟨a, hak, ha⟩
    refine ⟨List.getElem?_mem ha, ?_⟩
    intro e
    subst e
    have hlt : a < l.length := by
      by_contra hcon
      rw [List.getElem?_eq_none (by omega)] at ha
      exact absurd ha (by simp)
    exact hak (List.getElem?_inj hlt hnd (by rw [ha, hk]))
  · rintro ⟨hc, hne⟩
    obtain ⟨a, ha⟩ := List.getElem?_of_mem hc
    refine ⟨a, ?_, ha⟩
    intro e
    subst e
    rw [ha] at hk
    exact hne (Option.some.inj hk)

theorem mem_erase_two {α : Type} (l : List α) (i j : Nat) (x y c : α) (hnd : l.Nodup)
    (hi : l[i]? = some x) (hj : l[j]? = some y) (hij : i ≠ j) :
    c ∈ (l.eraseIdx (max i j)).eraseIdx (min i j) ↔ c ∈ l ∧ c ≠ x ∧ c ≠ y := by
  have hlt : min i j < max i j := by omega
  have hnd' : (l.eraseIdx (max i j)).Nodup := hnd.sublist (List.eraseIdx_sublist _ _)
  rcases Nat.lt_or_gt_of_ne hij with h | h
  · have e1 : max i j = j := by omega
    have e2 : min i j = i := by omega
    rw [e1, e2]
    rw [e1] at hnd'
    rw [mem_eraseIdx_nodup (l.eraseIdx j) i x c hnd'
      (by rw [List.getElem?_eraseIdx_of_lt _ _ _ h]; exact hi),
      mem_eraseIdx_nodup l j y c hnd hj]
    tauto
  · have e1 : max i j = i := by omega
    have e2 : min i j = j := by omega
    rw [e1, e2]
    rw [e1] at hnd'
    rw [mem_eraseIdx_nodup (l.eraseIdx i) j y c hnd'
      (by rw [List.getElem?_eraseIdx_of_lt _ _ _ h]; exact hj),
      mem_eraseIdx_nodup l i x c hnd hi]
    tauto

theorem getD_of_getElem? {α : Type} (l : List α) (i : Nat) (x d : α) (h : l[i]? = some x) :
    l.getD i d = x := by
  rw [List.getD_eq_getElem?_getD, h]
  rfl

theorem bucket_mergePair (s i j : Nat) (fl : FreeLists) (x y : BuddyBlock) (k : Nat)
    (hs : 0 < s) (hs2 : s * 2 < SIZE_MOD)
    (hi : (bucket fl s)[i]? = some x) (hj : (bucket fl s)[j]? = some y) :
    bucket (BuddyAllocator.mergePair s i j fl) k =
      if k = s then ((bucket fl s).eraseIdx (max i j)).eraseIdx (min i j)
      else if k = s * 2 then
        bucket fl (s * 2) ++ [{ address := min x.address y.address, size := s * 2 }]
      else bucket fl k := by
  unfold BuddyAllocator.mergePair
  simp only [Nat.mod_eq_of_lt hs2, getD_of_getElem? _ _ _ _ hi, getD_of_getElem? _ _ _ _ hj]
  rw [bucket_mapInsert, bucket_pushBack, bucket_pushBack]
  have hne : s ≠ s * 2 := by omega
  by_cases h1 : k = s
  · subst h1
    simp [hne]
  · simp [h1]

theorem two_pow_lt_double (e t : Nat) (h : 2 ^ e < 2 ^ t) : 2 ^ e * 2 ≤ 2 ^ t := by
  have h1 : e < t := (Nat.pow_lt_pow_iff_right (by norm_num)).1 h
  have h2 : 2 ^ (e + 1) ≤ 2 ^ t := Nat.pow_le_pow_right (by norm_num) h1
  rw [pow_succ] at h2
  exact h2

/-- One merge of `mergeBuddies`: two buddies of bucket `s` become their parent block in
bucket `2 * s`. -/
theorem core_mergePair (total min_size : Nat) (fl : FreeLists) (al : List (Int × BuddyBlock))
    (s e t i j : Nat) (x y : BuddyBlock) (h : BuddyCore total min_size fl al)
    (hs : s = 2 ^ e) (ht : total = 2 ^ t) (hst : s < total) (htot : total < SIZE_MOD)
    (hi : (bucket fl s)[i]? = some x) (hj : (bucket fl s)[j]? = some y) (hij : i ≠ j)
    (hbud : y.address = BuddyAllocator.getBuddyAddress x.address s) :
    BuddyCore total min_size (BuddyAllocator.mergePair s i j fl) al := by
  have hxm : x ∈ bucket fl s := List.getElem?_mem hi
  have hym : y ∈ bucket fl s := List.getElem?_mem hj
  have hxl := live_free fl al s x hxm
  have hyl := live_free fl al s y hym
  obtain ⟨hxs, hxf, _⟩ := h.key s x hxm
  obtain ⟨hys, hyf, _⟩ := h.key s y hym
  obtain ⟨_, hxd, hxin, hxmin⟩ := h.shape x hxl
  obtain ⟨_, hyd, hyin, _⟩ := h.shape y hyl
  have hpos : 0 < s := by rw [hs]; exact Nat.two_pow_pos e
  have h2le : s * 2 ≤ total := by rw [hs, ht]; rw [hs, ht] at hst; exact two_pow_lt_double e t hst
  have hs2 : s * 2 < SIZE_MOD := by omega
  rw [hxs, hs] at hxd
  obtain ⟨p, hp, hcase⟩ := buddy_cases e x.address hxd
  rw [← hs] at hcase
  rw [← hbud] at hcase
  have hp' : s * 2 ∣ p := by rw [hs, ← pow_succ]; exact hp
  have hmin : min x.address y.address = p := by
    rcases hcase with ⟨h1, h2⟩ | ⟨h1, h2⟩ <;> omega
  have hbk : ∀ k, bucket (BuddyAllocator.mergePair s i j fl) k =
      if k = s then ((bucket fl s).eraseIdx (max i j)).eraseIdx (min i j)
      else if k = s * 2 then bucket fl (s * 2) ++ [{ address := p, size := s * 2 }]
      else bucket fl k := by
    intro k
    rw [bucket_mergePair s i j fl x y k hpos hs2 hi hj, hmin]
  have her := fun c => mem_erase_two (bucket fl s) i j x y c (h.nodup s) hi hj hij
  have hpin : p + s * 2 ≤ total := by
    rcases hcase with ⟨h1, h2⟩ | ⟨h1, h2⟩ <;> omega
  have hMnot : ∀ c ∈ bucket fl (s * 2), c.covers p → False := by
    intro c hc hcov
    have hcs := (h.key _ c hc).1
    rcases hcase with ⟨h1, h2⟩ | ⟨h1, h2⟩
    · have := h.disjoint c x p (live_free fl al _ c hc) hxl hcov ⟨by omega, by omega⟩
      rw [this] at hcs; omega
    · have := h.disjoint c y p (live_free fl al _ c hc) hyl hcov ⟨by omega, by omega⟩
      rw [this] at hcs; omega
  apply core_update total min_size fl _ al al [x, y] [{ address := p, size := s * 2 }] h
  · intro k c hc
    rw [hbk] at hc
    split at hc
    · rename_i hk
      subst hk
      exact h.key _ c ((her c).1 hc).1
    · split at hc
      · rename_i _ hk
        subst hk
        rcases List.mem_append.1 hc with h1 | h1
        · exact h.key _ c h1
        · simp only [List.mem_singleton] at h1
          subst h1
          exact ⟨rfl, rfl, rfl⟩
      · exact h.key k c hc
  · exact h.alloc
  · exact h.alloc_nodup
  · intro k
    rw [hbk]
    split
    · exact ((h.nodup s).sublist (List.eraseIdx_sublist _ _)).sublist (List.eraseIdx_sublist _ _)
    · split
      · rw [List.nodup_append]
        refine ⟨h.nodup _, by simp, ?_⟩
        intro c hc hc'
        simp only [List.mem_singleton] at hc'
        exact hMnot c hc (by rw [hc']; exact ⟨le_refl _, by simp only; omega⟩)
      · exact h.nodup k
  · intro c hc
    rcases hc with ⟨k, hk⟩ | ⟨id, hid⟩
    · rw [hbk] at hk
      split at hk
      · left
        obtain ⟨h1, h2, h3⟩ := (her c).1 hk
        exact ⟨live_free fl al _ c h1, by simp [h2, h3]⟩
      · split at hk
        · rcases List.mem_append.1 hk with h1 | h1
          · left
            refine ⟨live_free fl al _ c h1, ?_⟩
            have hcs := (h.key _ c h1).1
            simp only [List.mem_cons, List.mem_singleton, List.not_mem_nil, or_false, not_or]
            constructor <;> intro e <;> rw [e] at hcs <;> omega
          · right; exact h1
        · rename_i hk1 hk2
          left
          refine ⟨live_free fl al _ c hk, ?_⟩
          have hcs := (h.key _ c hk).1
          simp only [List.mem_cons, List.mem_singleton, List.not_mem_nil, or_false, not_or]
          constructor <;> intro e <;> rw [e] at hcs <;> omega
    · left
      refine ⟨live_alloc fl al id c hid, ?_⟩
      have hcf := (h.alloc id c hid).2
      simp only [List.mem_cons, List.mem_singleton, List.not_mem_nil, or_false, not_or]
      constructor <;> intro e <;> rw [e] at hcf
      · rw [hxf] at hcf; exact absurd hcf (by simp)
      · rw [hyf] at hcf; exact absurd hcf (by simp)
  · intro c hc hnr
    simp only [List.mem_cons, List.mem_singleton, List.not_mem_nil, or_false, not_or] at hnr
    rcases hc with ⟨k, hk⟩ | ⟨id, hid⟩
    · left
      refine ⟨k, ?_⟩
      rw [hbk]
      split
      · rename_i hks
        subst hks
        exact (her c).2 ⟨hk, hnr.1, hnr.2⟩
      · split
        · rename_i _ hks
          subst hks
          exact List.mem_append_left _ hk
        · exact hk
    · exact live_alloc _ al id c hid
  · intro c hc
    simp only [List.mem_singleton] at hc
    subst hc
    left
    refine ⟨s * 2, ?_⟩
    have hne : s * 2 ≠ s := by omega
    rw [hbk, if_neg hne, if_pos rfl]
    exact List.mem_append_right _ (List.mem_singleton.2 rfl)
  · intro c hc
    simp only [List.mem_singleton] at hc
    subst hc
    refine ⟨⟨e + 1, by simp only; rw [hs, pow_succ]⟩, hp', hpin, ?_⟩
    left
    simp only
    rcases hxmin with h1 | h1 <;> omega
  · intro r hr z hz
    simp only [List.mem_cons, List.mem_singleton, List.not_mem_nil, or_false] at hr
    refine ⟨_, List.mem_singleton.2 rfl, ?_⟩
    obtain ⟨h1, h2⟩ := hz
    rcases hr with rfl | rfl <;> rcases hcase with ⟨g1, g2⟩ | ⟨g1, g2⟩ <;>
      exact ⟨by simp only; omega, by simp only; omega⟩
  · intro a ha z hz
    simp only [List.mem_singleton] at ha
    subst ha
    obtain ⟨h1, h2⟩ := hz
    simp only at h1 h2
    rcases hcase with ⟨g1, g2⟩ | ⟨g1, g2⟩
    · by_cases hlt : z < p + s
      · exact ⟨x, by simp, hxl, ⟨by omega, by omega⟩⟩
      · exact ⟨y, by simp, hyl, ⟨by omega, by omega⟩⟩
    · by_cases hlt : z < p + s
      · exact ⟨y, by simp, hyl, ⟨by omega, by omega⟩⟩
      · exact ⟨x, by simp, hxl, ⟨by omega, by omega⟩⟩
  · intro a ha a' ha' z _ _
    simp only [List.mem_singleton] at ha ha'
    rw [ha, ha']

theorem splitDown_step (size fuel b : Nat) (fl : FreeLists) (block : BuddyBlock)
    (hb : b > size) (hlast : (bucket fl b).getLast? = some block) :
    BuddyAllocator.splitDown size (fuel + 1) b fl =
      BuddyAllocator.splitDown size fuel (b / 2) (splitStep b block fl) := by
  simp only [BuddyAllocator.splitDown, if_pos hb, hlast, splitStep]

theorem splitDown_done (size fuel : Nat) (fl : FreeLists) :
    BuddyAllocator.splitDown size fuel size fl = some (size, fl) := by
  cases fuel <;> simp [BuddyAllocator.splitDown]

theorem getLast?_of_ne_nil {α : Type} (l : List α) (h : l ≠ []) : ∃ a, l.getLast? = some a := by
  cases hl : l.getLast? with
  | none => exact absurd (List.getLast?_eq_none_iff.1 hl) h
  | some a => exact ⟨a, rfl⟩

/-- The splitting loop from the bucket `size * 2^j`, the lowest bucket at or above `size`
that is not empty, down to `size`. -/
theorem splitDown_spec (total min_size : Nat) (al : List (Int × BuddyBlock)) (size e : Nat)
    (hsize : size = 2 ^ e) (hmin : min_size ≤ size) (htot : total < SIZE_MOD) :
    ∀ (j fuel : Nat) (fl : FreeLists), j ≤ fuel → BuddyCore total min_size fl al →
      bucket fl (size * 2 ^ j) ≠ [] →
      (∀ k, size ≤ k → k < size * 2 ^ j → bucket fl k = []) →
      ∃ fl', BuddyAllocator.splitDown size fuel (size * 2 ^ j) fl = some (size, fl') ∧
        BuddyCore total min_size fl' al ∧ bucket fl' size ≠ [] ∧
        (∀ k, (k < size ∨ size * 2 ^ j < k) → bucket fl' k = bucket fl k) ∧
        (j = 0 → ∀ k, bucket fl' k = bucket fl k) ∧
        (0 < j → bucket fl' (size * 2 ^ j) = (bucket fl (size * 2 ^ j)).dropLast ∧
          (∀ k, size < k → k < size * 2 ^ j → (bucket fl' k).length ≤ 1) ∧
          (bucket fl' size).length = 2) := by
  have hpos : 0 < size := by rw [hsize]; exact Nat.two_pow_pos e
  intro j
  induction j with
  | zero =>
    intro fuel fl _ hc hne _
    simp only [pow_zero, Nat.mul_one] at hne ⊢
    exact ⟨fl, splitDown_done size fuel fl, hc, hne, fun _ _ => rfl, fun _ _ => rfl,
      fun h => absurd h (by omega)⟩
  | succ j ih =>
    intro fuel fl hfuel hc hne hempty
    obtain ⟨fuel', rfl⟩ : ∃ f, fuel = f + 1 := ⟨fuel - 1, by omega⟩
    have hpj : 0 < 2 ^ j := Nat.two_pow_pos j
    have hb : size * 2 ^ (j + 1) = 2 * (size * 2 ^ j) := by rw [pow_succ]; ring
    have hhalf : size * 2 ^ (j + 1) / 2 = size * 2 ^ j := by omega
    have hle : size ≤ size * 2 ^ j := Nat.le_mul_of_pos_right size hpj
    have hgt : size * 2 ^ (j + 1) > size := by omega
    obtain ⟨block, hlast⟩ := getLast?_of_ne_nil _ hne
    have hbe : size * 2 ^ (j + 1) = 2 ^ (e + j + 1) := by rw [hsize]; ring
    have hmin' : min_size ≤ 2 ^ (e + j) := by
      have : 2 ^ (e + j) = size * 2 ^ j := by rw [hsize]; ring
      omega
    have hc1 := core_splitStep total min_size fl al _ (e + j) block hc hlast hbe hmin' htot
    have hbk := fun k => bucket_splitStep (size * 2 ^ (j + 1)) block fl k (by omega)
    simp only [hhalf] at hbk
    have hhalf_empty : bucket fl (size * 2 ^ j) = [] := hempty _ hle (by omega)
    have hne1 : bucket (splitStep (size * 2 ^ (j + 1)) block fl) (size * 2 ^ j) ≠ [] := by
      rw [hbk, if_pos rfl]; simp
    have hempty1 : ∀ k, size ≤ k → k < size * 2 ^ j →
        bucket (splitStep (size * 2 ^ (j + 1)) block fl) k = [] := by
      intro k h1 h2
      rw [hbk, if_neg (by omega), if_neg (by omega)]
      exact hempty k h1 (by omega)
    obtain ⟨fl', g1, g2, g3, g4, g5, g6⟩ := ih fuel' _ (by omega) hc1 hne1 hempty1
    refine ⟨fl', ?_, g2, g3, ?_, fun h => absurd h (by omega), fun _ => ⟨?_, ?_, ?_⟩⟩
    · rw [splitDown_step size fuel' _ fl block hgt hlast, hhalf]
      exact g1
    · intro k hk
      rw [g4 k (by omega), hbk, if_neg (by omega), if_neg (by omega)]
    · rw [g4 _ (Or.inr (by omega)), hbk, if_neg (by omega), if_pos rfl]
    · intro k h1 h2
      rcases Nat.eq_zero_or_pos j with hj | hj
      · subst hj
        simp only [pow_zero, Nat.mul_one] at *
        rw [g5 trivial k, hbk, if_neg (by omega), if_neg (by omega), hempty k (by omega) (by omega)]
        simp
      · obtain ⟨g61, g62, g63⟩ := g6 hj
        rcases Nat.lt_trichotomy k (size * 2 ^ j) with h3 | h3 | h3
        · exact g62 k h1 h3
        · rw [h3, g61, hbk, if_pos rfl, hhalf_empty]
          simp
        · rw [g4 k (Or.inr h3), hbk, if_neg (by omega), if_neg (by omega),
            hempty k (by omega) h2]
          simp
    · rcases Nat.eq_zero_or_pos j with hj | hj
      · subst hj
        simp only [pow_zero, Nat.mul_one] at *
        rw [g5 trivial size, hbk, if_pos rfl, hhalf_empty]
        rfl
      · exact (g6 hj).2.2

theorem xor_ne_self (a k : Nat) (hk : k ≠ 0) : a ^^^ k ≠ a := by
  intro h
  have : a ^^^ (a ^^^ k) = a ^^^ a := by rw [h]
  rw [← Nat.xor_assoc, Nat.xor_self, Nat.zero_xor] at this
  exact hk this

theorem bucketNoBuddies_subset (l l' : List BuddyBlock) (k : Nat) (hsub : ∀ b ∈ l', b ∈ l)
    (h : BucketNoBuddies l k) : BucketNoBuddies l' k :=
  fun b hb c hc => h b (hsub b hb) c (hsub c hc)

theorem bucketNoBuddies_short (l : List BuddyBlock) (k : Nat) (hk : k ≠ 0)
    (hl : l.length ≤ 1) : BucketNoBuddies l k := by
  intro b hb c hc
  match l, hl with
  | [], _ => simp at hb
  | [x], _ =>
    simp only [List.mem_singleton] at hb hc
    subst hb; subst hc
    exact fun h => xor_ne_self _ k hk h.symm

theorem pow_two_factor (size i m : Nat) (h : size * 2 ^ i = 2 ^ m) :
    ∃ e, size = 2 ^ e ∧ m = e + i := by
  have hdvd : size ∣ 2 ^ m := ⟨2 ^ i, h.symm⟩
  obtain ⟨e, _, he⟩ := (Nat.dvd_prime_pow Nat.prime_two).1 hdvd
  refine ⟨e, he, ?_⟩
  rw [he, ← pow_add] at h
  exact (Nat.pow_right_injective (le_refl 2) h).symm

theorem core_bucket_zero (total min_size : Nat) (fl : FreeLists) (al : List (Int × BuddyBlock))
    (h : BuddyCore total min_size fl al) : bucket fl 0 = [] := by
  cases hb : bucket fl 0 with
  | nil => rfl
  | cons x rest =>
    have hx : x ∈ bucket fl 0 := by rw [hb]; exact List.mem_cons_self _ _
    obtain ⟨⟨e, he⟩, _⟩ := h.shape x (live_free fl al 0 x hx)
    have := (h.key 0 x hx).1
    rw [this] at he
    exact absurd he.symm (by positivity)

theorem splitLoop_zero (total size : Nat) : ∀ (fuel : Nat) (fl : FreeLists),
    bucket fl 0 = [] → BuddyAllocator.splitLoop total size fuel 0 fl = none := by
  intro fuel
  induction fuel with
  | zero => intro fl _; rfl
  | succ fuel ih =>
    intro fl h
    have h1 : bucket (touch 0 fl) 0 = [] := by rw [bucket_touch]; exact h
    simp only [BuddyAllocator.splitLoop, Nat.zero_le, if_true, h1, ne_eq, not_true_eq_false,
      if_false, Nat.zero_mul, Nat.zero_mod]
    exact ih _ h1

theorem noFreeBuddies_congr (fl fl' : FreeLists) (h : NoFreeBuddies fl)
    (hb : ∀ k, bucket fl' k = bucket fl k) : NoFreeBuddies fl' := by
  intro k
  rw [hb]
  exact h k

theorem size_mod_eq : SIZE_MOD = 18446744073709551616 := by norm_num [SIZE_MOD]

theorem two_pow_le_63 (t : Nat) (h : t ≤ 63) : 2 ^ t ≤ 9223372036854775808 := by
  have := Nat.pow_le_pow_right (show 0 < 2 by norm_num) h
  norm_num at this
  exact this

/-- The `for` loop of `splitBlock` from the probe `size * 2^i` on, when all lower probes
found empty buckets: either no block is returned and no bucket has changed, or the
returned block is the last block of bucket `size` after the split of the lowest
non-empty bucket, and the free lists hold no buddy pair. -/
theorem splitLoop_spec (total min_size : Nat) (al : List (Int × BuddyBlock)) (size t : Nat)
    (ht : total = 2 ^ t) (ht63 : t ≤ 63) (hpos : 0 < size) (hmin : min_size ≤ size) :
    ∀ (fuel i : Nat) (fl : FreeLists) (res : Option BuddyBlock) (fl' : FreeLists),
      size * 2 ^ i < SIZE_MOD → BuddyCore total min_size fl al → NoFreeBuddies fl →
      (∀ i', i' < i → bucket fl (size * 2 ^ i') = []) →
      BuddyAllocator.splitLoop total size fuel (size * 2 ^ i) fl = some (res, fl') →
      (res = none ∧ ∀ k, bucket fl' k = bucket fl k) ∨
      (∃ r fl3, res = some r ∧ BuddyCore total min_size fl3 al ∧
        (bucket fl3 size).getLast? = some r ∧ fl' = popBack size fl3 ∧ NoFreeBuddies fl') := by
  have hT := two_pow_le_63 t ht63
  rw [← ht] at hT
  have hM := size_mod_eq
  intro fuel
  induction fuel with
  | zero =>
    intro i fl res fl' _ _ _ _ h
    simp [BuddyAllocator.splitLoop] at h
  | succ fuel ih =>
    intro i fl res fl' hlt hc hnb hempty h
    simp only [BuddyAllocator.splitLoop] at h
    split at h
    · rename_i hle
      have hc1 : BuddyCore total min_size (touch (size * 2 ^ i) fl) al :=
        core_congr _ _ fl _ al hc (fun k => bucket_touch _ k fl)
      have hnb1 : NoFreeBuddies (touch (size * 2 ^ i) fl) :=
        noFreeBuddies_congr fl _ hnb (fun k => bucket_touch _ k fl)
      split at h
      · rename_i hne
        -- the lowest non-empty bucket
        obtain ⟨x, hx⟩ := getLast?_of_ne_nil _ hne
        have hxm : x ∈ bucket (touch (size * 2 ^ i) fl) (size * 2 ^ i) := by
          rw [getLast?_split _ _ hx]; simp
        obtain ⟨⟨m, hm⟩, _⟩ := hc1.shape x (live_free _ al _ x hxm)
        rw [(hc1.key _ x hxm).1] at hm
        obtain ⟨e, he, hme⟩ := pow_two_factor size i m hm
        have hi64 : i ≤ 64 := by
          by_contra hcon
          have h1 : 2 ^ 64 ≤ 2 ^ i := Nat.pow_le_pow_right (by norm_num) (by omega)
          have h2 : 2 ^ i ≤ size * 2 ^ i := Nat.le_mul_of_pos_left _ hpos
          norm_num at h1
          omega
        have hempty1 : ∀ k, size ≤ k → k < size * 2 ^ i →
            bucket (touch (size * 2 ^ i) fl) k = [] := by
          intro k h1 h2
          rw [bucket_touch]
          cases hbk : bucket fl k with
          | nil => rfl
          | cons y rest =>
            exfalso
            have hy : y ∈ bucket fl k := by rw [hbk]; exact List.mem_cons_self _ _
            obtain ⟨⟨c, hc'⟩, _⟩ := hc.shape y (live_free _ al _ y hy)
            rw [(hc.key _ y hy).1] at hc'
            rw [hc', he] at h1
            rw [hc', hm] at h2
            have g1 : e ≤ c := (Nat.pow_le_pow_iff_right (by norm_num)).1 h1
            have g2 : c < m := (Nat.pow_lt_pow_iff_right (by norm_num)).1 h2
            have g3 := hempty (c - e) (by omega)
            have g4 : size * 2 ^ (c - e) = k := by
              rw [he, hc', ← pow_add]
              congr 1
              omega
            rw [g4, hbk] at g3
            exact absurd g3 (by simp)
        obtain ⟨fl2, g1, g2, g3, g4, g5, g6⟩ :=
          splitDown_spec total min_size al size e he hmin (by omega) i 64 _ hi64 hc1 hne hempty1
        rw [g1] at h
        simp only at h
        have hc3 : BuddyCore total min_size (touch size fl2) al :=
          core_congr _ _ fl2 _ al g2 (fun k => bucket_touch _ k fl2)
        have hne3 : bucket (touch size fl2) size ≠ [] := by rw [bucket_touch]; exact g3
        obtain ⟨r, hr⟩ := getLast?_of_ne_nil _ hne3
        rw [hr] at h
        simp only [Option.some.injEq, Prod.mk.injEq] at h
        obtain ⟨h1, h2⟩ := h
        right
        refine ⟨r, touch size fl2, h1.symm, hc3, hr, h2.symm, ?_⟩
        rw [← h2]
        intro k
        rw [bucket_popBack, bucket_touch, bucket_touch]
        have hsz0 : size ≠ 0 := by omega
        rcases Nat.eq_zero_or_pos i with hi | hi
        · subst hi
          simp only [pow_zero, Nat.mul_one] at g5
          have g5' := g5 trivial
          split
          · rename_i hk
            subst hk
            rw [g5', bucket_touch]
            exact bucketNoBuddies_subset _ _ _ (fun b hb => List.mem_of_mem_dropLast hb) (hnb k)
          · rw [g5', bucket_touch]
            exact hnb k
        · obtain ⟨g61, g62, g63⟩ := g6 hi
          have hlt2 : size < size * 2 ^ i := by
            have : 2 ≤ 2 ^ i := by
              calc 2 = 2 ^ 1 := by norm_num
                _ ≤ 2 ^ i := Nat.pow_le_pow_right (by norm_num) hi
            nlinarith
          split
          · rename_i hk
            subst hk
            apply bucketNoBuddies_short _ _ hsz0
            rw [List.length_dropLast, g63]
          · rename_i hk
            by_cases hk1 : k < size ∨ size * 2 ^ i < k
            · rw [g4 k hk1, bucket_touch]
              exact hnb k
            · by_cases hk2 : k = size * 2 ^ i
              · rw [hk2, g61, bucket_touch]
                exact bucketNoBuddies_subset _ _ _ (fun b hb => List.mem_of_mem_dropLast hb)
                  (hnb _)
              · exact bucketNoBuddies_short _ _ (by omega) (g62 k (by omega) (by omega))
      · rename_i hemp
        simp only [ne_eq, not_not] at hemp
        by_cases hw : size * 2 ^ i * 2 < SIZE_MOD
        · rw [Nat.mod_eq_of_lt hw] at h
          have e1 : size * 2 ^ i * 2 = size * 2 ^ (i + 1) := by rw [pow_succ]; ring
          rw [e1] at h hw
          have hempty1 : ∀ i', i' < i + 1 → bucket (touch (size * 2 ^ i) fl) (size * 2 ^ i') = [] := by
            intro i' hi'
            rcases Nat.lt_succ_iff_lt_or_eq.1 hi' with h1 | h1
            · rw [bucket_touch]; exact hempty i' h1
            · rw [h1]; exact hemp
          rcases ih (i + 1) _ res fl' hw hc1 hnb1 hempty1 h with ⟨g1, g2⟩ | g
          · left
            refine ⟨g1, fun k => ?_⟩
            rw [g2 k, bucket_touch]
          · right; exact g
        · exfalso
          have e0 : size * 2 ^ i * 2 % SIZE_MOD = 0 := by
            have : size * 2 ^ i * 2 = SIZE_MOD := by omega
            rw [this]; exact Nat.mod_self _
          rw [e0, splitLoop_zero total size fuel _ (core_bucket_zero _ _ _ al hc1)] at h
          exact absurd h (by simp)
    · simp only [Option.some.injEq, Prod.mk.injEq] at h
      left
      exact ⟨h.1.symm, fun k => by rw [← h.2]⟩

theorem buddyInv_malloc (a a' : BuddyAllocator) (size : Nat) (id : Int) (h : BuddyInv a)
    (hm : a.malloc size = some (a', id)) : BuddyInv a' := by
  obtain ⟨t, ht63, ht⟩ := h.total
  obtain ⟨e0, he0⟩ := h.min
  have hT := two_pow_le_63 t ht63
  rw [← ht] at hT
  have hM := size_mod_eq
  unfold BuddyAllocator.malloc at hm
  split at hm
  · simp only [Option.some.injEq, Prod.mk.injEq] at hm
    rw [← hm.1]; exact h
  · simp only at hm
    have hminle : a.min_block_size ≤
        max a.min_block_size (BuddyAllocator.roundUpToPowerOf2 size) := le_max_left _ _
    generalize max a.min_block_size (BuddyAllocator.roundUpToPowerOf2 size) = asz at hm hminle
    split at hm
    · simp only [Option.some.injEq, Prod.mk.injEq] at hm
      rw [← hm.1]; exact h
    · rename_i hle
      have hminpos : 0 < a.min_block_size := by rw [he0]; exact Nat.two_pow_pos e0
      have hspec := fun res fl' => splitLoop_spec a.total_memory a.min_block_size
        a.allocated_blocks asz t ht ht63 (by omega) hminle 65 0 a.free_lists res fl'
        (by simp only [pow_zero, Nat.mul_one]; omega) h.core h.nobuddy
        (fun i' hi' => absurd hi' (by omega))
      simp only [pow_zero, Nat.mul_one] at hspec
      unfold BuddyAllocator.splitBlock at hm
      split at hm
      · exact absurd hm (by simp)
      · rename_i fl' hs
        simp only [Option.some.injEq, Prod.mk.injEq] at hm
        rw [← hm.1]
        rcases hspec none fl' hs with ⟨_, g⟩ | ⟨r, fl3, g, _⟩
        · exact ⟨h.total, h.min, core_congr _ _ _ _ _ h.core g, h.fresh,
            noFreeBuddies_congr _ _ h.nobuddy g⟩
        · exact absurd g (by simp)
      · rename_i block fl' hs
        simp only [Option.some.injEq, Prod.mk.injEq] at hm
        rw [← hm.1]
        rcases hspec (some block) fl' hs with ⟨g, _⟩ | ⟨r, fl3, g1, g2, g3, g4, g5⟩
        · exact absurd g (by simp)
        · simp only [Option.some.injEq] at g1
          subst g1
          have hfresh : ∀ x ∈ a.allocated_blocks, x.1 < a.next_block_id :=
            fun x hx => h.fresh x.1 x.2 hx
          refine ⟨h.total, h.min, ?_, ?_, g5⟩
          · rw [g4]
            exact core_take _ _ fl3 _ asz _ block g2 g3 hfresh
          · intro id' b hb
            have hb' : (id', b) ∈ mapInsert a.next_block_id
                { block with is_free := false, block_id := a.next_block_id }
                a.allocated_blocks := hb
            rw [mapInsert_fresh _ _ _ hfresh] at hb'
            show id' < a.next_block_id + 1
            rcases List.mem_append.1 hb' with h1 | h1
            · have := h.fresh id' b h1
              omega
            · simp only [List.mem_singleton, Prod.mk.injEq] at h1
              omega

theorem findBuddy_some (addr i : Nat) : ∀ (l : List BuddyBlock) (j0 j : Nat),
    BuddyAllocator.findBuddy addr i l j0 = some j →
    ∃ y, l[j - j0]? = some y ∧ j0 ≤ j ∧ i ≠ j ∧ y.address = addr := by
  intro l
  induction l with
  | nil => intro j0 j h; simp [BuddyAllocator.findBuddy] at h
  | cons b rest ih =>
    intro j0 j h
    simp only [BuddyAllocator.findBuddy] at h
    split at h
    · rename_i hc
      simp only [Option.some.injEq] at h
      subst h
      exact ⟨b, by simp, le_refl _, hc.1, hc.2⟩
    · obtain ⟨y, h1, h2, h3, h4⟩ := ih (j0 + 1) j h
      refine ⟨y, ?_, by omega, h3, h4⟩
      have : j - j0 = (j - (j0 + 1)) + 1 := by omega
      rw [this, List.getElem?_cons_succ]
      exact h1

theorem findBuddy_none (addr i : Nat) : ∀ (l : List BuddyBlock) (j0 : Nat),
    BuddyAllocator.findBuddy addr i l j0 = none →
    ∀ j' y, l[j']? = some y → i ≠ j0 + j' → y.address ≠ addr := by
  intro l
  induction l with
  | nil => intro j0 _ j' y hy; simp at hy
  | cons b rest ih =>
    intro j0 h j' y hy hne
    simp only [BuddyAllocator.findBuddy] at h
    split at h
    · exact absurd h (by simp)
    · rename_i hc
      cases j' with
      | zero =>
        simp only [List.getElem?_cons_zero, Option.some.injEq] at hy
        subst hy
        intro hadd
        exact hc ⟨by simpa using hne, hadd⟩
      | succ j' =>
        simp only [List.getElem?_cons_succ] at hy
        exact ih (j0 + 1) h j' y hy (by omega)

theorem findPair_some (s : Nat) (blocks : List BuddyBlock) : ∀ (rest : List BuddyBlock)
    (i0 i j : Nat), BuddyAllocator.findPair s blocks rest i0 = some (i, j) →
    ∃ x y, rest[i - i0]? = some x ∧ i0 ≤ i ∧ blocks[j]? = some y ∧ i ≠ j ∧
      y.address = BuddyAllocator.getBuddyAddress x.address s := by
  intro rest
  induction rest with
  | nil => intro i0 i j h; simp [BuddyAllocator.findPair] at h
  | cons b rest ih =>
    intro i0 i j h
    simp only [BuddyAllocator.findPair] at h
    split at h
    · rename_i j' hj
      simp only [Option.some.injEq, Prod.mk.injEq] at h
      obtain ⟨h1, h2⟩ := h
      subst h1; subst h2
      obtain ⟨y, g1, _, g3, g4⟩ := findBuddy_some _ _ _ _ _ hj
      exact ⟨b, y, by simp, le_refl _, by simpa using g1, g3, g4⟩
    · obtain ⟨x, y, h1, h2, h3, h4, h5⟩ := ih (i0 + 1) i j h
      refine ⟨x, y, ?_, by omega, h3, h4, h5⟩
      have : i - i0 = (i - (i0 + 1)) + 1 := by omega
      rw [this, List.getElem?_cons_succ]
      exact h1

theorem findPair_none (s : Nat) (blocks : List BuddyBlock) : ∀ (rest : List BuddyBlock)
    (i0 : Nat), BuddyAllocator.findPair s blocks rest i0 = none →
    ∀ i' x, rest[i']? = some x → ∀ j y, blocks[j]? = some y → i0 + i' ≠ j →
      y.address ≠ BuddyAllocator.getBuddyAddress x.address s := by
  intro rest
  induction rest with
  | nil => intro i0 _ i' x hx; simp at hx
  | cons b rest ih =>
    intro i0 h i' x hx j y hy hne
    simp only [BuddyAllocator.findPair] at h
    split at h
    · exact absurd h (by simp)
    · rename_i hnone
      cases i' with
      | zero =>
        simp only [List.getElem?_cons_zero, Option.some.injEq] at hx
        subst hx
        have := findBuddy_none _ _ _ _ hnone j y hy (by omega)
        exact this
      | succ i' =>
        simp only [List.getElem?_cons_succ] at hx
        exact ih (i0 + 1) h i' x hx j y hy (by omega)

/-- One pass of the merge scan from the size `min_size * 2^i` on: the buckets are not
changed by the probes; a pass without a merge has found no pair in any scanned bucket; a
pass with a merge keeps the tiling. -/
theorem mergeScan_spec (total min_size : Nat) (al : List (Int × BuddyBlock)) (t e0 : Nat)
    (ht : total = 2 ^ t) (ht63 : t ≤ 63) (he0 : min_size = 2 ^ e0) :
    ∀ (fuel i : Nat) (fl fl1 : FreeLists) (res : Option FreeLists),
      min_size * 2 ^ i < SIZE_MOD → BuddyCore total min_size fl al →
      BuddyAllocator.mergeScan total fuel (min_size * 2 ^ i) fl = some (res, fl1) →
      (∀ k, bucket fl1 k = bucket fl k) ∧
      (res = none → ∀ i', i ≤ i' → min_size * 2 ^ i' < total →
        ∀ (a b : Nat) (x y : BuddyBlock), (bucket fl (min_size * 2 ^ i'))[a]? = some x →
          (bucket fl (min_size * 2 ^ i'))[b]? = some y → a ≠ b →
          y.address ≠ BuddyAllocator.getBuddyAddress x.address (min_size * 2 ^ i')) ∧
      (∀ fl2, res = some fl2 → BuddyCore total min_size fl2 al) := by
  have hT := two_pow_le_63 t ht63
  rw [← ht] at hT
  have hM := size_mod_eq
  intro fuel
  induction fuel with
  | zero =>
    intro i fl fl1 res _ _ h
    simp [BuddyAllocator.mergeScan] at h
  | succ fuel ih =>
    intro i fl fl1 res hlt hc h
    simp only [BuddyAllocator.mergeScan] at h
    split at h
    · rename_i hst
      have hc1 : BuddyCore total min_size (touch (min_size * 2 ^ i) fl) al :=
        core_congr _ _ fl _ al hc (fun k => bucket_touch _ k fl)
      cases hp : BuddyAllocator.findPair (min_size * 2 ^ i)
          (bucket (touch (min_size * 2 ^ i) fl) (min_size * 2 ^ i))
          (bucket (touch (min_size * 2 ^ i) fl) (min_size * 2 ^ i)) 0 with
      | some ab =>
        obtain ⟨a, b⟩ := ab
        rw [hp] at h
        simp only [Option.some.injEq, Prod.mk.injEq] at h
        obtain ⟨h1, h2⟩ := h
        subst h2
        refine ⟨fun k => bucket_touch _ k fl, fun hn => absurd hn (by rw [← h1]; simp), ?_⟩
        intro fl2 hfl2
        rw [← h1] at hfl2
        simp only [Option.some.injEq] at hfl2
        rw [← hfl2]
        obtain ⟨x, y, g1, _, g3, g4, g5⟩ := findPair_some _ _ _ _ _ _ hp
        simp only [Nat.sub_zero] at g1
        exact core_mergePair total min_size _ al (min_size * 2 ^ i) (e0 + i) t a b x y hc1
          (by rw [he0, pow_add]) ht hst (by omega) g1 g3 g4 g5
      | none =>
        rw [hp] at h
        simp only at h
        split at h
        · exact absurd h (by simp)
        · have hw : min_size * 2 ^ i * 2 < SIZE_MOD := by omega
          rw [Nat.mod_eq_of_lt hw] at h
          have e1 : min_size * 2 ^ i * 2 = min_size * 2 ^ (i + 1) := by rw [pow_succ]; ring
          rw [e1] at h hw
          obtain ⟨g1, g2, g3⟩ := ih (i + 1) _ fl1 res hw hc1 h
          refine ⟨fun k => by rw [g1 k, bucket_touch], ?_, g3⟩
          intro hn i' hi' hlt' a b x y hx hy hab
          rcases Nat.eq_or_lt_of_le hi' with h1 | h1
          · subst h1
            have := findPair_none _ _ _ _ hp a x (by rw [bucket_touch]; exact hx) b y
              (by rw [bucket_touch]; exact hy) (by omega)
            exact this
          · have := g2 hn i' (by omega) hlt' a b x y (by rw [bucket_touch]; exact hx)
              (by rw [bucket_touch]; exact hy) hab
            exact this
    · rename_i hge
      simp only [Option.some.injEq, Prod.mk.injEq] at h
      obtain ⟨h1, h2⟩ := h
      subst h2
      refine ⟨fun _ => rfl, ?_, fun fl2 hfl2 => absurd hfl2 (by rw [← h1]; simp)⟩
      intro _ i' hi' hlt'
      exfalso
      have : min_size * 2 ^ i ≤ min_size * 2 ^ i' :=
        Nat.mul_le_mul_left _ (Nat.pow_le_pow_right (by norm_num) hi')
      omega

/-- A scan of all sizes `min_size * 2^i` below `total` that finds no pair leaves no free
buddies in any bucket. -/
theorem noFreeBuddies_of_scan (total min_size : Nat) (fl : FreeLists)
    (al : List (Int × BuddyBlock)) (t e0 : Nat) (ht : total = 2 ^ t) (he0 : min_size = 2 ^ e0)
    (hc : BuddyCore total min_size fl al)
    (hscan : ∀ i', min_size * 2 ^ i' < total →
      ∀ (a b : Nat) (x y : BuddyBlock), (bucket fl (min_size * 2 ^ i'))[a]? = some x →
        (bucket fl (min_size * 2 ^ i'))[b]? = some y → a ≠ b →
        y.address ≠ BuddyAllocator.getBuddyAddress x.address (min_size * 2 ^ i')) :
    NoFreeBuddies fl := by
  intro k x hx y hy hxy
  obtain ⟨a, ha⟩ := List.getElem?_of_mem hx
  obtain ⟨b, hb⟩ := List.getElem?_of_mem hy
  obtain ⟨⟨m, hm⟩, _, hin, hmin⟩ := hc.shape x (live_free fl al k x hx)
  obtain ⟨_, _, hin', _⟩ := hc.shape y (live_free fl al k y hy)
  rw [(hc.key k x hx).1] at hm hin hmin
  rw [(hc.key k y hy).1] at hin'
  have hkpos : 0 < k := by rw [hm]; exact Nat.two_pow_pos m
  by_cases hab : a = b
  · subst hab
    rw [ha] at hb
    simp only [Option.some.injEq] at hb
    subst hb
    exact xor_ne_self _ k (by omega) hxy.symm
  · rcases hmin with h1 | h1
    · by_cases hkt : k < total
      · have hle : e0 ≤ m := by
          rw [he0, hm] at h1
          exact (Nat.pow_le_pow_iff_right (by norm_num)).1 h1
        have hk : min_size * 2 ^ (m - e0) = k := by
          rw [he0, hm, ← pow_add]
          congr 1
          omega
        have := hscan (m - e0) (by rw [hk]; exact hkt) a b x y (by rw [hk]; exact ha)
          (by rw [hk]; exact hb) hab
        rw [hk] at this
        exact this hxy
      · have hx0 : x.address = 0 := by omega
        have hy0 : y.address = 0 := by omega
        rw [hx0, hy0] at hxy
        unfold BuddyAllocator.getBuddyAddress at hxy
        rw [Nat.zero_xor] at hxy
        omega
    · have hx0 : x.address = 0 := by omega
      have hy0 : y.address = 0 := by omega
      rw [hx0, hy0] at hxy
      unfold BuddyAllocator.getBuddyAddress at hxy
      rw [Nat.zero_xor] at hxy
      omega

theorem mergeScan_ge (total fuel size : Nat) (fl : FreeLists) (h : ¬ size < total) :
    BuddyAllocator.mergeScan total (fuel + 1) size fl = some (none, fl) := by
  simp only [BuddyAllocator.mergeScan, if_neg h]

theorem mergeLoop_spec (total min_size : Nat) (al : List (Int × BuddyBlock)) (t e0 : Nat)
    (ht : total = 2 ^ t) (ht63 : t ≤ 63) (he0 : min_size = 2 ^ e0) :
    ∀ (fuel : Nat) (fl fl' : FreeLists), BuddyCore total min_size fl al →
      BuddyAllocator.mergeLoop total min_size fuel fl = some fl' →
      BuddyCore total min_size fl' al ∧ NoFreeBuddies fl' := by
  have hT := two_pow_le_63 t ht63
  rw [← ht] at hT
  have hM := size_mod_eq
  intro fuel
  induction fuel with
  | zero => intro fl fl' _ h; simp [BuddyAllocator.mergeLoop] at h
  | succ fuel ih =>
    intro fl fl' hc h
    simp only [BuddyAllocator.mergeLoop] at h
    cases hs : BuddyAllocator.mergeScan total 66 min_size fl with
    | none => rw [hs] at h; simp at h
    | some r =>
      obtain ⟨res, fl1⟩ := r
      rw [hs] at h
      have hmin_lt : min_size * 2 ^ 0 < SIZE_MOD ∨ total ≤ min_size := by
        by_cases hh : min_size < total
        · left; simp only [pow_zero, Nat.mul_one]; omega
        · right; omega
      have hs' : BuddyAllocator.mergeScan total 66 (min_size * 2 ^ 0) fl = some (res, fl1) := by
        rw [pow_zero, Nat.mul_one]; exact hs
      rcases hmin_lt with hlt | hge
      · obtain ⟨g1, g2, g3⟩ := mergeScan_spec total min_size al t e0 ht ht63 he0 66 0 fl fl1 res
          hlt hc hs'
        cases res with
        | none =>
          simp only [Option.some.injEq] at h
          subst h
          have hc1 := core_congr _ _ fl fl1 al hc g1
          refine ⟨hc1, ?_⟩
          apply noFreeBuddies_congr fl fl1 _ g1
          exact noFreeBuddies_of_scan total min_size fl al t e0 ht he0 hc
            (fun i' hi' => g2 rfl i' (Nat.zero_le _) hi')
        | some fl2 =>
          simp only at h
          exact ih fl2 fl' (g3 fl2 rfl) h
      · -- the scan ends at once: `min_size` is not below `total`
        rw [show (66 : Nat) = 65 + 1 from rfl,
          mergeScan_ge total 65 min_size fl (by omega)] at hs
        simp only [Option.some.injEq, Prod.mk.injEq] at hs
        obtain ⟨h1, h2⟩ := hs
        subst h1; subst h2
        simp only [Option.some.injEq] at h
        subst h
        refine ⟨hc, ?_⟩
        apply noFreeBuddies_of_scan total min_size fl al t e0 ht he0 hc
        intro i' hi'
        exfalso
        have : min_size * 2 ^ 0 ≤ min_size * 2 ^ i' :=
          Nat.mul_le_mul_left _ (Nat.pow_le_pow_right (by norm_num) (Nat.zero_le _))
        simp only [pow_zero, Nat.mul_one] at this
        omega

theorem buddyInv_free (a a' : BuddyAllocator) (block_id : Int) (r : Bool) (h : BuddyInv a)
    (hf : a.free block_id = some (a', r)) : BuddyInv a' := by
  obtain ⟨t, ht63, ht⟩ := h.total
  obtain ⟨e0, he0⟩ := h.min
  unfold BuddyAllocator.free at hf
  split at hf
  · simp only [Option.some.injEq, Prod.mk.injEq] at hf
    rw [← hf.1]; exact h
  · rename_i block hfind
    simp only [BuddyAllocator.mergeBuddies, Option.map_map] at hf
    cases hml : BuddyAllocator.mergeLoop a.total_memory a.min_block_size
        (BuddyAllocator.freeCount
          (pushBack block.size { block with is_free := true, block_id := -1 } a.free_lists) + 1)
        (pushBack block.size { block with is_free := true, block_id := -1 } a.free_lists) with
    | none => rw [hml] at hf; simp at hf
    | some fl' =>
      rw [hml] at hf
      simp only [Option.map_some', Function.comp_apply, Option.some.injEq, Prod.mk.injEq] at hf
      rw [← hf.1]
      have hc := core_release _ _ _ _ block_id block h.core hfind
      obtain ⟨g1, g2⟩ := mergeLoop_spec _ _ _ t e0 ht ht63 he0 _ _ fl' hc hml
      refine ⟨h.total, h.min, g1, ?_, g2⟩
      intro id b hb
      have hb' : (id, b) ∈ mapErase block_id a.allocated_blocks := hb
      unfold mapErase at hb'
      exact h.fresh id b (List.mem_filter.1 hb').1

theorem buddyInv_step (a a' : BuddyAllocator) (op : BuddyOp) (h : BuddyInv a)
    (hs : a.step op = some a') : BuddyInv a' := by
  cases op with
  | malloc size =>
    simp only [BuddyAllocator.step] at hs
    cases hm : a.malloc size with
    | none => rw [hm] at hs; simp at hs
    | some r =>
      rw [hm] at hs
      simp only [Option.map_some', Option.some.injEq] at hs
      rw [← hs]
      exact buddyInv_malloc a r.1 size r.2 h hm
  | free block_id =>
    simp only [BuddyAllocator.step] at hs
    cases hm : a.free block_id with
    | none => rw [hm] at hs; simp at hs
    | some r =>
      rw [hm] at hs
      simp only [Option.map_some', Option.some.injEq] at hs
      rw [← hs]
      exact buddyInv_free a r.1 block_id r.2 h hm

theorem buddyInv_run : ∀ (ops : List BuddyOp) (a a' : BuddyAllocator), BuddyInv a →
    a.run ops = some a' → BuddyInv a' := by
  intro ops
  induction ops with
  | nil =>
    intro a a' h hr
    simp only [BuddyAllocator.run, Option.some.injEq] at hr
    rw [← hr]; exact h
  | cons op rest ih =>
    intro a a' h hr
    simp only [BuddyAllocator.run] at hr
    split at hr
    · exact absurd hr (by simp)
    · rename_i a1 hs
      exact ih a1 a' (buddyInv_step a a1 op h hs) hr

theorem buddyInv_new (memory_size min_size t e0 : Nat) (ht63 : t ≤ 63)
    (ht : (BuddyAllocator.new memory_size min_size).total_memory = 2 ^ t)
    (he0 : min_size = 2 ^ e0) : BuddyInv (BuddyAllocator.new memory_size min_size) := by
  generalize hT : (BuddyAllocator.new memory_size min_size).total_memory = total at ht
  have hfl : (BuddyAllocator.new memory_size min_size).free_lists =
      pushBack total { address := 0, size := total } [] := by
    rw [← hT]; rfl
  have hal : (BuddyAllocator.new memory_size min_size).allocated_blocks = [] := rfl
  have hbk : ∀ k, bucket (pushBack total { address := 0, size := total } []) k =
      if k = total then [{ address := 0, size := total }] else [] := by
    intro k
    rw [bucket_pushBack]
    split <;> rfl
  have hlive : ∀ b, BuddyLive (pushBack total { address := 0, size := total } []) [] b →
      b = { address := 0, size := total } := by
    intro b hb
    rcases hb with ⟨k, hk⟩ | ⟨id, hid⟩
    · rw [hbk] at hk
      split at hk
      · simpa using hk
      · simp at hk
    · simp at hid
  have hpos : 0 < total := by rw [ht]; exact Nat.two_pow_pos t
  refine ⟨⟨t, ht63, by rw [hT, ht]⟩, ⟨e0, he0⟩, ?_, ?_, ?_⟩
  · rw [hT, hfl, hal]
    refine ⟨?_, ?_, ?_, ?_, ?_, ?_, ?_⟩
    · intro k b hb
      rw [hbk] at hb
      split at hb
      · rename_i hk
        simp only [List.mem_singleton] at hb
        subst hb
        exact ⟨hk.symm, rfl, rfl⟩
      · simp at hb
    · intro id b hb; simp at hb
    · simp
    · intro b hb
      rw [hlive b hb]
      exact ⟨⟨t, ht⟩, dvd_zero _, by simp, Or.inr rfl⟩
    · intro k
      rw [hbk]
      split <;> simp
    · intro b c x hb hc _ _
      rw [hlive b hb, hlive c hc]
    · intro x hx
      refine ⟨{ address := 0, size := total }, Or.inl ⟨total, ?_⟩, ?_⟩
      · rw [hbk, if_pos rfl]; simp
      · exact ⟨Nat.zero_le _, by simpa using hx⟩
  · intro id b hb
    rw [hal] at hb
    simp at hb
  · rw [hfl]
    intro k
    rw [hbk]
    split
    · rename_i hk
      apply bucketNoBuddies_short _ _ (by omega)
      simp
    · intro b hb; simp at hb

/-- After a smearing step by `n`, a bit is set exactly when one of the next `2 * n` bits
of the original value is set. -/
theorem smear_step (x y n : Nat)
    (h : ∀ i, y.testBit i = true ↔ ∃ d, d < n ∧ x.testBit (i + d) = true) :
    ∀ i, (y ||| (y >>> n)).testBit i = true ↔ ∃ d, d < 2 * n ∧ x.testBit (i + d) = true := by
  intro i
  rw [Nat.testBit_or, Nat.testBit_shiftRight, Bool.or_eq_true, h, h]
  constructor
  · rintro (⟨d, hd, hx⟩ | ⟨d, hd, hx⟩)
    · exact ⟨d, by omega, hx⟩
    · exact ⟨n + d, by omega, by rw [← hx]; congr 1; omega⟩
  · rintro ⟨d, hd, hx⟩
    by_cases hdn : d < n
    · exact Or.inl ⟨d, hdn, hx⟩
    · exact Or.inr ⟨d - n, by omega, by rw [← hx]; congr 1; omega⟩

theorem testBit_top (x L : Nat) (h1 : 2 ^ L ≤ x) (h2 : x < 2 ^ (L + 1)) :
    x.testBit L = true := by
  rw [Nat.testBit_to_div_mod]
  have h3 : x / 2 ^ L = 1 := by
    apply Nat.div_eq_of_lt_le
    · simpa using h1
    · rw [pow_succ] at h2; omega
  simp [h3]

/-- The or-shift cascade of `roundUpToPowerOf2` turns a value below `2^64` whose bit
length is `L` into `2^L - 1`. -/
theorem smear_eq (x L : Nat) (hL : L ≤ 64) (hlt : x < 2 ^ L)
    (hge : L = 0 ∨ 2 ^ (L - 1) ≤ x) :
    let s1 := x ||| (x >>> 1)
    let s2 := s1 ||| (s1 >>> 2)
    let s3 := s2 ||| (s2 >>> 4)
    let s4 := s3 ||| (s3 >>> 8)
    let s5 := s4 ||| (s4 >>> 16)
    let s6 := s5 ||| (s5 >>> 32)
    s6 = 2 ^ L - 1 := by
  intro s1 s2 s3 s4 s5 s6
  have h0 : ∀ i, x.testBit i = true ↔ ∃ d, d < 1 ∧ x.testBit (i + d) = true := by
    intro i
    constructor
    · intro h; exact ⟨0, by omega, h⟩
    · rintro ⟨d, hd, h⟩
      have : d = 0 := by omega
      subst this
      exact h
  have h1 := smear_step x x 1 h0
  have h2 := smear_step x s1 2 h1
  have h3 := smear_step x s2 4 h2
  have h4 := smear_step x s3 8 h3
  have h5 := smear_step x s4 16 h4
  have h6 := smear_step x s5 32 h5
  apply Nat.eq_of_testBit_eq
  intro i
  rw [Nat.testBit_two_pow_sub_one]
  by_cases hi : i < L
  · have htop : x.testBit (L - 1) = true := by
      rcases hge with h | h
      · omega
      · apply testBit_top x (L - 1) h
        have : L - 1 + 1 = L := by omega
        rw [this]; exact hlt
    have : s6.testBit i = true := (h6 i).2 ⟨L - 1 - i, by omega, by
      rw [← htop]; congr 1; omega⟩
    simp [this, hi]
  · have : s6.testBit i = false := by
      cases hb : s6.testBit i with
      | false => rfl
      | true =>
        obtain ⟨d, _, hx⟩ := (h6 i).1 hb
        have hlt' : x < 2 ^ (i + d) :=
          lt_of_lt_of_le hlt (Nat.pow_le_pow_right (by norm_num) (by omega))
        rw [Nat.testBit_lt_two_pow hlt'] at hx
        exact absurd hx (by simp)
    simp [this, hi]

theorem bit_length (x : Nat) : ∃ L, x < 2 ^ L ∧ (L = 0 ∨ 2 ^ (L - 1) ≤ x) := by
  have hex : ∃ L, x < 2 ^ L := ⟨x, Nat.lt_two_pow x⟩
  classical
  refine ⟨Nat.find hex, Nat.find_spec hex, ?_⟩
  by_cases h0 : Nat.find hex = 0
  · exact Or.inl h0
  · right
    have := Nat.find_min hex (show Nat.find hex - 1 < Nat.find hex by omega)
    omega

/-- Rounding of a size between 1 and `2^63`: the result is the least power of two that
is not below the size. -/
theorem roundUpToPowerOf2_spec (size : Nat) (h1 : 1 ≤ size)
    (h2 : size ≤ 9223372036854775808) :
    ∃ L, L ≤ 63 ∧ BuddyAllocator.roundUpToPowerOf2 size = 2 ^ L ∧ size ≤ 2 ^ L ∧
      (L = 0 ∨ 2 ^ (L - 1) < size) := by
  obtain ⟨L, hlt, hge⟩ := bit_length (size - 1)
  have hL : L ≤ 63 := by
    by_contra hcon
    rcases hge with h | h
    · omega
    · have : 2 ^ 63 ≤ 2 ^ (L - 1) := Nat.pow_le_pow_right (by norm_num) (by omega)
      norm_num at this
      omega
  have hs := smear_eq (size - 1) L (by omega) hlt hge
  have hpos : 0 < 2 ^ L := Nat.two_pow_pos L
  have hle : 2 ^ L ≤ 2 ^ 63 := Nat.pow_le_pow_right (by norm_num) hL
  norm_num at hle
  refine ⟨L, hL, ?_, by omega, ?_⟩
  · unfold BuddyAllocator.roundUpToPowerOf2
    rw [if_neg (by omega)]
    simp only at hs ⊢
    rw [hs, Nat.sub_add_cancel hpos]
    apply Nat.mod_eq_of_lt
    rw [size_mod_eq]
    omega
  · rcases hge with h | h
    · exact Or.inl h
    · right; omega

theorem isPowerOf2_sound (n : Nat) (h : BuddyAllocator.isPowerOf2 n = true) : ∃ t, n = 2 ^ t := by
  unfold BuddyAllocator.isPowerOf2 at h
  simp only [Bool.and_eq_true, decide_eq_true_eq, beq_iff_eq] at h
  obtain ⟨hpos, hand⟩ := h
  obtain ⟨L, hlt, hge⟩ := bit_length n
  have hL : L ≠ 0 := by
    intro h0
    subst h0
    simp at hlt
    omega
  have hge' : 2 ^ (L - 1) ≤ n := by
    rcases hge with h | h
    · exact absurd h hL
    · exact h
  have hL1 : L - 1 + 1 = L := by omega
  refine ⟨L - 1, ?_⟩
  by_contra hne
  have h1 : (n - 1).testBit (L - 1) = true :=
    testBit_top (n - 1) (L - 1) (by omega) (by rw [hL1]; omega)
  have h2 : n.testBit (L - 1) = true := testBit_top n (L - 1) hge' (by rw [hL1]; exact hlt)
  have h3 : (n &&& (n - 1)).testBit (L - 1) = true := by
    rw [Nat.testBit_and, h1, h2]; rfl
  rw [hand] at h3
  simp at h3

theorem roundUpToPowerOf2_wrap (size : Nat) (h1 : 9223372036854775808 < size)
    (h2 : size < SIZE_MOD) : BuddyAllocator.roundUpToPowerOf2 size = 0 := by
  rw [size_mod_eq] at h2
  have hs := smear_eq (size - 1) 64 (le_refl _) (by norm_num; omega) (Or.inr (by norm_num; omega))
  unfold BuddyAllocator.roundUpToPowerOf2
  rw [if_neg (by omega)]
  simp only at hs ⊢
  rw [hs]
  norm_num [SIZE_MOD]

/-- The total memory chosen by the constructor for a 64-bit `memory_size`: a power of two
up to `2^63`, or 0 when the rounding of a size above `2^63` wraps. -/
theorem new_total_memory (memory_size min_size : Nat) (h : memory_size < SIZE_MOD) :
    (memory_size ≤ 9223372036854775808 →
      ∃ t, t ≤ 63 ∧ (BuddyAllocator.new memory_size min_size).total_memory = 2 ^ t) ∧
    (9223372036854775808 < memory_size →
      (BuddyAllocator.new memory_size min_size).total_memory = 0) := by
  have hT : (BuddyAllocator.new memory_size min_size).total_memory =
      if BuddyAllocator.isPowerOf2 memory_size then memory_size
      else BuddyAllocator.roundUpToPowerOf2 memory_size := rfl
  rw [hT]
  constructor
  · intro hle
    split
    · rename_i hp
      obtain ⟨t, ht⟩ := isPowerOf2_sound memory_size hp
      refine ⟨t, ?_, ht⟩
      by_contra hcon
      have : 2 ^ 64 ≤ 2 ^ t := Nat.pow_le_pow_right (by norm_num) (by omega)
      norm_num at this
      omega
    · rcases Nat.eq_zero_or_pos memory_size with h0 | h0
      · subst h0
        exact ⟨0, by omega, rfl⟩
      · obtain ⟨L, h1, h2, _⟩ := roundUpToPowerOf2_spec memory_size h0 hle
        exact ⟨L, h1, h2⟩
  · intro hgt
    split
    · rename_i hp
      exfalso
      obtain ⟨t, ht⟩ := isPowerOf2_sound memory_size hp
      rw [size_mod_eq] at h
      by_cases ht63 : t ≤ 63
      · have : 2 ^ t ≤ 2 ^ 63 := Nat.pow_le_pow_right (by norm_num) ht63
        norm_num at this
        omega
      · have : 2 ^ 64 ≤ 2 ^ t := Nat.pow_le_pow_right (by norm_num) (by omega)
        norm_num at this
        omega
    · exact roundUpToPowerOf2_wrap memory_size hgt h

theorem multiple_step (d p w : Nat) (hp : d ∣ p) (hw : d ∣ w) (h : p < w) : p + d ≤ w := by
  obtain ⟨m, rfl⟩ := hp
  obtain ⟨n, rfl⟩ := hw
  have hd : 0 < d := by
    rcases Nat.eq_zero_or_pos d with h0 | h0
    · subst h0; simp at h
    · exact h0
  have hmn : m < n := Nat.lt_of_mul_lt_mul_left h
  calc d * m + d = d * (m + 1) := by ring
    _ ≤ d * n := Nat.mul_le_mul_left _ hmn

theorem two_pow_double_dvd (e c : Nat) (h : 2 ^ e < 2 ^ c) : 2 ^ (e + 1) ∣ 2 ^ c :=
  pow_dvd_pow 2 ((Nat.pow_lt_pow_iff_right (by norm_num)).1 h)

theorem eq_singleton_of_forall {α : Type} (l : List α) (a : α) (hne : l ≠ []) (hnd : l.Nodup)
    (h : ∀ x ∈ l, x = a) : l = [a] := by
  match l, hne with
  | [x], _ => rw [h x (List.mem_singleton.2 rfl)]
  | x :: y :: rest, _ =>
    exfalso
    have hx := h x (List.mem_cons_self _ _)
    have hy := h y (List.mem_cons_of_mem _ (List.mem_cons_self _ _))
    rw [List.nodup_cons] at hnd
    exact hnd.1 (by rw [hx, ← hy]; exact List.mem_cons_self _ _)

/-- With nothing allocated, the tiling without free buddies is the single block of the
whole memory. -/
theorem full_merge_of_inv (a : BuddyAllocator) (h : BuddyInv a) (hal : a.allocated_blocks = []) :
    ∀ k, bucket a.free_lists k =
      if k = a.total_memory then [{ address := 0, size := a.total_memory }] else [] := by
  obtain ⟨t, _, ht⟩ := h.total
  have hc := h.core
  rw [hal] at hc
  have hTpos : 0 < a.total_memory := by rw [ht]; exact Nat.two_pow_pos t
  have hfree : ∀ b, BuddyLive a.free_lists [] b → ∃ k, b ∈ bucket a.free_lists k := by
    intro b hb
    rcases hb with hk | ⟨id, hid⟩
    · exact hk
    · simp at hid
  -- some bucket is not empty
  have hex : ∃ k, bucket a.free_lists k ≠ [] := by
    obtain ⟨b, hb, _⟩ := hc.cover 0 hTpos
    obtain ⟨k, hk⟩ := hfree b hb
    exact ⟨k, List.ne_nil_of_mem hk⟩
  -- every non-empty bucket has the key `total_memory`
  have hkeys : ∀ k, bucket a.free_lists k ≠ [] → k = a.total_memory := by
    by_contra hcon
    push_neg at hcon
    obtain ⟨k0, hk0, hk0T⟩ := hcon
    have hex' : ∃ k, bucket a.free_lists k ≠ [] ∧ k ≠ a.total_memory := ⟨k0, hk0, hk0T⟩
    classical
    let s := Nat.find hex'
    have hs : bucket a.free_lists s ≠ [] ∧ s ≠ a.total_memory := Nat.find_spec hex'
    have hsmin : ∀ k, bucket a.free_lists k ≠ [] → k ≠ a.total_memory → s ≤ k :=
      fun k h1 h2 => Nat.find_min' hex' ⟨h1, h2⟩
    generalize s = s' at hs hsmin
    obtain ⟨x, hxl⟩ := getLast?_of_ne_nil _ hs.1
    have hx : x ∈ bucket a.free_lists s' := List.mem_of_mem_getLast? hxl
    have hxlive := live_free a.free_lists [] s' x hx
    obtain ⟨hxs, _, _⟩ := hc.key s' x hx
    obtain ⟨⟨e, he⟩, hxd, hxin, _⟩ := hc.shape x hxlive
    rw [hxs] at he hxd hxin
    have hspos : 0 < s' := by rw [he]; exact Nat.two_pow_pos e
    have hsT : s' < a.total_memory := by omega
    have h2sT : 2 ^ (e + 1) ∣ a.total_memory := by
      rw [ht]; rw [he, ht] at hsT; exact two_pow_double_dvd e t hsT
    rw [he] at hxd
    obtain ⟨p, hp, hcase⟩ := buddy_cases e x.address hxd
    rw [← he] at hcase
    have h2s : 2 ^ (e + 1) = s' + s' := by rw [pow_succ, he]; ring
    have hpT : p + (s' + s') ≤ a.total_memory := by
      rw [← h2s]
      apply multiple_step _ _ _ hp h2sT
      rcases hcase with ⟨h1, _⟩ | ⟨h1, _⟩ <;> omega
    have hbT : BuddyAllocator.getBuddyAddress x.address s' < a.total_memory := by
      rcases hcase with ⟨_, h2⟩ | ⟨_, h2⟩ <;> omega
    obtain ⟨c, hcl, hcc⟩ := hc.cover _ hbT
    obtain ⟨k, hk⟩ := hfree c hcl
    obtain ⟨hcs, _, _⟩ := hc.key k c hk
    obtain ⟨⟨m, hm⟩, hcd, hcin, _⟩ := hc.shape c hcl
    rw [hcs] at hm hcd hcin
    obtain ⟨hc1, hc2⟩ := hcc
    rw [hcs] at hc2
    have hsk : s' ≤ k := by
      by_cases hkT : k = a.total_memory
      · omega
      · exact hsmin k (List.ne_nil_of_mem hk) hkT
    rcases Nat.eq_or_lt_of_le hsk with hks | hks
    · -- `c` is the buddy of `x` in the same bucket
      subst hks
      have hbd : s' ∣ BuddyAllocator.getBuddyAddress x.address s' := by
        have hsp : s' ∣ p := dvd_trans ⟨2, by omega⟩ hp
        rcases hcase with ⟨_, h2⟩ | ⟨_, h2⟩
        · rw [h2]; exact Dvd.dvd.add hsp (dvd_refl _)
        · rw [h2]; exact hsp
      have hce : c.address = BuddyAllocator.getBuddyAddress x.address s' := by
        by_contra hne
        have := multiple_step s' c.address _ hcd hbd (by omega)
        omega
      exact h.nobuddy s' x hx c hk hce
    · -- `c` is larger and contains the whole parent of `x`
      have h2k : 2 ^ (e + 1) ∣ k := by
        rw [hm]; rw [he, hm] at hks; exact two_pow_double_dvd e m hks
      have h2c : 2 ^ (e + 1) ∣ c.address := dvd_trans h2k hcd
      have hle : c.address ≤ p := by
        by_contra hgt
        have := multiple_step _ p c.address hp h2c (by omega)
        rcases hcase with ⟨_, h2⟩ | ⟨_, h2⟩ <;> omega
      have hge : p + (s' + s') ≤ c.address + k := by
        rw [← h2s]
        apply multiple_step _ p _ hp (Dvd.dvd.add h2c h2k)
        rcases hcase with ⟨_, h2⟩ | ⟨_, h2⟩ <;> omega
      have hcx : c.covers x.address := by
        constructor
        · rcases hcase with ⟨h1, _⟩ | ⟨h1, _⟩ <;> omega
        · rw [hcs]
          rcases hcase with ⟨h1, _⟩ | ⟨h1, _⟩ <;> omega
      have := hc.disjoint c x x.address hcl hxlive hcx ⟨le_refl _, by omega⟩
      rw [this] at hcs
      omega
  intro k
  split
  · rename_i hk
    subst hk
    obtain ⟨k1, hk1⟩ := hex
    have hk1T := hkeys k1 hk1
    subst hk1T
    apply eq_singleton_of_forall _ _ hk1 (hc.nodup _)
    intro x hx
    obtain ⟨h1, h2, h3⟩ := hc.key _ x hx
    obtain ⟨_, _, hin, _⟩ := hc.shape x (live_free _ [] _ x hx)
    have h0 : x.address = 0 := by omega
    cases x
    simp only at h0 h1 h2 h3
    subst h0; subst h1; subst h2; subst h3
    rfl
  · rename_i hk
    by_contra hne
    exact hk (hkeys k hne)

/-- **C3** (buddy invariant), as amended.  For every `BuddyAllocator` constructed with a
`memory_size` up to `2^63` and a `min_block_size` that is a power of two, and every
sequence of `malloc`/`free` calls that return, after each call every block (in a free
list or in the allocated map) has a power-of-two size, and no two free blocks of the same
size have addresses that are mutual buddies (`a2 = a1 XOR size`). -/
theorem C3_buddy_invariant (memory_size min_size e : Nat) (hmem : memory_size ≤ 2 ^ 63)
    (hmin : min_size = 2 ^ e) (ops : List BuddyOp) (a : BuddyAllocator)
    (hrun : (BuddyAllocator.new memory_size min_size).run ops = some a) :
    (∀ b, BuddyLive a.free_lists a.allocated_blocks b → ∃ k, b.size = 2 ^ k) ∧
    (∀ k k' b c, b ∈ bucket a.free_lists k → c ∈ bucket a.free_lists k' → b.size = c.size →
      c.address ≠ BuddyAllocator.getBuddyAddress b.address b.size) := by
  have hmem' : memory_size ≤ 9223372036854775808 := by norm_num at hmem; exact hmem
  obtain ⟨t, ht63, ht⟩ := (new_total_memory memory_size min_size
    (by rw [size_mod_eq]; omega)).1 hmem'
  have h := buddyInv_run ops _ a (buddyInv_new memory_size min_size t e ht63 ht hmin) hrun
  refine ⟨fun b hb => (h.core.shape b hb).1, ?_⟩
  intro k k' b c hb hc hsz
  have h1 := (h.core.key k b hb).1
  have h2 := (h.core.key k' c hc).1
  have hkk : k' = k := by omega
  subst hkk
  rw [h1]
  exact h.nobuddy k' b hb c hc

theorem step_zero_total (a a' : BuddyAllocator) (op : BuddyOp) (ht : a.total_memory = 0)
    (hal : a.allocated_blocks = []) (hmin : 1 ≤ a.min_block_size)
    (hs : a.step op = some a') : a' = a := by
  cases op with
  | malloc size =>
    simp only [BuddyAllocator.step, BuddyAllocator.malloc] at hs
    split at hs
    · simpa using hs.symm
    · have hgt : max a.min_block_size (BuddyAllocator.roundUpToPowerOf2 size) > a.total_memory := by
        have := le_max_left a.min_block_size (BuddyAllocator.roundUpToPowerOf2 size)
        omega
      simp only [hgt, if_true, Option.map_some', Option.some.injEq] at hs
      exact hs.symm
  | free block_id =>
    simp only [BuddyAllocator.step, BuddyAllocator.free, hal, mapFind, Option.map_some',
      Option.some.injEq] at hs
    exact hs.symm

theorem run_zero_total : ∀ (ops : List BuddyOp) (a a' : BuddyAllocator), a.total_memory = 0 →
    a.allocated_blocks = [] → 1 ≤ a.min_block_size → a.run ops = some a' → a' = a := by
  intro ops
  induction ops with
  | nil =>
    intro a a' _ _ _ hr
    simpa [BuddyAllocator.run] using hr.symm
  | cons op rest ih =>
    intro a a' ht hal hmin hr
    simp only [BuddyAllocator.run] at hr
    split at hr
    · exact absurd hr (by simp)
    · rename_i a1 hs
      have := step_zero_total a a1 op ht hal hmin hs
      subst this
      exact ih a1 a' ht hal hmin hr

/-- **C4** (full merge), as amended.  For every `BuddyAllocator` constructed with a
64-bit `memory_size` and a `min_block_size` that is a power of two, and every sequence of
`malloc`/`free` calls that return and leave the allocated map empty, the free lists hold
exactly one block: the bucket of `total_memory` holds the block of size `total_memory` at
address 0 and every other bucket is empty. -/
theorem C4_full_merge (memory_size min_size e : Nat) (hmem : memory_size < SIZE_MOD)
    (hmin : min_size = 2 ^ e) (ops : List BuddyOp) (a : BuddyAllocator)
    (hrun : (BuddyAllocator.new memory_size min_size).run ops = some a)
    (hempty : a.allocated_blocks = []) :
    ∀ k, bucket a.free_lists k =
      if k = a.total_memory then [{ address := 0, size := a.total_memory }] else [] := by
  obtain ⟨hsmall, hlarge⟩ := new_total_memory memory_size min_size hmem
  by_cases hle : memory_size ≤ 9223372036854775808
  · obtain ⟨t, ht63, ht⟩ := hsmall hle
    exact full_merge_of_inv a
      (buddyInv_run ops _ a (buddyInv_new memory_size min_size t e ht63 ht hmin) hrun) hempty
  · have h0 := hlarge (by omega)
    have hmin1 : 1 ≤ (BuddyAllocator.new memory_size min_size).min_block_size := by
      show 1 ≤ min_size
      rw [hmin]; exact Nat.two_pow_pos e
    have := run_zero_total ops _ a h0 rfl hmin1 hrun
    subst this
    intro k
    generalize hT : (BuddyAllocator.new memory_size min_size).total_memory = total
    have hfl : (BuddyAllocator.new memory_size min_size).free_lists =
        pushBack total { address := 0, size := total } [] := by
      rw [← hT]; rfl
    rw [hfl, bucket_pushBack]
    split <;> rfl

/-- Counterexample to **C3** as stated.  (1) `BuddyAllocator(8, 3)`: after `malloc(4)`
and `free(1)` the free list of size 4 holds the blocks at 0 and 4, which are mutual
buddies (`0 XOR 4 = 4`): `mergeBuddies` scans the sizes 3, 6 and never looks at bucket 4.
(2) `BuddyAllocator(2^63 + 1)`: the rounding wraps to 0 and the only block has size 0,
which is not a power of two. -/
theorem C3_counterexample :
    (((BuddyAllocator.new 8 3).run [BuddyOp.malloc 4, BuddyOp.free 1]).map
        (fun a => bucket a.free_lists 4)
      = some [{ address := 0, size := 4 }, { address := 4, size := 4 }] ∧
      BuddyAllocator.getBuddyAddress 0 4 = 4) ∧
    (bucket (BuddyAllocator.new (2 ^ 63 + 1) 64).free_lists 0 = [{ address := 0, size := 0 }] ∧
      ¬ ∃ k, (0 : Nat) = 2 ^ k) := by
  refine ⟨⟨by decide, by decide⟩, by decide, ?_⟩
  rintro ⟨k, hk⟩
  exact absurd hk.symm (by positivity)

/-- Witness of **C3**: `BuddyAllocator(256, 64)` after `malloc(50)`, `malloc(50)`,
`free(1)`. -/
theorem C3_buddy_invariant_witness :
    (∀ b, BuddyLive BuddyAllocator.scenarioOneFreed.free_lists
        BuddyAllocator.scenarioOneFreed.allocated_blocks b → ∃ k, b.size = 2 ^ k) ∧
    (∀ k k' b c, b ∈ bucket BuddyAllocator.scenarioOneFreed.free_lists k →
      c ∈ bucket BuddyAllocator.scenarioOneFreed.free_lists k' → b.size = c.size →
      c.address ≠ BuddyAllocator.getBuddyAddress b.address b.size) :=
  C3_buddy_invariant 256 64 6 (by decide) (by decide)
    [BuddyOp.malloc 50, BuddyOp.malloc 50, BuddyOp.free 1] BuddyAllocator.scenarioOneFreed
    (by decide)

/-- Counterexample to **C4** as stated.  `BuddyAllocator(16, 6)`: after `malloc(8)`,
`malloc(8)`, `free(2)`, `free(1)` the allocated map is empty, but the free lists hold the
two blocks of size 8 at 0 and 8 and no block of size 16: `mergeBuddies` scans the sizes
6, 12 and never looks at bucket 8. -/
theorem C4_counterexample :
    ((BuddyAllocator.new 16 6).run
        [BuddyOp.malloc 8, BuddyOp.malloc 8, BuddyOp.free 2, BuddyOp.free 1]).map
      (fun a => (a.allocated_blocks, a.total_memory, bucket a.free_lists 16,
        bucket a.free_lists 8))
    = some ([], 16, [], [{ address := 0, size := 8 }, { address := 8, size := 8 }]) := by
  decide

/-- Witness of **C4**: `BuddyAllocator(256, 64)` after `malloc(50)`, `malloc(50)`,
`free(1)`, `free(2)`, read at the buckets 256 and 64. -/
theorem C4_full_merge_witness :
    (bucket BuddyAllocator.scenarioAllFreed.free_lists 256 =
      if 256 = BuddyAllocator.scenarioAllFreed.total_memory then
        [{ address := 0, size := BuddyAllocator.scenarioAllFreed.total_memory }]
      else []) ∧
    (bucket BuddyAllocator.scenarioAllFreed.free_lists 64 =
      if 64 = BuddyAllocator.scenarioAllFreed.total_memory then
        [{ address := 0, size := BuddyAllocator.scenarioAllFreed.total_memory }]
      else []) :=
  ⟨C4_full_merge 256 64 6 (by decide) (by decide)
      [BuddyOp.malloc 50, BuddyOp.malloc 50, BuddyOp.free 1, BuddyOp.free 2]
      BuddyAllocator.scenarioAllFreed (by decide) (by decide) 256,
    C4_full_merge 256 64 6 (by decide) (by decide)
      [BuddyOp.malloc 50, BuddyOp.malloc 50, BuddyOp.free 1, BuddyOp.free 2]
      BuddyAllocator.scenarioAllFreed (by decide) (by decide) 64⟩

/-! ## Theorems: scenarios, bounds and construction -/

/-- **C18** (contiguous first-fit scenario).  On `MemoryAllocator(1024)` with the default
`FIRST_FIT` strategy: `malloc(100)` returns id 1 at address `0x0000`; `malloc(200)`
returns id 2 at address `0x0064`; `free(1)` succeeds; and the following `malloc(50)` is
placed at address `0x0000`, inside the freed 100-byte hole and not in the 724-byte tail,
leaving a free block of 50 bytes at `0x0032`. -/
theorem C18_first_fit_scenario :
    (MemoryAllocator.new 1024).strategy = AllocationStrategy.FIRST_FIT ∧
    ((MemoryAllocator.new 1024).malloc 100).2 = 1 ∧
    ((MemoryAllocator.new 1024).malloc 100).1.head =
      [{ address := 0x0000, size := 100, is_free := false, block_id := 1 },
       { address := 0x0064, size := 924, is_free := true, block_id := -1 }] ∧
    ((((MemoryAllocator.new 1024).malloc 100).1).malloc 200).2 = 2 ∧
    ((((MemoryAllocator.new 1024).malloc 100).1).malloc 200).1.head =
      [{ address := 0x0000, size := 100, is_free := false, block_id := 1 },
       { address := 0x0064, size := 200, is_free := false, block_id := 2 },
       { address := 0x012c, size := 724, is_free := true, block_id := -1 }] ∧
    (((((MemoryAllocator.new 1024).malloc 100).1).malloc 200).1.free 1).2 = true ∧
    (((((MemoryAllocator.new 1024).malloc 100).1).malloc 200).1.free 1).1.head =
      [{ address := 0x0000, size := 100, is_free := true, block_id := -1 },
       { address := 0x0064, size := 200, is_free := false, block_id := 2 },
       { address := 0x012c, size := 724, is_free := true, block_id := -1 }] ∧
    ((((((MemoryAllocator.new 1024).malloc 100).1).malloc 200).1.free 1).1.malloc 50).2 = 3 ∧
    ((((((MemoryAllocator.new 1024).malloc 100).1).malloc 200).1.free 1).1.malloc 50).1.head =
      [{ address := 0x0000, size := 50, is_free := false, block_id := 3 },
       { address := 0x0032, size := 50, is_free := true, block_id := -1 },
       { address := 0x0064, size := 200, is_free := false, block_id := 2 },
       { address := 0x012c, size := 724, is_free := true, block_id := -1 }] := by
  decide

/-- **C19** (out-of-bounds cache accesses).  For every `CacheHierarchy` and every address
`>= memory_size`, `read(address)` returns 0 and `write(address, data)` returns, and in
both cases the whole state (the backing store and every cache level with its lines,
timestamps, hit and miss counters) is unchanged. -/
theorem C19_out_of_bounds (h : CacheHierarchy) (address data : Nat)
    (hout : address ≥ h.memory_size) :
    (h.read address).2 = 0 ∧ (h.read address).1 = h ∧ h.write address data = h := by
  simp [CacheHierarchy.read, CacheHierarchy.write, hout]

/-- Witness of **C19**: a hierarchy of 16 words with one level that has already served a
read, accessed at address 16. -/
theorem C19_out_of_bounds_witness :
    ((((CacheHierarchy.new 16).addLevel 2 1 2 ReplacementPolicy.LRU).read 0).1.read 16).2 = 0 ∧
    ((((CacheHierarchy.new 16).addLevel 2 1 2 ReplacementPolicy.LRU).read 0).1.read 16).1 =
      (((CacheHierarchy.new 16).addLevel 2 1 2 ReplacementPolicy.LRU).read 0).1 ∧
    (((CacheHierarchy.new 16).addLevel 2 1 2 ReplacementPolicy.LRU).read 0).1.write 16 7 =
      (((CacheHierarchy.new 16).addLevel 2 1 2 ReplacementPolicy.LRU).read 0).1 :=
  C19_out_of_bounds _ 16 7 (by decide)

theorem isPowerOf2_two_pow (t : Nat) : BuddyAllocator.isPowerOf2 (2 ^ t) = true := by
  have hpos : 0 < 2 ^ t := Nat.two_pow_pos t
  have hand : 2 ^ t &&& (2 ^ t - 1) = 0 := by
    apply Nat.eq_of_testBit_eq
    intro i
    rw [Nat.testBit_and, Nat.testBit_two_pow, Nat.testBit_two_pow_sub_one]
    by_cases h : t = i
    · subst h; simp
    · simp [h]
  simp [BuddyAllocator.isPowerOf2, hpos, hand]

/-- **C14** (buddy construction rounds memory up to a power of two).  For every
`memory_size` with `1 <= memory_size <= 2^63` (and every `min_size`), the constructed
allocator's `total_memory` is a power of two, is not below `memory_size`, is not above any
power of two that is not below `memory_size` (so it is the smallest such power), equals
`memory_size` when that already is a power of two, and the free lists hold exactly one
block, at address 0 with size `total_memory`, in the bucket of `total_memory`.
`roundUpToPowerOf2`, computed with 64-bit wrap-around arithmetic, is the least power of
two `>= n` on that range. -/
theorem C14_construction_rounds (memory_size min_size : Nat) (h1 : 1 ≤ memory_size)
    (h2 : memory_size ≤ 2 ^ 63) :
    ((∃ t, (BuddyAllocator.new memory_size min_size).total_memory = 2 ^ t) ∧
      memory_size ≤ (BuddyAllocator.new memory_size min_size).total_memory ∧
      (∀ t, memory_size ≤ 2 ^ t →
        (BuddyAllocator.new memory_size min_size).total_memory ≤ 2 ^ t) ∧
      ((∃ t, memory_size = 2 ^ t) →
        (BuddyAllocator.new memory_size min_size).total_memory = memory_size)) ∧
    ((BuddyAllocator.new memory_size min_size).free_lists =
        [((BuddyAllocator.new memory_size min_size).total_memory,
          [{ address := 0, size := (BuddyAllocator.new memory_size min_size).total_memory,
             is_free := true, block_id := -1 }])] ∧
      BuddyAllocator.freeCount (BuddyAllocator.new memory_size min_size).free_lists = 1) ∧
    ((∃ t, BuddyAllocator.roundUpToPowerOf2 memory_size = 2 ^ t) ∧
      memory_size ≤ BuddyAllocator.roundUpToPowerOf2 memory_size ∧
      (∀ t, memory_size ≤ 2 ^ t → BuddyAllocator.roundUpToPowerOf2 memory_size ≤ 2 ^ t)) := by
  have h63 : (2 : Nat) ^ 63 = 9223372036854775808 := by norm_num
  obtain ⟨L, _, hL, hle, hmin⟩ := roundUpToPowerOf2_spec memory_size h1 (by omega)
  have hleast : ∀ t, memory_size ≤ 2 ^ t → 2 ^ L ≤ 2 ^ t := by
    intro t ht
    rcases hmin with h0 | hlt
    · subst h0
      exact Nat.one_le_two_pow
    · have hlt' : 2 ^ (L - 1) < 2 ^ t := lt_of_lt_of_le hlt ht
      have : L - 1 < t := (Nat.pow_lt_pow_iff_right (by norm_num)).1 hlt'
      exact Nat.pow_le_pow_right (by norm_num) (by omega)
  have hround : BuddyAllocator.roundUpToPowerOf2 memory_size = 2 ^ L := hL
  have hself : ∀ t, memory_size = 2 ^ t → BuddyAllocator.roundUpToPowerOf2 memory_size
      = memory_size := by
    intro t ht
    rw [hround]
    exact le_antisymm (by rw [ht]; exact hleast t (le_of_eq ht)) hle
  have htotal : (BuddyAllocator.new memory_size min_size).total_memory
      = BuddyAllocator.roundUpToPowerOf2 memory_size := by
    show (if BuddyAllocator.isPowerOf2 memory_size = true then memory_size
      else BuddyAllocator.roundUpToPowerOf2 memory_size) = _
    split
    · rename_i hp
      obtain ⟨t, ht⟩ := isPowerOf2_sound memory_size hp
      exact (hself t ht).symm
    · rfl
  refine ⟨⟨⟨L, by rw [htotal, hround]⟩, by rw [htotal, hround]; exact hle, ?_, ?_⟩, ⟨?_, ?_⟩,
    ⟨L, hround⟩, by rw [hround]; exact hle, by rw [hround]; exact hleast⟩
  · intro t ht
    rw [htotal, hround]
    exact hleast t ht
  · rintro ⟨t, ht⟩
    rw [htotal]
    exact hself t ht
  · simp [BuddyAllocator.new, pushBack, mapInsert, bucket, mapFind]
  · simp [BuddyAllocator.new, pushBack, mapInsert, bucket, mapFind, BuddyAllocator.freeCount]

/-- Witness of **C14**: `BuddyAllocator(200, 64)` is built with 256 bytes. -/
theorem C14_construction_rounds_witness :
    ((∃ t, (BuddyAllocator.new 200 64).total_memory = 2 ^ t) ∧
      200 ≤ (BuddyAllocator.new 200 64).total_memory ∧
      (∀ t, 200 ≤ 2 ^ t → (BuddyAllocator.new 200 64).total_memory ≤ 2 ^ t) ∧
      ((∃ t, 200 = 2 ^ t) → (BuddyAllocator.new 200 64).total_memory = 200)) ∧
    ((BuddyAllocator.new 200 64).free_lists =
        [((BuddyAllocator.new 200 64).total_memory,
          [{ address := 0, size := (BuddyAllocator.new 200 64).total_memory,
             is_free := true, block_id := -1 }])] ∧
      BuddyAllocator.freeCount (BuddyAllocator.new 200 64).free_lists = 1) ∧
    ((∃ t, BuddyAllocator.roundUpToPowerOf2 200 = 2 ^ t) ∧
      200 ≤ BuddyAllocator.roundUpToPowerOf2 200 ∧
      (∀ t, 200 ≤ 2 ^ t → BuddyAllocator.roundUpToPowerOf2 200 ≤ 2 ^ t)) :=
  C14_construction_rounds 200 64 (by decide) (by decide)

/-- Counterexample to **C17** as stated.  On `BuddyAllocator(256, 64)` the first
`malloc(50)` returns id 1 for the block of size 64 at address 192, not at address 0, and
the second `malloc(50)` returns id 2 for the block at address 128, not at address 64:
`splitBlock` takes the block at the back of each bucket, which after a split is the right
half. -/
theorem C17_counterexample :
    ((BuddyAllocator.new 256 64).malloc 50).map (fun r => (r.2, r.1.allocated_blocks)) =
      some (1, [(1, { address := 192, size := 64, is_free := false, block_id := 1 })]) ∧
    ((BuddyAllocator.new 256 64).run [BuddyOp.malloc 50]).bind
        (fun a => (a.malloc 50).map (fun r => (r.2, mapFind r.2 r.1.allocated_blocks))) =
      some (2, some { address := 128, size := 64, is_free := false, block_id := 2 }) ∧
    (192 : Nat) ≠ 0 ∧ (128 : Nat) ≠ 64 := by
  decide

/-- **C17** (buddy scenario), as amended.  On `BuddyAllocator(256, 64)` the first
`malloc(50)` returns id 1 for a block of allocated size 64 at address 192, leaving the
free blocks of size 64 at 128 and of size 128 at 0; the second `malloc(50)` returns id 2
for a block of allocated size 64 at address 128; and after freeing both ids, in either
order, each `free` returns `true` and the free lists hold a single free block, of size 256
at address 0. -/
theorem C17_buddy_scenario :
    ((BuddyAllocator.new 256 64).malloc 50).map
        (fun r => (r.2, r.1.allocated_blocks, bucket r.1.free_lists 64,
          bucket r.1.free_lists 128, bucket r.1.free_lists 256)) =
      some (1, [(1, { address := 192, size := 64, is_free := false, block_id := 1 })],
        [{ address := 128, size := 64 }], [{ address := 0, size := 128 }], []) ∧
    ((BuddyAllocator.new 256 64).run [BuddyOp.malloc 50]).bind
        (fun a => (a.malloc 50).map
          (fun r => (r.2, r.1.allocated_blocks, bucket r.1.free_lists 64,
            bucket r.1.free_lists 128, bucket r.1.free_lists 256))) =
      some (2, [(1, { address := 192, size := 64, is_free := false, block_id := 1 }),
          (2, { address := 128, size := 64, is_free := false, block_id := 2 })],
        [], [{ address := 0, size := 128 }], []) ∧
    ((BuddyAllocator.new 256 64).run [BuddyOp.malloc 50, BuddyOp.malloc 50]).bind
        (fun a => (a.free 1).bind (fun r1 => (r1.1.free 2).map
          (fun r2 => (r1.2, r2.2, r2.1.allocated_blocks, r2.1.free_lists,
            BuddyAllocator.freeCount r2.1.free_lists)))) =
      some (true, true, [], [(64, []), (128, []), (256, [{ address := 0, size := 256 }])], 1) ∧
    ((BuddyAllocator.new 256 64).run [BuddyOp.malloc 50, BuddyOp.malloc 50]).bind
        (fun a => (a.free 2).bind (fun r1 => (r1.1.free 1).map
          (fun r2 => (r1.2, r2.2, r2.1.allocated_blocks, r2.1.free_lists,
            BuddyAllocator.freeCount r2.1.free_lists)))) =
      some (true, true, [], [(64, []), (128, []), (256, [{ address := 0, size := 256 }])], 1) := by
  refine ⟨?_, ?_, ?_, ?_⟩ <;> rfl

/-! ## Theorems: cache reads -/

theorem findLine_some (tag : Nat) : ∀ (l : List CacheLine) (i : Nat),
    CacheLevel.findLine tag l = some i →
    ∃ line, l.get? i = some line ∧ line.valid = true ∧ line.tag = tag ∧
      ∀ j line', j < i → l.get? j = some line' → ¬ (line'.valid = true ∧ line'.tag = tag) := by
  intro l
  induction l with
  | nil => intro i h; simp [CacheLevel.findLine] at h
  | cons c rest ih =>
    intro i h
    simp only [CacheLevel.findLine] at h
    split at h
    · rename_i hc
      simp only [Bool.and_eq_true, decide_eq_true_eq] at hc
      cases h
      exact ⟨c, rfl, hc.1, hc.2, fun j _ hj => absurd hj (Nat.not_lt_zero j)⟩
    · rename_i hc
      simp only [Bool.and_eq_true, decide_eq_true_eq] at hc
      cases hr : CacheLevel.findLine tag rest with
      | none => rw [hr] at h; simp at h
      | some i' =>
        rw [hr] at h
        simp only [Option.map_some', Option.some.injEq] at h
        subst h
        obtain ⟨line, hget, hv, ht, hmin⟩ := ih i' hr
        refine ⟨line, by simpa using hget, hv, ht, ?_⟩
        intro j line' hj hget'
        cases j with
        | zero =>
          simp only [List.get?_cons_zero, Option.some.injEq] at hget'
          subst hget'
          exact hc
        | succ j' => exact hmin j' line' (by omega) (by simpa using hget')

theorem findLine_none (tag : Nat) : ∀ (l : List CacheLine),
    CacheLevel.findLine tag l = none →
    ∀ line ∈ l, ¬ (line.valid = true ∧ line.tag = tag) := by
  intro l
  induction l with
  | nil => intro _ line hl; simp at hl
  | cons c rest ih =>
    intro h line hl
    simp only [CacheLevel.findLine] at h
    split at h
    · simp at h
    · rename_i hc
      simp only [Bool.and_eq_true, decide_eq_true_eq] at hc
      cases hr : CacheLevel.findLine tag rest with
      | some i' => rw [hr] at h; simp at h
      | none =>
        rcases List.mem_cons.1 hl with heq | hmem
        · subst heq; exact hc
        · exact ih hr line hmem

/-- A hit of `access`: the lowest way of the set holding a valid line with the tag gives
the data; the hit counter and the recency of that way are updated. -/
theorem access_hit (c : CacheLevel) (address data : Nat)
    (h : (c.access address).2 = some data) :
    ∃ way line,
      (c.cache_sets.getD (c.getSetIndex address) []).get? way = some line ∧
      line.valid = true ∧ line.tag = c.getTag address ∧ line.data = data ∧
      (∀ j line', j < way →
        (c.cache_sets.getD (c.getSetIndex address) []).get? j = some line' →
        ¬ (line'.valid = true ∧ line'.tag = c.getTag address)) ∧
      (c.access address).1 =
        CacheLevel.updateLRU { c with hits := (c.hits + 1) % SIZE_MOD }
          (c.getSetIndex address) way := by
  cases hf : CacheLevel.findLine (c.getTag address)
      (c.cache_sets.getD (c.getSetIndex address) []) with
  | none => simp only [CacheLevel.access, hf] at h; cases h
  | some way =>
    obtain ⟨line, hget, hv, ht, hmin⟩ := findLine_some _ _ _ hf
    refine ⟨way, line, hget, hv, ht, ?_, hmin, ?_⟩
    · simp only [CacheLevel.access, hf, Option.some.injEq] at h
      rw [← h, getD_eq_get?, hget]
      rfl
    · simp only [CacheLevel.access, hf]

/-- A miss of `access`: no valid line of the set carries the tag, and only the miss
counter changes. -/
theorem access_miss (c : CacheLevel) (address : Nat) (h : (c.access address).2 = none) :
    (∀ line ∈ c.cache_sets.getD (c.getSetIndex address) [],
      ¬ (line.valid = true ∧ line.tag = c.getTag address)) ∧
    (c.access address).1 = { c with misses := (c.misses + 1) % SIZE_MOD } := by
  cases hf : CacheLevel.findLine (c.getTag address)
      (c.cache_sets.getD (c.getSetIndex address) []) with
  | some way => simp only [CacheLevel.access, hf] at h; cases h
  | none => exact ⟨findLine_none _ _ hf, by simp only [CacheLevel.access, hf]⟩

theorem readLevels_miss (address : Nat) : ∀ (levels : List CacheLevel),
    (∀ l ∈ levels, (l.access address).2 = none) →
    CacheHierarchy.readLevels address levels =
      (levels.map (fun l => { l with misses := (l.misses + 1) % SIZE_MOD }), none) := by
  intro levels
  induction levels with
  | nil => intro _; rfl
  | cons c rest ih =>
    intro h
    have hc := h c (List.mem_cons_self _ _)
    have hrest := ih (fun l hl => h l (List.mem_cons_of_mem _ hl))
    have h1 := (access_miss c address hc).2
    cases hacc : c.access address with
    | mk c' r =>
      rw [hacc] at hc h1
      simp only at hc h1
      subst hc
      simp only [CacheHierarchy.readLevels, hacc, hrest, List.map_cons, h1]

theorem readLevels_hit (address : Nat) : ∀ (levels : List CacheLevel) (i : Nat)
    (level : CacheLevel) (data : Nat), levels.get? i = some level →
    (level.access address).2 = some data →
    (∀ j l, j < i → levels.get? j = some l → (l.access address).2 = none) →
    CacheHierarchy.readLevels address levels =
      ((levels.take i).map (fun l => { l with misses := (l.misses + 1) % SIZE_MOD }) ++
        (level.access address).1 :: levels.drop (i + 1), some data) := by
  intro levels
  induction levels with
  | nil => intro i level data hget; simp at hget
  | cons c rest ih =>
    intro i level data hget hhit hbefore
    cases i with
    | zero =>
      simp only [List.get?_cons_zero, Option.some.injEq] at hget
      subst hget
      cases hacc : c.access address with
      | mk c' r =>
        rw [hacc] at hhit
        simp only at hhit
        subst hhit
        simp [CacheHierarchy.readLevels, hacc]
    | succ i' =>
      have hc := hbefore 0 c (by omega) rfl
      have h1 := (access_miss c address hc).2
      have hrest := ih i' level data (by simpa using hget) hhit
        (fun j l hj hl => hbefore (j + 1) l (by omega) (by simpa using hl))
      cases hacc : c.access address with
      | mk c' r =>
        rw [hacc] at hc h1
        simp only at hc h1
        subst hc
        simp only [CacheHierarchy.readLevels, hacc, hrest, h1, List.take_succ_cons,
          List.map_cons, List.cons_append, List.drop_succ_cons]

theorem map_modifyAt_same {α β : Type} (g : α → β) (f : α → α) (h : ∀ x, g (f x) = g x)
    (l : List α) (i : Nat) : (modifyAt f l i).map g = l.map g := by
  rw [map_modifyAt g f id h]
  exact modifyAt_id _ (fun _ => rfl) _ _

/-- The recency update of a hit rewrites only the time stamp and the frequency of the
line: validity, tag and data of every line of the level stay as they are. -/
theorem updateLRU_lines (c : CacheLevel) (set_index way : Nat) :
    (CacheLevel.updateLRU c set_index way).cache_sets.map
        (fun set => set.map (fun line => (line.valid, line.tag, line.data))) =
      c.cache_sets.map (fun set => set.map (fun line => (line.valid, line.tag, line.data))) := by
  simp only [CacheLevel.updateLRU]
  apply map_modifyAt_same
  intro set
  apply map_modifyAt_same
  intro line
  rfl

theorem forall_mem_modifyAt {α : Type} (P : α → Prop) (f : α → α)
    (hf : ∀ x, P x → P (f x)) :
    ∀ (l : List α) (i : Nat), (∀ x ∈ l, P x) → ∀ x ∈ modifyAt f l i, P x := by
  intro l
  induction l with
  | nil => intro i _ x hx; simp [modifyAt] at hx
  | cons c rest ih =>
    intro i h x hx
    cases i with
    | zero =>
      simp only [modifyAt, List.mem_cons] at hx
      rcases hx with hx | hx
      · rw [hx]; exact hf c (h c (List.mem_cons_self _ _))
      · exact h x (List.mem_cons_of_mem _ hx)
    | succ i =>
      simp only [modifyAt, List.mem_cons] at hx
      rcases hx with hx | hx
      · rw [hx]; exact h c (List.mem_cons_self _ _)
      · exact ih i (fun y hy => h y (List.mem_cons_of_mem _ hy)) x hx

/-- An update of one line keeps the number of sets and the number of lines of every
set. -/
theorem sets_shape_modifyAt (f : CacheLine → CacheLine) (sets : List (List CacheLine))
    (si way n k : Nat) (h1 : sets.length = n) (h2 : ∀ set ∈ sets, set.length = k) :
    (modifyAt (fun set => modifyAt f set way) sets si).length = n ∧
    ∀ set ∈ modifyAt (fun set => modifyAt f set way) sets si, set.length = k := by
  refine ⟨by rw [length_modifyAt]; exact h1, ?_⟩
  apply forall_mem_modifyAt (fun set : List CacheLine => set.length = k)
  · intro set hs
    show (modifyAt f set way).length = k
    rw [length_modifyAt]
    exact hs
  · exact h2

/-- Method `access` keeps a level well formed. -/
theorem wellFormed_access (c : CacheLevel) (address : Nat) (h : c.WellFormed) :
    (c.access address).1.WellFormed := by
  obtain ⟨h1, h2, h3, h4, h5, h6⟩ := h
  unfold CacheLevel.access
  simp only
  split
  · obtain ⟨g1, g2⟩ := sets_shape_modifyAt (fun line : CacheLine =>
        { line with
          timestamp := c.current_time
          frequency := if c.policy = ReplacementPolicy.LFU then line.frequency + 1
            else line.frequency }) c.cache_sets (c.getSetIndex address) _ _ _ h5 h6
    exact ⟨h1, h2, h3, h4, g1, g2⟩
  · exact ⟨h1, h2, h3, h4, h5, h6⟩

/-- Method `insert` keeps a level well formed. -/
theorem wellFormed_insert (c : CacheLevel) (address data : Nat) (h : c.WellFormed) :
    (c.insert address data).WellFormed := by
  obtain ⟨h1, h2, h3, h4, h5, h6⟩ := h
  obtain ⟨g1, g2⟩ := sets_shape_modifyAt (fun line : CacheLine =>
      { line with
        valid := true
        tag := c.getTag address
        data := data
        timestamp := c.current_time
        frequency := if c.policy = ReplacementPolicy.LFU then 1 else line.frequency })
      c.cache_sets (c.getSetIndex address)
      (CacheLevel.findVictim c.policy (c.cache_sets.getD (c.getSetIndex address) [])) _ _ h5 h6
  exact ⟨h1, h2, h3, h4, g1, g2⟩

theorem wellFormed_readLevels (address : Nat) : ∀ (levels : List CacheLevel),
    (∀ level ∈ levels, level.WellFormed) →
    ∀ level ∈ (CacheHierarchy.readLevels address levels).1, level.WellFormed := by
  intro levels
  induction levels with
  | nil => intro _ level hl; simp [CacheHierarchy.readLevels] at hl
  | cons c rest ih =>
    intro h level hl
    have hc := wellFormed_access c address (h c (List.mem_cons_self _ _))
    have hrest : ∀ l ∈ rest, l.WellFormed := fun l hm => h l (List.mem_cons_of_mem _ hm)
    cases hacc : c.access address with
    | mk c' r =>
      rw [hacc] at hc
      cases r with
      | some d =>
        simp only [CacheHierarchy.readLevels, hacc, List.mem_cons] at hl
        rcases hl with hl | hl
        · rw [hl]; exact hc
        · exact hrest level hl
      | none =>
        simp only [CacheHierarchy.readLevels, hacc, List.mem_cons] at hl
        rcases hl with hl | hl
        · rw [hl]; exact hc
        · exact ih hrest level hl

/-- Method `read` keeps the levels of a hierarchy well formed. -/
theorem wellFormed_read (h : CacheHierarchy) (address : Nat)
    (hgeo : ∀ level ∈ h.levels, level.WellFormed) :
    ∀ level ∈ (h.read address).1.levels, level.WellFormed := by
  have hrl := wellFormed_readLevels address h.levels hgeo
  unfold CacheHierarchy.read
  split
  · exact hgeo
  · cases hr : CacheHierarchy.readLevels address h.levels with
    | mk levels r =>
      rw [hr] at hrl
      cases r with
      | some d => exact hrl
      | none =>
        intro level hl
        have hl' : level ∈ levels.map (fun level =>
            level.insert address (h.main_memory.getD address 0)) := hl
        obtain ⟨l0, hl0, rfl⟩ := List.mem_map.1 hl'
        exact wellFormed_insert l0 _ _ (hrl l0 hl0)

/-- Method `write` keeps the levels of a hierarchy well formed. -/
theorem wellFormed_write (h : CacheHierarchy) (address data : Nat)
    (hgeo : ∀ level ∈ h.levels, level.WellFormed) :
    ∀ level ∈ (h.write address data).levels, level.WellFormed := by
  unfold CacheHierarchy.write
  split
  · exact hgeo
  · intro level hl
    have hl' : level ∈ h.levels.map (fun level =>
        match level.access address with
        | (level', some _) => level'.insert address data
        | (level', none) => level') := hl
    obtain ⟨l0, hl0, rfl⟩ := List.mem_map.1 hl'
    have hc := wellFormed_access l0 address (hgeo l0 hl0)
    cases hacc : l0.access address with
    | mk c' r =>
      rw [hacc] at hc
      cases r with
      | some d => exact wellFormed_insert c' _ _ hc
      | none => exact hc

/-- **C20** (`read` falls through the levels and fills on a full miss).  On a hierarchy
whose levels are well formed (the divisors of the index arithmetic are not 0, so that
`access` and `insert` are defined), for every in-bounds address, `read` queries the levels
in order L1..Ln and leaves every level well formed.  If level `i` is the first
that hits, `read` returns the data stored in that level's matching line (the lowest way of
the set with a valid line of the tag), the levels before `i` each record one miss and
change in nothing else, the hit level records the hit and the recency of the line, the
levels after `i` are not touched, the backing store is unchanged and no line is inserted
anywhere (validity, tag and data of every line of the hit level are as before).  If every
level misses, `read` returns `main_memory[address]` and inserts `(address, that value)`
into every level, after the miss was counted there. -/
theorem C20_read_fall_through (h : CacheHierarchy) (address : Nat)
    (hgeo : ∀ level ∈ h.levels, level.WellFormed)
    (hin : address < h.memory_size) :
    (∀ (i : Nat) (level : CacheLevel) (data : Nat), h.levels.get? i = some level →
      (level.access address).2 = some data →
      (∀ j l, j < i → h.levels.get? j = some l → (l.access address).2 = none) →
      (h.read address).2 = data ∧
      (∃ way line,
        (level.cache_sets.getD (level.getSetIndex address) []).get? way = some line ∧
        line.valid = true ∧ line.tag = level.getTag address ∧ line.data = data ∧
        (∀ j line', j < way →
          (level.cache_sets.getD (level.getSetIndex address) []).get? j = some line' →
          ¬ (line'.valid = true ∧ line'.tag = level.getTag address)) ∧
        (level.access address).1 =
          CacheLevel.updateLRU { level with hits := (level.hits + 1) % SIZE_MOD }
            (level.getSetIndex address) way) ∧
      (h.read address).1.levels =
        (h.levels.take i).map (fun l => { l with misses := (l.misses + 1) % SIZE_MOD }) ++
          (level.access address).1 :: h.levels.drop (i + 1) ∧
      (level.access address).1.cache_sets.map
          (fun set => set.map (fun line => (line.valid, line.tag, line.data))) =
        level.cache_sets.map
          (fun set => set.map (fun line => (line.valid, line.tag, line.data))) ∧
      (h.read address).1.main_memory = h.main_memory ∧
      (h.read address).1.memory_size = h.memory_size) ∧
    ((∀ l ∈ h.levels, (l.access address).2 = none) →
      (h.read address).2 = h.main_memory.getD address 0 ∧
      (h.read address).1.levels =
        h.levels.map (fun l =>
          CacheLevel.insert { l with misses := (l.misses + 1) % SIZE_MOD } address
            (h.main_memory.getD address 0)) ∧
      (h.read address).1.main_memory = h.main_memory ∧
      (h.read address).1.memory_size = h.memory_size) ∧
    (∀ level ∈ (h.read address).1.levels, level.WellFormed) := by
  have hnot : ¬ address ≥ h.memory_size := by omega
  refine ⟨?_, ?_, wellFormed_read h address hgeo⟩
  · intro i level data hget hhit hbefore
    have hrl := readLevels_hit address h.levels i level data hget hhit hbefore
    obtain ⟨way, line, hl, hv, ht, hd, hmin, hacc⟩ := access_hit level address data hhit
    refine ⟨?_, ⟨way, line, hl, hv, ht, hd, hmin, hacc⟩, ?_, ?_, ?_, ?_⟩
    · simp only [CacheHierarchy.read, hnot, ↓reduceIte, hrl]
    · simp only [CacheHierarchy.read, hnot, ↓reduceIte, hrl]
    · rw [hacc]
      exact updateLRU_lines _ _ _
    · simp only [CacheHierarchy.read, hnot, ↓reduceIte, hrl]
    · simp only [CacheHierarchy.read, hnot, ↓reduceIte, hrl]
  · intro hall
    have hrl := readLevels_miss address h.levels hall
    refine ⟨?_, ?_, ?_, ?_⟩
    · simp only [CacheHierarchy.read, hnot, ↓reduceIte, hrl]
    · simp only [CacheHierarchy.read, hnot, ↓reduceIte, hrl, List.map_map]
      rfl
    · simp only [CacheHierarchy.read, hnot, ↓reduceIte, hrl]
    · simp only [CacheHierarchy.read, hnot, ↓reduceIte, hrl]

/-- Witness of **C20**: on the scenario hierarchy a read of address 0 misses in L1 and
hits in L2. -/
theorem C20_read_fall_through_witness :
    ((∀ level ∈ CacheHierarchy.scenario.levels, level.WellFormed) ∧
      0 < CacheHierarchy.scenario.memory_size ∧
      CacheHierarchy.scenario.levels.map (fun l => (l.access 0).2) = [none, some 7] ∧
      (CacheHierarchy.scenario.read 0).2 = 7) ∧
    ((∀ (i : Nat) (level : CacheLevel) (data : Nat),
      CacheHierarchy.scenario.levels.get? i = some level →
      (level.access 0).2 = some data →
      (∀ j l, j < i → CacheHierarchy.scenario.levels.get? j = some l →
        (l.access 0).2 = none) →
      (CacheHierarchy.scenario.read 0).2 = data ∧
      (∃ way line,
        (level.cache_sets.getD (level.getSetIndex 0) []).get? way = some line ∧
        line.valid = true ∧ line.tag = level.getTag 0 ∧ line.data = data ∧
        (∀ j line', j < way →
          (level.cache_sets.getD (level.getSetIndex 0) []).get? j = some line' →
          ¬ (line'.valid = true ∧ line'.tag = level.getTag 0)) ∧
        (level.access 0).1 =
          CacheLevel.updateLRU { level with hits := (level.hits + 1) % SIZE_MOD }
            (level.getSetIndex 0) way) ∧
      (CacheHierarchy.scenario.read 0).1.levels =
        (CacheHierarchy.scenario.levels.take i).map
            (fun l => { l with misses := (l.misses + 1) % SIZE_MOD }) ++
          (level.access 0).1 :: CacheHierarchy.scenario.levels.drop (i + 1) ∧
      (level.access 0).1.cache_sets.map
          (fun set => set.map (fun line => (line.valid, line.tag, line.data))) =
        level.cache_sets.map
          (fun set => set.map (fun line => (line.valid, line.tag, line.data))) ∧
      (CacheHierarchy.scenario.read 0).1.main_memory = CacheHierarchy.scenario.main_memory ∧
      (CacheHierarchy.scenario.read 0).1.memory_size = CacheHierarchy.scenario.memory_size) ∧
    ((∀ l ∈ CacheHierarchy.scenario.levels, (l.access 0).2 = none) →
      (CacheHierarchy.scenario.read 0).2 = CacheHierarchy.scenario.main_memory.getD 0 0 ∧
      (CacheHierarchy.scenario.read 0).1.levels =
        CacheHierarchy.scenario.levels.map (fun l =>
          CacheLevel.insert { l with misses := (l.misses + 1) % SIZE_MOD } 0
            (CacheHierarchy.scenario.main_memory.getD 0 0)) ∧
      (CacheHierarchy.scenario.read 0).1.main_memory = CacheHierarchy.scenario.main_memory ∧
      (CacheHierarchy.scenario.read 0).1.memory_size = CacheHierarchy.scenario.memory_size) ∧
    (∀ level ∈ (CacheHierarchy.scenario.read 0).1.levels, level.WellFormed)) :=
  ⟨⟨by decide, by decide, by decide, by decide⟩,
    C20_read_fall_through CacheHierarchy.scenario 0 (by decide) (by decide)⟩


/-! ## Theorems: ids and accounting of the contiguous allocator -/

theorem split_at_get? {α : Type} : ∀ (l : List α) (i : Nat) (x : α), l.get? i = some x →
    l = l.take i ++ x :: l.drop (i + 1) := by
  intro l
  induction l with
  | nil => intro i x h; simp at h
  | cons c rest ih =>
    intro i x h
    cases i with
    | zero =>
      simp only [List.get?_cons_zero, Option.some.injEq] at h
      subst h
      rfl
    | succ i' =>
      have := ih i' x (by simpa using h)
      simp only [List.take_succ_cons, List.drop_succ_cons, List.cons_append]
      rw [← this]

theorem modifyAt_eq {α : Type} (f : α → α) : ∀ (l : List α) (i : Nat) (x : α),
    l.get? i = some x → modifyAt f l i = l.take i ++ f x :: l.drop (i + 1) := by
  intro l
  induction l with
  | nil => intro i x h; simp at h
  | cons c rest ih =>
    intro i x h
    cases i with
    | zero =>
      simp only [List.get?_cons_zero, Option.some.injEq] at h
      subst h
      rfl
    | succ i' =>
      have := ih i' x (by simpa using h)
      simp only [modifyAt, List.take_succ_cons, List.drop_succ_cons, List.cons_append, this]

/-- The ledger after the split and the marking of a successful `malloc` at position `i`:
the chosen block is replaced by the used block of `size` bytes, followed by the free
remainder when the chosen block was larger. -/
theorem malloc_ledger (size : Nat) (id : Int) : ∀ (l : List MemoryBlock) (i : Nat)
    (blk : MemoryBlock), l.get? i = some blk → size ≤ blk.size →
    modifyAt (fun b => { b with is_free := false, block_id := id })
        (MemoryAllocator.splitBlock l i size) i =
      l.take i ++
        ({ address := blk.address, size := size, is_free := false, block_id := id } ::
          (if blk.size > size then
            [{ address := (blk.address + size) % SIZE_MOD, size := blk.size - size,
               is_free := true, block_id := -1 }]
           else [])) ++ l.drop (i + 1) := by
  intro l
  induction l with
  | nil => intro i blk h; simp at h
  | cons c rest ih =>
    intro i blk h hle
    cases i with
    | zero =>
      simp only [List.get?_cons_zero, Option.some.injEq] at h
      subst h
      by_cases hgt : c.size > size
      · simp [MemoryAllocator.splitBlock, modifyAt, hgt]
      · have : c.size = size := by omega
        simp only [MemoryAllocator.splitBlock, hgt, ↓reduceIte, modifyAt, List.take_zero,
          List.nil_append, List.cons_append, List.drop_succ_cons, List.drop_zero]
        rw [← this]
    | succ i' =>
      have := ih i' blk (by simpa using h) hle
      simp only [MemoryAllocator.splitBlock, modifyAt, List.take_succ_cons, List.drop_succ_cons,
        List.cons_append, this, List.append_assoc]

theorem usedBlocks_append (l₁ l₂ : List MemoryBlock) :
    usedBlocks (l₁ ++ l₂) = usedBlocks l₁ ++ usedBlocks l₂ := by
  simp [usedBlocks]

theorem usedBlocks_cons_free (b : MemoryBlock) (l : List MemoryBlock) (h : b.is_free = true) :
    usedBlocks (b :: l) = usedBlocks l := by
  simp [usedBlocks, h]

theorem usedBlocks_cons_used (b : MemoryBlock) (l : List MemoryBlock) (h : b.is_free = false) :
    usedBlocks (b :: l) = b :: usedBlocks l := by
  simp [usedBlocks, h]

theorem mem_usedBlocks (b : MemoryBlock) (l : List MemoryBlock) :
    b ∈ usedBlocks l ↔ b ∈ l ∧ b.is_free = false := by
  simp [usedBlocks]

/-- Coalescing merges free blocks only: the used blocks stay as they are, in order. -/
theorem usedBlocks_coalesceFrom : ∀ (rest : List MemoryBlock) (cur : MemoryBlock),
    usedBlocks (MemoryAllocator.coalesceFrom cur rest) = usedBlocks (cur :: rest) := by
  intro rest
  induction rest with
  | nil => intro cur; rfl
  | cons next rest ih =>
    intro cur
    simp only [MemoryAllocator.coalesceFrom]
    split
    · rename_i h
      simp only [Bool.and_eq_true] at h
      rw [ih, usedBlocks_cons_free cur _ h.1, usedBlocks_cons_free next _ h.2]
      exact usedBlocks_cons_free _ _ h.1
    · cases hc : cur.is_free with
      | true =>
        rw [usedBlocks_cons_free _ _ hc, usedBlocks_cons_free _ _ hc, ih]
      | false =>
        rw [usedBlocks_cons_used _ _ hc, usedBlocks_cons_used _ _ hc, ih]

theorem usedBlocks_coalesceBlocks (l : List MemoryBlock) :
    usedBlocks (MemoryAllocator.coalesceBlocks l) = usedBlocks l := by
  cases l with
  | nil => rfl
  | cons c rest => exact usedBlocks_coalesceFrom rest c

/-- Coalescing keeps the id `-1` on the free blocks. -/
theorem free_id_coalesceFrom : ∀ (rest : List MemoryBlock) (cur : MemoryBlock),
    (∀ b ∈ cur :: rest, b.is_free = true → b.block_id = -1) →
    ∀ b ∈ MemoryAllocator.coalesceFrom cur rest, b.is_free = true → b.block_id = -1 := by
  intro rest
  induction rest with
  | nil => intro cur h b hb; exact h b (by simpa [MemoryAllocator.coalesceFrom] using hb)
  | cons next rest ih =>
    intro cur h b hb
    simp only [MemoryAllocator.coalesceFrom] at hb
    split at hb
    · rename_i hm
      simp only [Bool.and_eq_true] at hm
      refine ih _ ?_ b hb
      intro d hd hfree
      rcases List.mem_cons.1 hd with heq | hmem
      · subst heq
        exact h cur (List.mem_cons_self _ _) hm.1
      · exact h d (List.mem_cons_of_mem _ (List.mem_cons_of_mem _ hmem)) hfree
    · rcases List.mem_cons.1 hb with heq | hmem
      · subst heq
        exact h b (List.mem_cons_self _ _)
      · exact ih next (fun d hd => h d (List.mem_cons_of_mem _ hd)) b hmem

theorem free_id_coalesceBlocks (l : List MemoryBlock)
    (h : ∀ b ∈ l, b.is_free = true → b.block_id = -1) :
    ∀ b ∈ MemoryAllocator.coalesceBlocks l, b.is_free = true → b.block_id = -1 := by
  cases l with
  | nil => intro b hb; simp [MemoryAllocator.coalesceBlocks] at hb
  | cons c rest => exact free_id_coalesceFrom rest c h

theorem findBlock_some (k : Int) : ∀ (l : List MemoryBlock) (i : Nat),
    MemoryAllocator.findBlock k l = some i →
    ∃ b, l.get? i = some b ∧ b.block_id = k := by
  intro l
  induction l with
  | nil => intro i h; simp [MemoryAllocator.findBlock] at h
  | cons c rest ih =>
    intro i h
    simp only [MemoryAllocator.findBlock] at h
    split at h
    · rename_i hc
      cases h
      exact ⟨c, rfl, hc⟩
    · cases hr : MemoryAllocator.findBlock k rest with
      | none => rw [hr] at h; simp at h
      | some i' =>
        rw [hr] at h
        simp only [Option.map_some', Option.some.injEq] at h
        subst h
        obtain ⟨b, hget, hid⟩ := ih i' hr
        exact ⟨b, by simpa using hget, hid⟩

theorem findBlock_none (k : Int) : ∀ (l : List MemoryBlock),
    MemoryAllocator.findBlock k l = none → ∀ b ∈ l, b.block_id ≠ k := by
  intro l
  induction l with
  | nil => intro _ b hb; simp at hb
  | cons c rest ih =>
    intro h b hb
    simp only [MemoryAllocator.findBlock] at h
    split at h
    · simp at h
    · rename_i hc
      cases hr : MemoryAllocator.findBlock k rest with
      | some i' => rw [hr] at h; simp at h
      | none =>
        rcases List.mem_cons.1 hb with heq | hmem
        · subst heq; exact hc
        · exact ih hr b hmem

theorem mem_keyInsert (k x : Int) : ∀ (l : List Int), x ∈ keyInsert k l ↔ x = k ∨ x ∈ l := by
  intro l
  induction l with
  | nil => simp [keyInsert]
  | cons c rest ih =>
    simp only [keyInsert]
    split
    · simp
    · split
      · rename_i h
        subst h
        simp
      · simp only [List.mem_cons, ih]
        tauto

theorem sum_sizes_tiles : ∀ (l : List MemoryBlock) (s t : Nat), Tiles s l t →
    s + (l.map MemoryBlock.size).sum = t := by
  intro l
  induction l with
  | nil => intro s t h; simpa [Tiles] using h
  | cons c rest ih =>
    intro s t h
    have := ih _ _ h.2
    simp only [List.map_cons, List.sum_cons]
    omega

theorem usedSum_le_sum : ∀ (l : List MemoryBlock), usedSum l ≤ (l.map MemoryBlock.size).sum := by
  intro l
  induction l with
  | nil => simp [usedSum, usedBlocks]
  | cons c rest ih =>
    cases hc : c.is_free with
    | true =>
      simp only [usedSum, usedBlocks_cons_free _ _ hc, List.map_cons, List.sum_cons] at *
      omega
    | false =>
      simp only [usedSum, usedBlocks_cons_used _ _ hc, List.map_cons, List.sum_cons] at *
      omega

theorem usedSum_append (l₁ l₂ : List MemoryBlock) :
    usedSum (l₁ ++ l₂) = usedSum l₁ + usedSum l₂ := by
  simp [usedSum, usedBlocks_append]

theorem usedSum_cons_free (b : MemoryBlock) (l : List MemoryBlock) (h : b.is_free = true) :
    usedSum (b :: l) = usedSum l := by
  simp [usedSum, usedBlocks_cons_free _ _ h]

theorem usedSum_cons_used (b : MemoryBlock) (l : List MemoryBlock) (h : b.is_free = false) :
    usedSum (b :: l) = b.size + usedSum l := by
  simp [usedSum, usedBlocks_cons_used _ _ h]

/-- The used bytes and one free block fit into the ledger together. -/
theorem usedSum_add_free (p s : List MemoryBlock) (blk : MemoryBlock)
    (hfree : blk.is_free = true) :
    usedSum (p ++ blk :: s) + blk.size ≤ ((p ++ blk :: s).map MemoryBlock.size).sum := by
  have h1 := usedSum_le_sum p
  have h2 := usedSum_le_sum s
  rw [usedSum_append, usedSum_cons_free _ _ hfree]
  simp only [List.map_append, List.map_cons, List.sum_append, List.sum_cons]
  omega

/-- The state after a successful `malloc` that chose the block `blk` at position `i`. -/
theorem malloc_success (a : MemoryAllocator) (size i : Nat) (blk : MemoryBlock)
    (hsize : size ≠ 0) (hfind : a.findFreeBlock size = some i)
    (hget : a.head.get? i = some blk) (hle : size ≤ blk.size) :
    a.malloc size =
      ({ a with
          head := a.head.take i ++
            ({ address := blk.address, size := size, is_free := false,
               block_id := a.next_block_id } ::
              (if blk.size > size then
                [{ address := (blk.address + size) % SIZE_MOD, size := blk.size - size,
                   is_free := true, block_id := -1 }]
               else [])) ++ a.head.drop (i + 1)
          next_block_id := a.next_block_id + 1
          allocated_blocks := keyInsert a.next_block_id a.allocated_blocks
          requested_sizes := mapInsert a.next_block_id size a.requested_sizes
          used_memory := (a.used_memory + size) % SIZE_MOD }, a.next_block_id) := by
  have hled := malloc_ledger size a.next_block_id a.head i blk hget hle
  have hself := (malloc_of_find a size i blk hsize hfind hget hle).2
  simp only [MemoryAllocator.malloc, hsize, ↓reduceIte, hfind] at hself ⊢
  rw [hself]
  simp only [hled, Option.elim]

theorem usedBlocks_remainder (c : Prop) [Decidable c] (r : MemoryBlock)
    (h : r.is_free = true) : usedBlocks (if c then [r] else []) = [] := by
  split
  · exact usedBlocks_cons_free _ _ h
  · rfl

theorem idsOk_malloc (a : MemoryAllocator) (size : Nat) (hok : LedgerOk a) (h : IdsOk a) :
    IdsOk (a.malloc size).1 := by
  by_cases hsize : size = 0
  · simpa [MemoryAllocator.malloc, hsize] using h
  cases hfind : a.findFreeBlock size with
  | none => simpa [MemoryAllocator.malloc, hsize, hfind] using h
  | some i =>
    obtain ⟨blk, hget, hfree, hle⟩ := findFreeBlock_some a size i hfind
    rw [malloc_success a size i blk hsize hfind hget hle]
    obtain ⟨P, S, hPS, hP, hS⟩ : ∃ P S, a.head = P ++ blk :: S ∧ a.head.take i = P ∧
        a.head.drop (i + 1) = S := ⟨_, _, split_at_get? a.head i blk hget, rfl, rfl⟩
    have hpos := h.pos
    have hfree_id := h.free_id
    have hused_id := h.used_id
    have hpresent := h.present
    have hkeys := h.keys
    have hnodup := h.nodup
    have hused := h.used
    rw [hPS] at hfree_id hused_id hpresent hnodup hused
    have hub : usedBlocks (P ++ blk :: S) = usedBlocks P ++ usedBlocks S := by
      rw [usedBlocks_append, usedBlocks_cons_free _ _ hfree]
    have hub' : usedBlocks (P ++
        ({ address := blk.address, size := size, is_free := false,
           block_id := a.next_block_id } ::
          (if blk.size > size then
            [{ address := (blk.address + size) % SIZE_MOD, size := blk.size - size,
               is_free := true, block_id := -1 }]
           else [])) ++ S) =
        usedBlocks P ++
          ((⟨blk.address, size, false, a.next_block_id⟩ : MemoryBlock) :: usedBlocks S) := by
      rw [usedBlocks_append, usedBlocks_append, usedBlocks_cons_used _ _ rfl,
        usedBlocks_remainder _ _ rfl, List.append_assoc]
      rfl
    rw [hub] at hused_id hpresent hnodup
    have hlt : ∀ b ∈ usedBlocks P ++ usedBlocks S, b.block_id < a.next_block_id :=
      fun b hb => (hkeys _ (hused_id b hb)).2
    constructor
    · show 1 ≤ a.next_block_id + 1
      omega
    · show ∀ b ∈ a.head.take i ++ _ ++ a.head.drop (i + 1), _
      rw [hP, hS]
      intro b hb hbfree
      simp only [List.mem_append, List.mem_cons] at hb
      rcases hb with (hb | hb | hb) | hb
      · exact hfree_id b (by simp [hb]) hbfree
      · subst hb; cases hbfree
      · split at hb
        · simp only [List.mem_singleton] at hb
          subst hb; rfl
        · simp at hb
      · exact hfree_id b (by simp [hb]) hbfree
    · show ∀ b ∈ usedBlocks (a.head.take i ++ _ ++ a.head.drop (i + 1)),
        b.block_id ∈ keyInsert a.next_block_id a.allocated_blocks
      rw [hP, hS, hub']
      intro b hb
      rw [mem_keyInsert]
      simp only [List.mem_append, List.mem_cons] at hb
      rcases hb with hb | hb | hb
      · exact Or.inr (hused_id b (by simp [hb]))
      · subst hb; exact Or.inl rfl
      · exact Or.inr (hused_id b (by simp [hb]))
    · show ∀ k ∈ keyInsert a.next_block_id a.allocated_blocks,
        ∃ b ∈ usedBlocks (a.head.take i ++ _ ++ a.head.drop (i + 1)), b.block_id = k
      rw [hP, hS, hub']
      intro k hk
      rw [mem_keyInsert] at hk
      rcases hk with hk | hk
      · exact ⟨⟨blk.address, size, false, a.next_block_id⟩, by simp, hk.symm⟩
      · obtain ⟨b, hb, hbk⟩ := hpresent k hk
        refine ⟨b, ?_, hbk⟩
        simp only [List.mem_append, List.mem_cons] at hb ⊢
        tauto
    · show ∀ k ∈ keyInsert a.next_block_id a.allocated_blocks, 1 ≤ k ∧ k < a.next_block_id + 1
      intro k hk
      rw [mem_keyInsert] at hk
      rcases hk with hk | hk
      · subst hk; omega
      · have := hkeys k hk
        omega
    · show ((usedBlocks (a.head.take i ++ _ ++ a.head.drop (i + 1))).map
        MemoryBlock.block_id).Nodup
      rw [hP, hS, hub', List.map_append, List.map_cons, List.nodup_middle, List.nodup_cons,
        ← List.map_append]
      refine ⟨?_, hnodup⟩
      intro hmem
      obtain ⟨b, hb, hbid⟩ := List.mem_map.1 hmem
      have := hlt b hb
      simp only at hbid
      omega
    · show (a.used_memory + size) % SIZE_MOD =
        usedSum (a.head.take i ++ _ ++ a.head.drop (i + 1))
      have hfit := usedSum_add_free P S blk hfree
      have htot := sum_sizes_tiles _ _ _ hok.2.1
      have hlim := hok.2.2
      rw [hPS] at htot
      rw [hP, hS, usedSum, hub', hused, usedSum, hub]
      simp only [List.map_append, List.map_cons, List.sum_append, List.sum_cons]
      rw [usedSum, hub] at hfit
      simp only [List.map_append, List.sum_append] at hfit
      rw [Nat.mod_eq_of_lt]
      · omega
      · simp only [List.map_append, List.map_cons, List.sum_append, List.sum_cons] at htot hfit
        omega

/-- Under the bookkeeping invariant the pointer stored under an allocated id designates a
used node carrying that id. -/
theorem idsOk_find (a : MemoryAllocator) (k : Int) (h : IdsOk a)
    (hmem : k ∈ a.allocated_blocks) :
    ∃ i b, MemoryAllocator.findBlock k a.head = some i ∧ a.head.get? i = some b ∧
      b.is_free = false ∧ b.block_id = k := by
  obtain ⟨b0, hb0, hid0⟩ := h.present k hmem
  have hb0' := ((mem_usedBlocks b0 a.head).1 hb0).1
  cases hf : MemoryAllocator.findBlock k a.head with
  | none => exact absurd hid0 (findBlock_none k a.head hf b0 hb0')
  | some i =>
    obtain ⟨b, hget, hid⟩ := findBlock_some k a.head i hf
    refine ⟨i, b, rfl, hget, ?_, hid⟩
    cases hfree : b.is_free with
    | false => rfl
    | true =>
      have hm : b ∈ a.head := List.get?_mem hget
      have := h.free_id b hm hfree
      have := (h.keys k hmem).1
      omega

/-- The state after a successful `free` of the id `k` whose node `b` is at position `i`. -/
theorem free_success (a : MemoryAllocator) (k : Int) (i : Nat) (b : MemoryBlock)
    (hmem : k ∈ a.allocated_blocks) (hfind : MemoryAllocator.findBlock k a.head = some i)
    (hget : a.head.get? i = some b) :
    a.free k =
      ({ a with
          head := MemoryAllocator.coalesceBlocks
            (a.head.take i ++ { b with is_free := true, block_id := -1 } :: a.head.drop (i + 1))
          used_memory := (a.used_memory + SIZE_MOD - b.size % SIZE_MOD) % SIZE_MOD
          allocated_blocks := a.allocated_blocks.filter (fun x => decide (x ≠ k))
          requested_sizes := mapErase k a.requested_sizes }, true) := by
  simp only [MemoryAllocator.free, hmem, ↓reduceIte, hfind, hget, Option.elim,
    modifyAt_eq _ a.head i b hget]

theorem idsOk_free (a : MemoryAllocator) (k : Int) (hok : LedgerOk a) (h : IdsOk a) :
    IdsOk (a.free k).1 := by
  by_cases hmem : k ∈ a.allocated_blocks
  · obtain ⟨i, b, hfind, hget, hbused, hbid⟩ := idsOk_find a k h hmem
    rw [free_success a k i b hmem hfind hget]
    obtain ⟨P, S, hPS, hP, hS⟩ : ∃ P S, a.head = P ++ b :: S ∧ a.head.take i = P ∧
        a.head.drop (i + 1) = S := ⟨_, _, split_at_get? a.head i b hget, rfl, rfl⟩
    have hfree_id := h.free_id
    have hused_id := h.used_id
    have hpresent := h.present
    have hkeys := h.keys
    have hnodup := h.nodup
    have hused := h.used
    rw [hPS] at hfree_id hused_id hpresent hnodup hused
    have hub : usedBlocks (P ++ b :: S) = usedBlocks P ++ b :: usedBlocks S := by
      rw [usedBlocks_append, usedBlocks_cons_used _ _ hbused]
    have hub' : usedBlocks (MemoryAllocator.coalesceBlocks
        (P ++ { b with is_free := true, block_id := -1 } :: S)) =
        usedBlocks P ++ usedBlocks S := by
      rw [usedBlocks_coalesceBlocks, usedBlocks_append, usedBlocks_cons_free _ _ rfl]
    rw [hub] at hused_id hpresent hnodup
    rw [List.map_append, List.map_cons, List.nodup_middle, List.nodup_cons,
      ← List.map_append] at hnodup
    constructor
    · exact h.pos
    · show ∀ b' ∈ MemoryAllocator.coalesceBlocks (a.head.take i ++ _ :: a.head.drop (i + 1)), _
      rw [hP, hS]
      apply free_id_coalesceBlocks
      intro b' hb' hfree'
      simp only [List.mem_append, List.mem_cons] at hb'
      rcases hb' with hb' | hb' | hb'
      · exact hfree_id b' (by simp [hb']) hfree'
      · subst hb'; rfl
      · exact hfree_id b' (by simp [hb']) hfree'
    · show ∀ b' ∈ usedBlocks (MemoryAllocator.coalesceBlocks
        (a.head.take i ++ _ :: a.head.drop (i + 1))), _
      rw [hP, hS, hub']
      intro b' hb'
      refine List.mem_filter.2 ⟨hused_id b' ?_, ?_⟩
      · simp only [List.mem_append, List.mem_cons] at hb' ⊢
        tauto
      · simp only [ne_eq, decide_eq_true_eq]
        intro heq
        have hm := List.mem_map_of_mem MemoryBlock.block_id hb'
        rw [heq, ← hbid] at hm
        exact hnodup.1 hm
    · show ∀ k' ∈ a.allocated_blocks.filter (fun x => decide (x ≠ k)),
        ∃ b' ∈ usedBlocks (MemoryAllocator.coalesceBlocks
          (a.head.take i ++ _ :: a.head.drop (i + 1))), b'.block_id = k'
      rw [hP, hS, hub']
      intro k' hk'
      obtain ⟨hk'mem, hne⟩ := List.mem_filter.1 hk'
      simp only [ne_eq, decide_eq_true_eq] at hne
      obtain ⟨b', hb', hid'⟩ := hpresent k' hk'mem
      refine ⟨b', ?_, hid'⟩
      simp only [List.mem_append, List.mem_cons] at hb' ⊢
      rcases hb' with hb' | hb' | hb'
      · exact Or.inl hb'
      · subst hb'
        exact absurd (hid'.symm.trans hbid) hne
      · exact Or.inr hb'
    · show ∀ k' ∈ a.allocated_blocks.filter (fun x => decide (x ≠ k)), _
      intro k' hk'
      exact hkeys k' (List.mem_filter.1 hk').1
    · show ((usedBlocks (MemoryAllocator.coalesceBlocks
        (a.head.take i ++ _ :: a.head.drop (i + 1)))).map MemoryBlock.block_id).Nodup
      rw [hP, hS, hub']
      exact hnodup.2
    · show (a.used_memory + SIZE_MOD - b.size % SIZE_MOD) % SIZE_MOD =
        usedSum (MemoryAllocator.coalesceBlocks (a.head.take i ++ _ :: a.head.drop (i + 1)))
      have hle := usedSum_le_sum (P ++ b :: S)
      have htot := sum_sizes_tiles _ _ _ hok.2.1
      have hlim := hok.2.2
      rw [hPS] at htot
      rw [hP, hS, usedSum, hub', hused]
      rw [usedSum, hub] at hle ⊢
      simp only [List.map_append, List.map_cons, List.sum_append, List.sum_cons] at hle htot ⊢
      rw [size_mod_eq] at hlim ⊢
      omega
  · simpa [MemoryAllocator.free, hmem] using h

theorem idsOk_new (memory_size : Nat) : IdsOk (MemoryAllocator.new memory_size) := by
  constructor
  · show (1 : Int) ≤ 1
    exact le_refl _
  · intro b hb _
    simp only [MemoryAllocator.new, List.mem_singleton] at hb
    subst hb; rfl
  · intro b hb
    simp [MemoryAllocator.new, usedBlocks] at hb
  · intro k hk
    simp [MemoryAllocator.new] at hk
  · intro k hk
    simp [MemoryAllocator.new] at hk
  · simp [MemoryAllocator.new, usedBlocks]
  · simp [MemoryAllocator.new, usedSum, usedBlocks]

theorem idsOk_step (a : MemoryAllocator) (op : AllocOp) (hok : LedgerOk a) (h : IdsOk a) :
    IdsOk (a.step op) := by
  cases op with
  | malloc size => exact idsOk_malloc a size hok h
  | free block_id => exact idsOk_free a block_id hok h
  | setStrategy strat => exact ⟨h.pos, h.free_id, h.used_id, h.present, h.keys, h.nodup, h.used⟩

theorem idsOk_run (ops : List AllocOp) : ∀ (a : MemoryAllocator), LedgerOk a → IdsOk a →
    IdsOk (a.run ops) := by
  induction ops with
  | nil => intro a _ h; exact h
  | cons op ops ih =>
    intro a hok h
    exact ih _ (ledgerOk_step a op hok) (idsOk_step a op hok h)

/-- Every state reached from construction satisfies the ledger and the bookkeeping
invariants. -/
theorem reachable_ok (memory_size : Nat) (hm : memory_size < SIZE_MOD) (ops : List AllocOp) :
    LedgerOk ((MemoryAllocator.new memory_size).run ops) ∧
    IdsOk ((MemoryAllocator.new memory_size).run ops) :=
  ⟨ledgerOk_run ops _ (ledgerOk_new memory_size hm),
    idsOk_run ops _ (ledgerOk_new memory_size hm) (idsOk_new memory_size)⟩

/-- The two outcomes of `malloc`: failure with the state unchanged, or success on a free
block `blk` at the position `i` chosen by `findFreeBlock`. -/
theorem malloc_cases (a : MemoryAllocator) (size : Nat) :
    a.malloc size = (a, -1) ∨
    ∃ i blk, size ≠ 0 ∧ a.findFreeBlock size = some i ∧ a.head.get? i = some blk ∧
      blk.is_free = true ∧ size ≤ blk.size := by
  by_cases hsize : size = 0
  · left; simp [MemoryAllocator.malloc, hsize]
  cases hfind : a.findFreeBlock size with
  | none => left; simp [MemoryAllocator.malloc, hsize, hfind]
  | some i =>
    obtain ⟨blk, hget, hfree, hle⟩ := findFreeBlock_some a size i hfind
    exact Or.inr ⟨i, blk, hsize, rfl, hget, hfree, hle⟩

/-- **C11** (split postcondition of `malloc`).  In every state reached from construction,
when `malloc(size)` succeeds it has chosen a free block `blk` (at ledger position `i`, at
address `a` with size `S >= size`), and afterwards the ledger has at that position a
used block at address `a` of size exactly `size` carrying the returned id; if `S > size` a
new free block (id `-1`) of size `S - size` at address `a + size` follows it immediately;
if `S == size` no block is inserted; the blocks before and after are unchanged; and
`used_memory` has grown by exactly `size`. -/
theorem C11_split_postcondition (memory_size : Nat) (hm : memory_size < SIZE_MOD)
    (ops : List AllocOp) (a : MemoryAllocator)
    (ha : (MemoryAllocator.new memory_size).run ops = a) (size : Nat)
    (hsucc : (a.malloc size).2 ≠ -1) :
    ∃ i blk, a.findFreeBlock size = some i ∧ a.head.get? i = some blk ∧
      blk.is_free = true ∧ size ≤ blk.size ∧
      (a.malloc size).2 = a.next_block_id ∧
      (blk.size > size →
        (a.malloc size).1.head =
          a.head.take i ++
            [{ address := blk.address, size := size, is_free := false,
               block_id := (a.malloc size).2 },
             { address := blk.address + size, size := blk.size - size, is_free := true,
               block_id := -1 }] ++ a.head.drop (i + 1)) ∧
      (blk.size = size →
        (a.malloc size).1.head =
          a.head.take i ++
            [{ address := blk.address, size := size, is_free := false,
               block_id := (a.malloc size).2 }] ++ a.head.drop (i + 1)) ∧
      (a.malloc size).1.used_memory = a.used_memory + size := by
  obtain ⟨hok, hids⟩ := reachable_ok memory_size hm ops
  rw [ha] at hok hids
  rcases malloc_cases a size with hfail | ⟨i, blk, hsize, hfind, hget, hfree, hle⟩
  · rw [hfail] at hsucc
    exact absurd rfl hsucc
  · have hs := malloc_success a size i blk hsize hfind hget hle
    have hsplit := split_at_get? a.head i blk hget
    have hmem : blk ∈ a.head := List.get?_mem hget
    have hb := (tiles_bounds _ _ _ hok.2.1 blk hmem).2
    have hlim := hok.2.2
    have hfit : usedSum a.head + blk.size ≤ (a.head.map MemoryBlock.size).sum := by
      rw [hsplit]
      exact usedSum_add_free _ _ blk hfree
    have htot := sum_sizes_tiles _ _ _ hok.2.1
    have haddr : (blk.address + size) % SIZE_MOD = blk.address + size :=
      Nat.mod_eq_of_lt (by omega)
    refine ⟨i, blk, hfind, hget, hfree, hle, ?_, ?_, ?_, ?_⟩
    · rw [hs]
    · intro hgt
      rw [hs]
      simp only [hgt, ↓reduceIte, haddr]
    · intro heq
      rw [hs]
      have hng : ¬ blk.size > size := by omega
      simp only [hng, ↓reduceIte]
    · rw [hs]
      show (a.used_memory + size) % SIZE_MOD = a.used_memory + size
      rw [hids.used]
      exact Nat.mod_eq_of_lt (by omega)

/-- Witness of **C11**: the `malloc(50)` of the first-fit scenario splits the free block
of 100 bytes at address 0. -/
theorem C11_split_postcondition_witness :
    ∃ i blk, MemoryAllocator.scenario.findFreeBlock 50 = some i ∧
      MemoryAllocator.scenario.head.get? i = some blk ∧
      blk.is_free = true ∧ 50 ≤ blk.size ∧
      (MemoryAllocator.scenario.malloc 50).2 = MemoryAllocator.scenario.next_block_id ∧
      (blk.size > 50 →
        (MemoryAllocator.scenario.malloc 50).1.head =
          MemoryAllocator.scenario.head.take i ++
            [{ address := blk.address, size := 50, is_free := false,
               block_id := (MemoryAllocator.scenario.malloc 50).2 },
             { address := blk.address + 50, size := blk.size - 50, is_free := true,
               block_id := -1 }] ++ MemoryAllocator.scenario.head.drop (i + 1)) ∧
      (blk.size = 50 →
        (MemoryAllocator.scenario.malloc 50).1.head =
          MemoryAllocator.scenario.head.take i ++
            [{ address := blk.address, size := 50, is_free := false,
               block_id := (MemoryAllocator.scenario.malloc 50).2 }] ++
            MemoryAllocator.scenario.head.drop (i + 1)) ∧
      (MemoryAllocator.scenario.malloc 50).1.used_memory =
        MemoryAllocator.scenario.used_memory + 50 :=
  C11_split_postcondition 1024 (by decide)
    [AllocOp.malloc 100, AllocOp.malloc 200, AllocOp.free 1] MemoryAllocator.scenario rfl 50
    (by decide)

/-- A `malloc` either fails and keeps the counter, or returns the counter and increments
it. -/
theorem malloc_counter (a : MemoryAllocator) (size : Nat) :
    ((a.malloc size).2 = -1 ∧ (a.malloc size).1.next_block_id = a.next_block_id) ∨
    ((a.malloc size).2 = a.next_block_id ∧
      (a.malloc size).1.next_block_id = a.next_block_id + 1) := by
  rcases malloc_cases a size with hfail | ⟨i, blk, hsize, hfind, hget, _, hle⟩
  · left; rw [hfail]; exact ⟨rfl, rfl⟩
  · right; rw [malloc_success a size i blk hsize hfind hget hle]; exact ⟨rfl, rfl⟩

theorem free_counter (a : MemoryAllocator) (block_id : Int) :
    (a.free block_id).1.next_block_id = a.next_block_id := by
  simp only [MemoryAllocator.free]
  split
  · split <;> rfl
  · rfl

/-- The ids returned from a state on are increasing and start at the counter. -/
theorem returnedIds_increasing (ops : List AllocOp) : ∀ (a : MemoryAllocator),
    1 ≤ a.next_block_id →
    (a.returnedIds ops).Pairwise (fun x y => x < y) ∧
    ∀ id ∈ a.returnedIds ops, a.next_block_id ≤ id := by
  induction ops with
  | nil => intro a _; exact ⟨List.Pairwise.nil, fun id hid => by simp [MemoryAllocator.returnedIds] at hid⟩
  | cons op ops ih =>
    intro a hpos
    cases op with
    | malloc size =>
      simp only [MemoryAllocator.returnedIds]
      rcases malloc_counter a size with ⟨hres, hnext⟩ | ⟨hres, hnext⟩
      · have := ih (a.malloc size).1 (by omega)
        rw [hnext] at this
        simp only [hres, ↓reduceIte]
        exact this
      · have hne : ¬ (a.malloc size).2 = -1 := by omega
        have := ih (a.malloc size).1 (by omega)
        rw [hnext] at this
        simp only [hne, ↓reduceIte]
        refine ⟨List.pairwise_cons.2 ⟨?_, this.1⟩, ?_⟩
        · intro id hid
          have := this.2 id hid
          omega
        · intro id hid
          rcases List.mem_cons.1 hid with heq | hmem
          · omega
          · have := this.2 id hmem
            omega
    | free block_id =>
      simp only [MemoryAllocator.returnedIds]
      have := ih (a.free block_id).1 (by rw [free_counter]; exact hpos)
      rw [free_counter] at this
      exact this
    | setStrategy strat =>
      simp only [MemoryAllocator.returnedIds]
      exact ih (a.setStrategy strat) hpos

/-- **C12** (fresh ids).  Over any sequence of `malloc`/`free` (and `setStrategy`) calls
on one `MemoryAllocator`, every successful `malloc` returns an id `>= 1` that is strictly
greater than every id returned by an earlier successful `malloc` (so an id is never
reused, even after it was freed), and in the state reached every free block carries the
id `-1`. -/
theorem C12_fresh_ids (memory_size : Nat) (hm : memory_size < SIZE_MOD) (ops : List AllocOp) :
    ((MemoryAllocator.new memory_size).returnedIds ops).Pairwise (fun x y => x < y) ∧
    (∀ id ∈ (MemoryAllocator.new memory_size).returnedIds ops, 1 ≤ id) ∧
    (∀ b ∈ ((MemoryAllocator.new memory_size).run ops).head,
      b.is_free = true → b.block_id = -1) := by
  have h := returnedIds_increasing ops (MemoryAllocator.new memory_size) (le_refl _)
  exact ⟨h.1, h.2, (reachable_ok memory_size hm ops).2.free_id⟩

/-- Witness of **C12**: the first-fit scenario followed by `malloc(50)` and a failing
`malloc(2000)`; the returned ids are 1, 2, 3. -/
theorem C12_fresh_ids_witness :
    (MemoryAllocator.new 1024).returnedIds
        [AllocOp.malloc 100, AllocOp.malloc 200, AllocOp.free 1, AllocOp.malloc 50,
         AllocOp.malloc 2000] = [1, 2, 3] ∧
    (((MemoryAllocator.new 1024).returnedIds
        [AllocOp.malloc 100, AllocOp.malloc 200, AllocOp.free 1, AllocOp.malloc 50,
         AllocOp.malloc 2000]).Pairwise (fun x y => x < y) ∧
    (∀ id ∈ (MemoryAllocator.new 1024).returnedIds
        [AllocOp.malloc 100, AllocOp.malloc 200, AllocOp.free 1, AllocOp.malloc 50,
         AllocOp.malloc 2000], 1 ≤ id) ∧
    (∀ b ∈ ((MemoryAllocator.new 1024).run
        [AllocOp.malloc 100, AllocOp.malloc 200, AllocOp.free 1, AllocOp.malloc 50,
         AllocOp.malloc 2000]).head, b.is_free = true → b.block_id = -1)) :=
  ⟨by decide, C12_fresh_ids 1024 (by decide) _⟩

/-- Under the bookkeeping invariant `free` fails exactly on the ids that are not keys of
`allocated_blocks`. -/
theorem free_false_iff (a : MemoryAllocator) (k : Int) (h : IdsOk a) :
    (a.free k).2 = false ↔ k ∉ a.allocated_blocks := by
  constructor
  · intro hf hmem
    obtain ⟨i, b, hfind, hget, _, _⟩ := idsOk_find a k h hmem
    rw [free_success a k i b hmem hfind hget] at hf
    cases hf
  · intro hmem
    simp [MemoryAllocator.free, hmem]

theorem free_false_same (a : MemoryAllocator) (k : Int) (h : (a.free k).2 = false) :
    (a.free k).1 = a := by
  simp only [MemoryAllocator.free] at h ⊢
  split
  · rename_i hmem
    simp only [hmem, ↓reduceIte] at h
    split
    · rfl
    · rename_i i hfind
      rw [hfind] at h
      cases h
  · rfl

theorem free_allocated (a : MemoryAllocator) (k : Int) (h : IdsOk a) :
    (a.free k).1.allocated_blocks = a.allocated_blocks.filter (fun x => decide (x ≠ k)) := by
  by_cases hmem : k ∈ a.allocated_blocks
  · obtain ⟨i, b, hfind, hget, _, _⟩ := idsOk_find a k h hmem
    rw [free_success a k i b hmem hfind hget]
  · have : (a.free k).1 = a := free_false_same a k ((free_false_iff a k h).2 hmem)
    rw [this]
    symm
    apply List.filter_eq_self.2
    intro x hx
    simp only [ne_eq, decide_eq_true_eq]
    intro heq
    exact hmem (heq ▸ hx)

/-- The ids that are live according to the history of calls are the keys of
`allocated_blocks`. -/
theorem liveIds_spec (ops : List AllocOp) : ∀ (a : MemoryAllocator) (live : List Int),
    LedgerOk a → IdsOk a → (∀ k, k ∈ live ↔ k ∈ a.allocated_blocks) →
    ∀ k, k ∈ a.liveIds live ops ↔ k ∈ (a.run ops).allocated_blocks := by
  induction ops with
  | nil => intro a live _ _ h k; exact h k
  | cons op ops ih =>
    intro a live hok hids h k
    cases op with
    | malloc size =>
      show k ∈ MemoryAllocator.liveIds (a.malloc size).1 _ ops ↔
        k ∈ ((a.malloc size).1.run ops).allocated_blocks
      apply ih _ _ (ledgerOk_malloc a size hok) (idsOk_malloc a size hok hids)
      intro x
      rcases malloc_cases a size with hfail | ⟨i, blk, hsize, hfind, hget, _, hle⟩
      · rw [hfail]
        simp only [↓reduceIte]
        exact h x
      · rw [malloc_success a size i blk hsize hfind hget hle]
        have hne : ¬ a.next_block_id = -1 := by
          have := hids.pos
          omega
        simp only [hne, ↓reduceIte, List.mem_append, List.mem_singleton, mem_keyInsert, h x]
        tauto
    | free block_id =>
      show k ∈ MemoryAllocator.liveIds (a.free block_id).1 _ ops ↔
        k ∈ ((a.free block_id).1.run ops).allocated_blocks
      apply ih _ _ (ledgerOk_free a block_id hok) (idsOk_free a block_id hok hids)
      intro x
      rw [free_allocated a block_id hids]
      simp only [List.mem_filter, h x]
    | setStrategy strat =>
      exact ih (a.setStrategy strat) live hok
        ⟨hids.pos, hids.free_id, hids.used_id, hids.present, hids.keys, hids.nodup, hids.used⟩
        h k

/-- A live id was live at the start or has been returned by `malloc`. -/
theorem liveIds_sub_returned (ops : List AllocOp) : ∀ (a : MemoryAllocator) (live : List Int),
    ∀ k ∈ a.liveIds live ops, k ∈ live ∨ k ∈ a.returnedIds ops := by
  induction ops with
  | nil => intro a live k hk; exact Or.inl hk
  | cons op ops ih =>
    intro a live k hk
    cases op with
    | malloc size =>
      simp only [MemoryAllocator.liveIds, MemoryAllocator.returnedIds] at hk ⊢
      rcases ih _ _ k hk with h | h
      · split at h
        · rename_i hres
          simp only [hres, ↓reduceIte]
          exact Or.inl h
        · rename_i hres
          simp only [hres, ↓reduceIte, List.mem_cons]
          simp only [List.mem_append, List.mem_singleton] at h
          tauto
      · right
        split
        · exact h
        · exact List.mem_cons_of_mem _ h
    | free block_id =>
      simp only [MemoryAllocator.liveIds, MemoryAllocator.returnedIds] at hk ⊢
      rcases ih _ _ k hk with h | h
      · exact Or.inl (List.mem_filter.1 h).1
      · exact Or.inr h
    | setStrategy strat =>
      simp only [MemoryAllocator.liveIds, MemoryAllocator.returnedIds] at hk ⊢
      exact ih _ _ k hk

/-- **C13** (`free` rejects unknown ids atomically).  In every state reached from
construction, `free(id)` returns `false` if and only if `id` is not currently allocated
(it was never returned by a successful `malloc`, or it has been passed to `free` since);
in that case the whole allocator state is unchanged; and a second `free` of an id that
was just freed returns `false`. -/
theorem C13_free_unknown_id (memory_size : Nat) (hm : memory_size < SIZE_MOD)
    (ops : List AllocOp) (a : MemoryAllocator)
    (ha : (MemoryAllocator.new memory_size).run ops = a) (block_id : Int) :
    ((a.free block_id).2 = false ↔
      block_id ∉ (MemoryAllocator.new memory_size).liveIds [] ops) ∧
    (block_id ∉ (MemoryAllocator.new memory_size).returnedIds ops →
      (a.free block_id).2 = false) ∧
    ((a.free block_id).2 = false → (a.free block_id).1 = a) ∧
    ((a.free block_id).2 = true → ((a.free block_id).1.free block_id).2 = false) := by
  obtain ⟨hok, hids⟩ := reachable_ok memory_size hm ops
  have hlive := liveIds_spec ops (MemoryAllocator.new memory_size) []
    (ledgerOk_new memory_size hm) (idsOk_new memory_size) (fun k => Iff.rfl) block_id
  rw [ha] at hok hids hlive
  have hiff : (a.free block_id).2 = false ↔
      block_id ∉ (MemoryAllocator.new memory_size).liveIds [] ops := by
    rw [free_false_iff a block_id hids, hlive]
  refine ⟨hiff, ?_, free_false_same a block_id, ?_⟩
  · intro hnot
    rw [hiff]
    intro hl
    rcases liveIds_sub_returned ops _ _ block_id hl with h | h
    · simp at h
    · exact hnot h
  · intro _
    rw [free_false_iff _ block_id (idsOk_free a block_id hok hids),
      free_allocated a block_id hids]
    simp

/-- Witness of **C13** on the state after `malloc(100)`, `malloc(200)`, `free(1)`: the id
1 has been freed, so a second `free(1)` fails and changes nothing. -/
theorem C13_free_unknown_id_witness :
    (MemoryAllocator.new 1024).liveIds []
        [AllocOp.malloc 100, AllocOp.malloc 200, AllocOp.free 1] = [2] ∧
    (MemoryAllocator.scenario.free 1).2 = false ∧
    (MemoryAllocator.scenario.free 2).2 = true ∧
    (((MemoryAllocator.scenario.free 1).2 = false ↔
      (1 : Int) ∉ (MemoryAllocator.new 1024).liveIds []
        [AllocOp.malloc 100, AllocOp.malloc 200, AllocOp.free 1]) ∧
    ((1 : Int) ∉ (MemoryAllocator.new 1024).returnedIds
        [AllocOp.malloc 100, AllocOp.malloc 200, AllocOp.free 1] →
      (MemoryAllocator.scenario.free 1).2 = false) ∧
    ((MemoryAllocator.scenario.free 1).2 = false →
      (MemoryAllocator.scenario.free 1).1 = MemoryAllocator.scenario) ∧
    ((MemoryAllocator.scenario.free 1).2 = true →
      ((MemoryAllocator.scenario.free 1).1.free 1).2 = false)) :=
  ⟨by decide, by decide, by decide,
    C13_free_unknown_id 1024 (by decide)
      [AllocOp.malloc 100, AllocOp.malloc 200, AllocOp.free 1] MemoryAllocator.scenario rfl 1⟩


/-! ## Theorems: the exact effect of buddy `malloc` -/

theorem mul_two_pow_inj (size m j : Nat) (hpos : 0 < size) (h : size * 2 ^ m = size * 2 ^ j) :
    m = j :=
  Nat.pow_right_injective (le_refl 2) (Nat.eq_of_mul_eq_mul_left hpos h)

theorem mul_two_pow_lt (size m j : Nat) (hpos : 0 < size) (h : m < j) :
    size * 2 ^ m < size * 2 ^ j :=
  Nat.mul_lt_mul_of_pos_left (Nat.pow_lt_pow_right (by norm_num) h) hpos

theorem mul_two_pow_succ_half (size j : Nat) : size * 2 ^ (j + 1) / 2 = size * 2 ^ j := by
  rw [pow_succ, ← Nat.mul_assoc]
  exact Nat.mul_div_cancel _ (by norm_num)

/-- The splitting loop of `splitBlock`, exactly.  Started on the bucket `size * 2^j` whose
last block is `B`, the loop ends with a block of `size` bytes at the top of the range of
`B` as the last block of bucket `size`; once that block is popped, bucket `size * 2^j`
has lost `B`, every bucket `size * 2^m` with `m < j` has gained one block, the one that
ends where the range still being split begins, and all other buckets are as before. -/
theorem splitDown_exact (size : Nat) (hpos : 0 < size) : ∀ (j fuel : Nat) (fl : FreeLists)
    (B : BuddyBlock), j ≤ fuel → (bucket fl (size * 2 ^ j)).getLast? = some B →
    B.size = size * 2 ^ j → B.is_free = true → B.block_id = -1 →
    B.address + size * 2 ^ j < SIZE_MOD →
    ∃ fl', BuddyAllocator.splitDown size fuel (size * 2 ^ j) fl = some (size, fl') ∧
      (bucket fl' size).getLast? =
        some { address := B.address + size * 2 ^ j - size, size := size } ∧
      bucket (popBack size fl') (size * 2 ^ j) = (bucket fl (size * 2 ^ j)).dropLast ∧
      (∀ m, m < j → bucket (popBack size fl') (size * 2 ^ m) =
        bucket fl (size * 2 ^ m) ++
          [{ address := B.address + size * 2 ^ j - 2 * (size * 2 ^ m), size := size * 2 ^ m }]) ∧
      (∀ k, (∀ m, m ≤ j → k ≠ size * 2 ^ m) → bucket (popBack size fl') k = bucket fl k) := by
  intro j
  induction j with
  | zero =>
    intro fuel fl B _ hlast hsz hfree hid _
    simp only [pow_zero, Nat.mul_one] at hlast hsz ⊢
    refine ⟨fl, splitDown_done size fuel fl, ?_, ?_, ?_, ?_⟩
    · rw [hlast]
      congr 1
      cases B with
      | mk addr sz fr bid =>
        simp only at hsz hfree hid
        simp only [BuddyBlock.mk.injEq]
        exact ⟨by omega, hsz, hfree, hid⟩
    · rw [bucket_popBack, if_pos rfl]
    · intro m hm
      exact absurd hm (Nat.not_lt_zero m)
    · intro k hk
      have := hk 0 (le_refl 0)
      simp only [pow_zero, Nat.mul_one] at this
      rw [bucket_popBack, if_neg this]
  | succ j ih =>
    intro fuel fl B hfuel hlast hsz hfree hid hlim
    obtain ⟨f, rfl⟩ : ∃ f, fuel = f + 1 := ⟨fuel - 1, by omega⟩
    have hhalf := mul_two_pow_succ_half size j
    have hdouble : size * 2 ^ (j + 1) = size * 2 ^ j + size * 2 ^ j := by
      rw [pow_succ]; ring
    have hbpos : 0 < size * 2 ^ (j + 1) := Nat.mul_pos hpos (Nat.two_pow_pos _)
    have hgt : size * 2 ^ (j + 1) > size := by
      have := mul_two_pow_lt size 0 (j + 1) hpos (by omega)
      simpa using this
    have hle : size ≤ size * 2 ^ j := Nat.le_mul_of_pos_right _ (Nat.two_pow_pos _)
    have hmod : (B.address + size * 2 ^ j) % SIZE_MOD = B.address + size * 2 ^ j :=
      Nat.mod_eq_of_lt (by omega)
    have hb1 : ∀ k, bucket (splitStep (size * 2 ^ (j + 1)) B fl) k =
        if k = size * 2 ^ j then
          bucket fl (size * 2 ^ j) ++ [{ address := B.address, size := size * 2 ^ j },
            { address := B.address + size * 2 ^ j, size := size * 2 ^ j }]
        else if k = size * 2 ^ (j + 1) then (bucket fl (size * 2 ^ (j + 1))).dropLast
        else bucket fl k := by
      intro k
      rw [bucket_splitStep _ _ _ _ hbpos, hhalf, hmod]
    have hlast1 : (bucket (splitStep (size * 2 ^ (j + 1)) B fl) (size * 2 ^ j)).getLast? =
        some { address := B.address + size * 2 ^ j, size := size * 2 ^ j } := by
      rw [hb1, if_pos rfl]
      simp
    obtain ⟨fl', g1, g2, g3, g4, g5⟩ := ih f (splitStep (size * 2 ^ (j + 1)) B fl)
      { address := B.address + size * 2 ^ j, size := size * 2 ^ j } (by omega) hlast1 rfl rfl rfl
      (by simp only; omega)
    refine ⟨fl', ?_, ?_, ?_, ?_, ?_⟩
    · rw [splitDown_step size f _ fl B hgt hlast, hhalf]
      exact g1
    · rw [g2]
      congr 2
      simp only
      omega
    · have hne : ∀ m, m ≤ j → size * 2 ^ (j + 1) ≠ size * 2 ^ m := by
        intro m hm heq
        have := mul_two_pow_inj size _ _ hpos heq
        omega
      rw [g5 _ hne, hb1]
      have hne' : size * 2 ^ (j + 1) ≠ size * 2 ^ j := hne j (le_refl j)
      rw [if_neg hne', if_pos rfl]
    · intro m hm
      rcases Nat.lt_succ_iff_lt_or_eq.1 hm with hlt | heq
      · rw [g4 m hlt, hb1]
        have hne1 : size * 2 ^ m ≠ size * 2 ^ j := by
          intro h
          have := mul_two_pow_inj size _ _ hpos h
          omega
        have hne2 : size * 2 ^ m ≠ size * 2 ^ (j + 1) := by
          intro h
          have := mul_two_pow_inj size _ _ hpos h
          omega
        rw [if_neg hne1, if_neg hne2]
        congr 3
        simp only
        have := mul_two_pow_lt size m j hpos hlt
        omega
      · subst heq
        rw [g3, hb1, if_pos rfl]
        have : (bucket fl (size * 2 ^ m) ++
            [({ address := B.address, size := size * 2 ^ m } : BuddyBlock),
              { address := B.address + size * 2 ^ m, size := size * 2 ^ m }]).dropLast =
            bucket fl (size * 2 ^ m) ++ [{ address := B.address, size := size * 2 ^ m }] := by
          rw [show ([({ address := B.address, size := size * 2 ^ m } : BuddyBlock),
              { address := B.address + size * 2 ^ m, size := size * 2 ^ m }]) =
            [{ address := B.address, size := size * 2 ^ m }] ++
              [{ address := B.address + size * 2 ^ m, size := size * 2 ^ m }] from rfl,
            ← List.append_assoc, List.dropLast_concat]
        rw [this]
        congr 3
        omega
    · intro k hk
      have hk1 : ∀ m, m ≤ j → k ≠ size * 2 ^ m := fun m hm => hk m (by omega)
      rw [g5 k hk1, hb1, if_neg (hk j (by omega)), if_neg (hk (j + 1) (le_refl _))]

theorem bucket_le_total (total min_size : Nat) (fl : FreeLists) (al : List (Int × BuddyBlock))
    (hc : BuddyCore total min_size fl al) (k : Nat) (h : bucket fl k ≠ []) : k ≤ total := by
  obtain ⟨y, hy⟩ := List.exists_mem_of_ne_nil _ h
  have h1 := (hc.shape y (live_free _ al _ y hy)).2.2.1
  have h2 := (hc.key _ y hy).1
  omega

/-- Only the buckets of the powers of two hold blocks: when the probes `size * 2^i'`
below `i` are empty, every bucket from `size` up to `size * 2^i` is empty. -/
theorem empty_below (total min_size : Nat) (fl : FreeLists) (al : List (Int × BuddyBlock))
    (size s i : Nat) (hc : BuddyCore total min_size fl al) (hs : size = 2 ^ s)
    (hempty : ∀ i', i' < i → bucket fl (size * 2 ^ i') = []) :
    ∀ k, size ≤ k → k < size * 2 ^ i → bucket fl k = [] := by
  intro k h1 h2
  cases hbk : bucket fl k with
  | nil => rfl
  | cons y rest =>
    exfalso
    have hy : y ∈ bucket fl k := by rw [hbk]; exact List.mem_cons_self _ _
    obtain ⟨⟨c, hc'⟩, _⟩ := hc.shape y (live_free _ al _ y hy)
    rw [(hc.key _ y hy).1] at hc'
    rw [hc', hs] at h1
    rw [hc', hs, ← pow_add] at h2
    have g1 : s ≤ c := (Nat.pow_le_pow_iff_right (by norm_num)).1 h1
    have g2 : c < s + i := (Nat.pow_lt_pow_iff_right (by norm_num)).1 h2
    have g3 := hempty (c - s) (by omega)
    have g4 : size * 2 ^ (c - s) = k := by
      rw [hs, hc', ← pow_add]
      congr 1
      omega
    rw [g4, hbk] at g3
    exact absurd g3 (by simp)

theorem bucket_popBack_touch (size k : Nat) (fl : FreeLists) :
    bucket (popBack size (touch size fl)) k = bucket (popBack size fl) k := by
  rw [bucket_popBack, bucket_popBack, bucket_touch, bucket_touch]

/-- The `for` loop of `splitBlock`, exactly, from the probe `size * 2^i` on when all lower
probes found empty buckets.  Either every bucket from `size` up is empty, and then (for a
total memory up to `2^62`) the loop returns no block and leaves the content of every bucket
as it was, whereas for a total memory of `2^63` the probe size wraps to 0 and the loop
never ends; or the loop stops at the lowest non-empty bucket `size * 2^j`, takes its last
block `B` and returns the block of `size` bytes at the top of the range of `B`, and the
buckets are changed as by the splitting loop. -/
theorem splitLoop_exact (total min_size : Nat) (al : List (Int × BuddyBlock)) (size t s : Nat)
    (ht : total = 2 ^ t) (ht63 : t ≤ 63) (hs : size = 2 ^ s) :
    ∀ (d i fuel : Nat) (fl : FreeLists), s + i + d = t + 1 → s + i ≤ 63 → d < fuel →
      BuddyCore total min_size fl al →
      (∀ i', i' < i → bucket fl (size * 2 ^ i') = []) →
      ((∀ k, size ≤ k → bucket fl k = []) ∧
        (t ≤ 62 → ∃ fl', BuddyAllocator.splitLoop total size fuel (size * 2 ^ i) fl
            = some (none, fl') ∧ ∀ k, bucket fl' k = bucket fl k) ∧
        (t = 63 → BuddyAllocator.splitLoop total size fuel (size * 2 ^ i) fl = none)) ∨
      (∃ j B fl', size * 2 ^ j ≤ total ∧ (bucket fl (size * 2 ^ j)).getLast? = some B ∧
        (∀ k, size ≤ k → k < size * 2 ^ j → bucket fl k = []) ∧
        BuddyAllocator.splitLoop total size fuel (size * 2 ^ i) fl =
          some (some { address := B.address + size * 2 ^ j - size, size := size }, fl') ∧
        bucket fl' (size * 2 ^ j) = (bucket fl (size * 2 ^ j)).dropLast ∧
        (∀ m, m < j → bucket fl' (size * 2 ^ m) =
          [{ address := B.address + size * 2 ^ j - 2 * (size * 2 ^ m), size := size * 2 ^ m }]) ∧
        (∀ k, (∀ m, m ≤ j → k ≠ size * 2 ^ m) → bucket fl' k = bucket fl k)) := by
  have hT := two_pow_le_63 t ht63
  rw [← ht] at hT
  have hM := size_mod_eq
  have hpos : 0 < size := by rw [hs]; exact Nat.two_pow_pos s
  have hprobe : ∀ i, size * 2 ^ i = 2 ^ (s + i) := fun i => by rw [hs, pow_add]
  have hall : ∀ (fl : FreeLists), BuddyCore total min_size fl al → ∀ i, t < s + i →
      (∀ i', i' < i → bucket fl (size * 2 ^ i') = []) → ∀ k, size ≤ k → bucket fl k = [] := by
    intro fl hc i hi hempty k hk
    by_cases hkt : k < size * 2 ^ i
    · exact empty_below total min_size fl al size s i hc hs hempty k hk hkt
    · by_contra hne
      have h1 := bucket_le_total total min_size fl al hc k hne
      have h2 : 2 ^ t < 2 ^ (s + i) := Nat.pow_lt_pow_right (by norm_num) hi
      rw [hprobe] at hkt
      omega
  intro d
  induction d with
  | zero =>
    intro i fuel fl hd hi63 hfuel hc hempty
    left
    refine ⟨hall fl hc i (by omega) hempty, ?_, fun h63 => absurd hd (by omega)⟩
    intro ht62
    obtain ⟨f, rfl⟩ : ∃ f, fuel = f + 1 := ⟨fuel - 1, by omega⟩
    have hgt : ¬ size * 2 ^ i ≤ total := by
      rw [hprobe, ht, show s + i = t + 1 by omega, pow_succ]
      have := Nat.two_pow_pos t
      omega
    exact ⟨fl, by simp only [BuddyAllocator.splitLoop, hgt, ↓reduceIte], fun k => rfl⟩
  | succ d ih =>
    intro i fuel fl hd hi63 hfuel hc hempty
    obtain ⟨f, rfl⟩ : ∃ f, fuel = f + 1 := ⟨fuel - 1, by omega⟩
    have hle : size * 2 ^ i ≤ total := by
      rw [hprobe, ht]
      exact Nat.pow_le_pow_right (by norm_num) (by omega)
    have hc1 : BuddyCore total min_size (touch (size * 2 ^ i) fl) al :=
      core_congr _ _ fl _ al hc (fun k => bucket_touch _ k fl)
    by_cases hne : bucket (touch (size * 2 ^ i) fl) (size * 2 ^ i) ≠ []
    · right
      obtain ⟨B, hB⟩ := getLast?_of_ne_nil _ hne
      have hBm : B ∈ bucket (touch (size * 2 ^ i) fl) (size * 2 ^ i) := by
        rw [getLast?_split _ _ hB]; simp
      obtain ⟨hBs, hBf, hBi⟩ := hc1.key _ B hBm
      have hBt := (hc1.shape B (live_free _ al _ B hBm)).2.2.1
      obtain ⟨fl2, g1, g2, g3, g4, g5⟩ := splitDown_exact size hpos i 64
        (touch (size * 2 ^ i) fl) B (by omega) hB hBs hBf hBi (by omega)
      refine ⟨i, B, popBack size (touch size fl2), hle, ?_,
        empty_below total min_size fl al size s i hc hs hempty, ?_, ?_, ?_, ?_⟩
      · rw [← bucket_touch (size * 2 ^ i) (size * 2 ^ i) fl]
        exact hB
      · have hlast3 : (bucket (touch size fl2) size).getLast? =
            some { address := B.address + size * 2 ^ i - size, size := size } := by
          rw [bucket_touch]; exact g2
        simp only [BuddyAllocator.splitLoop, hle, ↓reduceIte, hne, ne_eq, not_false_eq_true, g1,
          hlast3]
      · rw [bucket_popBack_touch, g3, bucket_touch]
      · intro m hm
        rw [bucket_popBack_touch, g4 m hm, bucket_touch, hempty m hm, List.nil_append]
      · intro k hk
        rw [bucket_popBack_touch, g5 k hk, bucket_touch]
    · simp only [ne_eq, not_not] at hne
      have hempty1 : ∀ i', i' < i + 1 →
          bucket (touch (size * 2 ^ i) fl) (size * 2 ^ i') = [] := by
        intro i' hi'
        rcases Nat.lt_succ_iff_lt_or_eq.1 hi' with h1 | h1
        · rw [bucket_touch]; exact hempty i' h1
        · rw [h1]; exact hne
      by_cases hw : s + i + 1 ≤ 63
      · have hnext : size * 2 ^ i * 2 % SIZE_MOD = size * 2 ^ (i + 1) := by
          have e1 : size * 2 ^ i * 2 = size * 2 ^ (i + 1) := by rw [pow_succ]; ring
          rw [e1]
          apply Nat.mod_eq_of_lt
          rw [hprobe]
          have := two_pow_le_63 (s + (i + 1)) (by omega)
          omega
        have hstep : BuddyAllocator.splitLoop total size (f + 1) (size * 2 ^ i) fl =
            BuddyAllocator.splitLoop total size f (size * 2 ^ (i + 1))
              (touch (size * 2 ^ i) fl) := by
          simp only [BuddyAllocator.splitLoop, hle, ↓reduceIte, hne, ne_eq, not_true_eq_false,
            hnext]
        rw [hstep]
        rcases ih (i + 1) f (touch (size * 2 ^ i) fl) (by omega) (by omega) (by omega) hc1
          hempty1 with ⟨g1, g2, g3⟩ | ⟨j, B, fl', g1, g2, g3, g4, g5, g6, g7⟩
        · left
          refine ⟨fun k hk => by rw [← bucket_touch (size * 2 ^ i) k fl]; exact g1 k hk, ?_, g3⟩
          intro ht62
          obtain ⟨fl', h1, h2⟩ := g2 ht62
          exact ⟨fl', h1, fun k => by rw [h2 k, bucket_touch]⟩
        · right
          refine ⟨j, B, fl', g1, by rw [← bucket_touch (size * 2 ^ i) _ fl]; exact g2,
            fun k h1 h2 => by rw [← bucket_touch (size * 2 ^ i) k fl]; exact g3 k h1 h2,
            g4, by rw [g5, bucket_touch], g6, fun k hk => by rw [g7 k hk, bucket_touch]⟩
      · left
        refine ⟨hall fl hc (i + 1) (by omega) ?_, fun ht62 => absurd ht62 (by omega), ?_⟩
        · intro i' hi'
          rw [← bucket_touch (size * 2 ^ i) _ fl]
          exact hempty1 i' hi'
        · intro _
          have hwrap : size * 2 ^ i * 2 % SIZE_MOD = 0 := by
            have e1 : size * 2 ^ i * 2 = 2 ^ 64 := by
              rw [hprobe, ← pow_succ]
              congr 1
              omega
            rw [e1, hM]
            norm_num
          simp only [BuddyAllocator.splitLoop, hle, ↓reduceIte, hne, ne_eq, not_true_eq_false,
            hwrap]
          exact splitLoop_zero total size f _ (core_bucket_zero _ _ _ al hc1)

/-- On the sizes from 1 to `2^63` the rounding of the source computes the least power of
two that is not below the size. -/
theorem roundUpToPowerOf2_eq_next (size : Nat) (h1 : 1 ≤ size)
    (h2 : size ≤ 9223372036854775808) :
    BuddyAllocator.roundUpToPowerOf2 size = nextPowerOfTwo size := by
  obtain ⟨L, _, hL, hle, hmin⟩ := roundUpToPowerOf2_spec size h1 h2
  rw [hL, nextPowerOfTwo]
  congr 1
  apply le_antisymm
  · rcases hmin with h0 | hlt
    · omega
    · have := (Nat.pow_lt_iff_lt_clog (by norm_num : 1 < 2)).1 hlt
      omega
  · exact (Nat.le_pow_iff_clog_le (by norm_num : 1 < 2)).1 hle

theorem max_two_pow (e L : Nat) : max (2 ^ e) (2 ^ L) = 2 ^ max e L := by
  rcases le_total e L with h | h
  · rw [max_eq_right h, max_eq_right (Nat.pow_le_pow_right (by norm_num) h)]
  · rw [max_eq_left h, max_eq_left (Nat.pow_le_pow_right (by norm_num) h)]

/-- The three outcomes of `malloc` for a size from 1 to `2^63` in a state that satisfies
the invariant, with `alloc` the rounded size: the rounded size exceeds the total memory
and the call fails at once; or every bucket from `alloc` up is empty and (for a total
memory up to `2^62`) the call fails after the search, leaving the content of every bucket
as it was, whereas for a total memory of `2^63` the call does not return; or the call takes the last block `B` of the lowest non-empty bucket
`alloc * 2^j`, returns the counter as id for the block of `alloc` bytes at the top of the
range of `B`, and leaves one new free block in each bucket `alloc * 2^m`, `m < j`. -/
theorem malloc_exact (a : BuddyAllocator) (h : BuddyInv a) (size alloc : Nat) (h1 : 1 ≤ size)
    (h2 : size ≤ 9223372036854775808)
    (halloc : alloc = max a.min_block_size (BuddyAllocator.roundUpToPowerOf2 size)) :
    (a.total_memory < alloc ∧ a.malloc size = some (a, -1)) ∨
    (alloc ≤ a.total_memory ∧ (∀ k, alloc ≤ k → bucket a.free_lists k = []) ∧
      (a.total_memory ≤ 4611686018427387904 →
        ∃ fl', a.malloc size = some ({ a with free_lists := fl' }, -1) ∧
          ∀ k, bucket fl' k = bucket a.free_lists k) ∧
      (a.total_memory = 9223372036854775808 → a.malloc size = none)) ∨
    (alloc ≤ a.total_memory ∧ ∃ j B fl', alloc * 2 ^ j ≤ a.total_memory ∧
      (bucket a.free_lists (alloc * 2 ^ j)).getLast? = some B ∧
      (∀ k, alloc ≤ k → k < alloc * 2 ^ j → bucket a.free_lists k = []) ∧
      a.malloc size = some ({ a with
          free_lists := fl'
          next_block_id := a.next_block_id + 1
          allocated_blocks := mapInsert a.next_block_id
            { address := B.address + alloc * 2 ^ j - alloc, size := alloc, is_free := false,
              block_id := a.next_block_id } a.allocated_blocks
          requested_sizes := mapInsert a.next_block_id size a.requested_sizes },
        a.next_block_id) ∧
      bucket fl' (alloc * 2 ^ j) = (bucket a.free_lists (alloc * 2 ^ j)).dropLast ∧
      (∀ m, m < j → bucket fl' (alloc * 2 ^ m) =
        [{ address := B.address + alloc * 2 ^ j - 2 * (alloc * 2 ^ m),
           size := alloc * 2 ^ m }]) ∧
      (∀ k, (∀ m, m ≤ j → k ≠ alloc * 2 ^ m) → bucket fl' k = bucket a.free_lists k)) := by
  obtain ⟨t, ht63, ht⟩ := h.total
  obtain ⟨e0, he0⟩ := h.min
  obtain ⟨L, hL63, hL, _, _⟩ := roundUpToPowerOf2_spec size h1 h2
  have hs : alloc = 2 ^ max e0 L := by rw [halloc, he0, hL, max_two_pow]
  have hsize : size ≠ 0 := by omega
  by_cases hgt : alloc > a.total_memory
  · left
    refine ⟨hgt, ?_⟩
    rw [halloc] at hgt
    simp only [BuddyAllocator.malloc, hsize, ↓reduceIte, hgt]
  · right
    have hle : alloc ≤ a.total_memory := by omega
    have hst : max e0 L ≤ t := by
      rw [hs, ht] at hle
      exact (Nat.pow_le_pow_iff_right (by norm_num)).1 hle
    have hgt' : ¬ max a.min_block_size (BuddyAllocator.roundUpToPowerOf2 size) >
        a.total_memory := by rw [← halloc]; exact hgt
    have hunf : a.malloc size =
        match BuddyAllocator.splitLoop a.total_memory alloc 65 alloc a.free_lists with
        | none => none
        | some (none, fl) => some ({ a with free_lists := fl }, -1)
        | some (some block, fl) =>
          some ({ a with
                  free_lists := fl
                  next_block_id := a.next_block_id + 1
                  allocated_blocks :=
                    mapInsert a.next_block_id
                      { block with is_free := false, block_id := a.next_block_id }
                      a.allocated_blocks
                  requested_sizes := mapInsert a.next_block_id size a.requested_sizes },
            a.next_block_id) := by
      simp only [BuddyAllocator.malloc, hsize, ↓reduceIte, BuddyAllocator.splitBlock,
        ← halloc]
      exact (if_neg hgt).trans rfl
    have hex := splitLoop_exact a.total_memory a.min_block_size a.allocated_blocks alloc t
      (max e0 L) ht ht63 hs (t + 1 - max e0 L) 0 65 a.free_lists (by omega) (by omega)
      (by omega) h.core
      (fun i' hi' => absurd hi' (Nat.not_lt_zero i'))
    simp only [pow_zero, Nat.mul_one] at hex
    rcases hex with ⟨g1, g2, g3⟩ | ⟨j, B, fl', g1, g2, g3, g4, g5, g6, g7⟩
    · left
      refine ⟨hle, g1, ?_, ?_⟩
      · intro ht62
        have : t ≤ 62 := by
          by_contra hcon
          have : 2 ^ 63 ≤ 2 ^ t := Nat.pow_le_pow_right (by norm_num) (by omega)
          norm_num at this
          omega
        obtain ⟨fl', h3, h4⟩ := g2 this
        exact ⟨fl', by rw [hunf, h3], h4⟩
      · intro h63
        have : t = 63 := by
          by_contra hcon
          have : 2 ^ t ≤ 2 ^ 62 := Nat.pow_le_pow_right (by norm_num) (by omega)
          norm_num at this
          omega
        rw [hunf, g3 this]
    · right
      exact ⟨hle, j, B, fl', g1, g2, g3, by rw [hunf, g4], g5, g6, g7⟩

/-- The block handed out and the blocks left behind by the splitting loop tile the range
of the block `B` that was split: an address lies in `B`, of size `alloc * 2^j`, exactly
when it lies in the block of `alloc` bytes at the top or in one of the blocks of
`alloc * 2^m` bytes, `m < j`. -/
theorem split_ranges_tile (alloc : Nat) : ∀ (j : Nat) (B : BuddyBlock),
    B.size = alloc * 2 ^ j → ∀ x, B.covers x ↔
      (({ address := B.address + alloc * 2 ^ j - alloc, size := alloc } : BuddyBlock).covers x ∨
        ∃ m, m < j ∧
          ({ address := B.address + alloc * 2 ^ j - 2 * (alloc * 2 ^ m),
             size := alloc * 2 ^ m } : BuddyBlock).covers x) := by
  intro j
  induction j with
  | zero =>
    intro B hB x
    simp only [BuddyBlock.covers, pow_zero, Nat.mul_one] at hB ⊢
    constructor
    · intro h
      left
      omega
    · rintro (h | ⟨m, hm, _⟩)
      · omega
      · exact absurd hm (Nat.not_lt_zero m)
  | succ j ih =>
    intro B hB x
    have hdouble : alloc * 2 ^ (j + 1) = alloc * 2 ^ j + alloc * 2 ^ j := by
      rw [pow_succ]; ring
    have hle : alloc ≤ alloc * 2 ^ j := Nat.le_mul_of_pos_right _ (Nat.two_pow_pos j)
    have hmono : ∀ m, m < j → 2 * (alloc * 2 ^ m) ≤ alloc * 2 ^ j := by
      intro m hm
      have : alloc * 2 ^ (m + 1) ≤ alloc * 2 ^ j :=
        Nat.mul_le_mul_left _ (Nat.pow_le_pow_right (by norm_num) hm)
      rw [pow_succ] at this
      linarith
    have hr := ih { address := B.address + alloc * 2 ^ j, size := alloc * 2 ^ j } rfl x
    simp only [BuddyBlock.covers] at hr ⊢
    rw [hB]
    constructor
    · intro h
      by_cases hx : x < B.address + alloc * 2 ^ j
      · right
        exact ⟨j, Nat.lt_succ_self j, by omega, by omega⟩
      · rcases hr.1 ⟨by omega, by omega⟩ with g | ⟨m, hm, g⟩
        · left
          omega
        · right
          have := hmono m hm
          exact ⟨m, by omega, by omega, by omega⟩
    · rintro (h | ⟨m, hm, h⟩)
      · omega
      · rcases Nat.lt_succ_iff_lt_or_eq.1 hm with hlt | heq
        · have := hmono m hlt
          omega
        · subst heq
          omega

/-- The postcondition of a successful buddy `malloc` of a size from 1 to `2^63` in a state
that satisfies the invariant: the block has `alloc` bytes and the fresh id, it was carved
from the last block `B` of the lowest non-empty bucket `alloc * 2^j` at or above `alloc`,
that bucket has lost `B`, each bucket `alloc * 2^m` with `m < j` has gained exactly one
block, the other buckets are unchanged, and the block together with the gained blocks
covers exactly the range of `B`. -/
theorem malloc_success_exact (a : BuddyAllocator) (h : BuddyInv a) (size alloc : Nat)
    (h1 : 1 ≤ size) (h2 : size ≤ 9223372036854775808)
    (halloc : alloc = max a.min_block_size (BuddyAllocator.roundUpToPowerOf2 size))
    (a' : BuddyAllocator) (r : Int) (hm : a.malloc size = some (a', r)) (hr : r ≠ -1) :
    ∃ j B, alloc * 2 ^ j ≤ a.total_memory ∧
      (bucket a.free_lists (alloc * 2 ^ j)).getLast? = some B ∧
      (∀ k, alloc ≤ k → k < alloc * 2 ^ j → bucket a.free_lists k = []) ∧
      r = a.next_block_id ∧
      a'.allocated_blocks = mapInsert r
        { address := B.address + alloc * 2 ^ j - alloc, size := alloc, is_free := false,
          block_id := r } a.allocated_blocks ∧
      a'.requested_sizes = mapInsert r size a.requested_sizes ∧
      bucket a'.free_lists (alloc * 2 ^ j) = (bucket a.free_lists (alloc * 2 ^ j)).dropLast ∧
      (∀ m, m < j → bucket a'.free_lists (alloc * 2 ^ m) =
        [{ address := B.address + alloc * 2 ^ j - 2 * (alloc * 2 ^ m),
           size := alloc * 2 ^ m }]) ∧
      (∀ k, (∀ m, m ≤ j → k ≠ alloc * 2 ^ m) →
        bucket a'.free_lists k = bucket a.free_lists k) ∧
      (∀ x, B.covers x ↔
        (({ address := B.address + alloc * 2 ^ j - alloc, size := alloc } : BuddyBlock).covers x ∨
          ∃ m, m < j ∧
            ({ address := B.address + alloc * 2 ^ j - 2 * (alloc * 2 ^ m),
               size := alloc * 2 ^ m } : BuddyBlock).covers x)) := by
  obtain ⟨t, ht63, ht⟩ := h.total
  rcases malloc_exact a h size alloc h1 h2 halloc with
    ⟨_, g⟩ | ⟨_, _, g2, g3⟩ | ⟨_, j, B, fl', g2, g3, g4, g5, g6, g7, g8⟩
  · rw [g] at hm
    simp only [Option.some.injEq, Prod.mk.injEq] at hm
    exact absurd hm.2.symm hr
  · exfalso
    by_cases ht62 : t ≤ 62
    · have : a.total_memory ≤ 4611686018427387904 := by
        rw [ht]
        have : 2 ^ t ≤ 2 ^ 62 := Nat.pow_le_pow_right (by norm_num) ht62
        norm_num at this
        exact this
      obtain ⟨fl', g, _⟩ := g2 this
      rw [g] at hm
      simp only [Option.some.injEq, Prod.mk.injEq] at hm
      exact hr hm.2.symm
    · have : a.total_memory = 9223372036854775808 := by
        rw [ht, show t = 63 by omega]
        norm_num
      rw [g3 this] at hm
      exact absurd hm (by simp)
  · rw [g5] at hm
    simp only [Option.some.injEq, Prod.mk.injEq] at hm
    obtain ⟨ha', hr'⟩ := hm
    have hBm : B ∈ bucket a.free_lists (alloc * 2 ^ j) := by
      rw [getLast?_split _ _ g3]; simp
    have hBs := (h.core.key _ B hBm).1
    subst ha'
    subst hr'
    exact ⟨j, B, g2, g3, g4, rfl, rfl, rfl, g6, g7, g8, split_ranges_tile alloc j B hBs⟩

theorem next_pos_malloc (a a' : BuddyAllocator) (size : Nat) (r : Int)
    (h : a.malloc size = some (a', r)) (hpos : 1 ≤ a.next_block_id) :
    1 ≤ a'.next_block_id ∧ a'.total_memory = a.total_memory := by
  unfold BuddyAllocator.malloc at h
  split at h
  · simp only [Option.some.injEq, Prod.mk.injEq] at h
    rw [← h.1]; exact ⟨hpos, rfl⟩
  · simp only at h
    split at h
    · simp only [Option.some.injEq, Prod.mk.injEq] at h
      rw [← h.1]; exact ⟨hpos, rfl⟩
    · split at h
      · exact absurd h (by simp)
      · simp only [Option.some.injEq, Prod.mk.injEq] at h
        rw [← h.1]; exact ⟨hpos, rfl⟩
      · simp only [Option.some.injEq, Prod.mk.injEq] at h
        rw [← h.1]
        exact ⟨by show 1 ≤ a.next_block_id + 1; omega, rfl⟩

theorem next_pos_free (a a' : BuddyAllocator) (block_id : Int) (r : Bool)
    (h : a.free block_id = some (a', r)) (hpos : 1 ≤ a.next_block_id) :
    1 ≤ a'.next_block_id ∧ a'.total_memory = a.total_memory := by
  unfold BuddyAllocator.free at h
  split at h
  · simp only [Option.some.injEq, Prod.mk.injEq] at h
    rw [← h.1]; exact ⟨hpos, rfl⟩
  · simp only [BuddyAllocator.mergeBuddies, Option.map_map, Option.map_eq_some'] at h
    obtain ⟨fl, _, hfl⟩ := h
    simp only [Function.comp_apply, Prod.mk.injEq] at hfl
    rw [← hfl.1]; exact ⟨hpos, rfl⟩

/-- The id counter stays positive and the total memory stays as constructed. -/
theorem next_pos_run : ∀ (ops : List BuddyOp) (a a' : BuddyAllocator),
    a.run ops = some a' → 1 ≤ a.next_block_id →
    1 ≤ a'.next_block_id ∧ a'.total_memory = a.total_memory := by
  intro ops
  induction ops with
  | nil =>
    intro a a' h hpos
    simp only [BuddyAllocator.run, Option.some.injEq] at h
    rw [← h]; exact ⟨hpos, rfl⟩
  | cons op ops ih =>
    intro a a' h hpos
    simp only [BuddyAllocator.run] at h
    cases hs : a.step op with
    | none => rw [hs] at h; exact absurd h (by simp)
    | some a1 =>
      rw [hs] at h
      have h1 : 1 ≤ a1.next_block_id ∧ a1.total_memory = a.total_memory := by
        cases op with
        | malloc size =>
          simp only [BuddyAllocator.step, Option.map_eq_some'] at hs
          obtain ⟨x, hx, hx1⟩ := hs
          exact hx1 ▸ next_pos_malloc a x.1 size x.2 (by simpa using hx) hpos
        | free block_id =>
          simp only [BuddyAllocator.step, Option.map_eq_some'] at hs
          obtain ⟨x, hx, hx1⟩ := hs
          exact hx1 ▸ next_pos_free a x.1 block_id x.2 (by simpa using hx) hpos
      have h2 := ih a1 a' h h1.1
      exact ⟨h2.1, h2.2.trans h1.2⟩

/-- A memory size up to `2^62` is rounded to a total memory up to `2^62`. -/
theorem new_total_le (memory_size min_size : Nat) (h : memory_size ≤ 4611686018427387904) :
    ∃ t, t ≤ 62 ∧ (BuddyAllocator.new memory_size min_size).total_memory = 2 ^ t := by
  have htot : (BuddyAllocator.new memory_size min_size).total_memory =
      if BuddyAllocator.isPowerOf2 memory_size = true then memory_size
      else BuddyAllocator.roundUpToPowerOf2 memory_size := rfl
  have hle62 : ∀ t, 2 ^ t ≤ 4611686018427387904 → t ≤ 62 := by
    intro t ht
    by_contra hcon
    have : 2 ^ 63 ≤ 2 ^ t := Nat.pow_le_pow_right (by norm_num) (by omega)
    norm_num at this
    omega
  rw [htot]
  split
  · rename_i hp
    obtain ⟨t, ht⟩ := isPowerOf2_sound memory_size hp
    exact ⟨t, hle62 t (ht ▸ h), ht⟩
  · rcases Nat.eq_zero_or_pos memory_size with h0 | hpos
    · subst h0
      exact ⟨0, by omega, by simp [BuddyAllocator.roundUpToPowerOf2]⟩
    · obtain ⟨L, _, hL, _, hmin⟩ := roundUpToPowerOf2_spec memory_size hpos (by omega)
      refine ⟨L, ?_, hL⟩
      rcases hmin with h0 | hlt
      · omega
      · have := hle62 (L - 1) (by omega)
        by_contra hcon
        have h63 : L = 63 := by omega
        subst h63
        norm_num at hlt
        omega

/-- **C16** (failure of buddy `malloc`), as amended.  For every `BuddyAllocator`
constructed with a `memory_size` up to `2^62` and a `min_block_size` that is a power of
two, in every state reached by `malloc`/`free` calls and for every `size` up to `2^63`,
`malloc(size)` returns; it returns `-1` if and only if `size == 0`, or
`alloc_size = max(min_block_size, next_power_of_two(size))` exceeds `total_memory`, or no
free-list bucket of size `>= alloc_size` is non-empty; and whenever it returns `-1` the
content of every bucket, the allocated map, the requested-size map and `next_block_id`
are unchanged. -/
theorem C16_malloc_failure (memory_size min_size e : Nat) (hmem : memory_size ≤ 2 ^ 62)
    (hmin : min_size = 2 ^ e) (ops : List BuddyOp) (a : BuddyAllocator)
    (hrun : (BuddyAllocator.new memory_size min_size).run ops = some a) (size : Nat)
    (hsize : size ≤ 2 ^ 63) :
    ∃ a' r, a.malloc size = some (a', r) ∧
      (r = -1 ↔
        (size = 0 ∨ a.total_memory < max a.min_block_size (nextPowerOfTwo size) ∨
          ∀ k, max a.min_block_size (nextPowerOfTwo size) ≤ k → bucket a.free_lists k = [])) ∧
      (r = -1 →
        (∀ k, bucket a'.free_lists k = bucket a.free_lists k) ∧
        a'.allocated_blocks = a.allocated_blocks ∧
        a'.requested_sizes = a.requested_sizes ∧
        a'.next_block_id = a.next_block_id) := by
  have h62 : (2 : Nat) ^ 62 = 4611686018427387904 := by norm_num
  have h63 : (2 : Nat) ^ 63 = 9223372036854775808 := by norm_num
  obtain ⟨t, ht62, ht⟩ := new_total_le memory_size min_size (by omega)
  have hinv := buddyInv_run ops _ a
    (buddyInv_new memory_size min_size t e (by omega) ht hmin) hrun
  obtain ⟨hpos, htot⟩ := next_pos_run ops _ a hrun (le_refl _)
  have htle : a.total_memory ≤ 4611686018427387904 := by
    rw [htot, ht, ← h62]
    exact Nat.pow_le_pow_right (by norm_num) ht62
  rcases Nat.eq_zero_or_pos size with h0 | h1
  · subst h0
    exact ⟨a, -1, by simp [BuddyAllocator.malloc], by simp, fun _ => ⟨fun k => rfl, rfl, rfl, rfl⟩⟩
  · have hround := roundUpToPowerOf2_eq_next size h1 (by omega)
    rw [← hround]
    have hs0 : size ≠ 0 := by omega
    rcases malloc_exact a hinv size _ h1 (by omega) rfl with
      ⟨g1, g2⟩ | ⟨g1, g2, g3, _⟩ | ⟨g1, j, B, fl', g2, g3, g4, g5, g6, g7, g8⟩
    · exact ⟨a, -1, g2, ⟨fun _ => Or.inr (Or.inl g1), fun _ => rfl⟩,
        fun _ => ⟨fun k => rfl, rfl, rfl, rfl⟩⟩
    · obtain ⟨fl', g4, g5⟩ := g3 htle
      exact ⟨_, -1, g4, ⟨fun _ => Or.inr (Or.inr g2), fun _ => rfl⟩,
        fun _ => ⟨g5, rfl, rfl, rfl⟩⟩
    · refine ⟨_, a.next_block_id, g5, ?_, ?_⟩
      · constructor
        · intro hneg
          omega
        · rintro (h | h | h)
          · exact absurd h hs0
          · omega
          · exfalso
            have hne := h (max a.min_block_size (BuddyAllocator.roundUpToPowerOf2 size) * 2 ^ j)
              (Nat.le_mul_of_pos_right _ (Nat.two_pow_pos j))
            rw [hne] at g3
            simp at g3
      · intro hneg
        omega

theorem clog_big : Nat.clog 2 (2 ^ 63 + 1) = 64 :=
  le_antisymm ((Nat.le_pow_iff_clog_le (by norm_num : 1 < 2)).1 (by norm_num))
    ((Nat.pow_lt_iff_lt_clog (by norm_num : 1 < 2)).1 (by norm_num))

theorem nextPowerOfTwo_big : nextPowerOfTwo (2 ^ 63 + 1) = 2 ^ 64 := by
  rw [nextPowerOfTwo, clog_big]

/-- Counterexample to **C16** as stated.  (1) `BuddyAllocator(16, 6)`: `malloc(1)` returns
`-1` although `size` is not 0, `alloc_size = max(6, 1) = 6` does not exceed the total
memory 16 and the bucket of 16 holds the free block of the whole memory: `splitBlock`
probes the buckets 6 and 12 only.  (2) `BuddyAllocator(2^63)` after `malloc(2^63)`: no
bucket holds a block, and `malloc(1)` does not return, because the probe size wraps from
`2^63` to 0 and stays there.  (3) `BuddyAllocator(256, 64)`: `malloc(2^63 + 1)` returns
the id 1, not `-1`, although the next power of two of the size, `2^64`, exceeds the total
memory: the rounding wraps to 0. -/
theorem C16_counterexample :
    (((BuddyAllocator.new 16 6).malloc 1).map Prod.snd = some (-1) ∧
      (1 : Nat) ≠ 0 ∧
      max (BuddyAllocator.new 16 6).min_block_size (nextPowerOfTwo 1) = 6 ∧
      (BuddyAllocator.new 16 6).total_memory = 16 ∧
      bucket (BuddyAllocator.new 16 6).free_lists 16 = [{ address := 0, size := 16 }]) ∧
    (((BuddyAllocator.new (2 ^ 63) 64).run [BuddyOp.malloc (2 ^ 63)]).map
        (fun a => (a.malloc 1, BuddyAllocator.freeCount a.free_lists)) = some (none, 0)) ∧
    (((BuddyAllocator.new 256 64).malloc (2 ^ 63 + 1)).map Prod.snd = some 1 ∧
      nextPowerOfTwo (2 ^ 63 + 1) = 2 ^ 64 ∧
      (BuddyAllocator.new 256 64).total_memory < 2 ^ 64) := by
  refine ⟨⟨by decide, by decide, ?_, by decide, by decide⟩, by decide,
    by decide, nextPowerOfTwo_big, by decide⟩
  simp [nextPowerOfTwo, BuddyAllocator.new]

/-- Witness of **C16**: in the state of `BuddyAllocator(256, 64)` after `malloc(50)`,
`malloc(50)`, `free(1)` a request of 200 bytes needs the bucket of 256, which is empty. -/
theorem C16_malloc_failure_witness :
    (BuddyAllocator.scenarioOneFreed.malloc 200).map Prod.snd = some (-1) ∧
    ∃ a' r, BuddyAllocator.scenarioOneFreed.malloc 200 = some (a', r) ∧
      (r = -1 ↔
        (200 = 0 ∨
          BuddyAllocator.scenarioOneFreed.total_memory <
            max BuddyAllocator.scenarioOneFreed.min_block_size (nextPowerOfTwo 200) ∨
          ∀ k, max BuddyAllocator.scenarioOneFreed.min_block_size (nextPowerOfTwo 200) ≤ k →
            bucket BuddyAllocator.scenarioOneFreed.free_lists k = [])) ∧
      (r = -1 →
        (∀ k, bucket a'.free_lists k = bucket BuddyAllocator.scenarioOneFreed.free_lists k) ∧
        a'.allocated_blocks = BuddyAllocator.scenarioOneFreed.allocated_blocks ∧
        a'.requested_sizes = BuddyAllocator.scenarioOneFreed.requested_sizes ∧
        a'.next_block_id = BuddyAllocator.scenarioOneFreed.next_block_id) :=
  ⟨by decide,
    C16_malloc_failure 256 64 6 (by decide) (by decide)
      [BuddyOp.malloc 50, BuddyOp.malloc 50, BuddyOp.free 1] BuddyAllocator.scenarioOneFreed
      (by decide) 200 (by decide)⟩

/-- **C15** (success postcondition of buddy `malloc`) at a request above `2^63` bytes.
On `BuddyAllocator(256, 64)`, `malloc(2^63 + 1)` succeeds with id 1 and hands out the
block of 64 bytes at address 192: `roundUpToPowerOf2` wraps to 0, so the source computes
`alloc_size = max(64, 0) = 64`, whereas `max(min_block_size, next_power_of_two(size))` is
`2^64`; the block is smaller than the request. -/
theorem C15_oversized_request :
    BuddyAllocator.roundUpToPowerOf2 (2 ^ 63 + 1) = 0 ∧
    ((BuddyAllocator.new 256 64).malloc (2 ^ 63 + 1)).map
        (fun r => (r.2, r.1.allocated_blocks)) =
      some (1, [(1, { address := 192, size := 64, is_free := false, block_id := 1 })]) ∧
    max (BuddyAllocator.new 256 64).min_block_size (nextPowerOfTwo (2 ^ 63 + 1)) = 2 ^ 64 ∧
    (64 : Nat) ≠ 2 ^ 64 ∧ (64 : Nat) < 2 ^ 63 + 1 := by
  refine ⟨by decide, by decide, ?_, by decide, by decide⟩
  rw [nextPowerOfTwo_big]
  decide


/-! ## Theorems: the paths of `translate` -/

theorem getD_modifyAt_self {α : Type} (g : α → α) (l : List α) (i : Nat) (d : α)
    (h : i < l.length) : (modifyAt g l i).getD i d = g (l.getD i d) := by
  rw [getD_eq_get?, getD_eq_get?, get?_modifyAt, if_pos rfl]
  have : l.get? i = some (l.get ⟨i, h⟩) := List.get?_eq_get h
  rw [this]
  rfl

theorem getD_valid_lt (pt : List PageTableEntry) (p : Nat)
    (h : (pt.getD p {}).valid = true) : p < pt.length := by
  by_contra hcon
  have : pt.getD p {} = {} := by
    rw [getD_eq_get?, List.get?_eq_none.2 (by omega)]
    rfl
  rw [this] at h
  cases h

/-- **C24** (`translate` on a mapped page is a hit).  For every engine state and virtual
address whose page `p = addr / page_size` is `< num_virtual_pages` and whose page-table
entry is valid with frame `f` (the physical address fitting `size_t`), `translate`
returns `f * page_size + (addr mod page_size)`, increments `page_hits` by one (in
`size_t`), gives entry `p` the current time as time stamp and sets its reference bit,
advances the clock by one, and leaves everything else unchanged: `page_faults`, every
valid bit, every `frame_number`, every other entry, `frame_allocation`, `frame_to_page`,
the FIFO queue and the clock hand. -/
theorem C24_translate_hit (vm : VirtualMemory) (addr f : Nat)
    (hp : addr / vm.page_size < vm.num_virtual_pages)
    (hv : (vm.page_table.getD (addr / vm.page_size) {}).valid = true)
    (hf : (vm.page_table.getD (addr / vm.page_size) {}).frame_number = f)
    (hfit : f * vm.page_size + addr % vm.page_size < SIZE_MOD) :
    vm.translate addr =
      some ({ vm with
          page_hits := (vm.page_hits + 1) % SIZE_MOD
          page_table := modifyAt
            (fun e => { e with timestamp := vm.current_time, reference := true })
            vm.page_table (addr / vm.page_size)
          current_time := vm.current_time + 1 },
        f * vm.page_size + addr % vm.page_size) ∧
    (modifyAt (fun e => { e with timestamp := vm.current_time, reference := true })
        vm.page_table (addr / vm.page_size)).map
          (fun e => (e.valid, e.frame_number, e.dirty, e.load_time)) =
      vm.page_table.map (fun e => (e.valid, e.frame_number, e.dirty, e.load_time)) ∧
    (∀ q, q ≠ addr / vm.page_size →
      (modifyAt (fun e => { e with timestamp := vm.current_time, reference := true })
        vm.page_table (addr / vm.page_size)).get? q = vm.page_table.get? q) := by
  refine ⟨?_, ?_, ?_⟩
  · have hlt := getD_valid_lt _ _ hv
    have hnot : ¬ addr / vm.page_size ≥ vm.num_virtual_pages := by omega
    simp only [VirtualMemory.translate, VirtualMemory.getPageNumber, VirtualMemory.getOffset,
      hnot, ↓reduceIte, hv, Bool.not_true, Bool.false_eq_true,
      getD_modifyAt_self _ _ _ _ hlt, hf, Nat.mod_eq_of_lt hfit]
  · apply map_modifyAt_same
    intro e
    rfl
  · intro q hq
    rw [get?_modifyAt, if_neg hq]

/-- Witness of **C24**: in the FIFO scenario state page 2 is mapped to frame 0, so the
address 37 translates to 5. -/
theorem C24_translate_hit_witness :
    VirtualMemory.scenario.translate 37 =
      some ({ VirtualMemory.scenario with
          page_hits := (VirtualMemory.scenario.page_hits + 1) % SIZE_MOD
          page_table := modifyAt
            (fun e => { e with timestamp := VirtualMemory.scenario.current_time,
                               reference := true })
            VirtualMemory.scenario.page_table (37 / VirtualMemory.scenario.page_size)
          current_time := VirtualMemory.scenario.current_time + 1 },
        0 * VirtualMemory.scenario.page_size + 37 % VirtualMemory.scenario.page_size) ∧
    (modifyAt (fun e => { e with timestamp := VirtualMemory.scenario.current_time,
                                 reference := true })
        VirtualMemory.scenario.page_table (37 / VirtualMemory.scenario.page_size)).map
          (fun e => (e.valid, e.frame_number, e.dirty, e.load_time)) =
      VirtualMemory.scenario.page_table.map
        (fun e => (e.valid, e.frame_number, e.dirty, e.load_time)) ∧
    (∀ q, q ≠ 37 / VirtualMemory.scenario.page_size →
      (modifyAt (fun e => { e with timestamp := VirtualMemory.scenario.current_time,
                                   reference := true })
        VirtualMemory.scenario.page_table (37 / VirtualMemory.scenario.page_size)).get? q =
        VirtualMemory.scenario.page_table.get? q) :=
  C24_translate_hit VirtualMemory.scenario 37 0 (by decide) (by decide) (by decide) (by decide)

/-- **C25** (`translate` rejects an invalid virtual address atomically).  For every
engine state and every virtual address with `addr / page_size >= num_virtual_pages`,
`translate` returns 0 and the whole state (page table, frame tables, FIFO queue, clock
hand, `current_time`, hit and fault counters) is unchanged. -/
theorem C25_invalid_address (vm : VirtualMemory) (addr : Nat)
    (h : addr / vm.page_size ≥ vm.num_virtual_pages) : vm.translate addr = some (vm, 0) := by
  simp only [VirtualMemory.translate, VirtualMemory.getPageNumber, h, ↓reduceIte]

/-- Witness of **C25**: the FIFO scenario state has 4 pages of 16 bytes; the address 64
lies in page 4. -/
theorem C25_invalid_address_witness :
    VirtualMemory.scenario.translate 64 = some (VirtualMemory.scenario, 0) :=
  C25_invalid_address VirtualMemory.scenario 64 (by decide)

/-- Counterexample to **C26** as stated.  A FIFO engine with one virtual page and no
physical frame (`virtual_bits` 4, `physical_bits` 2, pages of 16 bytes): `translate(0)`
finds the page unmapped, no free frame and no victim, and returns 0, but the state after
the call has `page_faults` 1 where the state before had 0. -/
theorem C26_counterexample :
    (VirtualMemory.new 4 2 16 PageReplacementPolicy.FIFO).num_virtual_pages = 1 ∧
    (VirtualMemory.new 4 2 16 PageReplacementPolicy.FIFO).num_physical_frames = 0 ∧
    ((VirtualMemory.new 4 2 16 PageReplacementPolicy.FIFO).page_table.getD 0 {}).valid = false ∧
    (VirtualMemory.new 4 2 16 PageReplacementPolicy.FIFO).findFreeFrame = none ∧
    ((VirtualMemory.new 4 2 16 PageReplacementPolicy.FIFO).selectVictimPage).map Prod.snd
      = some none ∧
    ((VirtualMemory.new 4 2 16 PageReplacementPolicy.FIFO).translate 0).map
        (fun r => (r.2, r.1.page_faults)) = some (0, 1) ∧
    (VirtualMemory.new 4 2 16 PageReplacementPolicy.FIFO).page_faults = 0 ∧
    ((VirtualMemory.new 4 2 16 PageReplacementPolicy.FIFO).translate 0).map Prod.fst ≠
      some (VirtualMemory.new 4 2 16 PageReplacementPolicy.FIFO) := by
  decide

/-- **C26** (failed victim search), as amended.  Whenever `translate` takes the error path
in which the page is unmapped, no frame is free and `selectVictimPage` returns no victim,
`translate` returns 0 and the state after the call is the state before with `page_faults`
incremented by one (in `size_t`); nothing else has changed. -/
theorem C26_failed_victim_search (vm : VirtualMemory) (addr : Nat)
    (hp : addr / vm.page_size < vm.num_virtual_pages)
    (hv : (vm.page_table.getD (addr / vm.page_size) {}).valid = false)
    (hfree : vm.findFreeFrame = none)
    (hvict : (vm.selectVictimPage).map Prod.snd = some none) :
    vm.translate addr =
      some ({ vm with page_faults := (vm.page_faults + 1) % SIZE_MOD }, 0) := by
  have hnot : ¬ addr / vm.page_size ≥ vm.num_virtual_pages := by omega
  have hfree1 : ({ vm with page_faults := (vm.page_faults + 1) % SIZE_MOD } :
      VirtualMemory).findFreeFrame = none := hfree
  have hsel : ({ vm with page_faults := (vm.page_faults + 1) % SIZE_MOD } :
      VirtualMemory).selectVictimPage =
      some ({ vm with page_faults := (vm.page_faults + 1) % SIZE_MOD }, none) := by
    unfold VirtualMemory.selectVictimPage at hvict ⊢
    cases hpol : vm.policy with
    | FIFO =>
      rw [hpol] at hvict
      simp only at hvict ⊢
      cases hq : vm.fifo_queue with
      | nil => simp only [hpol]
      | cons v rest => rw [hq] at hvict; simp at hvict
    | LRU =>
      rw [hpol] at hvict
      simp only [Option.map_some', Option.some.injEq] at hvict
      simp only [hpol, hvict]
    | CLOCK =>
      rw [hpol] at hvict
      simp only [Option.map_map] at hvict
      cases hc : VirtualMemory.clockLoop (2 * vm.num_physical_frames) vm with
      | none => rw [hc] at hvict; simp at hvict
      | some r => rw [hc] at hvict; simp at hvict
  simp only [VirtualMemory.translate, VirtualMemory.getPageNumber, hnot, ↓reduceIte, hv,
    Bool.not_false, hfree1, hsel]

/-- Witness of **C26**: the FIFO engine with one virtual page and no physical frame. -/
theorem C26_failed_victim_search_witness :
    (VirtualMemory.new 4 2 16 PageReplacementPolicy.FIFO).translate 0 =
      some ({ VirtualMemory.new 4 2 16 PageReplacementPolicy.FIFO with
        page_faults := ((VirtualMemory.new 4 2 16 PageReplacementPolicy.FIFO).page_faults + 1)
          % SIZE_MOD }, 0) :=
  C26_failed_victim_search (VirtualMemory.new 4 2 16 PageReplacementPolicy.FIFO) 0
    (by decide) (by decide) (by decide) (by decide)

theorem fifo_fresh (vb m : Nat) (h : VirtualMemory.shiftOne vb / 16 = m + 3) :
    VirtualMemory.new vb 5 16 PageReplacementPolicy.FIFO = VirtualMemory.fifoTrace vb m 0 := by
  simp only [VirtualMemory.new, h, VirtualMemory.fifoTrace]
  rfl

theorem fifo_step1 (vb m : Nat) :
    (VirtualMemory.fifoTrace vb m 0).translate 0 = some (VirtualMemory.fifoTrace vb m 1, 0) := by
  simp [VirtualMemory.fifoTrace, VirtualMemory.translate, VirtualMemory.getPageNumber,
    VirtualMemory.getOffset, VirtualMemory.findFreeFrame, VirtualMemory.findFreeFrameFrom,
    VirtualMemory.loadPage, modifyAt, SIZE_MOD]

theorem fifo_step2 (vb m : Nat) :
    (VirtualMemory.fifoTrace vb m 1).translate 16 = some (VirtualMemory.fifoTrace vb m 2, 16) := by
  simp [VirtualMemory.fifoTrace, VirtualMemory.translate, VirtualMemory.getPageNumber,
    VirtualMemory.getOffset, VirtualMemory.findFreeFrame, VirtualMemory.findFreeFrameFrom,
    VirtualMemory.loadPage, modifyAt, SIZE_MOD]

theorem fifo_step3 (vb m : Nat) :
    (VirtualMemory.fifoTrace vb m 2).translate 32 = some (VirtualMemory.fifoTrace vb m 3, 0) := by
  simp [VirtualMemory.fifoTrace, VirtualMemory.translate, VirtualMemory.getPageNumber,
    VirtualMemory.getOffset, VirtualMemory.findFreeFrame, VirtualMemory.findFreeFrameFrom,
    VirtualMemory.selectVictimPage, VirtualMemory.evictPage,
    VirtualMemory.loadPage, modifyAt, SIZE_MOD]

theorem fifo_step4 (vb m : Nat) :
    (VirtualMemory.fifoTrace vb m 3).translate 0 = some (VirtualMemory.fifoTrace vb m 4, 16) := by
  simp [VirtualMemory.fifoTrace, VirtualMemory.translate, VirtualMemory.getPageNumber,
    VirtualMemory.getOffset, VirtualMemory.findFreeFrame, VirtualMemory.findFreeFrameFrom,
    VirtualMemory.selectVictimPage, VirtualMemory.evictPage,
    VirtualMemory.loadPage, modifyAt, SIZE_MOD]

/-- **C28** (VM FIFO scenario).  On a fresh FIFO engine with pages of 16 bytes, exactly 2
physical frames (`physical_bits` 5) and at least 3 virtual pages: `translate(0)` faults
and loads page 0 into frame 0; `translate(16)` faults and loads page 1 into frame 1;
`translate(32)` faults, evicts page 0 and loads page 2 into frame 0; and the following
`translate(0)` is a fault again (page 0 goes to frame 1, from which page 1 is evicted):
4 faults and 0 hits in total. -/
theorem C28_fifo_scenario (vb : Nat) (hv : 3 ≤ 2 ^ vb / 16) :
    (VirtualMemory.new vb 5 16 PageReplacementPolicy.FIFO).num_physical_frames = 2 ∧
    ∃ vm1 vm2 vm3 vm4,
      (VirtualMemory.new vb 5 16 PageReplacementPolicy.FIFO).translate 0 = some (vm1, 0) ∧
      (vm1.page_faults = 1 ∧ vm1.page_hits = 0 ∧
        (vm1.page_table.getD 0 {}).valid = true ∧
        (vm1.page_table.getD 0 {}).frame_number = 0 ∧
        vm1.frame_allocation = [true, false] ∧ vm1.frame_to_page.getD 0 0 = 0) ∧
      vm1.translate 16 = some (vm2, 16) ∧
      (vm2.page_faults = 2 ∧ vm2.page_hits = 0 ∧
        (vm2.page_table.getD 1 {}).valid = true ∧
        (vm2.page_table.getD 1 {}).frame_number = 1 ∧
        vm2.frame_allocation = [true, true] ∧ vm2.frame_to_page = [0, 1]) ∧
      vm2.translate 32 = some (vm3, 0) ∧
      (vm3.page_faults = 3 ∧ vm3.page_hits = 0 ∧
        (vm3.page_table.getD 0 {}).valid = false ∧
        (vm3.page_table.getD 1 {}).valid = true ∧
        (vm3.page_table.getD 2 {}).valid = true ∧
        (vm3.page_table.getD 2 {}).frame_number = 0 ∧
        vm3.frame_allocation = [true, true] ∧ vm3.frame_to_page = [2, 1]) ∧
      vm3.translate 0 = some (vm4, 16) ∧
      (vm4.page_faults = 4 ∧ vm4.page_hits = 0 ∧
        (vm4.page_table.getD 0 {}).valid = true ∧
        (vm4.page_table.getD 0 {}).frame_number = 1 ∧
        (vm4.page_table.getD 1 {}).valid = false) := by
  have hv' : 3 ≤ VirtualMemory.shiftOne vb / 16 := by
    unfold VirtualMemory.shiftOne
    split
    · decide
    · exact hv
  obtain ⟨m, hm⟩ : ∃ m, VirtualMemory.shiftOne vb / 16 = m + 3 :=
    ⟨VirtualMemory.shiftOne vb / 16 - 3, by omega⟩
  rw [fifo_fresh vb m hm]
  refine ⟨rfl, VirtualMemory.fifoTrace vb m 1, VirtualMemory.fifoTrace vb m 2,
    VirtualMemory.fifoTrace vb m 3, VirtualMemory.fifoTrace vb m 4,
    fifo_step1 vb m, ⟨rfl, rfl, rfl, rfl, rfl, rfl⟩,
    fifo_step2 vb m, ⟨rfl, rfl, rfl, rfl, rfl, rfl⟩,
    fifo_step3 vb m, ⟨rfl, rfl, rfl, rfl, rfl, rfl, rfl, rfl⟩,
    fifo_step4 vb m, ⟨rfl, rfl, rfl, rfl, rfl⟩⟩

/-- Witness of **C28**: the engine with `virtual_bits` 6 (4 virtual pages); the four
accesses end in the scenario state. -/
theorem C28_fifo_scenario_witness :
    (VirtualMemory.new 6 5 16 PageReplacementPolicy.FIFO).run [0, 16, 32, 0] =
      some VirtualMemory.scenario ∧
    ((VirtualMemory.new 6 5 16 PageReplacementPolicy.FIFO).num_physical_frames = 2 ∧
    ∃ vm1 vm2 vm3 vm4,
      (VirtualMemory.new 6 5 16 PageReplacementPolicy.FIFO).translate 0 = some (vm1, 0) ∧
      (vm1.page_faults = 1 ∧ vm1.page_hits = 0 ∧
        (vm1.page_table.getD 0 {}).valid = true ∧
        (vm1.page_table.getD 0 {}).frame_number = 0 ∧
        vm1.frame_allocation = [true, false] ∧ vm1.frame_to_page.getD 0 0 = 0) ∧
      vm1.translate 16 = some (vm2, 16) ∧
      (vm2.page_faults = 2 ∧ vm2.page_hits = 0 ∧
        (vm2.page_table.getD 1 {}).valid = true ∧
        (vm2.page_table.getD 1 {}).frame_number = 1 ∧
        vm2.frame_allocation = [true, true] ∧ vm2.frame_to_page = [0, 1]) ∧
      vm2.translate 32 = some (vm3, 0) ∧
      (vm3.page_faults = 3 ∧ vm3.page_hits = 0 ∧
        (vm3.page_table.getD 0 {}).valid = false ∧
        (vm3.page_table.getD 1 {}).valid = true ∧
        (vm3.page_table.getD 2 {}).valid = true ∧
        (vm3.page_table.getD 2 {}).frame_number = 0 ∧
        vm3.frame_allocation = [true, true] ∧ vm3.frame_to_page = [2, 1]) ∧
      vm3.translate 0 = some (vm4, 16) ∧
      (vm4.page_faults = 4 ∧ vm4.page_hits = 0 ∧
        (vm4.page_table.getD 0 {}).valid = true ∧
        (vm4.page_table.getD 0 {}).frame_number = 1 ∧
        (vm4.page_table.getD 1 {}).valid = false)) :=
  ⟨by decide, C28_fifo_scenario 6 (by decide)⟩


/-! ## Theorems: victim selection and insertion in a cache level -/

theorem firstInvalid_some : ∀ (l : List CacheLine) (i : Nat),
    CacheLevel.firstInvalid l = some i →
    ∃ line, l.get? i = some line ∧ line.valid = false ∧
      ∀ j line', j < i → l.get? j = some line' → line'.valid = true := by
  intro l
  induction l with
  | nil => intro i h; simp [CacheLevel.firstInvalid] at h
  | cons c rest ih =>
    intro i h
    simp only [CacheLevel.firstInvalid] at h
    split at h
    · rename_i hc
      cases h
      refine ⟨c, rfl, by simpa using hc, fun j _ hj => absurd hj (Nat.not_lt_zero j)⟩
    · rename_i hc
      cases hr : CacheLevel.firstInvalid rest with
      | none => rw [hr] at h; simp at h
      | some i' =>
        rw [hr] at h
        simp only [Option.map_some', Option.some.injEq] at h
        subst h
        obtain ⟨line, hget, hv, hmin⟩ := ih i' hr
        refine ⟨line, by simpa using hget, hv, ?_⟩
        intro j line' hj hget'
        cases j with
        | zero =>
          simp only [List.get?_cons_zero, Option.some.injEq] at hget'
          subst hget'
          simpa using hc
        | succ j' => exact hmin j' line' (by omega) (by simpa using hget')

theorem firstInvalid_none : ∀ (l : List CacheLine),
    CacheLevel.firstInvalid l = none → ∀ line ∈ l, line.valid = true := by
  intro l
  induction l with
  | nil => intro _ line hl; simp at hl
  | cons c rest ih =>
    intro h line hl
    simp only [CacheLevel.firstInvalid] at h
    split at h
    · simp at h
    · rename_i hc
      cases hr : CacheLevel.firstInvalid rest with
      | some i' => rw [hr] at h; simp at h
      | none =>
        rcases List.mem_cons.1 hl with heq | hmem
        · subst heq; simpa using hc
        · exact ih hr line hmem

/-- The minimum scan of `findVictim` from way `i` on with the candidate `best_way` of key
`best_key`: the candidate stays when no later way has a strictly smaller key; otherwise
the result is the first way that attains the minimum of the later keys. -/
theorem minWay_spec (key : CacheLine → Int) : ∀ (rest : List CacheLine) (i best_way : Nat)
    (best_key : Int),
    (CacheLevel.minWay key rest i best_way best_key = best_way ∧
      ∀ line ∈ rest, best_key ≤ key line) ∨
    (∃ j line, CacheLevel.minWay key rest i best_way best_key = i + j ∧
      rest.get? j = some line ∧ key line < best_key ∧
      ∀ j' l, rest.get? j' = some l → key line ≤ key l ∧ (j' < j → key line < key l)) := by
  intro rest
  induction rest with
  | nil =>
    intro i bw bk
    left
    exact ⟨rfl, fun line hl => by simp at hl⟩
  | cons c rest ih =>
    intro i bw bk
    simp only [CacheLevel.minWay]
    split
    · rename_i hlt
      right
      rcases ih (i + 1) i (key c) with ⟨h1, h2⟩ | ⟨j, line, h1, h2, h3, h4⟩
      · refine ⟨0, c, by rw [h1]; rfl, rfl, hlt, ?_⟩
        intro j' l hl
        cases j' with
        | zero =>
          simp only [List.get?_cons_zero, Option.some.injEq] at hl
          subst hl
          exact ⟨le_refl _, fun h => absurd h (Nat.lt_irrefl 0)⟩
        | succ j'' =>
          have hm : l ∈ rest := List.get?_mem (by simpa using hl)
          exact ⟨h2 l hm, fun h => absurd h (Nat.not_lt_zero _)⟩
      · refine ⟨j + 1, line, by rw [h1]; omega, by simpa using h2, lt_trans h3 hlt, ?_⟩
        intro j' l hl
        cases j' with
        | zero =>
          simp only [List.get?_cons_zero, Option.some.injEq] at hl
          subst hl
          exact ⟨le_of_lt h3, fun _ => h3⟩
        | succ j'' =>
          have := h4 j'' l (by simpa using hl)
          exact ⟨this.1, fun h => this.2 (by omega)⟩
    · rename_i hge
      rcases ih (i + 1) bw bk with ⟨h1, h2⟩ | ⟨j, line, h1, h2, h3, h4⟩
      · left
        refine ⟨h1, ?_⟩
        intro line hl
        rcases List.mem_cons.1 hl with heq | hmem
        · subst heq; exact not_lt.1 hge
        · exact h2 line hmem
      · right
        refine ⟨j + 1, line, by rw [h1]; omega, by simpa using h2, h3, ?_⟩
        intro j' l hl
        cases j' with
        | zero =>
          simp only [List.get?_cons_zero, Option.some.injEq] at hl
          subst hl
          have : key line < key c := lt_of_lt_of_le h3 (not_lt.1 hge)
          exact ⟨le_of_lt this, fun _ => this⟩
        | succ j'' =>
          have := h4 j'' l (by simpa using hl)
          exact ⟨this.1, fun h => this.2 (by omega)⟩

/-- The way chosen by the minimum scan over a whole set: it attains the minimum of the
keys, and every lower way has a strictly larger key. -/
theorem minWay_set (key : CacheLine → Int) (line0 : CacheLine) (rest : List CacheLine) :
    ∃ lv, (line0 :: rest).get? (CacheLevel.minWay key rest 1 0 (key line0)) = some lv ∧
      ∀ j l, (line0 :: rest).get? j = some l →
        key lv ≤ key l ∧ (j < CacheLevel.minWay key rest 1 0 (key line0) → key lv < key l) := by
  rcases minWay_spec key rest 1 0 (key line0) with ⟨h1, h2⟩ | ⟨j, line, h1, h2, h3, h4⟩
  · rw [h1]
    refine ⟨line0, rfl, ?_⟩
    intro j l hl
    cases j with
    | zero =>
      simp only [List.get?_cons_zero, Option.some.injEq] at hl
      subst hl
      exact ⟨le_refl _, fun h => absurd h (Nat.lt_irrefl 0)⟩
    | succ j' =>
      exact ⟨h2 l (List.get?_mem (by simpa using hl)), fun h => absurd h (Nat.not_lt_zero _)⟩
  · rw [h1]
    refine ⟨line, ?_, ?_⟩
    · rw [show 1 + j = j + 1 by omega]
      simpa using h2
    · intro j' l hl
      cases j' with
      | zero =>
        simp only [List.get?_cons_zero, Option.some.injEq] at hl
        subst hl
        exact ⟨le_of_lt h3, fun _ => h3⟩
      | succ j'' =>
        have := h4 j'' l (by simpa using hl)
        exact ⟨this.1, fun h => this.2 (by omega)⟩

theorem findVictim_invalid (policy : ReplacementPolicy) (set : List CacheLine)
    (h : ∃ line ∈ set, line.valid = false) :
    ∃ lv, set.get? (CacheLevel.findVictim policy set) = some lv ∧ lv.valid = false ∧
      ∀ j l, j < CacheLevel.findVictim policy set → set.get? j = some l → l.valid = true := by
  cases hf : CacheLevel.firstInvalid set with
  | none =>
    obtain ⟨line, hl, hv⟩ := h
    have := firstInvalid_none set hf line hl
    rw [hv] at this
    cases this
  | some i =>
    obtain ⟨line, hget, hv, hmin⟩ := firstInvalid_some set i hf
    simp only [CacheLevel.findVictim, hf]
    exact ⟨line, hget, hv, hmin⟩

theorem findVictim_full (policy : ReplacementPolicy) (set : List CacheLine)
    (h : ∀ line ∈ set, line.valid = true) (hne : set ≠ []) :
    ∃ lv, set.get? (CacheLevel.findVictim policy set) = some lv ∧
      (policy ≠ ReplacementPolicy.LFU → ∀ j l, set.get? j = some l →
        lv.timestamp ≤ l.timestamp ∧
        (j < CacheLevel.findVictim policy set → lv.timestamp < l.timestamp)) ∧
      (policy = ReplacementPolicy.LFU → ∀ j l, set.get? j = some l →
        lv.frequency ≤ l.frequency ∧
        (j < CacheLevel.findVictim policy set → lv.frequency < l.frequency)) := by
  have hf : CacheLevel.firstInvalid set = none := by
    cases hf : CacheLevel.firstInvalid set with
    | none => rfl
    | some i =>
      obtain ⟨line, hget, hv, _⟩ := firstInvalid_some set i hf
      have := h line (List.get?_mem hget)
      rw [hv] at this
      cases this
  cases set with
  | nil => exact absurd rfl hne
  | cons line0 rest =>
    cases policy with
    | FIFO =>
      simp only [CacheLevel.findVictim, hf]
      obtain ⟨lv, h1, h2⟩ := minWay_set CacheLine.timestamp line0 rest
      exact ⟨lv, h1, fun _ => h2, fun hp => by cases hp⟩
    | LRU =>
      simp only [CacheLevel.findVictim, hf]
      obtain ⟨lv, h1, h2⟩ := minWay_set CacheLine.timestamp line0 rest
      exact ⟨lv, h1, fun _ => h2, fun hp => by cases hp⟩
    | LFU =>
      simp only [CacheLevel.findVictim, hf]
      obtain ⟨lv, h1, h2⟩ := minWay_set CacheLine.frequency line0 rest
      exact ⟨lv, h1, fun hp => absurd rfl hp, fun _ => h2⟩

theorem findVictim_lt (policy : ReplacementPolicy) (set : List CacheLine) (hne : set ≠ []) :
    CacheLevel.findVictim policy set < set.length := by
  by_cases h : ∃ line ∈ set, line.valid = false
  · obtain ⟨lv, hget, _⟩ := findVictim_invalid policy set h
    exact List.get?_eq_some.1 hget |>.1
  · have h' : ∀ line ∈ set, line.valid = true := by
      intro line hl
      cases hv : line.valid with
      | true => rfl
      | false => exact absurd ⟨line, hl, hv⟩ h
    obtain ⟨lv, hget, _⟩ := findVictim_full policy set h' hne
    exact List.get?_eq_some.1 hget |>.1

/-- A line of a level after an update of way `v` of set `si`. -/
theorem get?_sets_modifyAt (f : CacheLine → CacheLine) (sets : List (List CacheLine))
    (si v s w : Nat) :
    ((modifyAt (fun set => modifyAt f set v) sets si).getD s []).get? w =
      if s = si ∧ w = v then ((sets.getD s []).get? w).map f else (sets.getD s []).get? w := by
  rw [getD_eq_get?, getD_eq_get?, get?_modifyAt]
  by_cases hs : s = si
  · subst hs
    rw [if_pos rfl]
    cases hget : sets.get? s with
    | none =>
      simp only [Option.map_none', Option.getD_none, List.get?_nil]
      split <;> rfl
    | some set =>
      simp only [Option.map_some', Option.getD_some, get?_modifyAt]
      by_cases hw : w = v
      · simp [hw]
      · simp [hw]
  · rw [if_neg hs, if_neg (fun h => hs h.1)]

/-- **C30** (victim selection of `insert`).  For every set: if some way is invalid, the
victim is the lowest-index invalid way; otherwise (all ways valid, at least one way) under
FIFO and LRU the victim is a way with the smallest time stamp and under LFU a way with the
smallest frequency, every lower way having a strictly larger key (the lowest way index
wins every tie).  `insert` then makes the victim way of the addressed set valid with the
tag of the address and the given data, gives it the current clock value as time stamp,
sets its frequency to 1 under LFU only, advances the clock by one, and changes no other
way, no other set and no counter. -/
theorem C30_victim_selection (policy : ReplacementPolicy) (set : List CacheLine)
    (c : CacheLevel) (address data : Nat) :
    ((∃ line ∈ set, line.valid = false) →
      ∃ lv, set.get? (CacheLevel.findVictim policy set) = some lv ∧ lv.valid = false ∧
        ∀ j l, j < CacheLevel.findVictim policy set → set.get? j = some l → l.valid = true) ∧
    ((∀ line ∈ set, line.valid = true) → set ≠ [] →
      ∃ lv, set.get? (CacheLevel.findVictim policy set) = some lv ∧
        (policy ≠ ReplacementPolicy.LFU → ∀ j l, set.get? j = some l →
          lv.timestamp ≤ l.timestamp ∧
          (j < CacheLevel.findVictim policy set → lv.timestamp < l.timestamp)) ∧
        (policy = ReplacementPolicy.LFU → ∀ j l, set.get? j = some l →
          lv.frequency ≤ l.frequency ∧
          (j < CacheLevel.findVictim policy set → lv.frequency < l.frequency))) ∧
    (∀ s w, ((c.insert address data).cache_sets.getD s []).get? w =
      if s = c.getSetIndex address ∧
          w = CacheLevel.findVictim c.policy (c.cache_sets.getD (c.getSetIndex address) [])
      then ((c.cache_sets.getD s []).get? w).map (fun line =>
        { valid := true, tag := c.getTag address, data := data,
          timestamp := c.current_time,
          frequency := if c.policy = ReplacementPolicy.LFU then 1 else line.frequency })
      else (c.cache_sets.getD s []).get? w) ∧
    ((c.insert address data).current_time = c.current_time + 1 ∧
      (c.insert address data).hits = c.hits ∧
      (c.insert address data).misses = c.misses ∧
      (c.insert address data).policy = c.policy ∧
      (c.insert address data).cache_size = c.cache_size ∧
      (c.insert address data).block_size = c.block_size ∧
      (c.insert address data).num_sets = c.num_sets ∧
      (c.insert address data).associativity = c.associativity ∧
      (c.insert address data).cache_sets.length = c.cache_sets.length) := by
  refine ⟨findVictim_invalid policy set, findVictim_full policy set, ?_,
    rfl, rfl, rfl, rfl, rfl, rfl, rfl, rfl, ?_⟩
  · intro s w
    exact get?_sets_modifyAt _ c.cache_sets _ _ s w
  · exact length_modifyAt _ _ _

/-! ## Theorems: writes and repeated reads through the cache hierarchy -/

theorem get?_map_eq {α β : Type} (f : α → β) (l : List α) (i : Nat) :
    (l.map f).get? i = (l.get? i).map f := by
  simp [List.get?_eq_getElem?]

theorem findLine_isSome (tag : Nat) : ∀ (l : List CacheLine),
    (∃ line ∈ l, line.valid = true ∧ line.tag = tag) → ∃ i, CacheLevel.findLine tag l = some i := by
  intro l h
  cases hf : CacheLevel.findLine tag l with
  | some i => exact ⟨i, rfl⟩
  | none =>
    obtain ⟨line, hl, hv⟩ := h
    exact absurd hv (findLine_none tag l hf line hl)

/-- A level holds the line of an address exactly when `access` hits. -/
theorem access_hit_iff (c : CacheLevel) (address : Nat) :
    (∃ line ∈ c.cache_sets.getD (c.getSetIndex address) [],
      line.valid = true ∧ line.tag = c.getTag address) ↔
    ∃ data, (c.access address).2 = some data := by
  constructor
  · intro h
    obtain ⟨i, hi⟩ := findLine_isSome _ _ h
    exact ⟨((c.cache_sets.getD (c.getSetIndex address) []).getD i {}).data,
      by simp only [CacheLevel.access, hi]⟩
  · rintro ⟨data, hd⟩
    obtain ⟨way, line, hget, hv, ht, _⟩ := access_hit c address data hd
    exact ⟨line, List.get?_mem hget, hv, ht⟩

theorem updateLRU_set_length (c : CacheLevel) (si way s : Nat) :
    ((CacheLevel.updateLRU c si way).cache_sets.getD s []).length =
      (c.cache_sets.getD s []).length := by
  simp only [CacheLevel.updateLRU]
  rw [getD_eq_get?, getD_eq_get?, get?_modifyAt]
  split
  · cases c.cache_sets.get? s with
    | none => rfl
    | some set => simp [length_modifyAt]
  · rfl

/-- After `insert`, the victim way of the addressed set holds a valid line with the tag of
the address and the data, when the addressed set has at least one way. -/
theorem insert_line (c : CacheLevel) (address data : Nat)
    (hne : c.cache_sets.getD (c.getSetIndex address) [] ≠ []) :
    ∃ line, ((c.insert address data).cache_sets.getD (c.getSetIndex address) []).get?
        (CacheLevel.findVictim c.policy (c.cache_sets.getD (c.getSetIndex address) [])) =
        some line ∧
      line.valid = true ∧ line.tag = c.getTag address ∧ line.data = data := by
  have hlt := findVictim_lt c.policy _ hne
  have hget : (c.cache_sets.getD (c.getSetIndex address) []).get?
      (CacheLevel.findVictim c.policy (c.cache_sets.getD (c.getSetIndex address) [])) =
      some ((c.cache_sets.getD (c.getSetIndex address) []).get ⟨_, hlt⟩) :=
    List.get?_eq_get hlt
  have h := get?_sets_modifyAt (fun line =>
      ({ line with
        valid := true, tag := c.getTag address, data := data, timestamp := c.current_time,
        frequency := if c.policy = ReplacementPolicy.LFU then 1 else line.frequency } :
        CacheLine))
    c.cache_sets (c.getSetIndex address)
    (CacheLevel.findVictim c.policy (c.cache_sets.getD (c.getSetIndex address) []))
    (c.getSetIndex address)
    (CacheLevel.findVictim c.policy (c.cache_sets.getD (c.getSetIndex address) []))
  rw [if_pos ⟨rfl, rfl⟩, hget] at h
  exact ⟨_, h, rfl, rfl, rfl⟩

/-- Counterexample to **C21** as stated.  On a hierarchy with one fresh, well-formed
level (one set of two ways), which holds no line, `write(0, 5)` does not leave the level
untouched: the probe of the write is `access`, which counts a miss, so the miss counter of
the level goes from 0 to 1. -/
theorem C21_counterexample :
    (∀ level ∈ ((CacheHierarchy.new 16).addLevel 2 1 2 ReplacementPolicy.LRU).levels,
      level.WellFormed) ∧
    (∀ level ∈ ((CacheHierarchy.new 16).addLevel 2 1 2 ReplacementPolicy.LRU).levels,
      ∀ set ∈ level.cache_sets, ∀ line ∈ set, line.valid = false) ∧
    ((CacheHierarchy.new 16).addLevel 2 1 2 ReplacementPolicy.LRU).levels.map
      CacheLevel.misses = [0] ∧
    (((CacheHierarchy.new 16).addLevel 2 1 2 ReplacementPolicy.LRU).write 0 5).levels.map
      CacheLevel.misses = [1] ∧
    (((CacheHierarchy.new 16).addLevel 2 1 2 ReplacementPolicy.LRU).write 0 5).levels ≠
      ((CacheHierarchy.new 16).addLevel 2 1 2 ReplacementPolicy.LRU).levels := by
  decide

/-- **C21** (`write` is write-through without write-allocate), as amended.  On a
hierarchy whose levels are well formed (the divisors of the index arithmetic are not 0, so
that `access` and `insert` are defined), for every in-bounds address and data, after `write(address, data)` the word `main_memory[address]`
is `data` and every other backing-store word is unchanged; every level that held the line
before the write holds a valid line with that tag and the new data; and every level that
did not hold the line keeps all its lines, its clock and its hit counter: only its miss
counter has been incremented by one.  The write leaves every level well formed. -/
theorem C21_write_through (h : CacheHierarchy) (address data : Nat)
    (hgeo : ∀ level ∈ h.levels, level.WellFormed)
    (hin : address < h.memory_size) (hlen : h.main_memory.length = h.memory_size) :
    ((h.write address data).main_memory.get? address = some data ∧
      (∀ a, a ≠ address → (h.write address data).main_memory.get? a = h.main_memory.get? a) ∧
      (h.write address data).main_memory.length = h.main_memory.length ∧
      (h.write address data).memory_size = h.memory_size) ∧
    (h.write address data).levels.length = h.levels.length ∧
    (∀ i level, h.levels.get? i = some level →
      ((∃ line ∈ level.cache_sets.getD (level.getSetIndex address) [],
          line.valid = true ∧ line.tag = level.getTag address) →
        ∃ level', (h.write address data).levels.get? i = some level' ∧
          level'.getSetIndex address = level.getSetIndex address ∧
          level'.getTag address = level.getTag address ∧
          ∃ line ∈ level'.cache_sets.getD (level.getSetIndex address) [],
            line.valid = true ∧ line.tag = level.getTag address ∧ line.data = data) ∧
      ((∀ line ∈ level.cache_sets.getD (level.getSetIndex address) [],
          ¬ (line.valid = true ∧ line.tag = level.getTag address)) →
        (h.write address data).levels.get? i =
          some { level with misses := (level.misses + 1) % SIZE_MOD })) ∧
    (∀ level ∈ (h.write address data).levels, level.WellFormed) := by
  have hnot : ¬ address ≥ h.memory_size := by omega
  have hwf := wellFormed_write h address data hgeo
  have hw : h.write address data =
      { h with
        main_memory := modifyAt (fun _ => data) h.main_memory address
        levels := h.levels.map (fun level =>
          match level.access address with
          | (level', some _) => level'.insert address data
          | (level', none) => level') } := by
    unfold CacheHierarchy.write
    exact (if_neg hnot).trans rfl
  rw [hw] at hwf
  rw [hw]
  refine ⟨⟨?_, ?_, ?_, rfl⟩, ?_, ?_, hwf⟩
  · show (modifyAt (fun _ => data) h.main_memory address).get? address = some data
    rw [get?_modifyAt, if_pos rfl, List.get?_eq_get (by omega)]
    rfl
  · intro a ha
    show (modifyAt (fun _ => data) h.main_memory address).get? a = _
    rw [get?_modifyAt, if_neg ha]
  · exact length_modifyAt _ _ _
  · exact List.length_map _ _
  · intro i level hget
    have hlev : (h.levels.map (fun level =>
          match level.access address with
          | (level', some _) => level'.insert address data
          | (level', none) => level')).get? i =
        some (match level.access address with
          | (level', some _) => level'.insert address data
          | (level', none) => level') := by
      rw [get?_map_eq, hget]
      rfl
    constructor
    · intro hheld
      obtain ⟨d, hd⟩ := (access_hit_iff level address).1 hheld
      obtain ⟨way, line, hl, _, _, _, _, hacc⟩ := access_hit level address d hd
      have hne : (CacheLevel.updateLRU { level with hits := (level.hits + 1) % SIZE_MOD }
          (level.getSetIndex address) way).cache_sets.getD (level.getSetIndex address) [] ≠
          [] := by
        intro hnil
        have h1 := updateLRU_set_length { level with hits := (level.hits + 1) % SIZE_MOD }
          (level.getSetIndex address) way (level.getSetIndex address)
        rw [hnil] at h1
        have h2 : (level.cache_sets.getD (level.getSetIndex address) []).length = 0 := h1.symm
        have h3 := List.get?_eq_some.1 hl |>.1
        omega
      obtain ⟨nl, hnl, hv, ht, hdat⟩ := insert_line
        (CacheLevel.updateLRU { level with hits := (level.hits + 1) % SIZE_MOD }
          (level.getSetIndex address) way) address data hne
      refine ⟨(CacheLevel.updateLRU { level with hits := (level.hits + 1) % SIZE_MOD }
          (level.getSetIndex address) way).insert address data, ?_, rfl, rfl,
        nl, List.get?_mem hnl, hv, ht, hdat⟩
      rw [hlev]
      cases hacc' : level.access address with
      | mk l' r =>
        rw [hacc'] at hd hacc
        simp only at hd hacc
        subst hd
        subst hacc
        rfl
    · intro hnone
      have hmiss : (level.access address).2 = none := by
        cases hr : (level.access address).2 with
        | none => rfl
        | some d =>
          obtain ⟨line, hl, hv⟩ := (access_hit_iff level address).2 ⟨d, hr⟩
          exact absurd hv (hnone line hl)
      have hacc := (access_miss level address hmiss).2
      rw [hlev]
      cases hacc' : level.access address with
      | mk l' r =>
        rw [hacc'] at hmiss hacc
        simp only at hmiss hacc
        subst hmiss
        subst hacc
        rfl

/-- Witness of **C21**: a write of 9 to address 0 on the scenario hierarchy, whose L2 holds
the line of address 0 and whose L1 does not. -/
theorem C21_write_through_witness :
    (∀ level ∈ CacheHierarchy.scenario.levels, level.WellFormed) ∧
    ((CacheHierarchy.scenario.write 0 9).main_memory.get? 0 = some 9 ∧
      (∀ a, a ≠ 0 → (CacheHierarchy.scenario.write 0 9).main_memory.get? a =
        CacheHierarchy.scenario.main_memory.get? a) ∧
      (CacheHierarchy.scenario.write 0 9).main_memory.length =
        CacheHierarchy.scenario.main_memory.length ∧
      (CacheHierarchy.scenario.write 0 9).memory_size = CacheHierarchy.scenario.memory_size) ∧
    (CacheHierarchy.scenario.write 0 9).levels.length = CacheHierarchy.scenario.levels.length ∧
    (∀ i level, CacheHierarchy.scenario.levels.get? i = some level →
      ((∃ line ∈ level.cache_sets.getD (level.getSetIndex 0) [],
          line.valid = true ∧ line.tag = level.getTag 0) →
        ∃ level', (CacheHierarchy.scenario.write 0 9).levels.get? i = some level' ∧
          level'.getSetIndex 0 = level.getSetIndex 0 ∧
          level'.getTag 0 = level.getTag 0 ∧
          ∃ line ∈ level'.cache_sets.getD (level.getSetIndex 0) [],
            line.valid = true ∧ line.tag = level.getTag 0 ∧ line.data = 9) ∧
      ((∀ line ∈ level.cache_sets.getD (level.getSetIndex 0) [],
          ¬ (line.valid = true ∧ line.tag = level.getTag 0)) →
        (CacheHierarchy.scenario.write 0 9).levels.get? i =
          some { level with misses := (level.misses + 1) % SIZE_MOD })) ∧
    (∀ level ∈ (CacheHierarchy.scenario.write 0 9).levels, level.WellFormed) :=
  ⟨by decide, C21_write_through CacheHierarchy.scenario 0 9 (by decide) (by decide)
    (by decide)⟩


theorem build_spec : ∀ (specs : List (Nat × Nat × Nat × ReplacementPolicy))
    (h : CacheHierarchy),
    (specs.foldl (fun h s => h.addLevel s.1 s.2.1 s.2.2.1 s.2.2.2) h).levels =
      h.levels ++ specs.map (fun s => CacheLevel.new s.1 s.2.1 s.2.2.1 s.2.2.2) ∧
    (specs.foldl (fun h s => h.addLevel s.1 s.2.1 s.2.2.1 s.2.2.2) h).main_memory =
      h.main_memory ∧
    (specs.foldl (fun h s => h.addLevel s.1 s.2.1 s.2.2.1 s.2.2.2) h).memory_size =
      h.memory_size := by
  intro specs
  induction specs with
  | nil => intro h; simp
  | cons s rest ih =>
    intro h
    simp only [List.foldl_cons, List.map_cons]
    obtain ⟨h1, h2, h3⟩ := ih (h.addLevel s.1 s.2.1 s.2.2.1 s.2.2.2)
    refine ⟨?_, h2, h3⟩
    rw [h1]
    simp [CacheHierarchy.addLevel]

theorem build_levels (mem_size : Nat) (specs : List (Nat × Nat × Nat × ReplacementPolicy)) :
    (CacheHierarchy.build mem_size specs).levels =
      specs.map (fun s => CacheLevel.new s.1 s.2.1 s.2.2.1 s.2.2.2) ∧
    (CacheHierarchy.build mem_size specs).main_memory = List.replicate mem_size 0 ∧
    (CacheHierarchy.build mem_size specs).memory_size = mem_size := by
  obtain ⟨h1, h2, h3⟩ := build_spec specs (CacheHierarchy.new mem_size)
  exact ⟨by rw [CacheHierarchy.build, h1]; rfl, h2, h3⟩

theorem findLine_modifyAt (tag : Nat) (f : CacheLine → CacheLine)
    (hf : ∀ line, (f line).valid = true ∧ (f line).tag = tag) :
    ∀ (set : List CacheLine) (v : Nat), v < set.length →
    (∀ line ∈ set, ¬ (line.valid = true ∧ line.tag = tag)) →
    CacheLevel.findLine tag (modifyAt f set v) = some v := by
  intro set
  induction set with
  | nil => intro v hv; simp at hv
  | cons c rest ih =>
    intro v hv hno
    cases v with
    | zero =>
      simp only [modifyAt, CacheLevel.findLine, (hf c).1, (hf c).2, decide_True, Bool.and_self,
        ↓reduceIte]
    | succ v' =>
      have hc := hno c (List.mem_cons_self _ _)
      have hc' : ¬ ((c.valid && decide (c.tag = tag)) = true) := by
        simpa using hc
      simp only [modifyAt, CacheLevel.findLine, hc', ↓reduceIte]
      rw [ih v' (by simpa using hv) (fun line hl => hno line (List.mem_cons_of_mem _ hl))]
      rfl

/-- A level that does not hold the line of an address holds it after `insert`: the next
`access` of the address hits and returns the inserted data. -/
theorem insert_then_access (c : CacheLevel) (address data : Nat)
    (hne : c.cache_sets.getD (c.getSetIndex address) [] ≠ [])
    (hno : ∀ line ∈ c.cache_sets.getD (c.getSetIndex address) [],
      ¬ (line.valid = true ∧ line.tag = c.getTag address)) :
    ((c.insert address data).access address).2 = some data ∧
    ((c.insert address data).access address).1.hits = (c.hits + 1) % SIZE_MOD ∧
    ((c.insert address data).access address).1.misses = c.misses := by
  have hlt := findVictim_lt c.policy _ hne
  have hsi : c.getSetIndex address < c.cache_sets.length := by
    by_contra hcon
    apply hne
    rw [getD_eq_get?, List.get?_eq_none.2 (by omega)]
    rfl
  have hset : (c.insert address data).cache_sets.getD (c.getSetIndex address) [] =
      modifyAt (fun line =>
        ({ line with
          valid := true, tag := c.getTag address, data := data, timestamp := c.current_time,
          frequency := if c.policy = ReplacementPolicy.LFU then 1 else line.frequency } :
          CacheLine))
        (c.cache_sets.getD (c.getSetIndex address) [])
        (CacheLevel.findVictim c.policy (c.cache_sets.getD (c.getSetIndex address) [])) := by
    show (modifyAt _ c.cache_sets (c.getSetIndex address)).getD (c.getSetIndex address) [] = _
    rw [getD_modifyAt_self _ _ _ _ hsi]
  have hfind := findLine_modifyAt (c.getTag address) (fun line =>
        ({ line with
          valid := true, tag := c.getTag address, data := data, timestamp := c.current_time,
          frequency := if c.policy = ReplacementPolicy.LFU then 1 else line.frequency } :
          CacheLine)) (fun _ => ⟨rfl, rfl⟩) _ _ hlt hno
  have hfind' : CacheLevel.findLine ((c.insert address data).getTag address)
      ((c.insert address data).cache_sets.getD ((c.insert address data).getSetIndex address) [])
      = some (CacheLevel.findVictim c.policy (c.cache_sets.getD (c.getSetIndex address) [])) := by
    show CacheLevel.findLine (c.getTag address)
      ((c.insert address data).cache_sets.getD (c.getSetIndex address) []) = _
    rw [hset]
    exact hfind
  refine ⟨?_, ?_, ?_⟩
  · simp only [CacheLevel.access, hfind', Option.some.injEq]
    show (((c.insert address data).cache_sets.getD (c.getSetIndex address) []).getD _ {}).data
      = data
    rw [hset, getD_modifyAt_self _ _ _ _ hlt]
  · simp only [CacheLevel.access, hfind']
    rfl
  · simp only [CacheLevel.access, hfind']
    rfl

theorem findLine_invalid (tag : Nat) : ∀ (l : List CacheLine),
    (∀ line ∈ l, line.valid = false) → CacheLevel.findLine tag l = none := by
  intro l
  induction l with
  | nil => intro _; rfl
  | cons c rest ih =>
    intro h
    have hc := h c (List.mem_cons_self _ _)
    simp only [CacheLevel.findLine, hc, Bool.false_and, Bool.false_eq_true, ↓reduceIte,
      ih (fun line hl => h line (List.mem_cons_of_mem _ hl)), Option.map_none']

/-- The addressed set of a freshly constructed level with at least one set consists of
`associativity` invalid lines. -/
theorem fresh_set (size block_sz assoc : Nat) (pol : ReplacementPolicy) (address : Nat)
    (hs : 1 ≤ (CacheLevel.new size block_sz assoc pol).num_sets) :
    (CacheLevel.new size block_sz assoc pol).cache_sets.getD
      ((CacheLevel.new size block_sz assoc pol).getSetIndex address) [] =
      List.replicate assoc {} := by
  have hlt : (CacheLevel.new size block_sz assoc pol).getSetIndex address <
      (CacheLevel.new size block_sz assoc pol).num_sets := Nat.mod_lt _ hs
  rw [getD_eq_get?]
  show ((List.replicate (CacheLevel.new size block_sz assoc pol).num_sets
    (List.replicate assoc ({} : CacheLine))).get? _).getD [] = _
  rw [List.get?_eq_getElem?, List.getElem?_replicate, if_pos hlt]
  rfl

/-- The first `read` of an address on a fresh level misses, and after the line has been
inserted the next `access` hits with the inserted data. -/
theorem fresh_level_miss_hit (size block_sz assoc : Nat) (pol : ReplacementPolicy)
    (address data : Nat)
    (hs : 1 ≤ (CacheLevel.new size block_sz assoc pol).num_sets) (ha : 1 ≤ assoc) :
    ((CacheLevel.new size block_sz assoc pol).access address).2 = none ∧
    ((CacheLevel.insert { CacheLevel.new size block_sz assoc pol with
        misses := ((CacheLevel.new size block_sz assoc pol).misses + 1) % SIZE_MOD }
      address data).access address).2 = some data ∧
    ((CacheLevel.insert { CacheLevel.new size block_sz assoc pol with
        misses := ((CacheLevel.new size block_sz assoc pol).misses + 1) % SIZE_MOD }
      address data).access address).1.hits = 1 ∧
    ((CacheLevel.insert { CacheLevel.new size block_sz assoc pol with
        misses := ((CacheLevel.new size block_sz assoc pol).misses + 1) % SIZE_MOD }
      address data).access address).1.misses = 1 := by
  have hset := fresh_set size block_sz assoc pol address hs
  have hinv : ∀ line ∈ List.replicate assoc ({} : CacheLine), line.valid = false := by
    intro line hl
    rw [List.eq_of_mem_replicate hl]
  have hne : List.replicate assoc ({} : CacheLine) ≠ [] := by
    intro h
    have := congrArg List.length h
    simp at this
    omega
  refine ⟨?_, ?_⟩
  · simp only [CacheLevel.access]
    rw [hset, findLine_invalid _ _ hinv]
  · have hset' : (({ CacheLevel.new size block_sz assoc pol with
        misses := ((CacheLevel.new size block_sz assoc pol).misses + 1) % SIZE_MOD } :
        CacheLevel)).cache_sets.getD
        ((({ CacheLevel.new size block_sz assoc pol with
        misses := ((CacheLevel.new size block_sz assoc pol).misses + 1) % SIZE_MOD } :
        CacheLevel)).getSetIndex address) [] = List.replicate assoc {} := hset
    obtain ⟨h1, h2, h3⟩ := insert_then_access
      { CacheLevel.new size block_sz assoc pol with
        misses := ((CacheLevel.new size block_sz assoc pol).misses + 1) % SIZE_MOD }
      address data (by rw [hset']; exact hne)
      (by
        rw [hset']
        intro line hl hv
        rw [hinv line hl] at hv
        exact absurd hv.1 (by decide))
    exact ⟨h1, by rw [h2]; rfl, by rw [h3]; rfl⟩

/-- A `read` whose first level hits returns the data of that level and changes only that
level. -/
theorem read_hit_first (h : CacheHierarchy) (address : Nat) (L1 : CacheLevel)
    (rest : List CacheLevel) (data : Nat) (hin : address < h.memory_size)
    (hl : h.levels = L1 :: rest) (hacc : (L1.access address).2 = some data) :
    h.read address = (⟨(L1.access address).1 :: rest, h.main_memory, h.memory_size⟩, data) := by
  have hnot : ¬ address ≥ h.memory_size := by omega
  unfold CacheHierarchy.read
  rw [if_neg hnot, hl]
  cases hacc' : L1.access address with
  | mk c' r =>
    rw [hacc'] at hacc
    simp only at hacc
    subst hacc
    simp only [CacheHierarchy.readLevels, hacc']

/-- Claim C22 (cache hit monotonicity).  On a hierarchy with at least one level, every
level having `num_sets ≥ 1` and `associativity ≥ 1`, on which no `read` or `write` has been
performed, two consecutive `read`s of an in-bounds address are a miss and then a hit: the
first `access` misses at every level, after the first `read` every level has miss counter 1
and hit counter 0, the second `read` hits at L1 (whose hit counter becomes 1, its miss
counter and the deeper levels staying as they were), and both reads return the same
word, the one of the backing store. -/
theorem C22_miss_then_hit (mem_size : Nat) (specs : List (Nat × Nat × Nat × ReplacementPolicy))
    (address : Nat)
    (hne : (CacheHierarchy.build mem_size specs).levels ≠ [])
    (hgeo : ∀ level ∈ (CacheHierarchy.build mem_size specs).levels,
      1 ≤ level.num_sets ∧ 1 ≤ level.associativity)
    (hin : address < (CacheHierarchy.build mem_size specs).memory_size) :
    (∀ level ∈ (CacheHierarchy.build mem_size specs).levels,
      level.hits = 0 ∧ level.misses = 0 ∧ (level.access address).2 = none) ∧
    (∀ level ∈ ((CacheHierarchy.build mem_size specs).read address).1.levels,
      level.misses = 1 ∧ level.hits = 0) ∧
    (∃ L1 rest,
      ((CacheHierarchy.build mem_size specs).read address).1.levels = L1 :: rest ∧
      (L1.access address).2 = some ((CacheHierarchy.build mem_size specs).read address).2 ∧
      ((((CacheHierarchy.build mem_size specs).read address).1.read address).1.levels =
        (L1.access address).1 :: rest) ∧
      (L1.access address).1.hits = 1 ∧ (L1.access address).1.misses = 1) ∧
    (((CacheHierarchy.build mem_size specs).read address).1.read address).2 =
      ((CacheHierarchy.build mem_size specs).read address).2 ∧
    ((CacheHierarchy.build mem_size specs).read address).2 =
      (CacheHierarchy.build mem_size specs).main_memory.getD address 0 := by
  obtain ⟨hlv, hmem, hsz⟩ := build_levels mem_size specs
  generalize CacheHierarchy.build mem_size specs = h0 at *
  have hfresh : ∀ level ∈ h0.levels, ∃ size b k pol, level = CacheLevel.new size b k pol := by
    intro level hl
    rw [hlv] at hl
    obtain ⟨s, _, hs⟩ := List.mem_map.1 hl
    exact ⟨_, _, _, _, hs.symm⟩
  have hmiss : ∀ level ∈ h0.levels, (level.access address).2 = none := by
    intro level hl
    obtain ⟨size, b, k, pol, rfl⟩ := hfresh level hl
    exact (fresh_level_miss_hit size b k pol address 0 (hgeo _ hl).1 (hgeo _ hl).2).1
  have hnot : ¬ address ≥ h0.memory_size := by omega
  have hr1 : h0.read address =
      (⟨(h0.levels.map (fun l => { l with misses := (l.misses + 1) % SIZE_MOD })).map
          (fun level => level.insert address (h0.main_memory.getD address 0)),
        h0.main_memory, h0.memory_size⟩, h0.main_memory.getD address 0) := by
    unfold CacheHierarchy.read
    rw [if_neg hnot, readLevels_miss address h0.levels hmiss]
  have hex : ∃ c rest0, h0.levels = c :: rest0 := by
    cases hl : h0.levels with
    | nil => exact absurd hl hne
    | cons c rest0 => exact ⟨c, rest0, rfl⟩
  obtain ⟨c, rest0, hc⟩ := hex
  have hcm : c ∈ h0.levels := by rw [hc]; exact List.mem_cons_self _ _
  obtain ⟨size, b, k, pol, hcnew⟩ := hfresh c hcm
  have hL1 := fresh_level_miss_hit size b k pol address (h0.main_memory.getD address 0)
    (by rw [← hcnew]; exact (hgeo c hcm).1) (by
      have := (hgeo c hcm).2
      rw [hcnew] at this
      exact this)
  rw [← hcnew] at hL1
  have hlev1 : (h0.read address).1.levels =
      CacheLevel.insert { c with misses := (c.misses + 1) % SIZE_MOD } address
        (h0.main_memory.getD address 0) ::
      (rest0.map (fun l => { l with misses := (l.misses + 1) % SIZE_MOD })).map
          (fun level => level.insert address (h0.main_memory.getD address 0)) := by
    rw [hr1, hc]
    rfl
  have hr2 : (h0.read address).1.read address =
      (⟨((CacheLevel.insert { c with misses := (c.misses + 1) % SIZE_MOD } address
            (h0.main_memory.getD address 0)).access address).1 ::
          (rest0.map (fun l => { l with misses := (l.misses + 1) % SIZE_MOD })).map
            (fun level => level.insert address (h0.main_memory.getD address 0)),
        (h0.read address).1.main_memory, (h0.read address).1.memory_size⟩,
        h0.main_memory.getD address 0) := by
    have hsz1 : (h0.read address).1.memory_size = h0.memory_size := by rw [hr1]
    exact read_hit_first _ address _ _ _ (by rw [hsz1]; exact hin) hlev1 hL1.2.1
  refine ⟨?_, ?_, ?_, ?_, ?_⟩
  · intro level hl
    obtain ⟨size', b', k', pol', rfl⟩ := hfresh level hl
    exact ⟨rfl, rfl, hmiss _ hl⟩
  · intro level hl
    rw [hr1] at hl
    simp only [List.map_map, List.mem_map, Function.comp] at hl
    obtain ⟨l0, hl0, rfl⟩ := hl
    obtain ⟨size', b', k', pol', rfl⟩ := hfresh l0 hl0
    exact ⟨rfl, rfl⟩
  · refine ⟨_, _, hlev1, ?_, ?_, hL1.2.2.1, hL1.2.2.2⟩
    · rw [hr1]
      exact hL1.2.1
    · rw [hr2]
  · rw [hr2, hr1]
  · rw [hr1]

theorem C22_miss_then_hit_witness :
    (CacheHierarchy.build 64 [(16, 4, 2, ReplacementPolicy.LRU),
      (32, 4, 2, ReplacementPolicy.FIFO)]).levels ≠ [] ∧
    (∀ level ∈ ((CacheHierarchy.build 64 [(16, 4, 2, ReplacementPolicy.LRU),
        (32, 4, 2, ReplacementPolicy.FIFO)]).read 9).1.levels,
      level.misses = 1 ∧ level.hits = 0) ∧
    (((CacheHierarchy.build 64 [(16, 4, 2, ReplacementPolicy.LRU),
        (32, 4, 2, ReplacementPolicy.FIFO)]).read 9).1.read 9).2 =
      ((CacheHierarchy.build 64 [(16, 4, 2, ReplacementPolicy.LRU),
        (32, 4, 2, ReplacementPolicy.FIFO)]).read 9).2 :=
  ⟨by decide,
    (C22_miss_then_hit 64 [(16, 4, 2, ReplacementPolicy.LRU), (32, 4, 2, ReplacementPolicy.FIFO)]
      9 (by decide) (by decide) (by decide)).2.1,
    (C22_miss_then_hit 64 [(16, 4, 2, ReplacementPolicy.LRU), (32, 4, 2, ReplacementPolicy.FIFO)]
      9 (by decide) (by decide) (by decide)).2.2.2.1⟩


/-! ## Theorems: LRU eviction in a single set -/

theorem lruLines_append (t : Nat) : ∀ (tags : List Nat) (n : Int),
    lruLines (tags ++ [t]) n =
      lruLines tags n ++ [{ valid := true, tag := t, data := 0, timestamp := n + tags.length }] := by
  intro tags
  induction tags with
  | nil => intro n; simp [lruLines]
  | cons c rest ih =>
    intro n
    show lruLines (c :: (rest ++ [t])) n = lruLines (c :: rest) n ++ _
    rw [lruLines, lruLines, ih (n + 1), List.cons_append]
    have hn : n + 1 + (rest.length : Int) = n + ((c :: rest).length : Nat) := by
      simp only [List.length_cons]
      push_cast
      ring
    rw [hn]

theorem lruLines_length : ∀ (tags : List Nat) (n : Int), (lruLines tags n).length = tags.length := by
  intro tags
  induction tags with
  | nil => intro n; rfl
  | cons c rest ih => intro n; simp [lruLines, ih]

theorem lruLines_mem : ∀ (tags : List Nat) (n : Int) (line : CacheLine),
    line ∈ lruLines tags n → line.valid = true ∧ line.tag ∈ tags ∧ n ≤ line.timestamp := by
  intro tags
  induction tags with
  | nil => intro n line h; simp [lruLines] at h
  | cons c rest ih =>
    intro n line h
    simp only [lruLines, List.mem_cons] at h
    rcases h with h | h
    · subst h
      exact ⟨rfl, List.mem_cons_self _ _, le_refl _⟩
    · obtain ⟨h1, h2, h3⟩ := ih (n + 1) line h
      exact ⟨h1, List.mem_cons_of_mem _ h2, by omega⟩

theorem findLine_eq_none (tag : Nat) : ∀ (l : List CacheLine),
    (∀ line ∈ l, ¬ (line.valid = true ∧ line.tag = tag)) → CacheLevel.findLine tag l = none := by
  intro l h
  cases hf : CacheLevel.findLine tag l with
  | none => rfl
  | some i =>
    obtain ⟨line, hget, hv, ht, _⟩ := findLine_some tag l i hf
    exact absurd ⟨hv, ht⟩ (h line (List.get?_mem hget))

theorem firstInvalid_append : ∀ (l r : List CacheLine), (∀ line ∈ l, line.valid = true) →
    CacheLevel.firstInvalid (l ++ r) = (CacheLevel.firstInvalid r).map (· + l.length) := by
  intro l
  induction l with
  | nil => intro r _; simp
  | cons c rest ih =>
    intro r h
    have hc := h c (List.mem_cons_self _ _)
    show CacheLevel.firstInvalid (c :: (rest ++ r)) = _
    rw [CacheLevel.firstInvalid, hc, ih r (fun line hl => h line (List.mem_cons_of_mem _ hl))]
    cases CacheLevel.firstInvalid r with
    | none => rfl
    | some i => rfl

theorem modifyAt_append_length {α : Type} (f : α → α) (x : α) (r : List α) : ∀ (l : List α),
    modifyAt f (l ++ x :: r) l.length = l ++ f x :: r := by
  intro l
  induction l with
  | nil => rfl
  | cons c rest ih =>
    show modifyAt f (c :: (rest ++ x :: r)) (rest.length + 1) = c :: (rest ++ f x :: r)
    rw [modifyAt, ih]

theorem minWay_ge (key : CacheLine → Int) : ∀ (rest : List CacheLine) (i best_way : Nat)
    (best_key : Int), (∀ line ∈ rest, best_key ≤ key line) →
    CacheLevel.minWay key rest i best_way best_key = best_way := by
  intro rest
  induction rest with
  | nil => intro i bw bk _; rfl
  | cons c rest ih =>
    intro i bw bk h
    have hc := h c (List.mem_cons_self _ _)
    simp only [CacheLevel.minWay, not_lt.2 hc, ↓reduceIte]
    exact ih _ _ _ (fun line hl => h line (List.mem_cons_of_mem _ hl))

/-- The victim way in an LRU set that still has an invalid way behind the inserted tags. -/
theorem findVictim_lru_fill (tags : List Nat) (m : Nat) :
    CacheLevel.findVictim ReplacementPolicy.LRU
      (lruLines tags 0 ++ List.replicate (m + 1) ({} : CacheLine)) = tags.length := by
  have h := firstInvalid_append (lruLines tags 0) (List.replicate (m + 1) ({} : CacheLine))
    (fun line hl => (lruLines_mem tags 0 line hl).1)
  have h0 : CacheLevel.firstInvalid (List.replicate (m + 1) ({} : CacheLine)) = some 0 := rfl
  rw [h0, lruLines_length] at h
  simp only [CacheLevel.findVictim, h, Option.map_some', Nat.zero_add]

/-- The victim way in a full LRU set whose lines were inserted in the order of the ways. -/
theorem findVictim_lru_full (t1 : Nat) (rest : List Nat) :
    CacheLevel.findVictim ReplacementPolicy.LRU (lruLines (t1 :: rest) 0) = 0 := by
  have h := firstInvalid_append (lruLines (t1 :: rest) 0) []
    (fun line hl => (lruLines_mem _ 0 line hl).1)
  rw [List.append_nil] at h
  have h0 : CacheLevel.firstInvalid [] = none := rfl
  rw [h0] at h
  simp only [Option.map_none'] at h
  have hm := minWay_ge CacheLine.timestamp (lruLines rest (0 + 1)) 1 0 0
    (fun line hl => by have := (lruLines_mem rest (0 + 1) line hl).2.2; omega)
  unfold CacheLevel.findVictim
  rw [h]
  exact hm

theorem lruFilled_geometry (c0 c : CacheLevel) (s k : Nat) (tags : List Nat)
    (hinv : LruFilled c0 c s k tags) (a : Nat) :
    c.getSetIndex a = c0.getSetIndex a ∧ c.getTag a = c0.getTag a := by
  obtain ⟨hb, hn, _, _, _⟩ := hinv
  simp only [CacheLevel.getSetIndex, CacheLevel.getTag, hb, hn, and_self]

/-- An address whose tag is not among the inserted ones misses. -/
theorem lru_access_miss (c0 c : CacheLevel) (s k a : Nat) (tags : List Nat)
    (hinv : LruFilled c0 c s k tags) (hs : c0.getSetIndex a = s) (ht : c0.getTag a ∉ tags) :
    (c.access a).2 = none := by
  obtain ⟨hsi, htg⟩ := lruFilled_geometry c0 c s k tags hinv a
  obtain ⟨_, _, _, _, hget⟩ := hinv
  have hgetD : c.cache_sets.getD (c.getSetIndex a) [] =
      lruLines tags 0 ++ List.replicate (k - tags.length) ({} : CacheLine) := by
    rw [hsi, hs, getD_eq_get?, hget]
    rfl
  have hnone : CacheLevel.findLine (c.getTag a)
      (c.cache_sets.getD (c.getSetIndex a) []) = none := by
    rw [hgetD, htg]
    apply findLine_eq_none
    intro line hl hv
    rcases List.mem_append.1 hl with h | h
    · exact ht (hv.2 ▸ (lruLines_mem tags 0 line h).2.1)
    · rw [List.eq_of_mem_replicate h] at hv
      exact absurd hv.1 (by decide)
  simp only [CacheLevel.access, hnone]

/-- A missing read into an LRU set with a free way puts the tag into the next way. -/
theorem lru_fill (c0 c : CacheLevel) (s k a : Nat) (tags : List Nat)
    (hinv : LruFilled c0 c s k tags) (hlt : tags.length < k)
    (hs : c0.getSetIndex a = s) :
    LruFilled c0 (CacheLevel.insert { c with misses := (c.misses + 1) % SIZE_MOD } a 0) s k
      (tags ++ [c0.getTag a]) := by
  obtain ⟨hsi, htg⟩ := lruFilled_geometry c0 c s k tags hinv a
  obtain ⟨hb, hn, hp, hct, hget⟩ := hinv
  have hgetD : c.cache_sets.getD (c.getSetIndex a) [] =
      lruLines tags 0 ++ List.replicate (k - tags.length) ({} : CacheLine) := by
    rw [hsi, hs, getD_eq_get?, hget]
    rfl
  have hk : k - tags.length = (k - tags.length - 1) + 1 := by omega
  refine ⟨hb, hn, hp, ?_, ?_⟩
  · show c.current_time + 1 = _
    rw [hct]
    simp
  · show (modifyAt (fun set => modifyAt (fun line =>
      ({ line with
        valid := true, tag := c.getTag a, data := 0, timestamp := c.current_time,
        frequency := if c.policy = ReplacementPolicy.LFU then 1 else line.frequency } :
        CacheLine))
      set (CacheLevel.findVictim c.policy (c.cache_sets.getD (c.getSetIndex a) [])))
      c.cache_sets (c.getSetIndex a)).get? s = _
    rw [hgetD, hsi, hs, get?_modifyAt, if_pos rfl, hget, hp, hk, findVictim_lru_fill]
    simp only [Option.map_some', List.replicate_succ, Option.some.injEq]
    have hm := modifyAt_append_length (fun line : CacheLine =>
      ({ line with
        valid := true, tag := c.getTag a, data := 0, timestamp := c.current_time,
        frequency := if ReplacementPolicy.LRU = ReplacementPolicy.LFU then 1
          else line.frequency } : CacheLine)) ({} : CacheLine)
      (List.replicate (k - tags.length - 1) ({} : CacheLine)) (lruLines tags 0)
    rw [lruLines_length] at hm
    rw [hm, lruLines_append, List.append_assoc, htg, hct]
    have hlen : k - (tags ++ [c0.getTag a]).length = k - tags.length - 1 := by
      simp only [List.length_append, List.length_singleton]
      omega
    rw [hlen]
    simp

/-- A missing read into a full LRU set whose lines were inserted in the order of the ways
replaces way 0, the line of the first tag. -/
theorem lru_evict (c0 c : CacheLevel) (s k a t1 : Nat) (rest : List Nat)
    (hinv : LruFilled c0 c s k (t1 :: rest)) (hk : (t1 :: rest).length = k)
    (hs : c0.getSetIndex a = s) :
    (CacheLevel.insert { c with misses := (c.misses + 1) % SIZE_MOD } a 0).block_size =
      c0.block_size ∧
    (CacheLevel.insert { c with misses := (c.misses + 1) % SIZE_MOD } a 0).num_sets =
      c0.num_sets ∧
    (CacheLevel.insert { c with misses := (c.misses + 1) % SIZE_MOD } a 0).cache_sets.get? s =
      some ({ valid := true, tag := c0.getTag a, data := 0, timestamp := k } ::
        lruLines rest 1) := by
  obtain ⟨hsi, htg⟩ := lruFilled_geometry c0 c s k _ hinv a
  obtain ⟨hb, hn, hp, hct, hget⟩ := hinv
  have hz : k - (t1 :: rest).length = 0 := by omega
  rw [hz] at hget
  simp only [List.replicate_zero, List.append_nil] at hget
  have hgetD : c.cache_sets.getD (c.getSetIndex a) [] = lruLines (t1 :: rest) 0 := by
    rw [hsi, hs, getD_eq_get?, hget]
    rfl
  refine ⟨hb, hn, ?_⟩
  show (modifyAt (fun set => modifyAt (fun line =>
      ({ line with
        valid := true, tag := c.getTag a, data := 0, timestamp := c.current_time,
        frequency := if c.policy = ReplacementPolicy.LFU then 1 else line.frequency } :
        CacheLine))
      set (CacheLevel.findVictim c.policy (c.cache_sets.getD (c.getSetIndex a) [])))
      c.cache_sets (c.getSetIndex a)).get? s = _
  rw [hgetD, hsi, hs, get?_modifyAt, if_pos rfl, hget, hp, findVictim_lru_full, htg, hct, hk]
  simp [lruLines, modifyAt]

/-- A `read` that misses in the only level of a hierarchy inserts the word of the backing
store into that level. -/
theorem read_single_miss (h : CacheHierarchy) (c : CacheLevel) (a : Nat)
    (hin : a < h.memory_size) (hl : h.levels = [c]) (hm : (c.access a).2 = none) :
    (h.read a).1 = ⟨[CacheLevel.insert { c with misses := (c.misses + 1) % SIZE_MOD } a
      (h.main_memory.getD a 0)], h.main_memory, h.memory_size⟩ := by
  have hnot : ¬ a ≥ h.memory_size := by omega
  have hmiss : ∀ l ∈ h.levels, (l.access a).2 = none := by
    intro l hl'
    rw [hl] at hl'
    rw [List.mem_singleton.1 hl']
    exact hm
  unfold CacheHierarchy.read
  rw [if_neg hnot, readLevels_miss a h.levels hmiss, hl]
  rfl

theorem run_read_cons (h : CacheHierarchy) (a : Nat) (rest : List Nat) :
    h.run ((a :: rest).map CacheOp.read) = (h.read a).1.run (rest.map CacheOp.read) := rfl

/-- Reading addresses of one set with new, pairwise distinct tags into an LRU level fills
the ways of the set in order as long as there is a free way. -/
theorem lru_run_fill (c0 : CacheLevel) (s k mem : Nat) : ∀ (todo : List Nat)
    (h : CacheHierarchy) (c : CacheLevel) (done : List Nat),
    h.levels = [c] → h.main_memory = List.replicate mem 0 → h.memory_size = mem →
    LruFilled c0 c s k (done.map c0.getTag) → done.length + todo.length ≤ k →
    (∀ a ∈ todo, a < mem ∧ c0.getSetIndex a = s) →
    ((done ++ todo).map c0.getTag).Nodup →
    ∃ c', (h.run (todo.map CacheOp.read)).levels = [c'] ∧
      (h.run (todo.map CacheOp.read)).main_memory = List.replicate mem 0 ∧
      (h.run (todo.map CacheOp.read)).memory_size = mem ∧
      LruFilled c0 c' s k ((done ++ todo).map c0.getTag) := by
  intro todo
  induction todo with
  | nil =>
    intro h c done hl hmem hsz hinv _ _ _
    refine ⟨c, hl, hmem, hsz, ?_⟩
    rw [List.append_nil]
    exact hinv
  | cons a rest ih =>
    intro h c done hl hmem hsz hinv hlen hall hnd
    obtain ⟨ha, hs⟩ := hall a (List.mem_cons_self _ _)
    have hnot : c0.getTag a ∉ done.map c0.getTag := by
      rw [List.map_append, List.map_cons] at hnd
      have := (List.nodup_append.1 hnd).2.2
      intro hmem'
      exact this hmem' (List.mem_cons_self _ _)
    have hmiss := lru_access_miss c0 c s k a _ hinv hs hnot
    have hread := read_single_miss h c a (by omega) hl hmiss
    have hd : h.main_memory.getD a 0 = 0 := by
      rw [hmem, getD_eq_get?, List.get?_eq_getElem?, List.getElem?_replicate]
      split <;> rfl
    rw [hd] at hread
    have hfill := lru_fill c0 c s k a _ hinv
      (by simp only [List.length_map, List.length_cons] at hlen ⊢; omega) hs
    have hmap : done.map c0.getTag ++ [c0.getTag a] = (done ++ [a]).map c0.getTag := by
      simp
    rw [hmap] at hfill
    have happ : done ++ a :: rest = (done ++ [a]) ++ rest := by simp
    rw [run_read_cons, happ]
    apply ih (h.read a).1 _ (done ++ [a]) (by rw [hread]) (by rw [hread]; exact hmem)
      (by rw [hread]; exact hsz) hfill
    · simp only [List.length_append, List.length_singleton, List.length_cons,
        List.length_nil] at hlen ⊢
      omega
    · intro b hb
      exact hall b (List.mem_cons_of_mem _ hb)
    · rw [← happ]
      exact hnd

/-- Claim C23 (LRU correctness).  On a fresh hierarchy with a single LRU level of
associativity `k ≥ 1` (and at least one set), let `a1 :: mid ++ [alast]` be `k + 1`
in-bounds addresses of one set with pairwise distinct tags.  After reading them once each
in this order the level holds no valid line with the tag of `a1` in that set, so that
`access a1` misses, and it holds a valid line with the tag of `alast`, so that
`access alast` hits. -/
theorem C23_lru_eviction (mem_size size block_sz k a1 : Nat) (mid : List Nat) (alast : Nat)
    (hlen : mid.length + 1 = k)
    (hsets : 1 ≤ (CacheLevel.new size block_sz k ReplacementPolicy.LRU).num_sets)
    (hin : ∀ a ∈ a1 :: (mid ++ [alast]), a < mem_size)
    (hset : ∀ a ∈ a1 :: (mid ++ [alast]),
      (CacheLevel.new size block_sz k ReplacementPolicy.LRU).getSetIndex a =
        (CacheLevel.new size block_sz k ReplacementPolicy.LRU).getSetIndex a1)
    (htags : ((a1 :: (mid ++ [alast])).map
      (CacheLevel.new size block_sz k ReplacementPolicy.LRU).getTag).Nodup) :
    ∃ level,
      ((CacheHierarchy.build mem_size [(size, block_sz, k, ReplacementPolicy.LRU)]).run
        ((a1 :: (mid ++ [alast])).map CacheOp.read)).levels = [level] ∧
      level.getSetIndex alast = level.getSetIndex a1 ∧
      (∀ line ∈ level.cache_sets.getD (level.getSetIndex a1) [],
        ¬ (line.valid = true ∧ line.tag = level.getTag a1)) ∧
      (level.access a1).2 = none ∧
      (∃ line ∈ level.cache_sets.getD (level.getSetIndex alast) [],
        line.valid = true ∧ line.tag = level.getTag alast) ∧
      ∃ data, (level.access alast).2 = some data := by
  obtain ⟨hlv, hmem, hsz⟩ := build_levels mem_size [(size, block_sz, k, ReplacementPolicy.LRU)]
  simp only [List.map_cons, List.map_nil] at hlv
  generalize CacheHierarchy.build mem_size [(size, block_sz, k, ReplacementPolicy.LRU)] = h0 at *
  generalize hc0 : CacheLevel.new size block_sz k ReplacementPolicy.LRU = c0 at *
  have hs0 : c0.getSetIndex a1 < c0.num_sets := Nat.mod_lt _ hsets
  have hinv0 : LruFilled c0 c0 (c0.getSetIndex a1) k (([] : List Nat).map c0.getTag) := by
    refine ⟨rfl, rfl, ?_, ?_, ?_⟩
    · rw [← hc0]; rfl
    · rw [← hc0]; rfl
    · have hcs : c0.cache_sets = List.replicate c0.num_sets (List.replicate k {}) := by
        rw [← hc0]; rfl
      rw [hcs, List.get?_eq_getElem?, List.getElem?_replicate, if_pos hs0]
      rfl
  have hsplit : a1 :: (mid ++ [alast]) = (a1 :: mid) ++ [alast] := rfl
  have hnd1 : (([] ++ (a1 :: mid)).map c0.getTag).Nodup := by
    rw [hsplit, List.map_append] at htags
    exact (List.nodup_append.1 htags).1
  obtain ⟨ck, hlk, hmk, hszk, hinvk⟩ := lru_run_fill c0 (c0.getSetIndex a1) k mem_size
    (a1 :: mid) h0 c0 [] hlv hmem hsz hinv0
    (by simp only [List.length_nil, List.length_cons]; omega)
    (fun a ha => ⟨hin a (by rw [hsplit]; exact List.mem_append_left _ ha),
      hset a (by rw [hsplit]; exact List.mem_append_left _ ha)⟩) hnd1
  rw [List.nil_append, List.map_cons] at hinvk
  have hml : alast ∈ a1 :: (mid ++ [alast]) := by
    rw [hsplit]
    exact List.mem_append_right _ (List.mem_singleton_self _)
  have hsl : c0.getSetIndex alast = c0.getSetIndex a1 := hset alast hml
  have hnotl : c0.getTag alast ∉ c0.getTag a1 :: mid.map c0.getTag := by
    rw [hsplit, List.map_append, List.map_cons] at htags
    have := (List.nodup_append.1 htags).2.2
    intro hmem'
    exact this hmem' (List.mem_singleton_self _)
  have hmissl := lru_access_miss c0 ck _ k alast _ hinvk hsl hnotl
  have hreadl := read_single_miss _ ck alast (by rw [hszk]; exact hin alast hml) hlk hmissl
  have hd : ((h0.run ((a1 :: mid).map CacheOp.read)).main_memory).getD alast 0 = 0 := by
    rw [hmk, getD_eq_get?, List.get?_eq_getElem?, List.getElem?_replicate]
    split <;> rfl
  rw [hd] at hreadl
  obtain ⟨hb, hn, hget⟩ := lru_evict c0 ck _ k alast (c0.getTag a1) (mid.map c0.getTag) hinvk
    (by simp only [List.length_cons, List.length_map]; exact hlen) hsl
  have hrun : h0.run ((a1 :: (mid ++ [alast])).map CacheOp.read) =
      ((h0.run ((a1 :: mid).map CacheOp.read)).read alast).1 := by
    rw [hsplit, List.map_append]
    simp only [CacheHierarchy.run, List.foldl_append, List.map_cons, List.map_nil,
      List.foldl_cons, List.foldl_nil, CacheHierarchy.step]
  refine ⟨CacheLevel.insert { ck with misses := (ck.misses + 1) % SIZE_MOD } alast 0, ?_, ?_⟩
  · rw [hrun, hreadl]
  · generalize CacheLevel.insert { ck with misses := (ck.misses + 1) % SIZE_MOD } alast 0 = cf
      at hb hn hget
    have hgs : ∀ a, cf.getSetIndex a = c0.getSetIndex a ∧ cf.getTag a = c0.getTag a := by
      intro a
      simp only [CacheLevel.getSetIndex, CacheLevel.getTag, hb, hn, and_self]
    have hD1 : cf.cache_sets.getD (cf.getSetIndex a1) [] =
        ({ valid := true, tag := c0.getTag alast, data := 0, timestamp := k } : CacheLine) ::
          lruLines (mid.map c0.getTag) 1 := by
      rw [(hgs a1).1, getD_eq_get?, hget]
      rfl
    have hno1 : ∀ line ∈ cf.cache_sets.getD (cf.getSetIndex a1) [],
        ¬ (line.valid = true ∧ line.tag = cf.getTag a1) := by
      rw [hD1, (hgs a1).2]
      intro line hl hv
      have hnd := htags
      rw [List.map_cons, List.nodup_cons, List.map_append, List.mem_append] at hnd
      rcases List.mem_cons.1 hl with h | h
      · subst h
        apply hnd.1
        right
        simp only [List.map_cons, List.map_nil, List.mem_singleton]
        exact hv.2.symm
      · apply hnd.1
        left
        exact hv.2 ▸ (lruLines_mem _ 1 line h).2.1
    have hyes : ∃ line ∈ cf.cache_sets.getD (cf.getSetIndex alast) [],
        line.valid = true ∧ line.tag = cf.getTag alast := by
      rw [(hgs alast).1, hsl, ← (hgs a1).1, hD1, (hgs alast).2]
      exact ⟨_, List.mem_cons_self _ _, rfl, rfl⟩
    refine ⟨?_, hno1, ?_, hyes, (access_hit_iff cf alast).1 hyes⟩
    · rw [(hgs alast).1, (hgs a1).1, hsl]
    · cases hacc : (cf.access a1).2 with
      | none => rfl
      | some d =>
        obtain ⟨line, hl, hv⟩ := (access_hit_iff cf a1).2 ⟨d, hacc⟩
        exact absurd hv (hno1 line hl)

theorem C23_lru_eviction_witness :
    ∃ level,
      ((CacheHierarchy.build 64 [(8, 4, 2, ReplacementPolicy.LRU)]).run
        ((0 :: ([4] ++ [8])).map CacheOp.read)).levels = [level] ∧
      level.getSetIndex 8 = level.getSetIndex 0 ∧
      (∀ line ∈ level.cache_sets.getD (level.getSetIndex 0) [],
        ¬ (line.valid = true ∧ line.tag = level.getTag 0)) ∧
      (level.access 0).2 = none ∧
      (∃ line ∈ level.cache_sets.getD (level.getSetIndex 8) [],
        line.valid = true ∧ line.tag = level.getTag 8) ∧
      ∃ data, (level.access 8).2 = some data :=
  C23_lru_eviction 64 8 4 2 0 [4] 8 (by decide) (by decide) (by decide) (by decide) (by decide)


/-! ## Theorems: the coalescing pass of the contiguous `free` -/

/-- Without wrap-around of the sizes the coalescing loop is the merge sweep. -/
theorem coalesceFrom_eq_sweep : ∀ (rest : List MemoryBlock) (cur : MemoryBlock),
    cur.size + (rest.map MemoryBlock.size).sum < SIZE_MOD →
    MemoryAllocator.coalesceFrom cur rest = mergeSweepFrom cur rest := by
  intro rest
  induction rest with
  | nil => intro cur _; rfl
  | cons n rest ih =>
    intro cur h
    simp only [List.map_cons, List.sum_cons] at h
    simp only [MemoryAllocator.coalesceFrom, mergeSweepFrom]
    split
    · rw [Nat.mod_eq_of_lt (by omega)]
      exact ih _ (by simp only; omega)
    · rw [ih n (by omega)]

theorem coalesceBlocks_eq_sweep (l : List MemoryBlock)
    (h : (l.map MemoryBlock.size).sum < SIZE_MOD) :
    MemoryAllocator.coalesceBlocks l = mergeSweep l := by
  cases l with
  | nil => rfl
  | cons c rest =>
    simp only [List.map_cons, List.sum_cons] at h
    exact coalesceFrom_eq_sweep rest c h

/-- The sweep changes nothing on a ledger without adjacent free blocks. -/
theorem sweep_fix : ∀ (l : List MemoryBlock) (c : MemoryBlock), NoAdjacentFree (c :: l) →
    mergeSweepFrom c l = c :: l := by
  intro l
  induction l with
  | nil => intro c _; rfl
  | cons d rest ih =>
    intro c h
    have hcd : ¬ ((c.is_free && d.is_free) = true) := by
      simpa using h.1
    rw [mergeSweepFrom, if_neg hcd, ih d h.2]

theorem noAdjacentFree_append_right : ∀ (p l : List MemoryBlock), NoAdjacentFree (p ++ l) →
    NoAdjacentFree l := by
  intro p
  induction p with
  | nil => intro l h; exact h
  | cons c rest ih =>
    intro l h
    exact ih l (noAdjacentFree_tail c (rest ++ l) h).1

/-- The sweep from a free node `m` over nodes without adjacent free blocks merges at most
the first of them. -/
theorem sweep_tail (m : MemoryBlock) (hm : m.is_free = true) : ∀ (S : List MemoryBlock),
    NoAdjacentFree S →
    mergeSweepFrom m S =
      { m with size := m.size +
          (((S.head?.filter MemoryBlock.is_free).map MemoryBlock.size).getD 0) } ::
        (if (S.head?.filter MemoryBlock.is_free).isSome then S.tail else S) := by
  intro S hS
  obtain ⟨ma, ms, mf, mi⟩ := m
  simp only at hm
  subst hm
  cases S with
  | nil => rfl
  | cons y rest =>
    obtain ⟨hrest, hhead⟩ := noAdjacentFree_tail y rest hS
    cases hy : y.is_free with
    | true =>
      have hfix : mergeSweepFrom ⟨ma, ms + y.size, true, mi⟩ rest =
          ⟨ma, ms + y.size, true, mi⟩ :: rest := by
        apply sweep_fix
        apply noAdjacentFree_cons _ _ hrest
        intro d hd hboth
        exact hhead d hd ⟨hy, hboth.2⟩
      have hc : ((true && y.is_free) = true) := by rw [hy]; rfl
      rw [mergeSweepFrom, if_pos hc]
      simp only [List.head?_cons, Option.filter, hy, ↓reduceIte, Option.map_some',
        Option.getD_some, Option.isSome_some, List.tail_cons]
      exact hfix
    | false =>
      have hfix : mergeSweepFrom y rest = y :: rest := sweep_fix rest y hS
      have hc : ¬ ((true && y.is_free) = true) := by rw [hy]; decide
      rw [mergeSweepFrom, if_neg hc, hfix]
      simp only [List.head?_cons, Option.filter, hy, Bool.false_eq_true, ↓reduceIte,
        Option.map_none', Option.getD_none, Option.isSome_none, Nat.add_zero]

theorem mergedLedger_cons (c d : MemoryBlock) (P : List MemoryBlock) (B : MemoryBlock)
    (S : List MemoryBlock) :
    mergedLedger (c :: d :: P) B S = c :: mergedLedger (d :: P) B S := by
  simp only [mergedLedger, List.getLast?_cons_cons, List.dropLast_cons₂]
  split <;> rfl

/-- The sweep over a ledger without adjacent free blocks in which the block `B` has been
marked free produces the merged ledger of the specification. -/
theorem sweep_merged_from (B : MemoryBlock) (S : List MemoryBlock) :
    ∀ (P : List MemoryBlock) (c : MemoryBlock), NoAdjacentFree (c :: (P ++ B :: S)) →
    (∀ b ∈ c :: P, b.is_free = true → b.block_id = -1) →
    mergeSweepFrom c (P ++ { B with is_free := true, block_id := -1 } :: S) =
      mergedLedger (c :: P) B S := by
  intro P
  induction P with
  | nil =>
    intro c h hid
    have hS : NoAdjacentFree S :=
      noAdjacentFree_append_right [c, B] S h
    obtain ⟨ca, cs, cf, ci⟩ := c
    cases cf with
    | true =>
      have hcid : ci = -1 := hid _ (List.mem_cons_self _ _) rfl
      subst hcid
      have ht := sweep_tail ⟨ca, cs + B.size, true, -1⟩ rfl S hS
      show mergeSweepFrom ⟨ca, cs, true, -1⟩ (_ :: S) = _
      rw [mergeSweepFrom]
      simp only [Bool.and_self, ↓reduceIte]
      exact ht.trans rfl
    | false =>
      have ht := sweep_tail ⟨B.address, B.size, true, -1⟩ rfl S hS
      show mergeSweepFrom ⟨ca, cs, false, ci⟩ (_ :: S) = _
      rw [mergeSweepFrom]
      simp only [Bool.false_and, mergedLedger, List.getLast?_singleton, Option.filter, Bool.false_eq_true,
        ↓reduceIte, Option.isSome_none, Option.map_none', Option.getD_none, Nat.zero_add,
        List.singleton_append, List.cons.injEq, true_and]
      exact ht
  | cons d rest ih =>
    intro c h hid
    have hcd : ¬ ((c.is_free && d.is_free) = true) := by
      simpa using h.1
    show mergeSweepFrom c (d :: (rest ++ _ :: S)) = _
    rw [mergedLedger_cons, mergeSweepFrom, if_neg hcd,
      ih d h.2 (fun b hb => hid b (List.mem_cons_of_mem _ hb))]

theorem sweep_merged (P : List MemoryBlock) (B : MemoryBlock) (S : List MemoryBlock)
    (h : NoAdjacentFree (P ++ B :: S))
    (hid : ∀ b ∈ P, b.is_free = true → b.block_id = -1) :
    mergeSweep (P ++ { B with is_free := true, block_id := -1 } :: S) = mergedLedger P B S := by
  cases P with
  | nil =>
    have ht := sweep_tail ⟨B.address, B.size, true, -1⟩ rfl S
      (noAdjacentFree_append_right [B] S h)
    show mergeSweepFrom ⟨B.address, B.size, true, -1⟩ S = _
    simp only [mergedLedger, List.getLast?_nil, Option.filter, Option.isSome_none,
      Bool.false_eq_true, ↓reduceIte, Option.map_none', Option.getD_none, Nat.zero_add,
      List.nil_append]
    exact ht
  | cons c rest => exact sweep_merged_from B S rest c h hid

/-- Claim C29 (coalescing postcondition of the contiguous `free`).  In every state reached
from construction, a successful `free(id)` finds the used block `B` with that id at a
position `i` of the ledger, and the new ledger is the old one with `B` merged with its
predecessor if that is free and with its successor if that is free into one free block
with id `-1` (`mergedLedger`), all other blocks unchanged; this is what the single merge
sweep of the specification produces on the ledger with `B` marked free; the new ledger
still lies end to end from 0 to `total_memory`, so the merged block spans exactly the
ranges of the blocks it replaces; a further coalescing pass changes nothing; and
`used_memory` has shrunk by exactly the size of `B`. -/
theorem C29_coalescing (memory_size : Nat) (hm : memory_size < SIZE_MOD) (ops : List AllocOp)
    (a : MemoryAllocator) (ha : (MemoryAllocator.new memory_size).run ops = a) (id : Int)
    (hfree : (a.free id).2 = true) :
    ∃ i B, MemoryAllocator.findBlock id a.head = some i ∧ a.head.get? i = some B ∧
      B.block_id = id ∧ B.is_free = false ∧
      a.head = a.head.take i ++ B :: a.head.drop (i + 1) ∧
      (a.free id).1.head = mergedLedger (a.head.take i) B (a.head.drop (i + 1)) ∧
      (a.free id).1.head =
        mergeSweep (a.head.take i ++ { B with is_free := true, block_id := -1 } ::
          a.head.drop (i + 1)) ∧
      Tiles 0 (a.free id).1.head a.total_memory ∧
      MemoryAllocator.coalesceBlocks (a.free id).1.head = (a.free id).1.head ∧
      (a.free id).1.used_memory + B.size = a.used_memory := by
  obtain ⟨hok, hids⟩ := reachable_ok memory_size hm ops
  have hnaf := noAdjacentFree_run ops (MemoryAllocator.new memory_size)
    (by simp [MemoryAllocator.new, NoAdjacentFree])
  rw [ha] at hok hids hnaf
  have hmem : id ∈ a.allocated_blocks := by
    by_contra hnot
    rw [(free_false_iff a id hids).2 hnot] at hfree
    cases hfree
  obtain ⟨i, B, hfind, hget, hBused, hBid⟩ := idsOk_find a id hids hmem
  have hsplit := split_at_get? a.head i B hget
  have hhead : (a.free id).1.head = MemoryAllocator.coalesceBlocks
      (a.head.take i ++ { B with is_free := true, block_id := -1 } :: a.head.drop (i + 1)) := by
    rw [free_success a id i B hmem hfind hget]
  have hused : (a.free id).1.used_memory =
      (a.used_memory + SIZE_MOD - B.size % SIZE_MOD) % SIZE_MOD := by
    rw [free_success a id i B hmem hfind hget]
  have hfix : MemoryAllocator.coalesceBlocks (a.free id).1.head = (a.free id).1.head := by
    have hok' := ledgerOk_free a id hok
    have hnaf'' := noAdjacentFree_free a id hnaf
    have hs := sum_sizes_tiles _ _ _ hok'.2.1
    rw [coalesceBlocks_eq_sweep _ (by have := hok'.2.2; omega)]
    generalize (a.free id).1.head = L at hnaf''
    cases L with
    | nil => rfl
    | cons c rest => exact sweep_fix rest c hnaf''
  have htiles : Tiles 0 (a.free id).1.head a.total_memory := by
    have hok' := ledgerOk_free a id hok
    have htm : (a.free id).1.total_memory = a.total_memory := by
      rw [free_success a id i B hmem hfind hget]
    rw [← htm]
    exact hok'.2.1
  have htot := sum_sizes_tiles _ _ _ hok.2.1
  have hlim := hok.2.2
  have hle := usedSum_le_sum a.head
  have hu := hids.used
  have hfid := hids.free_id
  have hnaf' := hnaf
  obtain ⟨P, S, hP, hS⟩ : ∃ P S, a.head.take i = P ∧ a.head.drop (i + 1) = S :=
    ⟨_, _, rfl, rfl⟩
  have hsplit' := hsplit
  rw [hP, hS] at hsplit' hhead
  rw [hsplit'] at htot hle hu hfid hnaf'
  have hsum : ((P ++ { B with is_free := true, block_id := -1 } :: S).map
      MemoryBlock.size).sum < SIZE_MOD := by
    simp only [List.map_append, List.map_cons, List.sum_append, List.sum_cons] at htot ⊢
    omega
  have hsweep := coalesceBlocks_eq_sweep _ hsum
  have hmerged := sweep_merged P B S hnaf'
    (fun b hb => hfid b (List.mem_append_left _ hb))
  refine ⟨i, B, hfind, hget, hBid, hBused, hsplit, ?_, ?_, htiles, hfix, ?_⟩
  · rw [hhead, hsweep, hmerged, hP, hS]
  · rw [hhead, hsweep, hP, hS]
  · rw [hused, hu, usedSum_append, usedSum_cons_used _ _ hBused]
    have h1 := usedSum_le_sum P
    have h2 := usedSum_le_sum S
    rw [usedSum_append, usedSum_cons_used _ _ hBused] at hle
    simp only [List.map_append, List.map_cons, List.sum_append, List.sum_cons] at htot hle
    rw [size_mod_eq] at hlim ⊢
    omega

/-- Witness of C29: on the allocator after `malloc(100)`, `malloc(200)`, `malloc(50)`,
`free(1)`, the call `free(2)` merges the block of id 2 with the free hole before it; the
block of id 3 and the free tail stay. -/
theorem C29_coalescing_witness :
    (((MemoryAllocator.new 1024).run [AllocOp.malloc 100, AllocOp.malloc 200,
      AllocOp.malloc 50, AllocOp.free 1]).free 2).1.head =
      [{ address := 0, size := 300, is_free := true, block_id := -1 },
       { address := 300, size := 50, is_free := false, block_id := 3 },
       { address := 350, size := 674, is_free := true, block_id := -1 }] ∧
    ∃ i B, MemoryAllocator.findBlock 2 ((MemoryAllocator.new 1024).run [AllocOp.malloc 100,
        AllocOp.malloc 200, AllocOp.malloc 50, AllocOp.free 1]).head = some i ∧
      ((MemoryAllocator.new 1024).run [AllocOp.malloc 100, AllocOp.malloc 200,
        AllocOp.malloc 50, AllocOp.free 1]).head.get? i = some B ∧
      B.block_id = 2 ∧ B.is_free = false ∧
      ((MemoryAllocator.new 1024).run [AllocOp.malloc 100, AllocOp.malloc 200,
        AllocOp.malloc 50, AllocOp.free 1]).head =
        ((MemoryAllocator.new 1024).run [AllocOp.malloc 100, AllocOp.malloc 200,
          AllocOp.malloc 50, AllocOp.free 1]).head.take i ++ B ::
          ((MemoryAllocator.new 1024).run [AllocOp.malloc 100, AllocOp.malloc 200,
            AllocOp.malloc 50, AllocOp.free 1]).head.drop (i + 1) ∧
      (((MemoryAllocator.new 1024).run [AllocOp.malloc 100, AllocOp.malloc 200,
        AllocOp.malloc 50, AllocOp.free 1]).free 2).1.head =
        mergedLedger (((MemoryAllocator.new 1024).run [AllocOp.malloc 100, AllocOp.malloc 200,
          AllocOp.malloc 50, AllocOp.free 1]).head.take i) B
          (((MemoryAllocator.new 1024).run [AllocOp.malloc 100, AllocOp.malloc 200,
            AllocOp.malloc 50, AllocOp.free 1]).head.drop (i + 1)) ∧
      (((MemoryAllocator.new 1024).run [AllocOp.malloc 100, AllocOp.malloc 200,
        AllocOp.malloc 50, AllocOp.free 1]).free 2).1.head =
        mergeSweep (((MemoryAllocator.new 1024).run [AllocOp.malloc 100, AllocOp.malloc 200,
          AllocOp.malloc 50, AllocOp.free 1]).head.take i ++
          { B with is_free := true, block_id := -1 } ::
          ((MemoryAllocator.new 1024).run [AllocOp.malloc 100, AllocOp.malloc 200,
            AllocOp.malloc 50, AllocOp.free 1]).head.drop (i + 1)) ∧
      Tiles 0 (((MemoryAllocator.new 1024).run [AllocOp.malloc 100, AllocOp.malloc 200,
          AllocOp.malloc 50, AllocOp.free 1]).free 2).1.head
        ((MemoryAllocator.new 1024).run [AllocOp.malloc 100, AllocOp.malloc 200,
          AllocOp.malloc 50, AllocOp.free 1]).total_memory ∧
      MemoryAllocator.coalesceBlocks
        (((MemoryAllocator.new 1024).run [AllocOp.malloc 100, AllocOp.malloc 200,
          AllocOp.malloc 50, AllocOp.free 1]).free 2).1.head =
        (((MemoryAllocator.new 1024).run [AllocOp.malloc 100, AllocOp.malloc 200,
          AllocOp.malloc 50, AllocOp.free 1]).free 2).1.head ∧
      (((MemoryAllocator.new 1024).run [AllocOp.malloc 100, AllocOp.malloc 200,
        AllocOp.malloc 50, AllocOp.free 1]).free 2).1.used_memory + B.size =
        ((MemoryAllocator.new 1024).run [AllocOp.malloc 100, AllocOp.malloc 200,
          AllocOp.malloc 50, AllocOp.free 1]).used_memory :=
  ⟨by decide, C29_coalescing 1024 (by decide) [AllocOp.malloc 100, AllocOp.malloc 200,
    AllocOp.malloc 50, AllocOp.free 1] _ rfl 2 (by decide)⟩


/-! ## Theorems: page faults on pages that were not accessed before -/

theorem findFreeFrameFrom_none : ∀ (l : List Bool) (i : Nat),
    VirtualMemory.findFreeFrameFrom l i = none → ∀ b ∈ l, b = true := by
  intro l
  induction l with
  | nil => intro i _ b hb; simp at hb
  | cons c rest ih =>
    intro i h b hb
    simp only [VirtualMemory.findFreeFrameFrom] at h
    cases c with
    | false => simp at h
    | true =>
      simp only [Bool.not_true, Bool.false_eq_true, ↓reduceIte] at h
      rcases List.mem_cons.1 hb with hb | hb
      · exact hb
      · exact ih _ h b hb

theorem getD_modifyAt_ne {α : Type} (g : α → α) (l : List α) (i j : Nat) (d : α) (h : j ≠ i) :
    (modifyAt g l i).getD j d = l.getD j d := by
  rw [getD_eq_get?, getD_eq_get?, get?_modifyAt, if_neg h]

/-- The CLOCK search returns when every frame is allocated and the hand is inside the
frame table: each iteration that does not return clears the reference bit of the page in
the frame under the hand, and an iteration on a cleared bit returns. -/
theorem clockLoop_terminates : ∀ (c fuel : Nat) (vm : VirtualMemory),
    FrameInv (vm.page_table.map PageTableEntry.key) vm.frame_allocation vm.frame_to_page →
    vm.frame_allocation.length = vm.num_physical_frames →
    (∀ b ∈ vm.frame_allocation, b = true) →
    vm.clock_hand < vm.num_physical_frames →
    ((Finset.range vm.num_physical_frames).filter (fun f =>
      (vm.page_table.getD (vm.frame_to_page.getD f 0) {}).reference = true)).card ≤ c →
    c + 1 ≤ fuel →
    ∃ r, VirtualMemory.clockLoop fuel vm = some r := by
  intro c
  induction c with
  | zero =>
    intro fuel vm hinv hlen hall hhand hcard hfuel
    obtain ⟨fuel', rfl⟩ : ∃ k, fuel = k + 1 := ⟨fuel - 1, by omega⟩
    have hfa : vm.frame_allocation.get? vm.clock_hand = some true := by
      have hlt : vm.clock_hand < vm.frame_allocation.length := by omega
      rw [List.get?_eq_get hlt]
      exact congrArg some (hall _ (List.get_mem _ _ _))
    obtain ⟨p, hp, hk⟩ := hinv.frame_page _ hfa
    rw [keys_get?] at hk
    cases hg : vm.page_table.get? p with
    | none => rw [hg] at hk; simp at hk
    | some e =>
      rw [hg] at hk
      simp only [Option.map_some', Option.some.injEq, PageTableEntry.key, Prod.mk.injEq] at hk
      have hentry : vm.page_table.getD p {} = e := by rw [getD_eq_get?, hg]; rfl
      have href : e.reference = false := by
        cases hr : e.reference with
        | false => rfl
        | true =>
          exfalso
          have hmem : vm.clock_hand ∈ (Finset.range vm.num_physical_frames).filter (fun f =>
              (vm.page_table.getD (vm.frame_to_page.getD f 0) {}).reference = true) := by
            rw [Finset.mem_filter, Finset.mem_range]
            refine ⟨hhand, ?_⟩
            have : vm.frame_to_page.getD vm.clock_hand 0 = p := by
              rw [getD_eq_get?, hp]; rfl
            rw [this, hentry]
            exact hr
          have := Finset.card_pos.2 ⟨_, hmem⟩
          omega
      simp only [VirtualMemory.clockLoop, hp, hentry, hk.1, hk.2, decide_True, Bool.and_self,
        ↓reduceIte, href, Bool.not_false]
      exact ⟨_, rfl⟩
  | succ c ih =>
    intro fuel vm hinv hlen hall hhand hcard hfuel
    obtain ⟨fuel', rfl⟩ : ∃ k, fuel = k + 1 := ⟨fuel - 1, by omega⟩
    have hfa : vm.frame_allocation.get? vm.clock_hand = some true := by
      have hlt : vm.clock_hand < vm.frame_allocation.length := by omega
      rw [List.get?_eq_get hlt]
      exact congrArg some (hall _ (List.get_mem _ _ _))
    obtain ⟨p, hp, hk⟩ := hinv.frame_page _ hfa
    have hkp := hk
    rw [keys_get?] at hk
    cases hg : vm.page_table.get? p with
    | none => rw [hg] at hk; simp at hk
    | some e =>
      rw [hg] at hk
      simp only [Option.map_some', Option.some.injEq, PageTableEntry.key, Prod.mk.injEq] at hk
      have hentry : vm.page_table.getD p {} = e := by rw [getD_eq_get?, hg]; rfl
      have hftp : vm.frame_to_page.getD vm.clock_hand 0 = p := by
        rw [getD_eq_get?, hp]; rfl
      cases hr : e.reference with
      | false =>
        simp only [VirtualMemory.clockLoop, hp, hentry, hk.1, hk.2, decide_True, Bool.and_self,
          ↓reduceIte, hr, Bool.not_false]
        exact ⟨_, rfl⟩
      | true =>
        simp only [VirtualMemory.clockLoop, hp, hentry, hk.1, hk.2, decide_True, Bool.and_self,
          ↓reduceIte, hr, Bool.not_true, Bool.false_eq_true]
        have hkeys : (modifyAt (fun e : PageTableEntry => { e with reference := false })
            vm.page_table p).map PageTableEntry.key = vm.page_table.map PageTableEntry.key := by
          apply keys_modifyAt_same
          intro x
          rfl
        have hpos : 0 < vm.num_physical_frames := by omega
        apply ih
        · show FrameInv ((modifyAt _ vm.page_table p).map PageTableEntry.key) _ _
          rw [hkeys]
          exact hinv
        · exact hlen
        · exact hall
        · exact Nat.mod_lt _ hpos
        · show ((Finset.range vm.num_physical_frames).filter (fun f =>
            ((modifyAt (fun e : PageTableEntry => { e with reference := false })
              vm.page_table p).getD (vm.frame_to_page.getD f 0) {}).reference = true)).card ≤ c
          have hsub : (Finset.range vm.num_physical_frames).filter (fun f =>
              ((modifyAt (fun e : PageTableEntry => { e with reference := false })
                vm.page_table p).getD (vm.frame_to_page.getD f 0) {}).reference = true) ⊂
              (Finset.range vm.num_physical_frames).filter (fun f =>
                (vm.page_table.getD (vm.frame_to_page.getD f 0) {}).reference = true) := by
            rw [Finset.ssubset_iff_of_subset]
            · refine ⟨vm.clock_hand, ?_, ?_⟩
              · rw [Finset.mem_filter, Finset.mem_range]
                refine ⟨hhand, ?_⟩
                rw [hftp, hentry]
                exact hr
              · rw [Finset.mem_filter, hftp, getD_eq_get?, get?_modifyAt, if_pos rfl, hg]
                simp
            · intro f hf
              rw [Finset.mem_filter] at hf ⊢
              refine ⟨hf.1, ?_⟩
              by_cases hq : vm.frame_to_page.getD f 0 = p
              · have := hf.2
                rw [hq, getD_eq_get?, get?_modifyAt, if_pos rfl, hg] at this
                simp at this
              · have := hf.2
                rw [getD_modifyAt_ne _ _ _ _ _ hq] at this
                exact this
          have := Finset.card_lt_card hsub
          omega
        · omega

/-- The CLOCK search changes neither the counters nor the page size, and it leaves the
hand inside a non-empty frame table. -/
theorem clockLoop_frame : ∀ (fuel : Nat) (vm vm' : VirtualMemory) (v : Nat),
    VirtualMemory.clockLoop fuel vm = some (vm', v) →
    vm'.page_faults = vm.page_faults ∧ vm'.page_hits = vm.page_hits ∧
    vm'.page_size = vm.page_size ∧
    (0 < vm.num_physical_frames → vm'.clock_hand < vm.num_physical_frames) := by
  intro fuel
  induction fuel with
  | zero => intro vm vm' v h; simp [VirtualMemory.clockLoop] at h
  | succ fuel ih =>
    intro vm vm' v h
    simp only [VirtualMemory.clockLoop] at h
    split at h
    · exact absurd h (by simp)
    · split at h
      · split at h
        · simp only [Option.some.injEq, Prod.mk.injEq] at h
          obtain ⟨h1, h2⟩ := h
          subst h1
          exact ⟨rfl, rfl, rfl, fun hpos => Nat.mod_lt _ hpos⟩
        · obtain ⟨a1, a2, a3, a4⟩ := ih _ _ _ h
          exact ⟨a1, a2, a3, a4⟩
      · obtain ⟨a1, a2, a3, a4⟩ := ih _ _ _ h
        exact ⟨a1, a2, a3, a4⟩

theorem valid_of_keys (pt pt' : List PageTableEntry)
    (h : pt'.map PageTableEntry.key = pt.map PageTableEntry.key) (q : Nat) :
    (pt'.getD q {}).valid = (pt.getD q {}).valid := by
  have hq := congrArg (fun l => l.get? q) h
  simp only [keys_get?] at hq
  rw [getD_eq_get?, getD_eq_get?]
  cases h1 : pt'.get? q with
  | none =>
    cases h2 : pt.get? q with
    | none => rfl
    | some e => rw [h1, h2] at hq; simp at hq
  | some e' =>
    cases h2 : pt.get? q with
    | none => rw [h1, h2] at hq; simp at hq
    | some e =>
      rw [h1, h2] at hq
      simp only [Option.map_some', Option.some.injEq, PageTableEntry.key, Prod.mk.injEq] at hq
      exact hq.1

/-- The victim search changes neither the counters, the sizes nor the validity of any
page, and it leaves the hand inside the frame table. -/
theorem select_frame (vm vm2 : VirtualMemory) (v : Option Nat)
    (hs : vm.selectVictimPage = some (vm2, v)) :
    vm2.page_faults = vm.page_faults ∧ vm2.page_hits = vm.page_hits ∧
    vm2.page_size = vm.page_size ∧ vm2.num_virtual_pages = vm.num_virtual_pages ∧
    vm2.num_physical_frames = vm.num_physical_frames ∧
    (∀ q, (vm2.page_table.getD q {}).valid = (vm.page_table.getD q {}).valid) ∧
    (vm.clock_hand < vm.num_physical_frames → vm2.clock_hand < vm2.num_physical_frames) := by
  unfold VirtualMemory.selectVictimPage at hs
  cases hpol : vm.policy with
  | FIFO =>
    rw [hpol] at hs
    simp only at hs
    cases hq : vm.fifo_queue with
    | nil =>
      rw [hq] at hs
      simp only [Option.some.injEq, Prod.mk.injEq] at hs
      rw [← hs.1]
      exact ⟨rfl, rfl, rfl, rfl, rfl, fun _ => rfl, fun h => h⟩
    | cons x rest =>
      rw [hq] at hs
      simp only [Option.some.injEq, Prod.mk.injEq] at hs
      rw [← hs.1]
      exact ⟨rfl, rfl, rfl, rfl, rfl, fun _ => rfl, fun h => h⟩
  | LRU =>
    rw [hpol] at hs
    simp only [Option.some.injEq, Prod.mk.injEq] at hs
    rw [← hs.1]
    exact ⟨rfl, rfl, rfl, rfl, rfl, fun _ => rfl, fun h => h⟩
  | CLOCK =>
    rw [hpol] at hs
    simp only at hs
    cases hc : VirtualMemory.clockLoop (2 * vm.num_physical_frames) vm with
    | none => rw [hc] at hs; simp at hs
    | some r =>
      rw [hc] at hs
      simp only [Option.map_some', Option.some.injEq, Prod.mk.injEq] at hs
      obtain ⟨r1, r2⟩ := r
      simp only at hs
      rw [← hs.1]
      obtain ⟨_, g2, _, _, _, _, g7, g8⟩ := clockLoop_some _ _ _ _ hc
      obtain ⟨f1, f2, f3, f4⟩ := clockLoop_frame _ _ _ _ hc
      exact ⟨f1, f2, f3, g7, g8, valid_of_keys _ _ g2, fun h => by
        rw [g8]; exact f4 (by omega)⟩

/-- The victim search returns when no frame is free and the hand is inside the frame
table. -/
theorem select_returns (vm : VirtualMemory) (h : VMInv vm) (hfree : vm.findFreeFrame = none)
    (hhand : vm.clock_hand < vm.num_physical_frames) : ∃ r, vm.selectVictimPage = some r := by
  unfold VirtualMemory.selectVictimPage
  cases hpol : vm.policy with
  | FIFO =>
    simp only
    cases vm.fifo_queue with
    | nil => exact ⟨_, rfl⟩
    | cons x rest => exact ⟨_, rfl⟩
  | LRU => exact ⟨_, rfl⟩
  | CLOCK =>
    simp only
    obtain ⟨r, hr⟩ := clockLoop_terminates vm.num_physical_frames (2 * vm.num_physical_frames) vm
      h.frames h.fa_len (findFreeFrameFrom_none _ 0 hfree) hhand
      (by
        have := Finset.card_filter_le (Finset.range vm.num_physical_frames) (fun f =>
          (vm.page_table.getD (vm.frame_to_page.getD f 0) {}).reference = true)
        rw [Finset.card_range] at this
        exact this)
      (by omega)
    rw [hr]
    exact ⟨_, rfl⟩

theorem valid_modifyAt (g : PageTableEntry → PageTableEntry) (pt : List PageTableEntry)
    (p q : Nat) (h : ((modifyAt g pt p).getD q {}).valid = true) :
    (pt.getD q {}).valid = true ∨ q = p := by
  by_cases hq : q = p
  · exact Or.inr hq
  · left
    rw [getD_modifyAt_ne _ _ _ _ _ hq] at h
    exact h

theorem valid_modifyAt_clear (pt : List PageTableEntry) (p q : Nat)
    (h : ((modifyAt (fun e : PageTableEntry => { e with valid := false }) pt p).getD q {}).valid
      = true) :
    (pt.getD q {}).valid = true := by
  by_cases hq : q = p
  · subst hq
    rw [getD_eq_get?, get?_modifyAt, if_pos rfl] at h
    cases hg : pt.get? q with
    | none => rw [hg] at h; simp at h
    | some e => rw [hg] at h; simp at h
  · rw [getD_modifyAt_ne _ _ _ _ _ hq] at h
    exact h

/-- Eviction of a frame followed by the load of page `p` into it changes neither the
counters, the sizes nor the hand, and makes no page valid other than `p`. -/
theorem evict_load_frame (vm : VirtualMemory) (p frame : Nat) :
    ((vm.evictPage frame).loadPage p frame).page_faults = vm.page_faults ∧
    ((vm.evictPage frame).loadPage p frame).page_hits = vm.page_hits ∧
    ((vm.evictPage frame).loadPage p frame).page_size = vm.page_size ∧
    ((vm.evictPage frame).loadPage p frame).num_virtual_pages = vm.num_virtual_pages ∧
    ((vm.evictPage frame).loadPage p frame).num_physical_frames = vm.num_physical_frames ∧
    ((vm.evictPage frame).loadPage p frame).clock_hand = vm.clock_hand ∧
    (∀ q, (((vm.evictPage frame).loadPage p frame).page_table.getD q {}).valid = true →
      (vm.page_table.getD q {}).valid = true ∨ q = p) := by
  refine ⟨rfl, rfl, rfl, rfl, rfl, rfl, ?_⟩
  intro q hq
  rcases valid_modifyAt _ _ _ _ hq with h | h
  · left
    simp only [VirtualMemory.evictPage] at h
    split at h
    · exact valid_modifyAt_clear _ _ _ h
    · exact h
  · exact Or.inr h

/-- A `translate` of an address in an unmapped page of the table returns, counts one page
fault and no hit, and makes no page valid other than the accessed one. -/
theorem translate_fault (vm : VirtualMemory) (a : Nat) (h : VMInv vm)
    (hhand : vm.clock_hand < vm.num_physical_frames)
    (hp : a / vm.page_size < vm.num_virtual_pages)
    (hv : (vm.page_table.getD (a / vm.page_size) {}).valid = false) :
    ∃ vm' r, vm.translate a = some (vm', r) ∧
      vm'.page_faults = (vm.page_faults + 1) % SIZE_MOD ∧ vm'.page_hits = vm.page_hits ∧
      vm'.page_size = vm.page_size ∧ vm'.num_virtual_pages = vm.num_virtual_pages ∧
      vm'.num_physical_frames = vm.num_physical_frames ∧
      vm'.clock_hand < vm'.num_physical_frames ∧
      (∀ q, (vm'.page_table.getD q {}).valid = true →
        (vm.page_table.getD q {}).valid = true ∨ q = a / vm.page_size) := by
  have hnot : ¬ vm.getPageNumber a ≥ vm.num_virtual_pages := by
    simp only [VirtualMemory.getPageNumber]
    omega
  have hv' : (!(vm.page_table.getD (vm.getPageNumber a) {}).valid) = true := by
    simp only [VirtualMemory.getPageNumber, hv, Bool.not_false]
  have h1 : VMInv { vm with page_faults := (vm.page_faults + 1) % SIZE_MOD } :=
    vmInv_congr vm _ h rfl rfl rfl rfl rfl rfl rfl
  unfold VirtualMemory.translate
  simp only [if_neg hnot, hv', ↓reduceIte]
  cases hfree : VirtualMemory.findFreeFrame
      { vm with page_faults := (vm.page_faults + 1) % SIZE_MOD } with
  | some frame =>
    refine ⟨_, _, rfl, rfl, rfl, rfl, rfl, rfl, hhand, ?_⟩
    intro q hq
    exact valid_modifyAt _ _ _ _ hq
  | none =>
    obtain ⟨⟨vm2, v⟩, hsel⟩ := select_returns _ h1 hfree hhand
    obtain ⟨f1, f2, f3, f4, f5, f6, f7⟩ := select_frame _ _ _ hsel
    rw [hsel]
    cases v with
    | none =>
      refine ⟨_, _, rfl, f1, f2, f3, f4, f5, f7 hhand, ?_⟩
      intro q hq
      left
      rw [f6 q] at hq
      exact hq
    | some victim =>
      obtain ⟨e1, e2, e3, e4, e5, e6, e7⟩ := evict_load_frame vm2 (vm.getPageNumber a)
        (vm2.page_table.getD victim {}).frame_number
      refine ⟨_, _, rfl, e1.trans f1, e2.trans f2, e3.trans f3, e4.trans f4, e5.trans f5, ?_, ?_⟩
      · rw [e6, e5]
        exact f7 hhand
      · intro q hq
        rcases e7 q hq with hq' | hq'
        · left
          rw [f6 q] at hq'
          exact hq'
        · exact Or.inr hq'

/-- Translating addresses in pairwise distinct pages of the table, none of which is among
the pages `seen` that may be mapped, returns and counts one fault per address and no
hit. -/
theorem fault_count_run : ∀ (addrs : List Nat) (vm : VirtualMemory) (seen : List Nat),
    VMInv vm → vm.clock_hand < vm.num_physical_frames →
    (∀ q, (vm.page_table.getD q {}).valid = true → q ∈ seen) →
    (∀ a ∈ addrs, a / vm.page_size < vm.num_virtual_pages) →
    (seen ++ addrs.map (fun a => a / vm.page_size)).Nodup →
    vm.page_faults + addrs.length < SIZE_MOD →
    ∃ vm', vm.run addrs = some vm' ∧ vm'.page_faults = vm.page_faults + addrs.length ∧
      vm'.page_hits = vm.page_hits := by
  intro addrs
  induction addrs with
  | nil => intro vm seen _ _ _ _ _ _; exact ⟨vm, rfl, rfl, rfl⟩
  | cons a rest ih =>
    intro vm seen hinv hhand hseen hpages hnd hlim
    have hnotin : a / vm.page_size ∉ seen := by
      rw [List.map_cons] at hnd
      intro hmem
      exact (List.nodup_append.1 hnd).2.2 hmem (List.mem_cons_self _ _)
    have hv : (vm.page_table.getD (a / vm.page_size) {}).valid = false := by
      cases hval : (vm.page_table.getD (a / vm.page_size) {}).valid with
      | false => rfl
      | true => exact absurd (hseen _ hval) hnotin
    obtain ⟨vm1, r, ht, t1, t2, t3, t4, t5, t6, t7⟩ :=
      translate_fault vm a hinv hhand (hpages a (List.mem_cons_self _ _)) hv
    simp only [List.length_cons] at hlim
    have hpf : vm1.page_faults = vm.page_faults + 1 := by
      rw [t1, Nat.mod_eq_of_lt (by omega)]
    obtain ⟨vm', hr, g1, g2⟩ := ih vm1 (seen ++ [a / vm.page_size])
      (vmInv_translate vm vm1 a r hinv ht) t6
      (by
        intro q hq
        rcases t7 q hq with h | h
        · exact List.mem_append_left _ (hseen q h)
        · exact List.mem_append_right _ (by rw [h]; exact List.mem_singleton_self _))
      (by
        intro b hb
        rw [t3, t4]
        exact hpages b (List.mem_cons_of_mem _ hb))
      (by
        rw [t3, List.append_assoc]
        exact hnd)
      (by rw [hpf]; omega)
    refine ⟨vm', ?_, ?_, ?_⟩
    · simp only [VirtualMemory.run, ht]
      exact hr
    · rw [g1, hpf, List.length_cons]
      omega
    · rw [g2, t2]

/-- Claim C27 (page fault counting).  For every policy, on a freshly constructed engine
with `n = num_physical_frames ≥ 1` frames, translating one address in each of `n + 1`
pairwise distinct pages of the page table, in sequence, returns every time and leaves
`page_faults = n + 1` and `page_hits = 0` (`n + 1` being below the range of the
counter). -/
theorem C27_fault_counting (virtual_bits physical_bits page_sz : Nat)
    (pol : PageReplacementPolicy) (addrs : List Nat)
    (hn : 1 ≤ (VirtualMemory.new virtual_bits physical_bits page_sz pol).num_physical_frames)
    (hlen : addrs.length =
      (VirtualMemory.new virtual_bits physical_bits page_sz pol).num_physical_frames + 1)
    (hpages : ∀ a ∈ addrs, a / page_sz <
      (VirtualMemory.new virtual_bits physical_bits page_sz pol).num_virtual_pages)
    (hdist : (addrs.map (fun a => a / page_sz)).Nodup)
    (hsmall : (VirtualMemory.new virtual_bits physical_bits page_sz pol).num_physical_frames + 1
      < SIZE_MOD) :
    ∃ vm', (VirtualMemory.new virtual_bits physical_bits page_sz pol).run addrs = some vm' ∧
      vm'.page_faults =
        (VirtualMemory.new virtual_bits physical_bits page_sz pol).num_physical_frames + 1 ∧
      vm'.page_hits = 0 := by
  have hfresh : ∀ q, ((VirtualMemory.new virtual_bits physical_bits page_sz pol).page_table.getD
      q {}).valid = true → q ∈ ([] : List Nat) := by
    intro q hq
    exfalso
    have hpt : (VirtualMemory.new virtual_bits physical_bits page_sz pol).page_table =
        List.replicate (VirtualMemory.shiftOne virtual_bits / page_sz) {} := rfl
    rw [hpt, getD_eq_get?, List.get?_eq_getElem?, List.getElem?_replicate] at hq
    split at hq <;> simp at hq
  obtain ⟨vm', hr, h1, h2⟩ := fault_count_run addrs
    (VirtualMemory.new virtual_bits physical_bits page_sz pol) []
    (vmInv_new virtual_bits physical_bits page_sz pol) hn hfresh hpages
    (by rw [List.nil_append]; exact hdist)
    (by rw [hlen]; show 0 + _ < _; omega)
  refine ⟨vm', hr, ?_, ?_⟩
  · rw [h1, hlen]
    show 0 + _ = _
    omega
  · rw [h2]
    rfl

/-- Witness of C27 under CLOCK with 2 frames and 4 pages of 16 bytes: the accesses 0, 16,
32 touch three distinct pages and give 3 faults and no hit. -/
theorem C27_fault_counting_witness :
    ∃ vm', (VirtualMemory.new 6 5 16 PageReplacementPolicy.CLOCK).run [0, 16, 32] = some vm' ∧
      vm'.page_faults =
        (VirtualMemory.new 6 5 16 PageReplacementPolicy.CLOCK).num_physical_frames + 1 ∧
      vm'.page_hits = 0 :=
  C27_fault_counting 6 5 16 PageReplacementPolicy.CLOCK [0, 16, 32] (by decide) (by decide)
    (by decide) (by decide) (by decide)


/-- The physical address of a hit lies below `num_physical_frames * page_size`: a valid
page sits in a frame of the frame table. -/
theorem hit_address_lt (vm : VirtualMemory) (h : VMInv vm) (a : Nat)
    (hp : a / vm.page_size < vm.num_virtual_pages) (hps : 0 < vm.page_size)
    (hv : (vm.page_table.getD (a / vm.page_size) {}).valid = true) :
    (vm.page_table.getD (a / vm.page_size) {}).frame_number * vm.page_size + a % vm.page_size <
      vm.num_physical_frames * vm.page_size := by
  have hk := (key_of_valid vm h (a / vm.page_size) _ hp).1 ⟨hv, rfl⟩
  have hfa := (h.frames.page_frame _ _ hk).1
  have hlt : (vm.page_table.getD (a / vm.page_size) {}).frame_number <
      vm.frame_allocation.length := by
    by_contra hcon
    rw [List.get?_eq_none.2 (by omega)] at hfa
    cases hfa
  rw [h.fa_len] at hlt
  have hoff : a % vm.page_size < vm.page_size := Nat.mod_lt _ hps
  have hmul : ((vm.page_table.getD (a / vm.page_size) {}).frame_number + 1) * vm.page_size ≤
      vm.num_physical_frames * vm.page_size := Nat.mul_le_mul_right _ hlt
  rw [Nat.add_mul, Nat.one_mul] at hmul
  omega


/-! ## Theorems: FIFO and LRU cache levels -/

theorem findVictim_fifo_lru (set : List CacheLine) :
    CacheLevel.findVictim ReplacementPolicy.FIFO set =
      CacheLevel.findVictim ReplacementPolicy.LRU set := by
  unfold CacheLevel.findVictim
  cases CacheLevel.firstInvalid set with
  | some i => rfl
  | none =>
    cases set with
    | nil => rfl
    | cons line0 rest => rfl

/-- One call on a FIFO level and on the same level with policy LRU: same result, and the
same state up to the policy field. -/
theorem fifo_lru_step (c : CacheLevel) (op : LevelOp) (hp : c.policy = ReplacementPolicy.FIFO) :
    ((c.withPolicy ReplacementPolicy.LRU).stepOp op).1 =
      (c.stepOp op).1.withPolicy ReplacementPolicy.LRU ∧
    ((c.withPolicy ReplacementPolicy.LRU).stepOp op).2 = (c.stepOp op).2 ∧
    (c.stepOp op).1.policy = ReplacementPolicy.FIFO := by
  obtain ⟨cs, bs, ns, as, pol, sets, ct, hits, misses⟩ := c
  simp only at hp
  subst hp
  cases op with
  | access address =>
    simp only [CacheLevel.stepOp, CacheLevel.access, CacheLevel.withPolicy,
      CacheLevel.getSetIndex, CacheLevel.getTag]
    cases CacheLevel.findLine (address / (bs * ns % SIZE_MOD))
        (sets.getD (address / bs % ns) []) with
    | none => exact ⟨rfl, rfl, rfl⟩
    | some i =>
      refine ⟨?_, rfl, rfl⟩
      simp [CacheLevel.updateLRU]
  | insert address data =>
    refine ⟨?_, rfl, rfl⟩
    simp only [CacheLevel.stepOp, CacheLevel.insert, CacheLevel.withPolicy,
      CacheLevel.getSetIndex, CacheLevel.getTag, findVictim_fifo_lru]
    simp

theorem fifo_lru_trace : ∀ (ops : List LevelOp) (c : CacheLevel),
    c.policy = ReplacementPolicy.FIFO →
    (c.withPolicy ReplacementPolicy.LRU).trace ops =
      (c.trace ops).map (fun r => (r.1.withPolicy ReplacementPolicy.LRU, r.2)) := by
  intro ops
  induction ops with
  | nil => intro c _; rfl
  | cons op rest ih =>
    intro c hp
    obtain ⟨h1, h2, h3⟩ := fifo_lru_step c op hp
    simp only [CacheLevel.trace, List.map_cons, List.cons.injEq]
    refine ⟨Prod.ext h1 h2, ?_⟩
    rw [h1]
    exact ih _ h3

/-- Claim C31 (FIFO and LRU cache levels are observationally identical).  For every
geometry and every sequence of `access` and `insert` calls, the level built with policy
LRU goes through the states of the level built with policy FIFO, with the policy field
read as LRU, and returns the same hit flags and data: after each call the two levels
agree on every line (validity, tag, data, timestamp, frequency), on the clock and on the
hit and miss counters. -/
theorem C31_fifo_lru_identical (size block_sz assoc : Nat) (ops : List LevelOp) :
    (CacheLevel.new size block_sz assoc ReplacementPolicy.LRU).trace ops =
      ((CacheLevel.new size block_sz assoc ReplacementPolicy.FIFO).trace ops).map
        (fun r => (r.1.withPolicy ReplacementPolicy.LRU, r.2)) ∧
    ((CacheLevel.new size block_sz assoc ReplacementPolicy.LRU).trace ops).length = ops.length ∧
    ∀ (k : Nat) (f l : CacheLevel × Option Nat),
      ((CacheLevel.new size block_sz assoc ReplacementPolicy.FIFO).trace ops).get? k = some f →
      ((CacheLevel.new size block_sz assoc ReplacementPolicy.LRU).trace ops).get? k = some l →
      l.2 = f.2 ∧ l.1.cache_sets = f.1.cache_sets ∧ l.1.current_time = f.1.current_time ∧
      l.1.hits = f.1.hits ∧ l.1.misses = f.1.misses ∧
      f.1.policy = ReplacementPolicy.FIFO ∧ l.1.policy = ReplacementPolicy.LRU := by
  have h := fifo_lru_trace ops (CacheLevel.new size block_sz assoc ReplacementPolicy.FIFO) rfl
  have hnew : (CacheLevel.new size block_sz assoc ReplacementPolicy.FIFO).withPolicy
      ReplacementPolicy.LRU = CacheLevel.new size block_sz assoc ReplacementPolicy.LRU := rfl
  rw [hnew] at h
  have hlen : ∀ (ops : List LevelOp) (c : CacheLevel), (c.trace ops).length = ops.length := by
    intro ops
    induction ops with
    | nil => intro c; rfl
    | cons op rest ih => intro c; simp [CacheLevel.trace, ih]
  have hpol : ∀ (ops : List LevelOp) (c : CacheLevel), c.policy = ReplacementPolicy.FIFO →
      ∀ r ∈ c.trace ops, r.1.policy = ReplacementPolicy.FIFO := by
    intro ops
    induction ops with
    | nil => intro c _ r hr; simp [CacheLevel.trace] at hr
    | cons op rest ih =>
      intro c hp r hr
      simp only [CacheLevel.trace, List.mem_cons] at hr
      rcases hr with hr | hr
      · rw [hr]
        exact (fifo_lru_step c op hp).2.2
      · exact ih _ (fifo_lru_step c op hp).2.2 r hr
  refine ⟨h, hlen _ _, ?_⟩
  intro k f l hf hl
  rw [h, get?_map_eq, hf] at hl
  simp only [Option.map_some', Option.some.injEq] at hl
  subst hl
  exact ⟨rfl, rfl, rfl, rfl, rfl, hpol ops _ rfl f (List.get?_mem hf), rfl⟩

theorem C31_fifo_lru_identical_witness :
    (CacheLevel.new 4 1 2 ReplacementPolicy.LRU).trace
        [LevelOp.access 0, LevelOp.insert 0 7, LevelOp.insert 2 8, LevelOp.access 0,
         LevelOp.insert 4 9, LevelOp.access 2] =
      ((CacheLevel.new 4 1 2 ReplacementPolicy.FIFO).trace
          [LevelOp.access 0, LevelOp.insert 0 7, LevelOp.insert 2 8, LevelOp.access 0,
           LevelOp.insert 4 9, LevelOp.access 2]).map
        (fun r => (r.1.withPolicy ReplacementPolicy.LRU, r.2)) ∧
    ((CacheLevel.new 4 1 2 ReplacementPolicy.FIFO).trace
        [LevelOp.access 0, LevelOp.insert 0 7, LevelOp.insert 2 8, LevelOp.access 0,
         LevelOp.insert 4 9, LevelOp.access 2]).map Prod.snd =
      [none, none, none, some 7, none, none] :=
  ⟨(C31_fifo_lru_identical 4 1 2 _).1, by decide⟩

/-! ## Theorems: reads through the cache hierarchy against the backing store -/

/-- Claim C36 fails on the code (read after write).  On a hierarchy with one 2-way level
of one set, after `read(0)` the call `write(0, 5)` stores 5 in the backing store, hits
way 0 and re-inserts the line into the invalid way 1, leaving the old line in way 0; the
`read(0)` that follows immediately hits way 0 first and returns the stale 0 instead
of 5. -/
theorem C36_stale_read_after_write :
    0 < ((CacheHierarchy.build 16 [(2, 1, 2, ReplacementPolicy.LRU)]).run
      [CacheOp.read 0]).memory_size ∧
    (((CacheHierarchy.build 16 [(2, 1, 2, ReplacementPolicy.LRU)]).run
      [CacheOp.read 0]).write 0 5).main_memory.get? 0 = some 5 ∧
    ((((CacheHierarchy.build 16 [(2, 1, 2, ReplacementPolicy.LRU)]).run
      [CacheOp.read 0]).write 0 5).levels.map (fun level => level.cache_sets.map (fun set =>
        set.map (fun line => (line.valid, line.tag, line.data))))) =
      [[[(true, 0, 0), (true, 0, 5)]]] ∧
    ((((CacheHierarchy.build 16 [(2, 1, 2, ReplacementPolicy.LRU)]).run
      [CacheOp.read 0]).write 0 5).read 0).2 = 0 := by
  decide

/-- Claim C37 fails on the code (transparency).  First, a line carries one data word but
its tag is the tag of a whole block: on a hierarchy with one level of 4-word blocks, after
`write(1, 7)` and `read(0)` the line of block 0 holds the word of address 0, and `read(1)`
hits that line and returns 0 although the backing store holds 7 at address 1.  Second,
the stale line left by a write that hits: `read(0)`, `write(0, 5)`, `read(0)` on a 2-way
level returns 0 although the backing store holds 5 at address 0. -/
theorem C37_reads_differ_from_memory :
    (((CacheHierarchy.build 16 [(8, 4, 1, ReplacementPolicy.LRU)]).run
      [CacheOp.write 1 7, CacheOp.read 0]).main_memory.get? 1 = some 7 ∧
     1 < ((CacheHierarchy.build 16 [(8, 4, 1, ReplacementPolicy.LRU)]).run
      [CacheOp.write 1 7, CacheOp.read 0]).memory_size ∧
     (((CacheHierarchy.build 16 [(8, 4, 1, ReplacementPolicy.LRU)]).run
      [CacheOp.write 1 7, CacheOp.read 0]).read 1).2 = 0) ∧
    (((CacheHierarchy.build 16 [(2, 1, 2, ReplacementPolicy.LRU)]).run
      [CacheOp.read 0, CacheOp.write 0 5]).main_memory.get? 0 = some 5 ∧
     (((CacheHierarchy.build 16 [(2, 1, 2, ReplacementPolicy.LRU)]).run
      [CacheOp.read 0, CacheOp.write 0 5]).read 0).2 = 0) := by
  decide


/-! ## Theorems: `malloc` followed by `free` of the returned id -/

theorem mem_keyInsert_self {κ : Type} [LinearOrder κ] (k : κ) : ∀ (l : List κ),
    k ∈ keyInsert k l := by
  intro l
  induction l with
  | nil => simp [keyInsert]
  | cons c rest ih =>
    simp only [keyInsert]
    split
    · exact List.mem_cons_self _ _
    · split
      · exact List.mem_cons_self _ _
      · exact List.mem_cons_of_mem _ ih

theorem filter_keyInsert {κ : Type} [LinearOrder κ] (k : κ) : ∀ (l : List κ), k ∉ l →
    (keyInsert k l).filter (fun x => decide (x ≠ k)) = l := by
  intro l
  induction l with
  | nil => intro _; simp [keyInsert]
  | cons c rest ih =>
    intro h
    have hc : c ≠ k := fun e => h (e ▸ List.mem_cons_self _ _)
    have hrest : k ∉ rest := fun e => h (List.mem_cons_of_mem _ e)
    have hfl : (c :: rest).filter (fun x => decide (x ≠ k)) = c :: rest := by
      rw [List.filter_eq_self]
      intro x hx
      simp only [ne_eq, decide_not, Bool.not_eq_true', decide_eq_false_iff_not]
      intro e
      exact h (e ▸ hx)
    simp only [keyInsert]
    split
    · rw [List.filter_cons]
      simp only [ne_eq, not_true_eq_false, decide_False, Bool.false_eq_true, ↓reduceIte]
      exact hfl
    · split
      · rename_i heq
        exact absurd heq.symm hc
      · rw [List.filter_cons]
        simp only [ne_eq, hc, not_false_eq_true, decide_True, ↓reduceIte, List.cons.injEq,
          true_and]
        exact ih hrest

theorem mem_mapInsert {κ α : Type} [LinearOrder κ] (k : κ) (v : α) : ∀ (m : List (κ × α))
    (e : κ × α), e ∈ mapInsert k v m → e = (k, v) ∨ e ∈ m := by
  intro m
  induction m with
  | nil => intro e h; simp [mapInsert] at h; exact Or.inl h
  | cons c rest ih =>
    intro e h
    obtain ⟨k', v'⟩ := c
    simp only [mapInsert] at h
    split at h
    · rcases List.mem_cons.1 h with h | h
      · exact Or.inl h
      · exact Or.inr h
    · split at h
      · rcases List.mem_cons.1 h with h | h
        · exact Or.inl h
        · exact Or.inr (List.mem_cons_of_mem _ h)
      · rcases List.mem_cons.1 h with h | h
        · exact Or.inr (h ▸ List.mem_cons_self _ _)
        · rcases ih e h with h | h
          · exact Or.inl h
          · exact Or.inr (List.mem_cons_of_mem _ h)

theorem mapErase_mapInsert {κ α : Type} [LinearOrder κ] (k : κ) (v : α) :
    ∀ (m : List (κ × α)), (∀ e ∈ m, e.1 ≠ k) → mapErase k (mapInsert k v m) = m := by
  intro m
  induction m with
  | nil => intro _; simp [mapInsert, mapErase]
  | cons c rest ih =>
    intro h
    obtain ⟨k', v'⟩ := c
    have hc : k' ≠ k := h (k', v') (List.mem_cons_self _ _)
    have hrest : ∀ e ∈ rest, e.1 ≠ k := fun e he => h e (List.mem_cons_of_mem _ he)
    have hfl : mapErase k ((k', v') :: rest) = (k', v') :: rest := by
      unfold mapErase
      rw [List.filter_eq_self]
      intro x hx
      simp only [ne_eq, decide_not, Bool.not_eq_true', decide_eq_false_iff_not]
      exact h x hx
    simp only [mapInsert]
    split
    · unfold mapErase
      rw [List.filter_cons]
      simp only [ne_eq, not_true_eq_false, decide_False, Bool.false_eq_true, ↓reduceIte]
      exact hfl
    · split
      · rename_i heq
        exact absurd heq.symm hc
      · unfold mapErase
        rw [List.filter_cons]
        simp only [ne_eq, hc, not_false_eq_true, decide_True, ↓reduceIte, List.cons.injEq,
          true_and]
        exact ih hrest

/-- The keys of `requested_sizes` are ids that were handed out: they lie below
`next_block_id`. -/
theorem requested_keys_step (a : MemoryAllocator) (op : AllocOp)
    (h : ∀ e ∈ a.requested_sizes, e.1 < a.next_block_id) :
    ∀ e ∈ (a.step op).requested_sizes, e.1 < (a.step op).next_block_id := by
  cases op with
  | malloc size =>
    simp only [MemoryAllocator.step, MemoryAllocator.malloc]
    split
    · exact h
    · split
      · exact h
      · intro e he
        show e.1 < a.next_block_id + 1
        rcases mem_mapInsert _ _ _ e he with h1 | h1
        · rw [h1]
          show a.next_block_id < a.next_block_id + 1
          omega
        · have := h e h1
          omega
  | free block_id =>
    simp only [MemoryAllocator.step, MemoryAllocator.free]
    split
    · split
      · exact h
      · intro e he
        exact h e (List.mem_of_mem_filter he)
    · exact h
  | setStrategy strat => exact h

theorem requested_keys_run (ops : List AllocOp) : ∀ (a : MemoryAllocator),
    (∀ e ∈ a.requested_sizes, e.1 < a.next_block_id) →
    ∀ e ∈ (a.run ops).requested_sizes, e.1 < (a.run ops).next_block_id := by
  induction ops with
  | nil => intro a h; exact h
  | cons op ops ih => intro a h; exact ih _ (requested_keys_step a op h)

theorem findBlock_append (k : Int) (b : MemoryBlock) (T : List MemoryBlock)
    (hb : b.block_id = k) : ∀ (P : List MemoryBlock), (∀ x ∈ P, x.block_id ≠ k) →
    MemoryAllocator.findBlock k (P ++ b :: T) = some P.length := by
  intro P
  induction P with
  | nil => intro _; simp [MemoryAllocator.findBlock, hb]
  | cons c rest ih =>
    intro h
    have hc := h c (List.mem_cons_self _ _)
    show MemoryAllocator.findBlock k (c :: (rest ++ b :: T)) = _
    rw [MemoryAllocator.findBlock, if_neg hc,
      ih (fun x hx => h x (List.mem_cons_of_mem _ hx))]
    rfl

/-- The neighbours of a free block of a ledger without adjacent free blocks are used. -/
theorem noAdjacentFree_around (b : MemoryBlock) (S : List MemoryBlock)
    (hb : b.is_free = true) : ∀ (P : List MemoryBlock), NoAdjacentFree (P ++ b :: S) →
    P.getLast?.filter MemoryBlock.is_free = none ∧
    S.head?.filter MemoryBlock.is_free = none := by
  intro P
  induction P with
  | nil =>
    intro h
    refine ⟨rfl, ?_⟩
    cases S with
    | nil => rfl
    | cons y rest =>
      have hy : y.is_free = false := by
        cases hy : y.is_free with
        | false => rfl
        | true => exact absurd ⟨hb, hy⟩ h.1
      simp [Option.filter, hy]
  | cons c rest ih =>
    intro h
    have h2 := (noAdjacentFree_tail c (rest ++ b :: S) h)
    obtain ⟨i1, i2⟩ := ih h2.1
    refine ⟨?_, i2⟩
    cases rest with
    | nil =>
      have hc : c.is_free = false := by
        cases hc : c.is_free with
        | false => rfl
        | true => exact absurd ⟨hc, hb⟩ (h2.2 b rfl)
      simp [Option.filter, hc]
    | cons d rest' =>
      rw [List.getLast?_cons_cons]
      exact i1

/-- A successful `free` of the id of the block `U` standing between `P` and `T`. -/
theorem free_at (a : MemoryAllocator) (k : Int) (P T : List MemoryBlock) (U : MemoryBlock)
    (hmem : k ∈ a.allocated_blocks) (hhead : a.head = P ++ U :: T) (hU : U.block_id = k)
    (hP : ∀ x ∈ P, x.block_id ≠ k) :
    a.free k =
      (⟨MemoryAllocator.coalesceBlocks (P ++ { U with is_free := true, block_id := -1 } :: T),
        a.total_memory, (a.used_memory + SIZE_MOD - U.size % SIZE_MOD) % SIZE_MOD, a.strategy,
        a.next_block_id, a.allocated_blocks.filter (fun x => decide (x ≠ k)),
        mapErase k a.requested_sizes⟩, true) := by
  have hfind : MemoryAllocator.findBlock k a.head = some P.length := by
    rw [hhead]
    exact findBlock_append k U T hU P hP
  have hget : a.head.get? P.length = some U := by
    rw [hhead, List.get?_eq_getElem?, List.getElem?_append_right (le_refl _)]
    simp
  rw [free_success a k P.length U hmem hfind hget, hhead]
  simp

/-- Claim C38 (round trip of `malloc` and `free`).  In every state reached from
construction, under every strategy, when `malloc(size)` succeeds, `free` of the returned
id right afterwards succeeds and gives back the state before the `malloc` (the ledger
with every block's address, size, free flag and id, `used_memory`, the map of allocated
blocks and the map of requested sizes, and also `total_memory` and the strategy) except
for `next_block_id`, which stays incremented. -/
theorem C38_malloc_free_round_trip (memory_size : Nat) (hm : memory_size < SIZE_MOD)
    (ops : List AllocOp) (a : MemoryAllocator)
    (ha : (MemoryAllocator.new memory_size).run ops = a) (size : Nat)
    (hsucc : (a.malloc size).2 ≠ -1) :
    ((a.malloc size).1.free (a.malloc size).2).2 = true ∧
    ((a.malloc size).1.free (a.malloc size).2).1 =
      { a with next_block_id := a.next_block_id + 1 } := by
  obtain ⟨hok, hids⟩ := reachable_ok memory_size hm ops
  have hnaf := noAdjacentFree_run ops (MemoryAllocator.new memory_size)
    (by simp [MemoryAllocator.new, NoAdjacentFree])
  have hreq := requested_keys_run ops (MemoryAllocator.new memory_size)
    (by intro e he; simp [MemoryAllocator.new] at he)
  rw [ha] at hok hids hnaf hreq
  rcases malloc_cases a size with hfail | ⟨i, blk, hsize, hfind, hget, hfree, hle⟩
  · rw [hfail] at hsucc
    exact absurd rfl hsucc
  have hnaf1 := noAdjacentFree_malloc a size hnaf
  have hsplit := split_at_get? a.head i blk hget
  obtain ⟨P, S, hP, hS⟩ : ∃ P S, a.head.take i = P ∧ a.head.drop (i + 1) = S :=
    ⟨_, _, rfl, rfl⟩
  rw [hP, hS] at hsplit
  rw [malloc_success a size i blk hsize hfind hget hle, hP, hS] at hnaf1 ⊢
  simp only at hnaf1 ⊢
  have hblkid : blk.block_id = -1 := hids.free_id blk (List.get?_mem hget) hfree
  have hne : ∀ x ∈ a.head, x.block_id ≠ a.next_block_id := by
    intro x hx
    cases hxf : x.is_free with
    | true =>
      rw [hids.free_id x hx hxf]
      have := hids.pos
      omega
    | false =>
      have := (hids.keys _ (hids.used_id x ((mem_usedBlocks x a.head).2 ⟨hx, hxf⟩))).2
      omega
  have hnotin : a.next_block_id ∉ a.allocated_blocks := by
    intro hin
    have := (hids.keys _ hin).2
    omega
  have htot := sum_sizes_tiles _ _ _ hok.2.1
  have hlim := hok.2.2
  have hfit := usedSum_add_free P S blk hfree
  have hu := hids.used
  have haround := hnaf
  rw [hsplit] at htot hu haround hne
  obtain ⟨hpred, hsucc'⟩ := noAdjacentFree_around blk S hfree P haround
  obtain ⟨rem, hrem⟩ : ∃ rem : List MemoryBlock, rem =
      (if blk.size > size then
        [⟨(blk.address + size) % SIZE_MOD, blk.size - size, true, -1⟩] else []) := ⟨_, rfl⟩
  rw [← hrem] at hnaf1 ⊢
  have hfa := free_at
    (⟨P ++ (⟨blk.address, size, false, a.next_block_id⟩ :: rem) ++ S,
      a.total_memory, (a.used_memory + size) % SIZE_MOD, a.strategy, a.next_block_id + 1,
      keyInsert a.next_block_id a.allocated_blocks,
      mapInsert a.next_block_id size a.requested_sizes⟩ : MemoryAllocator)
    a.next_block_id P (rem ++ S) ⟨blk.address, size, false, a.next_block_id⟩
    (mem_keyInsert_self _ _) (by simp) rfl
    (fun x hx => hne x (List.mem_append_left _ hx))
  rw [hfa]
  have hnaf1' : NoAdjacentFree
      (P ++ (⟨blk.address, size, false, a.next_block_id⟩ : MemoryBlock) :: (rem ++ S)) := by
    simpa using hnaf1
  have hsum : ((P ++ (⟨blk.address, size, true, -1⟩ : MemoryBlock) :: (rem ++ S)).map
      MemoryBlock.size).sum < SIZE_MOD := by
    simp only [List.map_append, List.map_cons, List.sum_append, List.sum_cons] at htot ⊢
    rw [hrem]
    split
    · simp only [List.map_cons, List.map_nil, List.sum_cons, List.sum_nil]
      omega
    · simp only [List.map_nil, List.sum_nil]
      omega
  have hhead : MemoryAllocator.coalesceBlocks
      (P ++ (⟨blk.address, size, true, -1⟩ : MemoryBlock) :: (rem ++ S)) = a.head := by
    rw [coalesceBlocks_eq_sweep _ hsum]
    have hm := sweep_merged P ⟨blk.address, size, false, a.next_block_id⟩ (rem ++ S) hnaf1'
      (fun b hb => hids.free_id b (by
          rw [hsplit]
          exact List.mem_append_left _ hb))
    rw [hsplit]
    refine hm.trans ?_
    obtain ⟨ba, bs, bf, bi⟩ := blk
    simp only at hfree hblkid hle hsucc' hpred hrem ⊢
    subst hfree
    subst hblkid
    by_cases hgt : bs > size
    · rw [if_pos hgt] at hrem
      subst hrem
      have hs2 : (List.head? ((⟨(ba + size) % SIZE_MOD, bs - size, true, -1⟩ : MemoryBlock) ::
          S)).filter MemoryBlock.is_free =
          some ⟨(ba + size) % SIZE_MOD, bs - size, true, -1⟩ := rfl
      simp only [mergedLedger, hpred, List.singleton_append, hs2,
        Option.isSome_none, Bool.false_eq_true, ↓reduceIte, Option.map_none',
        Option.getD_none, Nat.zero_add, Option.map_some', Option.getD_some, Option.isSome_some,
        List.tail_cons, List.append_cancel_left_eq, List.cons.injEq, and_true,
        MemoryBlock.mk.injEq, true_and]
      omega
    · rw [if_neg hgt] at hrem
      subst hrem
      have heq : bs = size := by omega
      subst heq
      simp only [mergedLedger, hpred, List.nil_append, hsucc',
        Option.isSome_none, Bool.false_eq_true, ↓reduceIte, Option.map_none', Option.getD_none,
        Nat.zero_add, Nat.add_zero]
  have hused : ((a.used_memory + size) % SIZE_MOD + SIZE_MOD - size % SIZE_MOD) % SIZE_MOD =
      a.used_memory := by
    simp only [List.map_append, List.map_cons, List.sum_append, List.sum_cons] at htot hfit
    rw [size_mod_eq] at hlim ⊢
    omega
  have hreq' : mapErase a.next_block_id (mapInsert a.next_block_id size a.requested_sizes) =
      a.requested_sizes :=
    mapErase_mapInsert _ _ _ (fun e he => by have := hreq e he; omega)
  refine ⟨rfl, ?_⟩
  simp only [hhead, hused, filter_keyInsert _ _ hnotin, hreq']

/-- Witness of C38 on the state after `malloc(100)`, `malloc(200)`, `free(1)`: `malloc(50)`
returns id 3 and splits the hole at address 0, and `free(3)` restores the state with
`next_block_id` 4. -/
theorem C38_malloc_free_round_trip_witness :
    (MemoryAllocator.scenario.malloc 50).2 = 3 ∧
    ((MemoryAllocator.scenario.malloc 50).1.free (MemoryAllocator.scenario.malloc 50).2).2 =
      true ∧
    ((MemoryAllocator.scenario.malloc 50).1.free (MemoryAllocator.scenario.malloc 50).2).1 =
      { MemoryAllocator.scenario with
        next_block_id := MemoryAllocator.scenario.next_block_id + 1 } :=
  ⟨by decide, C38_malloc_free_round_trip 1024 (by decide)
    [AllocOp.malloc 100, AllocOp.malloc 200, AllocOp.free 1] MemoryAllocator.scenario rfl 50
    (by decide)⟩


/-! ## Theorems: the order of timestamps and load times in the page table -/

theorem getD_modifyAt_proj {α β : Type} (g : α → α) (π : α → β) (hg : ∀ e, π (g e) = π e)
    (l : List α) (i q : Nat) (d : α) :
    π ((modifyAt g l i).getD q d) = π (l.getD q d) := by
  rw [getD_eq_get?, getD_eq_get?, get?_modifyAt]
  split
  · cases l.get? q with
    | none => rfl
    | some e => exact hg e
  · rfl

/-- A hit on the valid page `p` keeps the order of the stamps. -/
theorem stampInv_hit (pt : List PageTableEntry) (ct : Int) (queue : List Nat) (fifo : Prop)
    (p : Nat) (h : StampInv pt ct queue fifo) (hv : (pt.getD p {}).valid = true) :
    StampInv (modifyAt (fun e => { e with timestamp := ct, reference := true }) pt p)
      (ct + 1) queue fifo := by
  have hlt := getD_valid_lt pt p hv
  have hvalid : ∀ q, ((modifyAt (fun e : PageTableEntry =>
      { e with timestamp := ct, reference := true }) pt p).getD q {}).valid =
      (pt.getD q {}).valid := by
    intro q
    apply getD_modifyAt_proj _ PageTableEntry.valid
    intro e
    rfl
  have hload : ∀ q, ((modifyAt (fun e : PageTableEntry =>
      { e with timestamp := ct, reference := true }) pt p).getD q {}).load_time =
      (pt.getD q {}).load_time := by
    intro q
    apply getD_modifyAt_proj _ PageTableEntry.load_time
    intro e
    rfl
  have hts_p : ((modifyAt (fun e : PageTableEntry =>
      { e with timestamp := ct, reference := true }) pt p).getD p {}).timestamp = ct := by
    rw [getD_modifyAt_self _ _ _ _ hlt]
  have hts_ne : ∀ q, q ≠ p → ((modifyAt (fun e : PageTableEntry =>
      { e with timestamp := ct, reference := true }) pt p).getD q {}).timestamp =
      (pt.getD q {}).timestamp := by
    intro q hq
    rw [getD_modifyAt_ne _ _ _ _ _ hq]
  refine ⟨?_, ?_, ?_, ?_, ?_⟩
  · intro q hq
    rw [hvalid] at hq
    by_cases hqp : q = p
    · rw [hqp, hts_p]
      omega
    · rw [hts_ne q hqp]
      have := h.ts_lt q hq
      omega
  · intro q q' hq hq' he
    rw [hvalid] at hq hq'
    by_cases hqp : q = p
    · by_cases hqp' : q' = p
      · rw [hqp, hqp']
      · rw [hqp, hts_p, hts_ne q' hqp'] at he
        have := h.ts_lt q' hq'
        omega
    · by_cases hqp' : q' = p
      · rw [hqp', hts_p, hts_ne q hqp] at he
        have := h.ts_lt q hq
        omega
      · rw [hts_ne q hqp, hts_ne q' hqp'] at he
        exact h.ts_inj q q' hq hq' he
  · intro q hq
    rw [hvalid] at hq
    rw [hload]
    have := h.load_le q hq
    omega
  · have : (fun q => ((modifyAt (fun e : PageTableEntry =>
        { e with timestamp := ct, reference := true }) pt p).getD q {}).load_time) =
        (fun q => (pt.getD q {}).load_time) := funext hload
    rw [this]
    exact h.queue_sorted
  · intro hf q hq
    rw [hvalid] at hq
    exact h.queue_complete hf q hq

/-- A page table that agrees with `pt` on validity, timestamps and load times keeps the
order of the stamps. -/
theorem stampInv_congr (pt pt' : List PageTableEntry) (ct : Int) (queue : List Nat)
    (fifo : Prop) (h : StampInv pt ct queue fifo)
    (hvalid : ∀ q, (pt'.getD q {}).valid = (pt.getD q {}).valid)
    (hts : ∀ q, (pt'.getD q {}).timestamp = (pt.getD q {}).timestamp)
    (hload : ∀ q, (pt'.getD q {}).load_time = (pt.getD q {}).load_time) :
    StampInv pt' ct queue fifo := by
  refine ⟨?_, ?_, ?_, ?_, ?_⟩
  · intro q hq
    rw [hvalid] at hq
    rw [hts]
    exact h.ts_lt q hq
  · intro q q' hq hq' he
    rw [hvalid] at hq hq'
    rw [hts, hts] at he
    exact h.ts_inj q q' hq hq' he
  · intro q hq
    rw [hvalid] at hq
    rw [hload]
    exact h.load_le q hq
  · have : (fun q => (pt'.getD q {}).load_time) = (fun q => (pt.getD q {}).load_time) :=
      funext hload
    rw [this]
    exact h.queue_sorted
  · intro hf q hq
    rw [hvalid] at hq
    exact h.queue_complete hf q hq

/-- Invalidating the page `v` and dropping it from the queue keeps the order of the
stamps. -/
theorem stampInv_evict (pt : List PageTableEntry) (ct : Int) (queue0 queue : List Nat)
    (fifo : Prop) (v : Nat) (h : StampInv pt ct queue0 fifo)
    (hsub : queue.Sublist queue0) (hmem : ∀ q ∈ queue0, q ≠ v → q ∈ queue) :
    StampInv (modifyAt (fun e => { e with valid := false }) pt v) ct queue fifo := by
  have hts : ∀ q, ((modifyAt (fun e : PageTableEntry => { e with valid := false })
      pt v).getD q {}).timestamp = (pt.getD q {}).timestamp := by
    intro q
    apply getD_modifyAt_proj _ PageTableEntry.timestamp
    intro e
    rfl
  have hload : ∀ q, ((modifyAt (fun e : PageTableEntry => { e with valid := false })
      pt v).getD q {}).load_time = (pt.getD q {}).load_time := by
    intro q
    apply getD_modifyAt_proj _ PageTableEntry.load_time
    intro e
    rfl
  have hvalid : ∀ q, ((modifyAt (fun e : PageTableEntry => { e with valid := false })
      pt v).getD q {}).valid = true → (pt.getD q {}).valid = true ∧ q ≠ v := by
    intro q hq
    refine ⟨valid_modifyAt_clear pt v q hq, ?_⟩
    intro hqv
    rw [hqv, getD_eq_get?, get?_modifyAt, if_pos rfl] at hq
    cases hg : pt.get? v with
    | none => rw [hg] at hq; simp at hq
    | some e => rw [hg] at hq; simp at hq
  refine ⟨?_, ?_, ?_, ?_, ?_⟩
  · intro q hq
    rw [hts]
    exact h.ts_lt q (hvalid q hq).1
  · intro q q' hq hq' he
    rw [hts, hts] at he
    exact h.ts_inj q q' (hvalid q hq).1 (hvalid q' hq').1 he
  · intro q hq
    rw [hload]
    exact h.load_le q (hvalid q hq).1
  · have : (fun q => ((modifyAt (fun e : PageTableEntry => { e with valid := false })
        pt v).getD q {}).load_time) = (fun q => (pt.getD q {}).load_time) := funext hload
    rw [this]
    exact (h.queue_sorted).sublist (hsub.map _)
  · intro hf q hq
    obtain ⟨h1, h2⟩ := hvalid q hq
    exact hmem q (h.queue_complete hf q h1) h2

/-- Loading the invalid page `p` at clock `ct`, with `p` appended to the queue under FIFO,
keeps the order of the stamps. -/
theorem stampInv_load (pt : List PageTableEntry) (ct : Int) (queue queue' : List Nat)
    (fifo : Prop) (p f : Nat) (h : StampInv pt ct queue fifo) (hlt : p < pt.length)
    (hq : ∀ q ∈ queue, (pt.getD q {}).valid = true)
    (hv : (pt.getD p {}).valid = false)
    (hqueue : queue' = queue ++ [p] ∨ (queue' = queue ∧ ¬ fifo)) :
    StampInv (modifyAt (fun e =>
      { e with
        valid := true
        frame_number := f
        timestamp := ct
        load_time := ct + 1
        reference := true }) pt p) (ct + 1) queue' fifo := by
  have hself := getD_modifyAt_self (fun e : PageTableEntry =>
      { e with
        valid := true
        frame_number := f
        timestamp := ct
        load_time := ct + 1
        reference := true }) pt p {} hlt
  have hne : ∀ q, q ≠ p → (modifyAt (fun e : PageTableEntry =>
      { e with
        valid := true
        frame_number := f
        timestamp := ct
        load_time := ct + 1
        reference := true }) pt p).getD q {} = pt.getD q {} :=
    fun q hqp => getD_modifyAt_ne _ _ _ _ _ hqp
  generalize modifyAt (fun e : PageTableEntry =>
      { e with
        valid := true
        frame_number := f
        timestamp := ct
        load_time := ct + 1
        reference := true }) pt p = pt' at hself hne ⊢
  have hpq : p ∉ queue := by
    intro hin
    have := hq p hin
    rw [hv] at this
    cases this
  have hsorted : ((queue ++ [p]).map (fun q => (pt'.getD q {}).load_time)).Pairwise
      (fun x y => x < y) := by
    rw [List.map_append, List.pairwise_append]
    refine ⟨?_, by simp, ?_⟩
    · have hmap : queue.map (fun q => (pt'.getD q {}).load_time) =
          queue.map (fun q => (pt.getD q {}).load_time) := by
        apply List.map_congr_left
        intro q hqm
        rw [hne q (fun e => hpq (e ▸ hqm))]
      rw [hmap]
      exact h.queue_sorted
    · intro x hx y hy
      simp only [List.map_cons, List.map_nil, List.mem_singleton] at hy
      obtain ⟨q, hqm, rfl⟩ := List.mem_map.1 hx
      rw [hy, hself, hne q (fun e => hpq (e ▸ hqm))]
      have := h.load_le q (hq q hqm)
      show (pt.getD q {}).load_time < ct + 1
      omega
  refine ⟨?_, ?_, ?_, ?_, ?_⟩
  · intro q hqv
    by_cases hqp : q = p
    · rw [hqp, hself]
      show ct < ct + 1
      omega
    · rw [hne q hqp] at hqv ⊢
      have := h.ts_lt q hqv
      omega
  · intro q q' hqv hqv' he
    by_cases hqp : q = p
    · by_cases hqp' : q' = p
      · rw [hqp, hqp']
      · rw [hne q' hqp'] at hqv' he
        rw [hqp, hself] at he
        have := h.ts_lt q' hqv'
        have he' : ct = (pt.getD q' {}).timestamp := he
        omega
    · by_cases hqp' : q' = p
      · rw [hne q hqp] at hqv he
        rw [hqp', hself] at he
        have := h.ts_lt q hqv
        have he' : (pt.getD q {}).timestamp = ct := he
        omega
      · rw [hne q hqp] at hqv he
        rw [hne q' hqp'] at hqv' he
        exact h.ts_inj q q' hqv hqv' he
  · intro q hqv
    by_cases hqp : q = p
    · rw [hqp, hself]
    · rw [hne q hqp] at hqv ⊢
      have := h.load_le q hqv
      omega
  · rcases hqueue with hq' | ⟨hq', _⟩
    · rw [hq']
      exact hsorted
    · rw [hq']
      have hmap : queue.map (fun q => (pt'.getD q {}).load_time) =
          queue.map (fun q => (pt.getD q {}).load_time) := by
        apply List.map_congr_left
        intro q hqm
        rw [hne q (fun e => hpq (e ▸ hqm))]
      rw [hmap]
      exact h.queue_sorted
  · intro hf q hqv
    rcases hqueue with hq' | ⟨_, hnf⟩
    · rw [hq']
      by_cases hqp : q = p
      · rw [hqp]
        exact List.mem_append_right _ (List.mem_singleton_self _)
      · rw [hne q hqp] at hqv
        exact List.mem_append_left _ (h.queue_complete hf q hqv)
    · exact absurd hf hnf

/-- The four ways in which a `translate` of an address in a page of the table returns: a
hit, a load into a free frame, the error return of a failed victim search, and the
eviction of a victim followed by the load into its frame. -/
theorem translate_cases (vm vm' : VirtualMemory) (a r : Nat)
    (ht : vm.translate a = some (vm', r)) (hp : a / vm.page_size < vm.num_virtual_pages) :
    ((vm.page_table.getD (a / vm.page_size) {}).valid = true ∧
      vm' = vm.touched (a / vm.page_size) ∧
      r = ((vm'.page_table.getD (a / vm.page_size) {}).frame_number * vm.page_size +
        a % vm.page_size) % SIZE_MOD) ∨
    ((vm.page_table.getD (a / vm.page_size) {}).valid = false ∧
      ∃ f, vm.findFreeFrame = some f ∧ vm' = vm.faulted.loadPage (a / vm.page_size) f ∧
      r = ((vm'.page_table.getD (a / vm.page_size) {}).frame_number * vm.page_size +
        a % vm.page_size) % SIZE_MOD) ∨
    ((vm.page_table.getD (a / vm.page_size) {}).valid = false ∧ vm.findFreeFrame = none ∧
      vm.faulted.selectVictimPage = some (vm', none) ∧ r = 0) ∨
    ((vm.page_table.getD (a / vm.page_size) {}).valid = false ∧ vm.findFreeFrame = none ∧
      ∃ vm2 v, vm.faulted.selectVictimPage = some (vm2, some v) ∧
      vm' = (vm2.evictPage (vm2.page_table.getD v {}).frame_number).loadPage (a / vm.page_size)
        (vm2.page_table.getD v {}).frame_number ∧
      r = ((vm'.page_table.getD (a / vm.page_size) {}).frame_number * vm'.page_size +
        a % vm.page_size) % SIZE_MOD) := by
  have hnot : ¬ vm.getPageNumber a ≥ vm.num_virtual_pages := by
    simp only [VirtualMemory.getPageNumber]
    omega
  unfold VirtualMemory.translate at ht
  simp only [if_neg hnot] at ht
  cases hv : (vm.page_table.getD (a / vm.page_size) {}).valid with
  | true =>
    left
    have hv' : ¬ ((!(vm.page_table.getD (vm.getPageNumber a) {}).valid) = true) := by
      simp only [VirtualMemory.getPageNumber, hv, Bool.not_true, Bool.false_eq_true,
        not_false_eq_true]
    rw [if_neg hv'] at ht
    simp only [Option.some.injEq, Prod.mk.injEq] at ht
    exact ⟨rfl, ht.1.symm, by rw [← ht.2, ← ht.1]; rfl⟩
  | false =>
    right
    have hv' : (!(vm.page_table.getD (vm.getPageNumber a) {}).valid) = true := by
      simp only [VirtualMemory.getPageNumber, hv, Bool.not_false]
    rw [if_pos hv'] at ht
    cases hfree : vm.findFreeFrame with
    | some f =>
      left
      have hfree' : VirtualMemory.findFreeFrame
          { vm with page_faults := (vm.page_faults + 1) % SIZE_MOD } = some f := hfree
      simp only [hfree'] at ht
      simp only [Option.some.injEq, Prod.mk.injEq] at ht
      exact ⟨rfl, f, rfl, ht.1.symm, by rw [← ht.2, ← ht.1]; rfl⟩
    | none =>
      right
      have hfree' : VirtualMemory.findFreeFrame
          { vm with page_faults := (vm.page_faults + 1) % SIZE_MOD } = none := hfree
      simp only [hfree'] at ht
      cases hsel : VirtualMemory.selectVictimPage
          { vm with page_faults := (vm.page_faults + 1) % SIZE_MOD } with
      | none => rw [hsel] at ht; simp at ht
      | some res =>
        obtain ⟨vm2, ov⟩ := res
        rw [hsel] at ht
        cases ov with
        | none =>
          left
          simp only [Option.some.injEq, Prod.mk.injEq] at ht
          refine ⟨rfl, rfl, ?_, ht.2.symm⟩
          rw [← ht.1]
          exact hsel
        | some v =>
          right
          simp only [Option.some.injEq, Prod.mk.injEq] at ht
          exact ⟨rfl, rfl, vm2, v, hsel, ht.1.symm, by rw [← ht.2, ← ht.1]; rfl⟩

theorem clockLoop_stamps : ∀ (fuel : Nat) (vm vm' : VirtualMemory) (v : Nat),
    VirtualMemory.clockLoop fuel vm = some (vm', v) →
    vm'.current_time = vm.current_time ∧
    (∀ q, (vm'.page_table.getD q {}).timestamp = (vm.page_table.getD q {}).timestamp) ∧
    (∀ q, (vm'.page_table.getD q {}).load_time = (vm.page_table.getD q {}).load_time) := by
  intro fuel
  induction fuel with
  | zero => intro vm vm' v h; simp [VirtualMemory.clockLoop] at h
  | succ fuel ih =>
    intro vm vm' v h
    simp only [VirtualMemory.clockLoop] at h
    split at h
    · exact absurd h (by simp)
    · rename_i page hpage
      split at h
      · split at h
        · simp only [Option.some.injEq, Prod.mk.injEq] at h
          obtain ⟨h1, h2⟩ := h
          subst h1
          exact ⟨rfl, fun _ => rfl, fun _ => rfl⟩
        · obtain ⟨a1, a2, a3⟩ := ih _ _ _ h
          refine ⟨a1, ?_, ?_⟩
          · intro q
            rw [a2 q]
            show ((modifyAt _ vm.page_table page).getD q {}).timestamp = _
            apply getD_modifyAt_proj _ PageTableEntry.timestamp
            intro e
            rfl
          · intro q
            rw [a3 q]
            show ((modifyAt _ vm.page_table page).getD q {}).load_time = _
            apply getD_modifyAt_proj _ PageTableEntry.load_time
            intro e
            rfl
      · obtain ⟨a1, a2, a3⟩ := ih _ _ _ h
        exact ⟨a1, a2, a3⟩

/-- What the victim search changes: nothing but the queue (FIFO), or the reference bits
and the hand (CLOCK). -/
theorem select_effect (vm vm2 : VirtualMemory) (ov : Option Nat)
    (hs : vm.selectVictimPage = some (vm2, ov)) :
    vm2.current_time = vm.current_time ∧ vm2.policy = vm.policy ∧
    (∀ q, (vm2.page_table.getD q {}).timestamp = (vm.page_table.getD q {}).timestamp) ∧
    (∀ q, (vm2.page_table.getD q {}).load_time = (vm.page_table.getD q {}).load_time) ∧
    (vm.policy = PageReplacementPolicy.FIFO → vm2.page_table = vm.page_table ∧
      ((ov = none ∧ vm.fifo_queue = [] ∧ vm2.fifo_queue = []) ∨
        ∃ v, ov = some v ∧ vm.fifo_queue = v :: vm2.fifo_queue)) ∧
    (vm.policy = PageReplacementPolicy.LRU → vm2 = vm ∧
      ov = VirtualMemory.lruScan vm.page_table 0 none vm.current_time) ∧
    (vm.policy ≠ PageReplacementPolicy.FIFO → vm2.fifo_queue = vm.fifo_queue) := by
  unfold VirtualMemory.selectVictimPage at hs
  by_cases hF : vm.policy = PageReplacementPolicy.FIFO
  · rw [hF] at hs
    simp only at hs
    obtain hq | ⟨x, rest, hq⟩ : vm.fifo_queue = [] ∨ ∃ x rest, vm.fifo_queue = x :: rest := by
      cases vm.fifo_queue with
      | nil => exact Or.inl rfl
      | cons x rest => exact Or.inr ⟨x, rest, rfl⟩
    · rw [hq] at hs
      simp only [Option.some.injEq, Prod.mk.injEq] at hs
      obtain ⟨h1, h2⟩ := hs
      subst h1
      refine ⟨rfl, rfl, fun _ => rfl, fun _ => rfl, ?_, ?_, ?_⟩
      · intro _
        exact ⟨rfl, Or.inl ⟨h2.symm, hq, hq⟩⟩
      · intro h
        rw [hF] at h
        cases h
      · intro h
        exact absurd hF h
    · rw [hq] at hs
      simp only [Option.some.injEq, Prod.mk.injEq] at hs
      obtain ⟨h1, h2⟩ := hs
      subst h1
      refine ⟨rfl, hF.symm, fun _ => rfl, fun _ => rfl, ?_, ?_, ?_⟩
      · intro _
        exact ⟨rfl, Or.inr ⟨x, h2.symm, hq⟩⟩
      · intro h
        rw [hF] at h
        cases h
      · intro h
        exact absurd hF h
  · by_cases hL : vm.policy = PageReplacementPolicy.LRU
    · rw [hL] at hs
      simp only [Option.some.injEq, Prod.mk.injEq] at hs
      obtain ⟨h1, h2⟩ := hs
      subst h1
      refine ⟨rfl, rfl, fun _ => rfl, fun _ => rfl, ?_, ?_, ?_⟩
      · intro h
        exact absurd h hF
      · intro _
        exact ⟨rfl, h2.symm⟩
      · intro _
        rfl
    · have hC : vm.policy = PageReplacementPolicy.CLOCK := by
        cases hpol : vm.policy with
        | FIFO => exact absurd hpol hF
        | LRU => exact absurd hpol hL
        | CLOCK => rfl
      rw [hC] at hs
      simp only at hs
      cases hc : VirtualMemory.clockLoop (2 * vm.num_physical_frames) vm with
      | none => rw [hc] at hs; simp at hs
      | some res =>
        rw [hc] at hs
        simp only [Option.map_some', Option.some.injEq, Prod.mk.injEq] at hs
        obtain ⟨r1, r2⟩ := res
        simp only at hs
        obtain ⟨h1, h2⟩ := hs
        subst h1
        obtain ⟨_, _, _, _, g5, g6, _, _⟩ := clockLoop_some _ _ _ _ hc
        obtain ⟨f1, f2, f3⟩ := clockLoop_stamps _ _ _ _ hc
        refine ⟨f1, g6, f2, f3, ?_, ?_, ?_⟩
        · intro h
          exact absurd h hF
        · intro h
          exact absurd h hL
        · intro _
          exact g5

/-- The key of a valid page read with `getD`. -/
theorem valid_of_key (pt : List PageTableEntry) (q f : Nat)
    (h : (pt.map PageTableEntry.key).get? q = some (true, f)) :
    (pt.getD q {}).valid = true ∧ (pt.getD q {}).frame_number = f := by
  rw [keys_get?] at h
  cases hg : pt.get? q with
  | none => rw [hg] at h; simp at h
  | some e =>
    rw [hg] at h
    simp only [Option.map_some', Option.some.injEq, PageTableEntry.key, Prod.mk.injEq] at h
    rw [getD_eq_get?, hg]
    exact h

theorem key_of_getD (pt : List PageTableEntry) (q : Nat)
    (h : (pt.getD q {}).valid = true) :
    (pt.map PageTableEntry.key).get? q = some (true, (pt.getD q {}).frame_number) := by
  rw [keys_get?]
  cases hg : pt.get? q with
  | none => rw [getD_eq_get?, hg] at h; simp at h
  | some e =>
    rw [getD_eq_get?, hg] at h ⊢
    simp only [Option.getD_some] at h ⊢
    simp [PageTableEntry.key, h]

/-- The eviction of the frame of a valid page invalidates exactly that page. -/
theorem evict_victim (vm : VirtualMemory) (h : VMInv vm) (v : Nat)
    (hv : (vm.page_table.getD v {}).valid = true) :
    (vm.evictPage (vm.page_table.getD v {}).frame_number).page_table =
      modifyAt (fun e => { e with valid := false }) vm.page_table v := by
  have hk := key_of_getD vm.page_table v hv
  have hftp := (h.frames.page_frame v _ hk).2
  have hold : vm.frame_to_page.getD (vm.page_table.getD v {}).frame_number 0 = v := by
    rw [getD_eq_get?, hftp]
    rfl
  simp only [VirtualMemory.evictPage, hold, hv, decide_True, Bool.and_self, ↓reduceIte]

/-- The stamp order is an invariant of `translate`. -/
theorem victimInv_translate (vm vm' : VirtualMemory) (a r : Nat) (h : VMInv vm)
    (hv : VictimInv vm) (ht : vm.translate a = some (vm', r)) : VictimInv vm' := by
  by_cases hp : a / vm.page_size < vm.num_virtual_pages
  swap
  · have hnot : vm.getPageNumber a ≥ vm.num_virtual_pages := by
      simp only [VirtualMemory.getPageNumber]
      omega
    unfold VirtualMemory.translate at ht
    simp only [if_pos hnot, Option.some.injEq, Prod.mk.injEq] at ht
    rw [← ht.1]
    exact hv
  have hplt : a / vm.page_size < vm.page_table.length := by rw [h.pt_len]; exact hp
  have hqv : ∀ q ∈ vm.fifo_queue, (vm.page_table.getD q {}).valid = true := by
    intro q hq
    obtain ⟨f, hf⟩ := h.queue_valid q hq
    exact (valid_of_key _ _ _ hf).1
  rcases translate_cases vm vm' a r ht hp with ⟨hval, hvm, _⟩ | ⟨hval, f, hfree, hvm, _⟩ |
    ⟨hval, hfree, hsel, _⟩ | ⟨hval, hfree, vm2, v, hsel, hvm, _⟩
  · rw [hvm]
    exact ⟨hv.hand, stampInv_hit _ _ _ _ _ hv.stamps hval⟩
  · rw [hvm]
    refine ⟨hv.hand, ?_⟩
    show StampInv (modifyAt _ vm.page_table _) (vm.current_time + 1)
      (if vm.policy = PageReplacementPolicy.FIFO then vm.fifo_queue ++ [a / vm.page_size]
        else vm.fifo_queue) (vm.policy = PageReplacementPolicy.FIFO)
    apply stampInv_load _ _ vm.fifo_queue _ _ _ _ hv.stamps hplt hqv hval
    by_cases hF : vm.policy = PageReplacementPolicy.FIFO
    · left; rw [if_pos hF]
    · right; rw [if_neg hF]; exact ⟨rfl, hF⟩
  · obtain ⟨e1, e2, e3, e4, e5, e6, e7⟩ := select_effect _ _ _ hsel
    obtain ⟨f1, f2, f3, f4, f5, f6, f7⟩ := select_frame _ _ _ hsel
    simp only [VirtualMemory.faulted] at e1 e2 e3 e4 e5 e6 e7 f1 f2 f3 f4 f5 f6 f7
    refine ⟨fun hpos => f7 (hv.hand (by rw [← f5]; exact hpos)), ?_⟩
    have hq2 : vm'.fifo_queue = vm.fifo_queue := by
      by_cases hF : vm.policy = PageReplacementPolicy.FIFO
      · rcases (e5 hF).2 with ⟨_, h1, h2⟩ | ⟨v, h1, _⟩
        · rw [h2]; exact h1.symm
        · cases h1
      · exact e7 hF
    rw [hq2, e1, e2]
    exact stampInv_congr _ _ _ _ _ hv.stamps f6 e3 e4
  · obtain ⟨e1, e2, e3, e4, e5, e6, e7⟩ := select_effect _ _ _ hsel
    obtain ⟨f1, f2, f3, f4, f5, f6, f7⟩ := select_frame _ _ _ hsel
    simp only [VirtualMemory.faulted] at e1 e2 e3 e4 e5 e6 e7 f1 f2 f3 f4 f5 f6 f7
    have h1 : VMInv vm.faulted := vmInv_congr vm _ h rfl rfl rfl rfl rfl rfl rfl
    obtain ⟨g1, g2, g3, g4⟩ := select_some _ _ _ h1 hsel
    obtain ⟨fv, hfv⟩ := g2
    have hvv := (valid_of_key _ _ _ hfv).1
    have hpt2 : vm2.page_table.length = vm.page_table.length := by
      have := congrArg List.length g4
      simpa using this
    have hS2 : StampInv vm2.page_table vm.current_time vm.fifo_queue
        (vm.policy = PageReplacementPolicy.FIFO) :=
      stampInv_congr _ _ _ _ _ hv.stamps f6 e3 e4
    have hsub : vm2.fifo_queue.Sublist vm.fifo_queue ∧
        ∀ q ∈ vm.fifo_queue, q ≠ v → q ∈ vm2.fifo_queue := by
      by_cases hF : vm.policy = PageReplacementPolicy.FIFO
      · rcases (e5 hF).2 with ⟨h1, _, _⟩ | ⟨v', h1, h2⟩
        · cases h1
        · simp only [Option.some.injEq] at h1
          subst h1
          have h2' : vm.fifo_queue = v :: vm2.fifo_queue := h2
          rw [h2']
          refine ⟨List.sublist_cons_self _ _, ?_⟩
          intro q hq hne
          rcases List.mem_cons.1 hq with hq | hq
          · exact absurd hq hne
          · exact hq
      · have := e7 hF
        have h2' : vm2.fifo_queue = vm.fifo_queue := this
        rw [h2']
        exact ⟨List.Sublist.refl _, fun q hq _ => hq⟩
    have hSE := stampInv_evict _ _ _ vm2.fifo_queue _ v hS2 hsub.1 hsub.2
    rw [hvm]
    refine ⟨?_, ?_⟩
    · intro hpos
      exact f7 (hv.hand (by
        have : vm2.num_physical_frames = vm.num_physical_frames := f5
        rw [← this]
        exact hpos))
    · show StampInv (modifyAt (fun e : PageTableEntry =>
          ({ valid := true, frame_number := (vm2.page_table.getD v {}).frame_number,
             dirty := e.dirty, reference := true, timestamp := vm2.current_time,
             load_time := vm2.current_time + 1 } : PageTableEntry))
          (vm2.evictPage (vm2.page_table.getD v {}).frame_number).page_table
          (a / vm.page_size))
        (vm2.current_time + 1)
        (if vm2.policy = PageReplacementPolicy.FIFO then vm2.fifo_queue ++ [a / vm.page_size]
          else vm2.fifo_queue) (vm2.policy = PageReplacementPolicy.FIFO)
      rw [evict_victim vm2 g1 v hvv]
      have hct : vm2.current_time = vm.current_time := e1
      have hpol : vm2.policy = vm.policy := e2
      rw [hct, hpol]
      apply stampInv_load _ _ vm2.fifo_queue _ _ _ _ hSE
      · rw [length_modifyAt, hpt2]
        exact hplt
      · intro q hq
        have hqv0 := hqv q (hsub.1.subset hq)
        have hqv2 : (vm2.page_table.getD q {}).valid = true := by
          rw [f6 q]
          exact hqv0
        have hne : q ≠ v := fun e => g3 (e ▸ hq)
        rw [getD_modifyAt_ne _ _ _ _ _ hne]
        exact hqv2
      · cases hc : ((modifyAt (fun e : PageTableEntry => { e with valid := false })
            vm2.page_table v).getD (a / vm.page_size) {}).valid with
        | false => rfl
        | true =>
          have := valid_modifyAt_clear _ _ _ hc
          rw [f6] at this
          have hval' : (vm.page_table.getD (a / vm.page_size) {}).valid = false := hval
          rw [hval'] at this
          cases this
      · by_cases hF : vm.policy = PageReplacementPolicy.FIFO
        · left; rw [if_pos hF]
        · right; rw [if_neg hF]; exact ⟨rfl, hF⟩

theorem victimInv_new (vb pb ps : Nat) (pol : PageReplacementPolicy) :
    VictimInv (VirtualMemory.new vb pb ps pol) := by
  have hfresh : ∀ q, ((VirtualMemory.new vb pb ps pol).page_table.getD q {}).valid = false := by
    intro q
    have hpt : (VirtualMemory.new vb pb ps pol).page_table =
        List.replicate (VirtualMemory.shiftOne vb / ps) {} := rfl
    rw [hpt, getD_eq_get?, List.get?_eq_getElem?, List.getElem?_replicate]
    split <;> rfl
  refine ⟨fun hpos => hpos, ?_, ?_, ?_, ?_, ?_⟩
  · intro q hq
    rw [hfresh] at hq
    cases hq
  · intro q q' hq
    rw [hfresh] at hq
    cases hq
  · intro q hq
    rw [hfresh] at hq
    cases hq
  · exact List.Pairwise.nil
  · intro _ q hq
    rw [hfresh] at hq
    cases hq

theorem victimInv_run : ∀ (addrs : List Nat) (vm vm' : VirtualMemory), VMInv vm →
    VictimInv vm → vm.run addrs = some vm' → VictimInv vm' := by
  intro addrs
  induction addrs with
  | nil =>
    intro vm vm' _ hv hr
    simp only [VirtualMemory.run, Option.some.injEq] at hr
    rw [← hr]
    exact hv
  | cons a rest ih =>
    intro vm vm' h hv hr
    simp only [VirtualMemory.run] at hr
    split at hr
    · exact absurd hr (by simp)
    · rename_i vm1 r1 ht
      exact ih vm1 vm' (vmInv_translate vm vm1 a r1 h ht) (victimInv_translate vm vm1 a r1 h hv ht)
        hr

/-- The constructor arguments and the table sizes never change. -/
theorem translate_fields (vm vm' : VirtualMemory) (a r : Nat)
    (ht : vm.translate a = some (vm', r)) :
    vm'.policy = vm.policy ∧ vm'.page_size = vm.page_size ∧
    vm'.num_virtual_pages = vm.num_virtual_pages ∧
    vm'.num_physical_frames = vm.num_physical_frames ∧
    vm'.physical_address_bits = vm.physical_address_bits ∧
    vm'.virtual_address_bits = vm.virtual_address_bits := by
  by_cases hp : a / vm.page_size < vm.num_virtual_pages
  swap
  · have hnot : vm.getPageNumber a ≥ vm.num_virtual_pages := by
      simp only [VirtualMemory.getPageNumber]
      omega
    unfold VirtualMemory.translate at ht
    simp only [if_pos hnot, Option.some.injEq, Prod.mk.injEq] at ht
    rw [← ht.1]
    exact ⟨rfl, rfl, rfl, rfl, rfl, rfl⟩
  have hbits : ∀ (vm vm2 : VirtualMemory) (ov : Option Nat),
      vm.selectVictimPage = some (vm2, ov) →
      vm2.physical_address_bits = vm.physical_address_bits ∧
      vm2.virtual_address_bits = vm.virtual_address_bits := by
    intro vm vm2 ov hs
    unfold VirtualMemory.selectVictimPage at hs
    cases hpol : vm.policy with
    | FIFO =>
      rw [hpol] at hs
      simp only at hs
      split at hs
      · simp only [Option.some.injEq, Prod.mk.injEq] at hs
        rw [← hs.1]
        exact ⟨rfl, rfl⟩
      · simp only [Option.some.injEq, Prod.mk.injEq] at hs
        rw [← hs.1]
        exact ⟨rfl, rfl⟩
    | LRU =>
      rw [hpol] at hs
      simp only [Option.some.injEq, Prod.mk.injEq] at hs
      rw [← hs.1]
      exact ⟨rfl, rfl⟩
    | CLOCK =>
      rw [hpol] at hs
      simp only at hs
      cases hc : VirtualMemory.clockLoop (2 * vm.num_physical_frames) vm with
      | none => rw [hc] at hs; simp at hs
      | some res =>
        rw [hc] at hs
        simp only [Option.map_some', Option.some.injEq, Prod.mk.injEq] at hs
        rw [← hs.1]
        have hloop : ∀ (fuel : Nat) (vm vm' : VirtualMemory) (v : Nat),
            VirtualMemory.clockLoop fuel vm = some (vm', v) →
            vm'.physical_address_bits = vm.physical_address_bits ∧
            vm'.virtual_address_bits = vm.virtual_address_bits := by
          intro fuel
          induction fuel with
          | zero => intro vm vm' v h; simp [VirtualMemory.clockLoop] at h
          | succ fuel ih =>
            intro vm vm' v h
            simp only [VirtualMemory.clockLoop] at h
            split at h
            · exact absurd h (by simp)
            · split at h
              · split at h
                · simp only [Option.some.injEq, Prod.mk.injEq] at h
                  rw [← h.1]
                  exact ⟨rfl, rfl⟩
                · obtain ⟨a1, a2⟩ := ih _ _ _ h
                  exact ⟨a1, a2⟩
              · obtain ⟨a1, a2⟩ := ih _ _ _ h
                exact ⟨a1, a2⟩
        exact hloop _ _ _ _ (by rw [hc])
  rcases translate_cases vm vm' a r ht hp with ⟨_, hvm, _⟩ | ⟨_, f, _, hvm, _⟩ |
    ⟨_, _, hsel, _⟩ | ⟨_, _, vm2, v, hsel, hvm, _⟩
  · rw [hvm]
    exact ⟨rfl, rfl, rfl, rfl, rfl, rfl⟩
  · rw [hvm]
    exact ⟨rfl, rfl, rfl, rfl, rfl, rfl⟩
  · obtain ⟨e1, e2, _⟩ := select_effect _ _ _ hsel
    obtain ⟨f1, f2, f3, f4, f5, _⟩ := select_frame _ _ _ hsel
    obtain ⟨b1, b2⟩ := hbits _ _ _ hsel
    exact ⟨e2, f3, f4, f5, b1, b2⟩
  · obtain ⟨e1, e2, _⟩ := select_effect _ _ _ hsel
    obtain ⟨f1, f2, f3, f4, f5, _⟩ := select_frame _ _ _ hsel
    obtain ⟨b1, b2⟩ := hbits _ _ _ hsel
    rw [hvm]
    exact ⟨e2, f3, f4, f5, b1, b2⟩

theorem run_fields : ∀ (addrs : List Nat) (vm vm' : VirtualMemory),
    vm.run addrs = some vm' →
    vm'.policy = vm.policy ∧ vm'.page_size = vm.page_size ∧
    vm'.num_virtual_pages = vm.num_virtual_pages ∧
    vm'.num_physical_frames = vm.num_physical_frames ∧
    vm'.physical_address_bits = vm.physical_address_bits ∧
    vm'.virtual_address_bits = vm.virtual_address_bits := by
  intro addrs
  induction addrs with
  | nil =>
    intro vm vm' hr
    simp only [VirtualMemory.run, Option.some.injEq] at hr
    rw [← hr]
    exact ⟨rfl, rfl, rfl, rfl, rfl, rfl⟩
  | cons a rest ih =>
    intro vm vm' hr
    simp only [VirtualMemory.run] at hr
    split at hr
    · exact absurd hr (by simp)
    · rename_i vm1 r1 ht
      obtain ⟨a1, a2, a3, a4, a5, a6⟩ := ih vm1 vm' hr
      obtain ⟨b1, b2, b3, b4, b5, b6⟩ := translate_fields vm vm1 a r1 ht
      exact ⟨a1.trans b1, a2.trans b2, a3.trans b3, a4.trans b4, a5.trans b5, a6.trans b6⟩

/-- Every state reached from the constructor satisfies both invariants. -/
theorem vm_reachable (vb pb ps : Nat) (pol : PageReplacementPolicy) (addrs : List Nat)
    (vm : VirtualMemory) (hr : (VirtualMemory.new vb pb ps pol).run addrs = some vm) :
    VMInv vm ∧ VictimInv vm ∧ vm.policy = pol ∧ vm.page_size = ps ∧
    vm.num_virtual_pages = VirtualMemory.shiftOne vb / ps ∧
    vm.num_physical_frames = VirtualMemory.shiftOne pb / ps ∧
    vm.physical_address_bits = pb := by
  obtain ⟨a1, a2, a3, a4, a5, _⟩ := run_fields addrs _ vm hr
  exact ⟨vmInv_run addrs _ vm (vmInv_new vb pb ps pol) hr,
    victimInv_run addrs _ vm (vmInv_new vb pb ps pol) (victimInv_new vb pb ps pol) hr,
    a1, a2, a3, a4, a5⟩

/-! ## Theorems: the victims of FIFO and LRU, and the bounds of `translate` -/

/-- The LRU scan returns its candidate when no valid entry is older than `t`, and else the
first valid entry with the least timestamp. -/
theorem lruScan_spec : ∀ (l : List PageTableEntry) (i : Nat) (cand : Option Nat) (t : Int),
    (VirtualMemory.lruScan l i cand t = cand ∧
      ∀ e ∈ l, e.valid = true → t ≤ e.timestamp) ∨
    (∃ j e, VirtualMemory.lruScan l i cand t = some (i + j) ∧ l.get? j = some e ∧
      e.valid = true ∧ e.timestamp < t ∧
      ∀ j' e', l.get? j' = some e' → e'.valid = true →
        e.timestamp ≤ e'.timestamp ∧ (j' < j → e.timestamp < e'.timestamp)) := by
  intro l
  induction l with
  | nil =>
    intro i cand t
    left
    exact ⟨rfl, fun e he => by simp at he⟩
  | cons c rest ih =>
    intro i cand t
    simp only [VirtualMemory.lruScan]
    split
    · rename_i hc
      simp only [Bool.and_eq_true, decide_eq_true_eq] at hc
      right
      rcases ih (i + 1) (some i) c.timestamp with ⟨h1, h2⟩ | ⟨j, e, h1, h2, h3, h4, h5⟩
      · refine ⟨0, c, by rw [h1]; rfl, rfl, hc.1, hc.2, ?_⟩
        intro j' e' he' hv'
        cases j' with
        | zero =>
          simp only [List.get?_cons_zero, Option.some.injEq] at he'
          subst he'
          exact ⟨le_refl _, fun h => absurd h (Nat.lt_irrefl 0)⟩
        | succ j'' =>
          have hm : e' ∈ rest := List.get?_mem (by simpa using he')
          exact ⟨h2 e' hm hv', fun h => absurd h (Nat.not_lt_zero _)⟩
      · refine ⟨j + 1, e, by rw [h1]; congr 1; omega, by simpa using h2, h3,
          lt_trans h4 hc.2, ?_⟩
        intro j' e' he' hv'
        cases j' with
        | zero =>
          simp only [List.get?_cons_zero, Option.some.injEq] at he'
          subst he'
          exact ⟨le_of_lt h4, fun _ => h4⟩
        | succ j'' =>
          have := h5 j'' e' (by simpa using he') hv'
          exact ⟨this.1, fun h => this.2 (by omega)⟩
    · rename_i hc
      simp only [Bool.and_eq_true, decide_eq_true_eq, not_and, not_lt] at hc
      rcases ih (i + 1) cand t with ⟨h1, h2⟩ | ⟨j, e, h1, h2, h3, h4, h5⟩
      · left
        refine ⟨h1, ?_⟩
        intro e he hv
        rcases List.mem_cons.1 he with heq | hmem
        · subst heq; exact hc hv
        · exact h2 e hmem hv
      · right
        refine ⟨j + 1, e, by rw [h1]; congr 1; omega, by simpa using h2, h3, h4, ?_⟩
        intro j' e' he' hv'
        cases j' with
        | zero =>
          simp only [List.get?_cons_zero, Option.some.injEq] at he'
          subst he'
          have : e.timestamp < c.timestamp := lt_of_lt_of_le h4 (hc hv')
          exact ⟨le_of_lt this, fun _ => this⟩
        | succ j'' =>
          have := h5 j'' e' (by simpa using he') hv'
          exact ⟨this.1, fun h => this.2 (by omega)⟩

/-- When no frame is free and there is a frame, some page is valid. -/
theorem exists_valid_of_full (vm : VirtualMemory) (h : VMInv vm)
    (hfree : vm.findFreeFrame = none) (hn : 1 ≤ vm.num_physical_frames) :
    ∃ p, (vm.page_table.getD p {}).valid = true := by
  have hall := findFreeFrameFrom_none _ 0 hfree
  have hlt : 0 < vm.frame_allocation.length := by rw [h.fa_len]; omega
  have hfa : vm.frame_allocation.get? 0 = some true := by
    rw [List.get?_eq_get hlt]
    exact congrArg some (hall _ (List.get_mem _ _ _))
  obtain ⟨p, _, hk⟩ := h.frames.frame_page 0 hfa
  exact ⟨p, (valid_of_key _ _ _ hk).1⟩

/-- The victim of LRU: the valid page with the least timestamp, whenever a page is
valid. -/
theorem lru_victim (pt : List PageTableEntry) (ct : Int) (queue : List Nat) (fifo : Prop)
    (h : StampInv pt ct queue fifo) (hex : ∃ p, (pt.getD p {}).valid = true) :
    ∃ v, VirtualMemory.lruScan pt 0 none ct = some v ∧ (pt.getD v {}).valid = true ∧
      ∀ q, (pt.getD q {}).valid = true → q ≠ v →
        (pt.getD v {}).timestamp < (pt.getD q {}).timestamp := by
  rcases lruScan_spec pt 0 none ct with ⟨_, h2⟩ | ⟨j, e, h1, h2, h3, h4, h5⟩
  · exfalso
    obtain ⟨p, hp⟩ := hex
    have hlt := getD_valid_lt pt p hp
    have hget : pt.get? p = some (pt.get ⟨p, hlt⟩) := List.get?_eq_get hlt
    have hD : pt.getD p {} = pt.get ⟨p, hlt⟩ := by rw [getD_eq_get?, hget]; rfl
    have := h2 _ (List.get_mem pt p hlt) (by rw [← hD]; exact hp)
    have := h.ts_lt p hp
    rw [hD] at this
    omega
  · have hD : pt.getD j {} = e := by rw [getD_eq_get?, h2]; rfl
    refine ⟨j, by rw [h1, Nat.zero_add], by rw [hD]; exact h3, ?_⟩
    intro q hq hne
    have hlt := getD_valid_lt pt q hq
    have hget : pt.get? q = some (pt.get ⟨q, hlt⟩) := List.get?_eq_get hlt
    have hDq : pt.getD q {} = pt.get ⟨q, hlt⟩ := by rw [getD_eq_get?, hget]; rfl
    have hle := (h5 q _ hget (by rw [← hDq]; exact hq)).1
    rw [hD, hDq]
    rcases lt_or_eq_of_le hle with hlt' | heq
    · exact hlt'
    · exfalso
      apply hne
      apply h.ts_inj q j hq (by rw [hD]; exact h3)
      rw [hD, hDq]
      exact heq.symm

/-- The victim of FIFO: the front of the queue, the valid page with the least load time,
whenever a page is valid. -/
theorem fifo_victim (pt : List PageTableEntry) (ct : Int) (queue : List Nat)
    (h : StampInv pt ct queue True) (hq : ∀ q ∈ queue, (pt.getD q {}).valid = true)
    (hex : ∃ p, (pt.getD p {}).valid = true) :
    ∃ v rest, queue = v :: rest ∧ (pt.getD v {}).valid = true ∧
      ∀ q, (pt.getD q {}).valid = true → q ≠ v →
        (pt.getD v {}).load_time < (pt.getD q {}).load_time := by
  obtain ⟨p, hp⟩ := hex
  have hpq := h.queue_complete trivial p hp
  cases hqueue : queue with
  | nil => rw [hqueue] at hpq; simp at hpq
  | cons v rest =>
    refine ⟨v, rest, rfl, hq v (by rw [hqueue]; exact List.mem_cons_self _ _), ?_⟩
    intro q hqv hne
    have hqm := h.queue_complete trivial q hqv
    rw [hqueue] at hqm
    rcases List.mem_cons.1 hqm with hqm | hqm
    · exact absurd hqm hne
    · have hs := h.queue_sorted
      rw [hqueue, List.map_cons, List.pairwise_cons] at hs
      exact hs.1 _ (List.mem_map.2 ⟨q, hqm, rfl⟩)

/-- With at least one frame and no free frame the victim search finds a victim. -/
theorem victim_exists (vm vm2 : VirtualMemory) (ov : Option Nat) (h : VMInv vm)
    (hv : VictimInv vm) (hfree : vm.findFreeFrame = none) (hn : 1 ≤ vm.num_physical_frames)
    (hsel : vm.selectVictimPage = some (vm2, ov)) : ∃ v, ov = some v := by
  have hex := exists_valid_of_full vm h hfree hn
  have hqv : ∀ q ∈ vm.fifo_queue, (vm.page_table.getD q {}).valid = true := by
    intro q hq
    obtain ⟨f, hf⟩ := h.queue_valid q hq
    exact (valid_of_key _ _ _ hf).1
  obtain ⟨_, _, _, _, e5, e6, _⟩ := select_effect _ _ _ hsel
  by_cases hF : vm.policy = PageReplacementPolicy.FIFO
  · rcases (e5 hF).2 with ⟨_, h2, _⟩ | ⟨v, h1, _⟩
    · exfalso
      obtain ⟨p, hp⟩ := hex
      have := hv.stamps.queue_complete hF p hp
      rw [h2] at this
      simp at this
    · exact ⟨v, h1⟩
  · by_cases hL : vm.policy = PageReplacementPolicy.LRU
    · obtain ⟨v, h1, _⟩ := lru_victim _ _ _ _ hv.stamps hex
      exact ⟨v, by rw [(e6 hL).2, h1]⟩
    · have hC : vm.policy = PageReplacementPolicy.CLOCK := by
        cases hpol : vm.policy with
        | FIFO => exact absurd hpol hF
        | LRU => exact absurd hpol hL
        | CLOCK => rfl
      unfold VirtualMemory.selectVictimPage at hsel
      rw [hC] at hsel
      simp only at hsel
      cases hc : VirtualMemory.clockLoop (2 * vm.num_physical_frames) vm with
      | none => rw [hc] at hsel; simp at hsel
      | some res =>
        rw [hc] at hsel
        simp only [Option.map_some', Option.some.injEq, Prod.mk.injEq] at hsel
        exact ⟨res.2, hsel.2.symm⟩

/-- The page table after the eviction of the valid page `v` and the load of another page
`p` into its frame. -/
theorem evict_load_table (vm : VirtualMemory) (h : VMInv vm) (v p : Nat)
    (hv : (vm.page_table.getD v {}).valid = true) (hp : p < vm.page_table.length)
    (hne : p ≠ v) :
    (((vm.evictPage (vm.page_table.getD v {}).frame_number).loadPage p
      (vm.page_table.getD v {}).frame_number).page_table.getD v {}).valid = false ∧
    ((vm.evictPage (vm.page_table.getD v {}).frame_number).loadPage p
      (vm.page_table.getD v {}).frame_number).page_table.getD p {} =
      { vm.page_table.getD p {} with
        valid := true
        frame_number := (vm.page_table.getD v {}).frame_number
        timestamp := vm.current_time
        load_time := vm.current_time + 1
        reference := true } ∧
    (∀ q, q ≠ v → q ≠ p →
      ((vm.evictPage (vm.page_table.getD v {}).frame_number).loadPage p
        (vm.page_table.getD v {}).frame_number).page_table.getD q {} =
        vm.page_table.getD q {}) := by
  have hpt : ((vm.evictPage (vm.page_table.getD v {}).frame_number).loadPage p
      (vm.page_table.getD v {}).frame_number).page_table =
      modifyAt (fun e : PageTableEntry =>
        ({ valid := true, frame_number := (vm.page_table.getD v {}).frame_number,
           dirty := e.dirty, reference := true, timestamp := vm.current_time,
           load_time := vm.current_time + 1 } : PageTableEntry))
        (modifyAt (fun e => { e with valid := false }) vm.page_table v) p := by
    rw [← evict_victim vm h v hv]
    rfl
  have hvlt := getD_valid_lt _ _ hv
  rw [hpt]
  refine ⟨?_, ?_, ?_⟩
  · rw [getD_modifyAt_ne _ _ _ _ _ (Ne.symm hne), getD_modifyAt_self _ _ _ _ hvlt]
  · rw [getD_modifyAt_self _ _ _ _ (by rw [length_modifyAt]; exact hp),
      getD_modifyAt_ne _ _ _ _ _ hne]
  · intro q h1 h2
    rw [getD_modifyAt_ne _ _ _ _ _ h2, getD_modifyAt_ne _ _ _ _ _ h1]


/-- The result of a `translate` that faults without a free frame and evicts the victim
`v` found by the victim search. -/
theorem translate_evict (vm vm2 : VirtualMemory) (a v : Nat)
    (hp : a / vm.page_size < vm.num_virtual_pages)
    (hval : (vm.page_table.getD (a / vm.page_size) {}).valid = false)
    (hfree : vm.findFreeFrame = none)
    (hsel : vm.faulted.selectVictimPage = some (vm2, some v)) :
    ∃ r, vm.translate a =
      some ((vm2.evictPage (vm2.page_table.getD v {}).frame_number).loadPage (a / vm.page_size)
        (vm2.page_table.getD v {}).frame_number, r) := by
  have hnot : ¬ vm.getPageNumber a ≥ vm.num_virtual_pages := by
    simp only [VirtualMemory.getPageNumber]
    omega
  have hv' : (!(vm.page_table.getD (vm.getPageNumber a) {}).valid) = true := by
    simp only [VirtualMemory.getPageNumber, hval, Bool.not_false]
  have hfree' : VirtualMemory.findFreeFrame
      { vm with page_faults := (vm.page_faults + 1) % SIZE_MOD } = none := hfree
  have hsel' : VirtualMemory.selectVictimPage
      { vm with page_faults := (vm.page_faults + 1) % SIZE_MOD } = some (vm2, some v) := hsel
  unfold VirtualMemory.translate
  simp only [if_neg hnot, hv', ↓reduceIte, hfree', hsel']
  exact ⟨_, rfl⟩

/-- The result of a `translate` that hits. -/
theorem translate_touch (vm : VirtualMemory) (a : Nat)
    (hp : a / vm.page_size < vm.num_virtual_pages)
    (hval : (vm.page_table.getD (a / vm.page_size) {}).valid = true) :
    ∃ r, vm.translate a = some (vm.touched (a / vm.page_size), r) := by
  have hnot : ¬ vm.getPageNumber a ≥ vm.num_virtual_pages := by
    simp only [VirtualMemory.getPageNumber]
    omega
  have hv' : ¬ ((!(vm.page_table.getD (vm.getPageNumber a) {}).valid) = true) := by
    simp only [VirtualMemory.getPageNumber, hval, Bool.not_true, Bool.false_eq_true,
      not_false_eq_true]
  unfold VirtualMemory.translate
  simp only [if_neg hnot, if_neg hv']
  exact ⟨_, rfl⟩

/-- The victim search of FIFO on a non-empty queue pops the front. -/
theorem select_fifo (vm : VirtualMemory) (v : Nat) (rest : List Nat)
    (hpol : vm.policy = PageReplacementPolicy.FIFO) (hq : vm.fifo_queue = v :: rest) :
    vm.selectVictimPage = some ({ vm with fifo_queue := rest }, some v) := by
  obtain ⟨vb, pb, ps, nv, n, pt, fa, ftp, pol, q, hand, ct, pf, ph⟩ := vm
  simp only at hpol hq
  subst hpol
  subst hq
  rfl

/-- Claim C32 (FIFO eviction order ignores hits).  In every state reached from the
constructor under FIFO: the queue lists exactly the valid pages, each once, with strictly
increasing load times; a hit changes neither the queue nor the validity or load time of
any page; and a `translate` that faults with no free frame (the engine having at least one
frame) evicts the front `v` of the queue, the valid page with the least load time, loads
the accessed page into the frame of `v` and appends it to the queue, all other pages
staying as they were. -/
theorem C32_fifo_eviction (virtual_bits physical_bits page_sz : Nat) (addrs : List Nat)
    (vm : VirtualMemory)
    (hr : (VirtualMemory.new virtual_bits physical_bits page_sz
      PageReplacementPolicy.FIFO).run addrs = some vm) :
    (vm.fifo_queue.Nodup ∧
      (∀ q, q ∈ vm.fifo_queue ↔ (vm.page_table.getD q {}).valid = true) ∧
      (vm.fifo_queue.map (fun q => (vm.page_table.getD q {}).load_time)).Pairwise
        (fun x y => x < y)) ∧
    (∀ a, a / vm.page_size < vm.num_virtual_pages →
      (vm.page_table.getD (a / vm.page_size) {}).valid = true →
      ∃ vm' r, vm.translate a = some (vm', r) ∧ vm'.fifo_queue = vm.fifo_queue ∧
        ∀ q, (vm'.page_table.getD q {}).valid = (vm.page_table.getD q {}).valid ∧
          (vm'.page_table.getD q {}).load_time = (vm.page_table.getD q {}).load_time) ∧
    (∀ a, a / vm.page_size < vm.num_virtual_pages →
      (vm.page_table.getD (a / vm.page_size) {}).valid = false →
      vm.findFreeFrame = none → 1 ≤ vm.num_physical_frames →
      ∃ v rest vm' r, vm.fifo_queue = v :: rest ∧
        (vm.page_table.getD v {}).valid = true ∧
        (∀ q, (vm.page_table.getD q {}).valid = true → q ≠ v →
          (vm.page_table.getD v {}).load_time < (vm.page_table.getD q {}).load_time) ∧
        vm.translate a = some (vm', r) ∧
        vm'.fifo_queue = rest ++ [a / vm.page_size] ∧
        (vm'.page_table.getD v {}).valid = false ∧
        (vm'.page_table.getD (a / vm.page_size) {}).valid = true ∧
        (vm'.page_table.getD (a / vm.page_size) {}).frame_number =
          (vm.page_table.getD v {}).frame_number ∧
        ∀ q, q ≠ v → q ≠ a / vm.page_size →
          vm'.page_table.getD q {} = vm.page_table.getD q {}) := by
  obtain ⟨h, hv, hpol, _⟩ := vm_reachable _ _ _ _ addrs vm hr
  have hqv : ∀ q ∈ vm.fifo_queue, (vm.page_table.getD q {}).valid = true := by
    intro q hq
    obtain ⟨f, hf⟩ := h.queue_valid q hq
    exact (valid_of_key _ _ _ hf).1
  refine ⟨⟨h.queue_nodup, fun q => ⟨hqv q, hv.stamps.queue_complete hpol q⟩,
    hv.stamps.queue_sorted⟩, ?_, ?_⟩
  · intro a hp hval
    obtain ⟨r, ht⟩ := translate_touch vm a hp hval
    refine ⟨vm.touched (a / vm.page_size), r, ht, rfl, ?_⟩
    · intro q
      constructor
      · show ((modifyAt _ vm.page_table _).getD q {}).valid = _
        apply getD_modifyAt_proj _ PageTableEntry.valid
        intro e
        rfl
      · show ((modifyAt _ vm.page_table _).getD q {}).load_time = _
        apply getD_modifyAt_proj _ PageTableEntry.load_time
        intro e
        rfl
  · intro a hp hval hfree hn
    have hstamps : StampInv vm.page_table vm.current_time vm.fifo_queue True := by
      have := hv.stamps
      rw [hpol] at this
      exact ⟨this.ts_lt, this.ts_inj, this.load_le, this.queue_sorted,
        fun _ => this.queue_complete rfl⟩
    obtain ⟨v, rest, hq, hvv, hmin⟩ := fifo_victim _ _ _ hstamps hqv
      (exists_valid_of_full vm h hfree hn)
    have hsel : vm.faulted.selectVictimPage =
        some ({ vm.faulted with fifo_queue := rest }, some v) :=
      select_fifo vm.faulted v rest hpol hq
    obtain ⟨r, ht⟩ := translate_evict vm _ a v hp hval hfree hsel
    have hne : a / vm.page_size ≠ v := by
      intro e
      rw [e, hvv] at hval
      cases hval
    have h2 : VMInv ({ vm.faulted with fifo_queue := rest } : VirtualMemory) :=
      (select_some _ _ _ (vmInv_congr vm vm.faulted h rfl rfl rfl rfl rfl rfl rfl) hsel).1
    obtain ⟨t1, t2, t3⟩ := evict_load_table _ h2 v (a / vm.page_size) hvv
      (by
        show a / vm.page_size < vm.page_table.length
        rw [h.pt_len]
        exact hp) hne
    refine ⟨v, rest, _, r, hq, hvv, hmin, ht, ?_, t1, ?_, ?_, fun q h1 h2 => t3 q h1 h2⟩
    · show (if vm.policy = PageReplacementPolicy.FIFO then rest ++ [a / vm.page_size]
        else rest) = _
      rw [if_pos hpol]
    · rw [t2]
    · rw [t2]
      rfl

/-- Witness of C32 on the FIFO engine with 2 frames and pages of 16 bytes after the
accesses 0, 16, 0, 0: page 0 was hit twice after its load and is still the front of the
queue, and the fault on page 2 evicts it. -/
theorem C32_fifo_eviction_witness :
    (VirtualMemory.new 6 5 16 PageReplacementPolicy.FIFO).run [0, 16, 0, 0] =
      some (((VirtualMemory.fifoTrace 6 1 2).touched 0).touched 0) ∧
    ((((VirtualMemory.fifoTrace 6 1 2).touched 0).touched 0).fifo_queue = [0, 1] ∧
      ((((VirtualMemory.fifoTrace 6 1 2).touched 0).touched 0).translate 32).map
        (fun r => (r.1.fifo_queue, r.1.page_table.map PageTableEntry.valid)) =
        some ([1, 2], [false, true, true, false])) ∧
    ((((VirtualMemory.fifoTrace 6 1 2).touched 0).touched 0).fifo_queue.Nodup ∧
      (∀ q, q ∈ (((VirtualMemory.fifoTrace 6 1 2).touched 0).touched 0).fifo_queue ↔
        ((((VirtualMemory.fifoTrace 6 1 2).touched 0).touched 0).page_table.getD q
          {}).valid = true) ∧
      ((((VirtualMemory.fifoTrace 6 1 2).touched 0).touched 0).fifo_queue.map (fun q =>
        ((((VirtualMemory.fifoTrace 6 1 2).touched 0).touched 0).page_table.getD q
          {}).load_time)).Pairwise (fun x y => x < y)) :=
  ⟨by decide, by decide,
    (C32_fifo_eviction 6 5 16 [0, 16, 0, 0] (((VirtualMemory.fifoTrace 6 1 2).touched 0).touched 0)
      (by decide)).1⟩

/-- The result of a `translate` that faults and takes a free frame. -/
theorem translate_load (vm : VirtualMemory) (a f : Nat)
    (hp : a / vm.page_size < vm.num_virtual_pages)
    (hval : (vm.page_table.getD (a / vm.page_size) {}).valid = false)
    (hfree : vm.findFreeFrame = some f) :
    ∃ r, vm.translate a = some (vm.faulted.loadPage (a / vm.page_size) f, r) := by
  have hnot : ¬ vm.getPageNumber a ≥ vm.num_virtual_pages := by
    simp only [VirtualMemory.getPageNumber]
    omega
  have hv' : (!(vm.page_table.getD (vm.getPageNumber a) {}).valid) = true := by
    simp only [VirtualMemory.getPageNumber, hval, Bool.not_false]
  have hfree' : VirtualMemory.findFreeFrame
      { vm with page_faults := (vm.page_faults + 1) % SIZE_MOD } = some f := hfree
  unfold VirtualMemory.translate
  simp only [if_neg hnot, hv', ↓reduceIte, hfree']
  exact ⟨_, rfl⟩

/-- The victim search of LRU is the scan of the page table. -/
theorem select_lru (vm : VirtualMemory) (hpol : vm.policy = PageReplacementPolicy.LRU) :
    vm.selectVictimPage =
      some (vm, VirtualMemory.lruScan vm.page_table 0 none vm.current_time) := by
  obtain ⟨vb, pb, ps, nv, n, pt, fa, ftp, pol, q, hand, ct, pf, ph⟩ := vm
  simp only at hpol
  subst hpol
  rfl

/-- The entry of the page loaded by `loadPage`, and the other entries. -/
theorem load_table (vm : VirtualMemory) (p f : Nat) (hp : p < vm.page_table.length) :
    (vm.loadPage p f).page_table.getD p {} =
      { vm.page_table.getD p {} with
        valid := true
        frame_number := f
        timestamp := vm.current_time
        load_time := vm.current_time + 1
        reference := true } ∧
    ∀ q, q ≠ p → (vm.loadPage p f).page_table.getD q {} = vm.page_table.getD q {} := by
  refine ⟨?_, ?_⟩
  · show (modifyAt _ vm.page_table p).getD p {} = _
    rw [getD_modifyAt_self _ _ _ _ hp]
  · intro q hq
    show (modifyAt _ vm.page_table p).getD q {} = _
    rw [getD_modifyAt_ne _ _ _ _ _ hq]

/-- Claim C33 (LRU eviction).  In every state reached from the constructor under LRU: the
timestamps of the valid pages lie below the clock and are pairwise different; every
`translate` that hits or loads stamps the accessed page with the clock value and advances
the clock, leaving all other timestamps alone, so the timestamp of a valid page is the
time of its most recent `translate`; and a `translate` that faults with no free frame
(the engine having at least one frame) finds a victim (the search does not return -1),
the valid page whose timestamp is strictly below that of every other valid page, evicts
it and loads the accessed page into its frame. -/
theorem C33_lru_eviction (virtual_bits physical_bits page_sz : Nat) (addrs : List Nat)
    (vm : VirtualMemory)
    (hr : (VirtualMemory.new virtual_bits physical_bits page_sz
      PageReplacementPolicy.LRU).run addrs = some vm) :
    ((∀ q, (vm.page_table.getD q {}).valid = true →
        (vm.page_table.getD q {}).timestamp < vm.current_time) ∧
      (∀ q q', (vm.page_table.getD q {}).valid = true → (vm.page_table.getD q' {}).valid = true →
        (vm.page_table.getD q {}).timestamp = (vm.page_table.getD q' {}).timestamp → q = q')) ∧
    (∀ a, a / vm.page_size < vm.num_virtual_pages →
      (vm.page_table.getD (a / vm.page_size) {}).valid = true →
      ∃ vm' r, vm.translate a = some (vm', r) ∧ vm'.current_time = vm.current_time + 1 ∧
        (vm'.page_table.getD (a / vm.page_size) {}).valid = true ∧
        (vm'.page_table.getD (a / vm.page_size) {}).timestamp = vm.current_time ∧
        ∀ q, q ≠ a / vm.page_size → vm'.page_table.getD q {} = vm.page_table.getD q {}) ∧
    (∀ a f, a / vm.page_size < vm.num_virtual_pages →
      (vm.page_table.getD (a / vm.page_size) {}).valid = false →
      vm.findFreeFrame = some f →
      ∃ vm' r, vm.translate a = some (vm', r) ∧ vm'.current_time = vm.current_time + 1 ∧
        (vm'.page_table.getD (a / vm.page_size) {}).valid = true ∧
        (vm'.page_table.getD (a / vm.page_size) {}).timestamp = vm.current_time ∧
        ∀ q, q ≠ a / vm.page_size → vm'.page_table.getD q {} = vm.page_table.getD q {}) ∧
    (∀ a, a / vm.page_size < vm.num_virtual_pages →
      (vm.page_table.getD (a / vm.page_size) {}).valid = false →
      vm.findFreeFrame = none → 1 ≤ vm.num_physical_frames →
      ∃ v vm' r, vm.faulted.selectVictimPage = some (vm.faulted, some v) ∧
        (vm.page_table.getD v {}).valid = true ∧
        (∀ q, (vm.page_table.getD q {}).valid = true → q ≠ v →
          (vm.page_table.getD v {}).timestamp < (vm.page_table.getD q {}).timestamp) ∧
        vm.translate a = some (vm', r) ∧ vm'.current_time = vm.current_time + 1 ∧
        (vm'.page_table.getD v {}).valid = false ∧
        (vm'.page_table.getD (a / vm.page_size) {}).valid = true ∧
        (vm'.page_table.getD (a / vm.page_size) {}).frame_number =
          (vm.page_table.getD v {}).frame_number ∧
        (vm'.page_table.getD (a / vm.page_size) {}).timestamp = vm.current_time ∧
        ∀ q, q ≠ v → q ≠ a / vm.page_size →
          vm'.page_table.getD q {} = vm.page_table.getD q {}) := by
  obtain ⟨h, hv, hpol, _⟩ := vm_reachable _ _ _ _ addrs vm hr
  refine ⟨⟨hv.stamps.ts_lt, hv.stamps.ts_inj⟩, ?_, ?_, ?_⟩
  · intro a hp hval
    obtain ⟨r, ht⟩ := translate_touch vm a hp hval
    have hlt := getD_valid_lt _ _ hval
    refine ⟨_, r, ht, rfl, ?_, ?_, ?_⟩
    · show ((modifyAt _ vm.page_table _).getD _ {}).valid = true
      rw [getD_modifyAt_self _ _ _ _ hlt]
      exact hval
    · show ((modifyAt _ vm.page_table _).getD _ {}).timestamp = _
      rw [getD_modifyAt_self _ _ _ _ hlt]
    · intro q hq
      show (modifyAt _ vm.page_table _).getD q {} = _
      rw [getD_modifyAt_ne _ _ _ _ _ hq]
  · intro a f hp hval hfree
    obtain ⟨r, ht⟩ := translate_load vm a f hp hval hfree
    obtain ⟨l1, l2⟩ := load_table vm.faulted (a / vm.page_size) f
      (by
        show a / vm.page_size < vm.page_table.length
        rw [h.pt_len]
        exact hp)
    refine ⟨_, r, ht, rfl, ?_, ?_, l2⟩
    · rw [l1]
    · rw [l1]
      rfl
  · intro a hp hval hfree hn
    obtain ⟨v, hscan, hvv, hmin⟩ := lru_victim _ _ _ _ hv.stamps
      (exists_valid_of_full vm h hfree hn)
    have hsel : vm.faulted.selectVictimPage = some (vm.faulted, some v) := by
      rw [select_lru vm.faulted hpol]
      show some (vm.faulted, VirtualMemory.lruScan vm.page_table 0 none vm.current_time) = _
      rw [hscan]
    obtain ⟨r, ht⟩ := translate_evict vm _ a v hp hval hfree hsel
    have hne : a / vm.page_size ≠ v := by
      intro e
      rw [e, hvv] at hval
      cases hval
    obtain ⟨t1, t2, t3⟩ := evict_load_table vm.faulted
      (vmInv_congr vm vm.faulted h rfl rfl rfl rfl rfl rfl rfl) v (a / vm.page_size) hvv
      (by
        show a / vm.page_size < vm.page_table.length
        rw [h.pt_len]
        exact hp) hne
    refine ⟨v, _, r, hsel, hvv, hmin, ht, rfl, t1, ?_, ?_, ?_, fun q h1 h2 => t3 q h1 h2⟩
    · rw [t2]
    · rw [t2]
      rfl
    · rw [t2]
      rfl

/-- Witness of C33 on the LRU engine with 2 frames and pages of 16 bytes after the
accesses 0, 16, 0: page 1 has the older timestamp, and the fault on page 2 evicts it. -/
theorem C33_lru_eviction_witness :
    (VirtualMemory.new 6 5 16 PageReplacementPolicy.LRU).run [0, 16, 0] =
      some VirtualMemory.lruScenario ∧
    (VirtualMemory.lruScenario.translate 32).map
        (fun r => r.1.page_table.map (fun e => (e.valid, e.frame_number, e.timestamp))) =
      some [(true, 0, 2), (false, 1, 1), (true, 1, 3), (false, 0, 0)] ∧
    (∀ q, (VirtualMemory.lruScenario.page_table.getD q {}).valid = true →
      (VirtualMemory.lruScenario.page_table.getD q {}).timestamp <
        VirtualMemory.lruScenario.current_time) ∧
    (∀ q q', (VirtualMemory.lruScenario.page_table.getD q {}).valid = true →
      (VirtualMemory.lruScenario.page_table.getD q' {}).valid = true →
      (VirtualMemory.lruScenario.page_table.getD q {}).timestamp =
        (VirtualMemory.lruScenario.page_table.getD q' {}).timestamp → q = q') :=
  ⟨by decide, by decide,
    (C33_lru_eviction 6 5 16 [0, 16, 0] VirtualMemory.lruScenario (by decide)).1⟩

/-- A frame found by `findFreeFrame` lies in the frame table. -/
theorem findFreeFrame_lt (vm : VirtualMemory) (h : VMInv vm) (f : Nat)
    (hfree : vm.findFreeFrame = some f) : f < vm.num_physical_frames := by
  obtain ⟨j, hj, hfa⟩ := findFreeFrameFrom_some _ _ _ hfree
  rw [Nat.zero_add] at hj
  subst hj
  rw [← h.fa_len]
  by_contra hcon
  rw [List.get?_eq_none.2 (by omega)] at hfa
  cases hfa

/-- The frame of a valid page lies in the frame table. -/
theorem valid_frame_lt (vm : VirtualMemory) (h : VMInv vm) (v : Nat)
    (hv : (vm.page_table.getD v {}).valid = true) :
    (vm.page_table.getD v {}).frame_number < vm.num_physical_frames := by
  have hk := key_of_getD vm.page_table v hv
  have hfa := (h.frames.page_frame _ _ hk).1
  rw [← h.fa_len]
  by_contra hcon
  rw [List.get?_eq_none.2 (by omega)] at hfa
  cases hfa

/-- The address returned by `translate` in a reachable state of an engine with at least
one frame and a `physical_bits` of at most 30, where `1 << physical_bits` is
`2 ^ physical_bits`: the frame of the page times `page_size` plus the offset, below
`num_physical_frames * page_size ≤ 2 ^ physical_bits`. -/
theorem translate_in_bounds (virtual_bits physical_bits page_sz : Nat)
    (pol : PageReplacementPolicy) (addrs : List Nat) (vm : VirtualMemory)
    (hr : (VirtualMemory.new virtual_bits physical_bits page_sz pol).run addrs = some vm)
    (hn : 1 ≤ vm.num_physical_frames) (hbits : physical_bits ≤ 30) (a : Nat)
    (hp : a / vm.page_size < vm.num_virtual_pages) :
    1 ≤ vm.page_size ∧
    vm.num_physical_frames * vm.page_size ≤ 2 ^ vm.physical_address_bits ∧
    ∃ vm' p, vm.translate a = some (vm', p) ∧
      (vm'.page_table.getD (a / vm.page_size) {}).valid = true ∧
      (vm'.page_table.getD (a / vm.page_size) {}).frame_number < vm.num_physical_frames ∧
      p = (vm'.page_table.getD (a / vm.page_size) {}).frame_number * vm.page_size +
        a % vm.page_size ∧
      p < vm.num_physical_frames * vm.page_size ∧ p % vm.page_size = a % vm.page_size := by
  obtain ⟨h, hv, hpol, hps, hnv, hnf, hpb⟩ := vm_reachable _ _ _ _ addrs vm hr
  have hps1 : 1 ≤ vm.page_size := by
    by_contra hcon
    have h0 : vm.page_size = 0 := by omega
    rw [hnf, ← hps, h0, Nat.div_zero] at hn
    omega
  have hshift : VirtualMemory.shiftOne physical_bits = 2 ^ physical_bits := by
    unfold VirtualMemory.shiftOne
    rw [if_neg (by omega)]
  have hpow : 2 ^ physical_bits < SIZE_MOD := by
    have h1 : 2 ^ physical_bits ≤ 2 ^ 30 := Nat.pow_le_pow_right (by norm_num) hbits
    have h2 := size_mod_eq
    norm_num at h1
    omega
  rw [hshift] at hnf
  have hle : vm.num_physical_frames * vm.page_size ≤ 2 ^ vm.physical_address_bits := by
    rw [hnf, hpb, hps]
    exact Nat.div_mul_le_self _ _
  have hplt : a / vm.page_size < vm.page_table.length := by rw [h.pt_len]; exact hp
  have hoff : a % vm.page_size < vm.page_size := Nat.mod_lt _ hps1
  have hfin : ∀ (vm' : VirtualMemory) (p : Nat), vm.translate a = some (vm', p) →
      (vm'.page_table.getD (a / vm.page_size) {}).valid = true →
      (vm'.page_table.getD (a / vm.page_size) {}).frame_number < vm.num_physical_frames →
      p = ((vm'.page_table.getD (a / vm.page_size) {}).frame_number * vm.page_size +
        a % vm.page_size) % SIZE_MOD →
      ∃ vm' p, vm.translate a = some (vm', p) ∧
        (vm'.page_table.getD (a / vm.page_size) {}).valid = true ∧
        (vm'.page_table.getD (a / vm.page_size) {}).frame_number < vm.num_physical_frames ∧
        p = (vm'.page_table.getD (a / vm.page_size) {}).frame_number * vm.page_size +
          a % vm.page_size ∧
        p < vm.num_physical_frames * vm.page_size ∧ p % vm.page_size = a % vm.page_size := by
    intro vm' p ht hvalid hframe hpeq
    have hmul : ((vm'.page_table.getD (a / vm.page_size) {}).frame_number + 1) * vm.page_size ≤
        vm.num_physical_frames * vm.page_size := Nat.mul_le_mul_right _ hframe
    rw [Nat.add_mul, Nat.one_mul] at hmul
    have hlt : (vm'.page_table.getD (a / vm.page_size) {}).frame_number * vm.page_size +
        a % vm.page_size < vm.num_physical_frames * vm.page_size := by omega
    have hpeq' : p = (vm'.page_table.getD (a / vm.page_size) {}).frame_number * vm.page_size +
        a % vm.page_size := by
      rw [hpeq, Nat.mod_eq_of_lt]
      rw [hpb] at hle
      omega
    refine ⟨vm', p, ht, hvalid, hframe, hpeq', by rw [hpeq']; exact hlt, ?_⟩
    rw [hpeq', Nat.add_comm, Nat.add_mul_mod_self_right, Nat.mod_mod]
  refine ⟨hps1, hle, ?_⟩
  cases hval : (vm.page_table.getD (a / vm.page_size) {}).valid with
  | true =>
    obtain ⟨r, ht⟩ := translate_touch vm a hp hval
    rcases translate_cases vm _ a r ht hp with ⟨_, _, hr'⟩ | ⟨hc, _⟩ | ⟨hc, _⟩ | ⟨hc, _⟩
    · have hfr : ((vm.touched (a / vm.page_size)).page_table.getD (a / vm.page_size)
          {}).frame_number = (vm.page_table.getD (a / vm.page_size) {}).frame_number := by
        show ((modifyAt _ vm.page_table _).getD _ {}).frame_number = _
        apply getD_modifyAt_proj _ PageTableEntry.frame_number
        intro e
        rfl
      have hvl : ((vm.touched (a / vm.page_size)).page_table.getD (a / vm.page_size)
          {}).valid = (vm.page_table.getD (a / vm.page_size) {}).valid := by
        show ((modifyAt _ vm.page_table _).getD _ {}).valid = _
        apply getD_modifyAt_proj _ PageTableEntry.valid
        intro e
        rfl
      exact hfin _ r ht (by rw [hvl]; exact hval)
        (by rw [hfr]; exact valid_frame_lt vm h _ hval) hr'
    · rw [hval] at hc; cases hc
    · rw [hval] at hc; cases hc
    · rw [hval] at hc; cases hc
  | false =>
    obtain ⟨vm', r, ht, _⟩ := translate_fault vm a h (hv.hand (by omega)) hp hval
    rcases translate_cases vm vm' a r ht hp with ⟨hc, _⟩ | ⟨_, f, hfree, hvm, hr'⟩ |
      ⟨_, hfree, hsel, _⟩ | ⟨_, hfree, vm2, v, hsel, hvm, hr'⟩
    · rw [hval] at hc; cases hc
    · obtain ⟨l1, _⟩ := load_table vm.faulted (a / vm.page_size) f hplt
      have hE : vm'.page_table.getD (a / vm.page_size) {} =
          (vm.faulted.loadPage (a / vm.page_size) f).page_table.getD (a / vm.page_size) {} := by
        rw [hvm]
      exact hfin vm' r ht (by rw [hE, l1]) (by
        rw [hE, l1]
        exact findFreeFrame_lt vm h f hfree) hr'
    · exfalso
      obtain ⟨v, hv'⟩ := victim_exists vm.faulted vm' none
        (vmInv_congr vm vm.faulted h rfl rfl rfl rfl rfl rfl rfl)
        ⟨hv.hand, hv.stamps⟩ hfree hn hsel
      cases hv'
    · have h1 : VMInv vm.faulted := vmInv_congr vm _ h rfl rfl rfl rfl rfl rfl rfl
      obtain ⟨g1, ⟨fv, hfv⟩, g3, g4⟩ := select_some _ _ _ h1 hsel
      obtain ⟨f1, f2, f3, f4, f5, f6, f7⟩ := select_frame _ _ _ hsel
      have hvv := (valid_of_key _ _ _ hfv).1
      have hpt2 : vm2.page_table.length = vm.page_table.length := by
        have := congrArg List.length g4
        simpa using this
      have hne : a / vm.page_size ≠ v := by
        intro e
        have := f6 v
        rw [hvv, ← e] at this
        have hval' : (vm.faulted.page_table.getD (a / vm.page_size) {}).valid = false := hval
        rw [hval'] at this
        cases this
      obtain ⟨_, t2, _⟩ := evict_load_table vm2 g1 v (a / vm.page_size) hvv
        (by rw [hpt2]; exact hplt) hne
      have hE : vm'.page_table.getD (a / vm.page_size) {} =
          ((vm2.evictPage (vm2.page_table.getD v {}).frame_number).loadPage (a / vm.page_size)
            (vm2.page_table.getD v {}).frame_number).page_table.getD (a / vm.page_size) {} := by
        rw [hvm]
      have hps' : vm'.page_size = vm.page_size := by
        rw [hvm]
        exact f3
      rw [hps'] at hr'
      exact hfin vm' r ht (by rw [hE, t2]) (by
        rw [hE, t2]
        have := valid_frame_lt vm2 g1 v hvv
        rw [f5] at this
        exact this) hr'

/-- The integrated pipeline on an engine with `physical_bits ≤ 30`: the pipeline
initialised with the parameters of the engine has a backing store of `2 ^ physical_bits`
words, and on every hierarchy over a store of that size its read and write hand the
address returned by `translate` to the hierarchy, an address inside the store. -/
theorem translate_in_bounds_pipeline (virtual_bits physical_bits page_sz : Nat)
    (pol : PageReplacementPolicy) (addrs : List Nat) (vm : VirtualMemory)
    (hr : (VirtualMemory.new virtual_bits physical_bits page_sz pol).run addrs = some vm)
    (hn : 1 ≤ vm.num_physical_frames) (hbits : physical_bits ≤ 30) (a : Nat)
    (hp : a / vm.page_size < vm.num_virtual_pages) :
    1 ≤ vm.page_size ∧
    vm.num_physical_frames * vm.page_size ≤ 2 ^ vm.physical_address_bits ∧
    ∃ vm' p, vm.translate a = some (vm', p) ∧
      (vm'.page_table.getD (a / vm.page_size) {}).valid = true ∧
      (vm'.page_table.getD (a / vm.page_size) {}).frame_number < vm.num_physical_frames ∧
      p = (vm'.page_table.getD (a / vm.page_size) {}).frame_number * vm.page_size +
        a % vm.page_size ∧
      p < vm.num_physical_frames * vm.page_size ∧ p % vm.page_size = a % vm.page_size ∧
      ∀ s, integratedInit virtual_bits physical_bits page_sz pol = some s →
        s.1 = VirtualMemory.new virtual_bits physical_bits page_sz pol ∧
        s.2.memory_size = 2 ^ vm.physical_address_bits ∧
        ∀ c : CacheHierarchy, c.memory_size = s.2.memory_size →
          p < c.memory_size ∧
          integratedRead (vm, c) a = some ((vm', (c.read p).1), (c.read p).2) ∧
          ∀ data, integratedWrite (vm, c) a data = some (vm', c.write p data) := by
  obtain ⟨h1, h2, vm', p, ht, g1, g2, g3, g4, g5⟩ :=
    translate_in_bounds virtual_bits physical_bits page_sz pol addrs vm hr hn hbits a hp
  obtain ⟨_, _, _, _, _, _, hpb⟩ := vm_reachable _ _ _ _ addrs vm hr
  refine ⟨h1, h2, vm', p, ht, g1, g2, g3, g4, g5, ?_⟩
  intro s hs
  unfold integratedInit at hs
  split at hs
  · simp only [Option.some.injEq] at hs
    subst hs
    have hmem : (((CacheHierarchy.new (2 ^ physical_bits)).addLevel 512 16 4
        ReplacementPolicy.LRU).addLevel 2048 32 8 ReplacementPolicy.LRU).memory_size =
        2 ^ vm.physical_address_bits := by
      rw [hpb]
      rfl
    refine ⟨rfl, hmem, ?_⟩
    intro c hc
    refine ⟨?_, ?_, ?_⟩
    · rw [hc, hmem]
      omega
    · simp only [integratedRead, ht]
    · intro data
      simp only [integratedWrite, ht]
  · exact absurd hs (by simp)

/-- The FIFO scenario (2 frames of 16 bytes, `physical_bits` 5): the address 37 in page 2,
mapped to frame 0, translates to 5, which is below the 32 words of the backing store of
the integrated pipeline. -/
theorem translate_in_bounds_scenario :
    (VirtualMemory.new 6 5 16 PageReplacementPolicy.FIFO).run [0, 16, 32, 0] =
      some VirtualMemory.scenario ∧
    (VirtualMemory.scenario.translate 37).map Prod.snd = some 5 ∧
    (integratedInit 6 5 16 PageReplacementPolicy.FIFO).map (fun s => s.2.memory_size) =
      some 32 ∧
    1 ≤ VirtualMemory.scenario.page_size ∧
    VirtualMemory.scenario.num_physical_frames * VirtualMemory.scenario.page_size ≤
      2 ^ VirtualMemory.scenario.physical_address_bits :=
  ⟨by decide, by decide, by decide,
    (translate_in_bounds_pipeline 6 5 16 PageReplacementPolicy.FIFO [0, 16, 32, 0]
      VirtualMemory.scenario (by decide) (by decide) (by decide) 37 (by decide)).1,
    (translate_in_bounds_pipeline 6 5 16 PageReplacementPolicy.FIFO [0, 16, 32, 0]
      VirtualMemory.scenario (by decide) (by decide) (by decide) 37 (by decide)).2.1⟩

/-- Claim C40 (`translate` stays inside physical memory) fails on the code at
`physical_bits = 31`.  The constructor computes `1 << 31` in `int`, which is `-2^31`, and
the conversion to `size_t` for the division gives `2^64 - 2^31`: the engine
`VirtualMemory(31, 31, 2^62, FIFO)` has `(2^64 - 2^31) / 2^62 = 3` pages and 3 frames of
`2^62` bytes.  After `translate(0)` has put page 0 into frame 0, `translate(2^62 + 3)`, an
address of page 1, loads page 1 into frame 1 and returns `1 * 2^62 + 3`.  The page number
is below `num_virtual_pages` and there is a frame, but neither the returned address nor
`num_physical_frames * page_size = 3 * 2^62` is within `2 ^ physical_bits = 2^31`. -/
theorem C40_translate_beyond_physical_bits :
    VirtualMemory.shiftOne 31 = 18446744071562067968 ∧
    ((VirtualMemory.new 31 31 4611686018427387904 PageReplacementPolicy.FIFO).num_virtual_pages,
      (VirtualMemory.new 31 31 4611686018427387904 PageReplacementPolicy.FIFO).num_physical_frames,
      (VirtualMemory.new 31 31 4611686018427387904 PageReplacementPolicy.FIFO).page_size,
      (VirtualMemory.new 31 31 4611686018427387904
        PageReplacementPolicy.FIFO).physical_address_bits) =
      (3, 3, 4611686018427387904, 31) ∧
    ((VirtualMemory.new 31 31 4611686018427387904 PageReplacementPolicy.FIFO).translate 0).map
      Prod.snd = some 0 ∧
    ((VirtualMemory.new 31 31 4611686018427387904 PageReplacementPolicy.FIFO).run [0]).bind
        (fun vm => (vm.translate 4611686018427387907).map
          (fun r => (r.2, (r.1.page_table.getD 1 {}).valid,
            (r.1.page_table.getD 1 {}).frame_number))) =
      some (4611686018427387907, true, 1) ∧
    4611686018427387907 / 4611686018427387904 < 3 ∧
    4611686018427387907 % 4611686018427387904 = 3 ∧
    ¬ (4611686018427387907 < 2 ^ 31) ∧
    ¬ (3 * 4611686018427387904 ≤ 2 ^ 31) := by
  refine ⟨by decide, by decide, by decide, by decide, by decide, by decide, by decide,
    by decide⟩

/-! ## Theorems: the CLOCK search -/

/-- The page recorded for an allocated frame is valid and mapped to that frame. -/
theorem clockReady_page (vm : VirtualMemory) (h : ClockReady vm) (f : Nat)
    (hf : f < vm.num_physical_frames) :
    (vm.page_table.getD (vm.frame_to_page.getD f 0) {}).valid = true ∧
    (vm.page_table.getD (vm.frame_to_page.getD f 0) {}).frame_number = f ∧
    vm.frame_to_page.get? f = some (vm.frame_to_page.getD f 0) := by
  have hfa : vm.frame_allocation.get? f = some true := by
    have hlt : f < vm.frame_allocation.length := by rw [h.fa_len]; exact hf
    rw [List.get?_eq_get hlt]
    exact congrArg some (h.full _ (List.get_mem _ _ _))
  obtain ⟨p, hp, hk⟩ := h.frames.frame_page f hfa
  have hD : vm.frame_to_page.getD f 0 = p := by rw [getD_eq_get?, hp]; rfl
  rw [hD]
  exact ⟨(valid_of_key _ _ _ hk).1, (valid_of_key _ _ _ hk).2, hp⟩

theorem frameAfter_zero (vm : VirtualMemory) (h : vm.clock_hand < vm.num_physical_frames) :
    vm.frameAfter 0 = vm.clock_hand := by
  simp only [VirtualMemory.frameAfter, Nat.add_zero]
  exact Nat.mod_eq_of_lt h

theorem frameAfter_lt (vm : VirtualMemory) (h : vm.clock_hand < vm.num_physical_frames)
    (j : Nat) : vm.frameAfter j < vm.num_physical_frames :=
  Nat.mod_lt _ (by omega)

/-- The frames fewer than `n` positions after the hand differ from the frame under the
hand; the frame `n` positions after it is the frame under the hand. -/
theorem frameAfter_ne (vm : VirtualMemory) (h : vm.clock_hand < vm.num_physical_frames)
    (j : Nat) (hj : 0 < j) (hjn : j < vm.num_physical_frames) :
    vm.frameAfter j ≠ vm.clock_hand := by
  simp only [VirtualMemory.frameAfter]
  by_cases hlt : vm.clock_hand + j < vm.num_physical_frames
  · rw [Nat.mod_eq_of_lt hlt]
    omega
  · rw [Nat.mod_eq_sub_mod (by omega), Nat.mod_eq_of_lt (by omega)]
    omega

theorem frameAfter_full (vm : VirtualMemory) (h : vm.clock_hand < vm.num_physical_frames) :
    vm.frameAfter vm.num_physical_frames = vm.clock_hand := by
  simp only [VirtualMemory.frameAfter, Nat.add_mod_right]
  exact Nat.mod_eq_of_lt h

/-- An iteration of the CLOCK loop on a frame whose page has its reference bit clear. -/
theorem clock_stop (vm : VirtualMemory) (h : ClockReady vm) (fuel : Nat)
    (href : vm.refAfter 0 = false) :
    VirtualMemory.clockLoop (fuel + 1) vm = some (vm.clockResult 0, vm.pageAfter 0) := by
  have h0 := frameAfter_zero vm h.hand
  obtain ⟨hv, hf, hget⟩ := clockReady_page vm h vm.clock_hand h.hand
  have hpage : vm.pageAfter 0 = vm.frame_to_page.getD vm.clock_hand 0 := by
    simp only [VirtualMemory.pageAfter, h0]
  simp only [VirtualMemory.refAfter, hpage] at href
  rw [hpage]
  simp only [VirtualMemory.clockLoop, hget, hv, hf, decide_True, Bool.and_self, ↓reduceIte, href,
    Bool.not_false]
  rfl

/-- An iteration of the CLOCK loop on a frame whose page has its reference bit set. -/
theorem clock_iter (vm : VirtualMemory) (h : ClockReady vm) (fuel : Nat)
    (href : vm.refAfter 0 = true) :
    VirtualMemory.clockLoop (fuel + 1) vm =
      VirtualMemory.clockLoop fuel
        { vm with
          page_table := modifyAt (fun e => { e with reference := false }) vm.page_table
            (vm.pageAfter 0)
          clock_hand := (vm.clock_hand + 1) % vm.num_physical_frames } := by
  have h0 := frameAfter_zero vm h.hand
  obtain ⟨hv, hf, hget⟩ := clockReady_page vm h vm.clock_hand h.hand
  have hpage : vm.pageAfter 0 = vm.frame_to_page.getD vm.clock_hand 0 := by
    simp only [VirtualMemory.pageAfter, h0]
  simp only [VirtualMemory.refAfter, hpage] at href
  rw [hpage]
  simp only [VirtualMemory.clockLoop, hget, hv, hf, decide_True, Bool.and_self, ↓reduceIte, href,
    Bool.not_true, Bool.false_eq_true]

theorem getD_clear (pt : List PageTableEntry) (p q : Nat) :
    (modifyAt (fun e : PageTableEntry => { e with reference := false }) pt p).getD q {} =
      if q = p then { pt.getD q {} with reference := false } else pt.getD q {} := by
  by_cases hq : q = p
  · subst hq
    rw [if_pos rfl, getD_eq_get?, getD_eq_get?, get?_modifyAt, if_pos rfl]
    cases pt.get? q with
    | none => rfl
    | some e => rfl
  · rw [if_neg hq, getD_modifyAt_ne _ _ _ _ _ hq]

/-- The entries of a page table after the reference bits of `pages` have been cleared. -/
theorem clearRefs_getD : ∀ (pages : List Nat) (pt : List PageTableEntry) (q : Nat),
    (VirtualMemory.clearRefs pt pages).getD q {} =
      if q ∈ pages then { pt.getD q {} with reference := false } else pt.getD q {} := by
  intro pages
  induction pages with
  | nil => intro pt q; simp [VirtualMemory.clearRefs]
  | cons p rest ih =>
    intro pt q
    have hstep : VirtualMemory.clearRefs pt (p :: rest) =
        VirtualMemory.clearRefs
          (modifyAt (fun e : PageTableEntry => { e with reference := false }) pt p) rest := rfl
    rw [hstep, ih, getD_clear]
    by_cases hr : q ∈ rest
    · have hm : q ∈ p :: rest := List.mem_cons_of_mem _ hr
      rw [if_pos hr, if_pos hm]
      by_cases hq : q = p
      · rw [if_pos hq]
      · rw [if_neg hq]
    · rw [if_neg hr]
      by_cases hq : q = p
      · have hm : q ∈ p :: rest := by rw [hq]; exact List.mem_cons_self _ _
        rw [if_pos hq, if_pos hm]
      · have hm : ¬ q ∈ p :: rest := by
          intro h
          rcases List.mem_cons.mp h with h | h
          · exact hq h
          · exact hr h
        rw [if_neg hq, if_neg hm]

theorem clearRefs_keys : ∀ (pages : List Nat) (pt : List PageTableEntry),
    (VirtualMemory.clearRefs pt pages).map PageTableEntry.key = pt.map PageTableEntry.key := by
  intro pages
  induction pages with
  | nil => intro pt; rfl
  | cons p rest ih =>
    intro pt
    have hstep : VirtualMemory.clearRefs pt (p :: rest) =
        VirtualMemory.clearRefs
          (modifyAt (fun e : PageTableEntry => { e with reference := false }) pt p) rest := rfl
    rw [hstep, ih]
    exact keys_modifyAt_same (fun e : PageTableEntry => { e with reference := false })
      (fun e => rfl) _ _

theorem clearRefs_length : ∀ (pages : List Nat) (pt : List PageTableEntry),
    (VirtualMemory.clearRefs pt pages).length = pt.length := by
  intro pages
  induction pages with
  | nil => intro pt; rfl
  | cons p rest ih =>
    intro pt
    have hstep : VirtualMemory.clearRefs pt (p :: rest) =
        VirtualMemory.clearRefs
          (modifyAt (fun e : PageTableEntry => { e with reference := false }) pt p) rest := rfl
    rw [hstep, ih, length_modifyAt]

theorem clockAdvance_frameAfter (vm : VirtualMemory) (j : Nat) :
    vm.clockAdvance.frameAfter j = vm.frameAfter (j + 1) := by
  show ((vm.clock_hand + 1) % vm.num_physical_frames + j) % vm.num_physical_frames =
    (vm.clock_hand + (j + 1)) % vm.num_physical_frames
  rw [Nat.mod_add_mod]
  congr 1
  omega

theorem clockAdvance_pageAfter (vm : VirtualMemory) (j : Nat) :
    vm.clockAdvance.pageAfter j = vm.pageAfter (j + 1) := by
  show vm.frame_to_page.getD (vm.clockAdvance.frameAfter j) 0 = _
  rw [clockAdvance_frameAfter]
  rfl

theorem clockAdvance_ready (vm : VirtualMemory) (h : ClockReady vm) :
    ClockReady vm.clockAdvance := by
  refine ⟨?_, h.fa_len, h.full, ?_⟩
  · show FrameInv ((modifyAt _ vm.page_table _).map PageTableEntry.key) vm.frame_allocation
      vm.frame_to_page
    rw [keys_modifyAt_same (fun e : PageTableEntry => { e with reference := false })
      (fun e => rfl)]
    exact h.frames
  · exact Nat.mod_lt _ (Nat.lt_of_le_of_lt (Nat.zero_le _) h.hand)

/-- The pages of two different frames are different. -/
theorem pageAfter_ne (vm : VirtualMemory) (h : ClockReady vm) (j : Nat) (hj : 0 < j)
    (hjn : j < vm.num_physical_frames) : vm.pageAfter j ≠ vm.pageAfter 0 := by
  intro heq
  have h1 := (clockReady_page vm h (vm.frameAfter j) (frameAfter_lt vm h.hand j)).2.1
  have h0 := (clockReady_page vm h (vm.frameAfter 0) (frameAfter_lt vm h.hand 0)).2.1
  have e1 : (vm.page_table.getD (vm.pageAfter j) {}).frame_number = vm.frameAfter j := h1
  have e0 : (vm.page_table.getD (vm.pageAfter 0) {}).frame_number = vm.frameAfter 0 := h0
  rw [heq, e0, frameAfter_zero vm h.hand] at e1
  exact frameAfter_ne vm h.hand j hj hjn e1.symm

theorem clockAdvance_refAfter (vm : VirtualMemory) (h : ClockReady vm) (j : Nat)
    (hj : j + 1 < vm.num_physical_frames) :
    vm.clockAdvance.refAfter j = vm.refAfter (j + 1) := by
  show ((modifyAt (fun e : PageTableEntry => { e with reference := false }) vm.page_table
    (vm.pageAfter 0)).getD (vm.clockAdvance.pageAfter j) {}).reference = _
  rw [clockAdvance_pageAfter, getD_clear, if_neg (pageAfter_ne vm h (j + 1) (by omega) hj)]
  rfl

theorem clockAdvance_refAfter_last (vm : VirtualMemory) (h : ClockReady vm) (j : Nat)
    (hj : j + 1 = vm.num_physical_frames) :
    vm.clockAdvance.refAfter j = false := by
  show ((modifyAt (fun e : PageTableEntry => { e with reference := false }) vm.page_table
    (vm.pageAfter 0)).getD (vm.clockAdvance.pageAfter j) {}).reference = _
  have hp : vm.pageAfter (j + 1) = vm.pageAfter 0 := by
    simp only [VirtualMemory.pageAfter]
    rw [hj, frameAfter_full vm h.hand, frameAfter_zero vm h.hand]
  rw [clockAdvance_pageAfter, hp, getD_clear, if_pos rfl]

theorem clockAdvance_result (vm : VirtualMemory) (k : Nat) :
    vm.clockAdvance.clockResult k = vm.clockResult (k + 1) := by
  have hpages : (List.range (k + 1)).map vm.pageAfter =
      vm.pageAfter 0 :: (List.range k).map vm.clockAdvance.pageAfter := by
    rw [List.range_succ_eq_map, List.map_cons, List.map_map]
    congr 1
    apply List.map_congr_left
    intro j _
    exact (clockAdvance_pageAfter vm j).symm
  have hhand : (vm.clockAdvance.clock_hand + k + 1) % vm.clockAdvance.num_physical_frames =
      (vm.clock_hand + (k + 1) + 1) % vm.num_physical_frames := by
    show ((vm.clock_hand + 1) % vm.num_physical_frames + k + 1) % vm.num_physical_frames =
      (vm.clock_hand + (k + 1) + 1) % vm.num_physical_frames
    rw [Nat.add_assoc, Nat.mod_add_mod]
    congr 1
    omega
  simp only [VirtualMemory.clockResult, hpages]
  rw [hhand]
  rfl

/-- The CLOCK search, exactly: when the first `k` frames from the hand hold pages with
the reference bit set and the next one (if `k` is below the number of frames) holds a
page with the bit clear, the loop returns in its iteration `k + 1`. -/
theorem clockLoop_exact : ∀ (k : Nat) (vm : VirtualMemory), ClockReady vm →
    k ≤ vm.num_physical_frames →
    (∀ j, j < k → vm.refAfter j = true) →
    (k < vm.num_physical_frames → vm.refAfter k = false) →
    ∀ extra, VirtualMemory.clockLoop (k + 1 + extra) vm =
      some (vm.clockResult k, vm.pageAfter k) := by
  intro k
  induction k with
  | zero =>
    intro vm h _ _ hclear extra
    have hfuel : 0 + 1 + extra = extra + 1 := by omega
    rw [hfuel]
    exact clock_stop vm h extra (hclear (Nat.lt_of_le_of_lt (Nat.zero_le _) h.hand))
  | succ k ih =>
    intro vm h hk hset hclear extra
    have hfuel : k + 1 + 1 + extra = (k + 1 + extra) + 1 := by omega
    rw [hfuel, clock_iter vm h _ (hset 0 (by omega))]
    have hstep := ih vm.clockAdvance (clockAdvance_ready vm h) (by
        show k ≤ vm.num_physical_frames
        omega)
      (fun j hj => by
        rw [clockAdvance_refAfter vm h j (by omega)]
        exact hset (j + 1) (by omega))
      (fun hlt => by
        have hlt' : k < vm.num_physical_frames := hlt
        by_cases hlast : k + 1 = vm.num_physical_frames
        · exact clockAdvance_refAfter_last vm h k hlast
        · rw [clockAdvance_refAfter vm h k (by omega)]
          exact hclear (by omega))
      extra
    rw [clockAdvance_result, clockAdvance_pageAfter] at hstep
    exact hstep

theorem select_clock (vm : VirtualMemory) (hpol : vm.policy = PageReplacementPolicy.CLOCK) :
    vm.selectVictimPage =
      (VirtualMemory.clockLoop (2 * vm.num_physical_frames) vm).map
        (fun r => (r.1, some r.2)) := by
  obtain ⟨vb, pb, ps, nv, n, pt, fa, ftp, pol, q, hand, ct, pf, ph⟩ := vm
  simp only at hpol
  subst hpol
  rfl

/-- The number of frames the hand passes over: the position of the first frame from the
hand whose page has its reference bit clear, or the number of frames when there is none. -/
theorem clock_prefix (vm : VirtualMemory) :
    ∃ k, k ≤ vm.num_physical_frames ∧ (∀ j, j < k → vm.refAfter j = true) ∧
      (k < vm.num_physical_frames → vm.refAfter k = false) := by
  by_cases hex : ∃ j, j < vm.num_physical_frames ∧ vm.refAfter j = false
  · refine ⟨Nat.find hex, Nat.le_of_lt (Nat.find_spec hex).1, ?_, fun _ => (Nat.find_spec hex).2⟩
    intro j hj
    have hmin := Nat.find_min hex hj
    have hjn : j < vm.num_physical_frames := Nat.lt_trans hj (Nat.find_spec hex).1
    cases hb : vm.refAfter j with
    | true => rfl
    | false => exact absurd ⟨hjn, hb⟩ hmin
  · refine ⟨vm.num_physical_frames, Nat.le_refl _, ?_, fun h => absurd h (Nat.lt_irrefl _)⟩
    intro j hj
    cases hb : vm.refAfter j with
    | true => rfl
    | false => exact absurd ⟨j, hj, hb⟩ hex

/-- Claim C34 (CLOCK second chance).  In every state reached from the constructor under
CLOCK with at least one frame and every frame allocated, the hand `h` lies inside the
frame table and there is a number `k` of at most `n` frames such that: the pages of the
first `k` frames from the hand in circular order have the reference bit set and, if `k`
is below `n`, the page of the next frame has it clear (if `k` is `n` that next frame is
the frame `h` itself); the search loop returns in its iteration `k + 1`, which is at most
`2 * n`, so `selectVictimPage` returns; the victim is the valid page of the frame
`(h + k) mod n`; the search clears the reference bit of the pages of the `k` frames it
passed over and changes no other entry of the page table; the hand is left one past the
victim frame modulo `n`; and a `translate` that faults evicts that page and loads the
accessed page into its frame. -/
theorem C34_clock_second_chance (virtual_bits physical_bits page_sz : Nat) (addrs : List Nat)
    (vm : VirtualMemory)
    (hr : (VirtualMemory.new virtual_bits physical_bits page_sz
      PageReplacementPolicy.CLOCK).run addrs = some vm)
    (hn : 1 ≤ vm.num_physical_frames) (hfull : vm.findFreeFrame = none) :
    vm.clock_hand < vm.num_physical_frames ∧
    ∃ k, k ≤ vm.num_physical_frames ∧ k + 1 ≤ 2 * vm.num_physical_frames ∧
      (∀ j, j < k → vm.refAfter j = true) ∧
      (k < vm.num_physical_frames → vm.refAfter k = false) ∧
      (k = vm.num_physical_frames → vm.frameAfter k = vm.clock_hand) ∧
      (∀ extra, VirtualMemory.clockLoop (k + 1 + extra) vm =
        some (vm.clockResult k, vm.pageAfter k)) ∧
      vm.selectVictimPage = some (vm.clockResult k, some (vm.pageAfter k)) ∧
      (vm.page_table.getD (vm.pageAfter k) {}).valid = true ∧
      (vm.page_table.getD (vm.pageAfter k) {}).frame_number = vm.frameAfter k ∧
      (vm.clockResult k).clock_hand = (vm.frameAfter k + 1) % vm.num_physical_frames ∧
      (∀ q, (vm.clockResult k).page_table.getD q {} =
        if q ∈ (List.range k).map vm.pageAfter
        then { vm.page_table.getD q {} with reference := false }
        else vm.page_table.getD q {}) ∧
      (∀ a, a / vm.page_size < vm.num_virtual_pages →
        (vm.page_table.getD (a / vm.page_size) {}).valid = false →
        ∃ vm' r, vm.translate a = some (vm', r) ∧
          (vm'.page_table.getD (vm.pageAfter k) {}).valid = false ∧
          (vm'.page_table.getD (a / vm.page_size) {}).valid = true ∧
          (vm'.page_table.getD (a / vm.page_size) {}).frame_number = vm.frameAfter k ∧
          vm'.clock_hand = (vm.frameAfter k + 1) % vm.num_physical_frames ∧
          ∀ q, q ≠ vm.pageAfter k → q ≠ a / vm.page_size →
            vm'.page_table.getD q {} =
              if q ∈ (List.range k).map vm.pageAfter
              then { vm.page_table.getD q {} with reference := false }
              else vm.page_table.getD q {}) := by
  obtain ⟨h, hv, hpol, _⟩ := vm_reachable _ _ _ _ addrs vm hr
  have hhand : vm.clock_hand < vm.num_physical_frames := hv.hand hn
  have hready : ClockReady vm :=
    ⟨h.frames, h.fa_len, findFreeFrameFrom_none _ _ hfull, hhand⟩
  obtain ⟨k, hk, hset, hclear⟩ := clock_prefix vm
  have hloop := clockLoop_exact k vm hready hk hset hclear
  have hk2 : k + 1 ≤ 2 * vm.num_physical_frames := by omega
  obtain ⟨pv0, pf0, _⟩ := clockReady_page vm hready (vm.frameAfter k) (frameAfter_lt vm hhand k)
  have pv : (vm.page_table.getD (vm.pageAfter k) {}).valid = true := pv0
  have pf : (vm.page_table.getD (vm.pageAfter k) {}).frame_number = vm.frameAfter k := pf0
  have hnext : (vm.clock_hand + k + 1) % vm.num_physical_frames =
      (vm.frameAfter k + 1) % vm.num_physical_frames := by
    show _ = ((vm.clock_hand + k) % vm.num_physical_frames + 1) % vm.num_physical_frames
    rw [Nat.mod_add_mod]
  have hsel : ∀ w : VirtualMemory, w.policy = PageReplacementPolicy.CLOCK →
      w.num_physical_frames = vm.num_physical_frames →
      (∀ extra, VirtualMemory.clockLoop (k + 1 + extra) w =
        some (w.clockResult k, w.pageAfter k)) →
      w.selectVictimPage = some (w.clockResult k, some (w.pageAfter k)) := by
    intro w hw hwn hl
    have hfuel : 2 * w.num_physical_frames = k + 1 + (2 * w.num_physical_frames - (k + 1)) := by
      omega
    rw [select_clock w hw, hfuel, hl]
    rfl
  refine ⟨hhand, k, hk, hk2, hset, hclear, ?_, hloop, hsel vm hpol rfl hloop, pv, pf, hnext,
    fun q => clearRefs_getD _ _ q, ?_⟩
  · intro hkn
    rw [hkn]
    exact frameAfter_full vm hhand
  · intro a hp hval
    have hready' : ClockReady vm.faulted := ⟨h.frames, h.fa_len, hready.full, hhand⟩
    have hloop' := clockLoop_exact k vm.faulted hready' hk hset hclear
    have hsel' := hsel vm.faulted hpol rfl hloop'
    have hpage : vm.faulted.pageAfter k = vm.pageAfter k := rfl
    rw [hpage] at hsel'
    obtain ⟨r, ht⟩ := translate_evict vm _ a (vm.pageAfter k) hp hval hfull hsel'
    have hinv2 : VMInv (vm.faulted.clockResult k) :=
      vmInv_congr vm _ h (clearRefs_keys _ _) rfl rfl rfl rfl rfl rfl
    have hentry : ∀ q, (vm.faulted.clockResult k).page_table.getD q {} =
        if q ∈ (List.range k).map vm.pageAfter
        then { vm.page_table.getD q {} with reference := false }
        else vm.page_table.getD q {} := fun q => clearRefs_getD _ _ q
    have hvalid2 : ((vm.faulted.clockResult k).page_table.getD (vm.pageAfter k) {}).valid
        = true := by
      rw [hentry]
      split
      · exact pv
      · exact pv
    have hframe2 : ((vm.faulted.clockResult k).page_table.getD (vm.pageAfter k) {}).frame_number
        = vm.frameAfter k := by
      rw [hentry]
      split
      · exact pf
      · exact pf
    have hlen : a / vm.page_size < (vm.faulted.clockResult k).page_table.length := by
      show a / vm.page_size < (VirtualMemory.clearRefs vm.page_table _).length
      rw [clearRefs_length, h.pt_len]
      exact hp
    have hne : a / vm.page_size ≠ vm.pageAfter k := by
      intro he
      rw [he, pv] at hval
      exact Bool.noConfusion hval
    obtain ⟨e1, e2, e3⟩ := evict_load_table (vm.faulted.clockResult k) hinv2 (vm.pageAfter k)
      (a / vm.page_size) hvalid2 hlen hne
    rw [hframe2] at e1 e2 e3
    rw [hframe2] at ht
    refine ⟨_, r, ht, e1, ?_, ?_, hnext, ?_⟩
    · rw [e2]
    · rw [e2]
    · intro q hq1 hq2
      rw [e3 q hq1 hq2]
      exact hentry q

/-- Witness of C34 on the CLOCK engine with 2 frames after the accesses 0, 16: both
reference bits are set, the search returns in its third iteration with page 0 and leaves
the hand at frame 1. -/
theorem C34_clock_second_chance_witness :
    (VirtualMemory.new 6 5 16 PageReplacementPolicy.CLOCK).run [0, 16] =
      some VirtualMemory.clockScenario ∧
    VirtualMemory.clockScenario.selectVictimPage =
      some (VirtualMemory.clockScenario.clockResult 2, some 0) ∧
    (VirtualMemory.clockScenario.clockResult 2).clock_hand = 1 ∧
    VirtualMemory.clockScenario.clock_hand < VirtualMemory.clockScenario.num_physical_frames :=
  ⟨by decide, by decide, by decide,
    (C34_clock_second_chance 6 5 16 [0, 16] VirtualMemory.clockScenario (by decide)
      (by decide) (by decide)).1⟩


/-! ## Theorems: termination of the buddy merge loop -/

theorem mapFind_none_of_lt {α : Type} (k : Nat) : ∀ (m : List (Nat × α)),
    (∀ x ∈ m.map Prod.fst, k < x) → mapFind k m = none := by
  intro m
  induction m with
  | nil => intro _; rfl
  | cons c rest ih =>
    intro h
    obtain ⟨k', v'⟩ := c
    have hk : k < k' := h k' (by simp)
    have hne : ¬ k' = k := by omega
    simp only [mapFind, if_neg hne]
    exact ih (fun x hx => h x (by
      simp only [List.map_cons, List.mem_cons]
      exact Or.inr hx))

theorem keys_mapInsert {α : Type} (k : Nat) (v : α) (m : List (Nat × α)) (x : Nat)
    (hx : x ∈ (mapInsert k v m).map Prod.fst) : x = k ∨ x ∈ m.map Prod.fst := by
  obtain ⟨e, he, rfl⟩ := List.mem_map.1 hx
  rcases mem_mapInsert k v m e he with h | h
  · left; rw [h]
  · right; exact List.mem_map.2 ⟨e, h, rfl⟩

theorem keysSorted_mapInsert (k : Nat) (v : List BuddyBlock) : ∀ (fl : FreeLists),
    KeysSorted fl → KeysSorted (mapInsert k v fl) := by
  intro fl
  induction fl with
  | nil => intro _; simp [KeysSorted, mapInsert]
  | cons c rest ih =>
    intro h
    obtain ⟨k', v'⟩ := c
    have h' : (∀ x ∈ rest.map Prod.fst, k' < x) ∧ KeysSorted rest := by
      simpa [KeysSorted] using h
    obtain ⟨h1, h2⟩ := h'
    simp only [mapInsert]
    split
    · rename_i hlt
      show ((k :: k' :: rest.map Prod.fst)).Pairwise _
      refine List.Pairwise.cons ?_ h
      intro y hy
      rcases List.mem_cons.1 hy with hy | hy
      · omega
      · have := h1 y hy
        omega
    · split
      · rename_i hlt heq
        show ((k :: rest.map Prod.fst)).Pairwise _
        refine List.Pairwise.cons ?_ h2
        intro y hy
        have := h1 y hy
        omega
      · rename_i hlt hne
        show ((k' :: (mapInsert k v rest).map Prod.fst)).Pairwise _
        refine List.Pairwise.cons ?_ (ih h2)
        intro y hy
        rcases keys_mapInsert k v rest y hy with hy | hy
        · omega
        · exact h1 y hy

/-- The number of free blocks after `free_lists[k] = v`. -/
theorem freeCount_mapInsert (k : Nat) (v : List BuddyBlock) : ∀ (fl : FreeLists),
    KeysSorted fl →
    BuddyAllocator.freeCount (mapInsert k v fl) + (bucket fl k).length =
      BuddyAllocator.freeCount fl + v.length := by
  intro fl
  induction fl with
  | nil => intro _; simp [BuddyAllocator.freeCount, mapInsert, bucket, mapFind]
  | cons c rest ih =>
    intro h
    obtain ⟨k', v'⟩ := c
    have h' : (∀ x ∈ rest.map Prod.fst, k' < x) ∧ KeysSorted rest := by
      simpa [KeysSorted] using h
    obtain ⟨h1, h2⟩ := h'
    simp only [mapInsert]
    split
    · rename_i hlt
      have hnone : mapFind k ((k', v') :: rest) = none := by
        apply mapFind_none_of_lt
        intro x hx
        simp only [List.map_cons, List.mem_cons] at hx
        rcases hx with hx | hx
        · omega
        · have := h1 x hx
          omega
      simp only [bucket, hnone, BuddyAllocator.freeCount, List.map_cons, List.sum_cons,
        Option.getD_none, List.length_nil]
      omega
    · split
      · rename_i hlt heq
        subst heq
        simp only [bucket, mapFind, BuddyAllocator.freeCount, List.map_cons, List.sum_cons,
          if_true, Option.getD_some]
        omega
      · rename_i hlt hne
        have hne' : ¬ k' = k := fun e => hne e.symm
        have hb : bucket ((k', v') :: rest) k = bucket rest k := by
          simp only [bucket, mapFind, if_neg hne']
        have := ih h2
        rw [hb]
        simp only [BuddyAllocator.freeCount, List.map_cons, List.sum_cons] at this ⊢
        omega

theorem keysSorted_touch (k : Nat) (fl : FreeLists) (h : KeysSorted fl) :
    KeysSorted (touch k fl) := by
  unfold touch
  cases hf : mapFind k fl with
  | some v => exact h
  | none => exact keysSorted_mapInsert k [] fl h

theorem freeCount_touch (k : Nat) (fl : FreeLists) (h : KeysSorted fl) :
    BuddyAllocator.freeCount (touch k fl) = BuddyAllocator.freeCount fl := by
  unfold touch
  cases hf : mapFind k fl with
  | some v => rfl
  | none =>
    have := freeCount_mapInsert k [] fl h
    simp only [bucket, hf, Option.getD_none, List.length_nil] at this
    exact this

theorem keysSorted_pushBack (k : Nat) (b : BuddyBlock) (fl : FreeLists) (h : KeysSorted fl) :
    KeysSorted (pushBack k b fl) :=
  keysSorted_mapInsert k _ fl h

theorem keysSorted_popBack (k : Nat) (fl : FreeLists) (h : KeysSorted fl) :
    KeysSorted (popBack k fl) :=
  keysSorted_mapInsert k _ fl h

theorem freeCount_pushBack (k : Nat) (b : BuddyBlock) (fl : FreeLists) (h : KeysSorted fl) :
    BuddyAllocator.freeCount (pushBack k b fl) = BuddyAllocator.freeCount fl + 1 := by
  have := freeCount_mapInsert k (bucket fl k ++ [b]) fl h
  simp only [List.length_append, List.length_singleton] at this
  unfold pushBack
  omega

theorem keysSorted_mergePair (s i j : Nat) (fl : FreeLists) (h : KeysSorted fl) :
    KeysSorted (BuddyAllocator.mergePair s i j fl) :=
  keysSorted_mapInsert s _ _ (keysSorted_pushBack _ _ fl h)

/-- A merge removes two blocks and adds one. -/
theorem freeCount_mergePair (s i j : Nat) (fl : FreeLists) (h : KeysSorted fl)
    (hi : i < (bucket fl s).length) (hj : j < (bucket fl s).length) (hij : i ≠ j) :
    BuddyAllocator.freeCount (BuddyAllocator.mergePair s i j fl) + 1 =
      BuddyAllocator.freeCount fl := by
  obtain ⟨m, hm⟩ : ∃ m : BuddyBlock, m =
      { address := min ((bucket fl s).getD i { address := 0, size := 0 }).address
          ((bucket fl s).getD j { address := 0, size := 0 }).address,
        size := (s * 2) % SIZE_MOD } := ⟨_, rfl⟩
  have hdef : BuddyAllocator.mergePair s i j fl =
      mapInsert s (((bucket (pushBack ((s * 2) % SIZE_MOD) m fl) s).eraseIdx (max i j)).eraseIdx
        (min i j)) (pushBack ((s * 2) % SIZE_MOD) m fl) := by
    rw [hm]
    rfl
  have hlen : (bucket fl s).length ≤ (bucket (pushBack ((s * 2) % SIZE_MOD) m fl) s).length := by
    rw [bucket_pushBack]
    split
    · rename_i e
      rw [← e]
      simp
    · exact le_refl _
  have h1 := freeCount_pushBack ((s * 2) % SIZE_MOD) m fl h
  have h2 := freeCount_mapInsert s
    (((bucket (pushBack ((s * 2) % SIZE_MOD) m fl) s).eraseIdx (max i j)).eraseIdx (min i j))
    (pushBack ((s * 2) % SIZE_MOD) m fl) (keysSorted_pushBack _ _ fl h)
  have hmax : max i j < (bucket (pushBack ((s * 2) % SIZE_MOD) m fl) s).length := by
    rcases le_total i j with e | e
    · rw [max_eq_right e]; omega
    · rw [max_eq_left e]; omega
  have hmin : min i j < max i j := by
    rcases Nat.lt_or_gt_of_ne hij with e | e
    · rw [min_eq_left (Nat.le_of_lt e), max_eq_right (Nat.le_of_lt e)]; exact e
    · rw [min_eq_right (Nat.le_of_lt e), max_eq_left (Nat.le_of_lt e)]; exact e
  have hl1 : ((bucket (pushBack ((s * 2) % SIZE_MOD) m fl) s).eraseIdx (max i j)).length =
      (bucket (pushBack ((s * 2) % SIZE_MOD) m fl) s).length - 1 := by
    rw [List.length_eraseIdx, if_pos hmax]
  have hl2 : (((bucket (pushBack ((s * 2) % SIZE_MOD) m fl) s).eraseIdx (max i j)).eraseIdx
      (min i j)).length =
      ((bucket (pushBack ((s * 2) % SIZE_MOD) m fl) s).eraseIdx (max i j)).length - 1 := by
    rw [List.length_eraseIdx, if_pos (by omega)]
  rw [hdef]
  omega

theorem keysSorted_splitDown (size : Nat) : ∀ (fuel b : Nat) (fl : FreeLists) (b' : Nat)
    (fl' : FreeLists), KeysSorted fl →
    BuddyAllocator.splitDown size fuel b fl = some (b', fl') → KeysSorted fl' := by
  intro fuel
  induction fuel with
  | zero =>
    intro b fl b' fl' h hs
    simp only [BuddyAllocator.splitDown] at hs
    split at hs
    · exact absurd hs (by simp)
    · simp only [Option.some.injEq, Prod.mk.injEq] at hs
      rw [← hs.2]; exact h
  | succ fuel ih =>
    intro b fl b' fl' h hs
    simp only [BuddyAllocator.splitDown] at hs
    split at hs
    · split at hs
      · exact absurd hs (by simp)
      · exact ih _ _ b' fl'
          (keysSorted_pushBack _ _ _ (keysSorted_pushBack _ _ _ (keysSorted_popBack _ _ h))) hs
    · simp only [Option.some.injEq, Prod.mk.injEq] at hs
      rw [← hs.2]; exact h

theorem keysSorted_splitLoop (total size : Nat) : ∀ (fuel b : Nat) (fl : FreeLists)
    (res : Option BuddyBlock) (fl' : FreeLists), KeysSorted fl →
    BuddyAllocator.splitLoop total size fuel b fl = some (res, fl') → KeysSorted fl' := by
  intro fuel
  induction fuel with
  | zero => intro b fl res fl' _ hs; simp [BuddyAllocator.splitLoop] at hs
  | succ fuel ih =>
    intro b fl res fl' h hs
    simp only [BuddyAllocator.splitLoop] at hs
    split at hs
    · have h1 := keysSorted_touch b fl h
      split at hs
      · split at hs
        · exact absurd hs (by simp)
        · rename_i b2 fl2 hd
          have h2 := keysSorted_touch size fl2 (keysSorted_splitDown size _ _ _ _ _ h1 hd)
          split at hs
          · simp only [Option.some.injEq, Prod.mk.injEq] at hs
            rw [← hs.2]
            exact keysSorted_popBack _ _ h2
          · exact ih _ _ res fl' h2 hs
      · exact ih _ _ res fl' h1 hs
    · simp only [Option.some.injEq, Prod.mk.injEq] at hs
      rw [← hs.2]; exact h

/-- One pass of the merge scan keeps the keys in order and the number of free blocks, or
merges one pair, which lowers the number of free blocks by one. -/
theorem mergeScan_count (total : Nat) : ∀ (fuel size : Nat) (fl : FreeLists)
    (res : Option FreeLists) (fl1 : FreeLists), KeysSorted fl →
    BuddyAllocator.mergeScan total fuel size fl = some (res, fl1) →
    KeysSorted fl1 ∧ BuddyAllocator.freeCount fl1 = BuddyAllocator.freeCount fl ∧
    (∀ fl2, res = some fl2 →
      KeysSorted fl2 ∧ BuddyAllocator.freeCount fl2 + 1 = BuddyAllocator.freeCount fl) := by
  intro fuel
  induction fuel with
  | zero => intro size fl res fl1 _ hs; simp [BuddyAllocator.mergeScan] at hs
  | succ fuel ih =>
    intro size fl res fl1 h hs
    simp only [BuddyAllocator.mergeScan] at hs
    split at hs
    · have h1 := keysSorted_touch size fl h
      have c1 := freeCount_touch size fl h
      split at hs
      · rename_i i j hfp
        simp only [Option.some.injEq, Prod.mk.injEq] at hs
        obtain ⟨e1, e2⟩ := hs
        subst e2
        refine ⟨h1, c1, ?_⟩
        intro fl2 hfl2
        rw [← e1] at hfl2
        simp only [Option.some.injEq] at hfl2
        subst hfl2
        obtain ⟨x, y, hx, _, hy, hij, _⟩ := findPair_some _ _ _ _ _ _ hfp
        have hi : i < (bucket (touch size fl) size).length := by
          have := List.getElem?_eq_some_iff.1 hx
          obtain ⟨hlt, _⟩ := this
          simpa using hlt
        have hj : j < (bucket (touch size fl) size).length := by
          obtain ⟨hlt, _⟩ := List.getElem?_eq_some_iff.1 hy
          exact hlt
        refine ⟨keysSorted_mergePair _ _ _ _ h1, ?_⟩
        rw [freeCount_mergePair size i j _ h1 hi hj hij, c1]
      · split at hs
        · exact absurd hs (by simp)
        · obtain ⟨g1, g2, g3⟩ := ih _ _ res fl1 h1 hs
          refine ⟨g1, by rw [g2, c1], ?_⟩
          intro fl2 hfl2
          obtain ⟨g4, g5⟩ := g3 fl2 hfl2
          exact ⟨g4, by rw [g5, c1]⟩
    · simp only [Option.some.injEq, Prod.mk.injEq] at hs
      obtain ⟨e1, e2⟩ := hs
      subst e2
      refine ⟨h, rfl, ?_⟩
      intro fl2 hfl2
      rw [← e1] at hfl2
      exact absurd hfl2 (by simp)

/-- The merge scan returns when it starts from a size of at least 1: the sizes double
without wrapping as long as they are below `total_memory`, which is at most `2^63`. -/
theorem mergeScan_returns (total : Nat) (htotal : total ≤ 9223372036854775808) :
    ∀ (d fuel size : Nat) (fl : FreeLists), 1 ≤ size → total ≤ size * 2 ^ d → d < fuel →
    ∃ r, BuddyAllocator.mergeScan total fuel size fl = some r := by
  have hM := size_mod_eq
  intro d
  induction d with
  | zero =>
    intro fuel size fl _ hd hf
    obtain ⟨f, rfl⟩ : ∃ f, fuel = f + 1 := ⟨fuel - 1, by omega⟩
    simp only [pow_zero, Nat.mul_one] at hd
    exact ⟨_, mergeScan_ge total f size fl (by omega)⟩
  | succ d ih =>
    intro fuel size fl hs hd hf
    obtain ⟨f, rfl⟩ : ∃ f, fuel = f + 1 := ⟨fuel - 1, by omega⟩
    by_cases hlt : size < total
    · simp only [BuddyAllocator.mergeScan, if_pos hlt]
      split
      · exact ⟨_, rfl⟩
      · have hne : ¬ size = 0 := by omega
        rw [if_neg hne, Nat.mod_eq_of_lt (by omega)]
        apply ih
        · omega
        · rw [pow_succ] at hd
          calc total ≤ size * (2 ^ d * 2) := hd
            _ = size * 2 * 2 ^ d := by ring
        · omega
    · exact ⟨_, mergeScan_ge total f size fl hlt⟩

theorem mapFind_touch (k k' : Nat) (fl : FreeLists) (v : List BuddyBlock)
    (h : mapFind k' fl = some v) : mapFind k' (touch k fl) = some v := by
  unfold touch
  cases hf : mapFind k fl with
  | some w => exact h
  | none =>
    simp only
    rw [mapFind_mapInsert]
    split
    · rename_i e
      rw [e, hf] at h
      exact absurd h (by simp)
    · exact h

theorem mapFind_touch_self (k : Nat) (fl : FreeLists) :
    ∃ v, mapFind k (touch k fl) = some v := by
  unfold touch
  cases hf : mapFind k fl with
  | some w => exact ⟨w, hf⟩
  | none =>
    simp only
    rw [mapFind_mapInsert, if_pos rfl]
    exact ⟨_, rfl⟩

theorem touch_present (k : Nat) (fl : FreeLists) (v : List BuddyBlock)
    (h : mapFind k fl = some v) : touch k fl = fl := by
  unfold touch
  rw [h]

/-- A scan that performs no merge leaves free lists on which a scan performs no merge and
changes nothing. -/
theorem mergeScan_fix (total : Nat) : ∀ (fuel size : Nat) (fl fl1 : FreeLists),
    BuddyAllocator.mergeScan total fuel size fl = some (none, fl1) →
    BuddyAllocator.mergeScan total fuel size fl1 = some (none, fl1) ∧
    (∀ k v, mapFind k fl = some v → mapFind k fl1 = some v) := by
  intro fuel
  induction fuel with
  | zero => intro size fl fl1 hs; simp [BuddyAllocator.mergeScan] at hs
  | succ fuel ih =>
    intro size fl fl1 hs
    by_cases hlt : size < total
    · simp only [BuddyAllocator.mergeScan, if_pos hlt] at hs
      split at hs
      · simp at hs
      · rename_i hfp
        split at hs
        · exact absurd hs (by simp)
        · rename_i hne
          obtain ⟨g1, g2⟩ := ih _ _ fl1 hs
          obtain ⟨v0, hv0⟩ := mapFind_touch_self size fl
          have hv1 := g2 size v0 hv0
          have ht1 : touch size fl1 = fl1 := touch_present size fl1 v0 hv1
          have hb : bucket fl1 size = bucket (touch size fl) size := by
            simp only [bucket, hv0, hv1]
          refine ⟨?_, fun k v hk => g2 k v (mapFind_touch size k fl v hk)⟩
          simp only [BuddyAllocator.mergeScan, if_pos hlt, ht1, hb, hfp, if_neg hne]
          exact g1
    · rw [mergeScan_ge total fuel size fl hlt] at hs
      simp only [Option.some.injEq, Prod.mk.injEq, true_and] at hs
      subst hs
      exact ⟨mergeScan_ge total fuel size fl hlt, fun k v hk => hk⟩

theorem keysSorted_mergeLoop (total min_size : Nat) : ∀ (fuel : Nat) (fl fl' : FreeLists),
    KeysSorted fl → BuddyAllocator.mergeLoop total min_size fuel fl = some fl' →
    KeysSorted fl' := by
  intro fuel
  induction fuel with
  | zero => intro fl fl' _ h; simp [BuddyAllocator.mergeLoop] at h
  | succ fuel ih =>
    intro fl fl' h hl
    simp only [BuddyAllocator.mergeLoop] at hl
    cases hs : BuddyAllocator.mergeScan total 66 min_size fl with
    | none => rw [hs] at hl; simp at hl
    | some r =>
      obtain ⟨res, fl1⟩ := r
      rw [hs] at hl
      obtain ⟨g1, _, g3⟩ := mergeScan_count total 66 min_size fl res fl1 h hs
      cases res with
      | none =>
        simp only [Option.some.injEq] at hl
        rw [← hl]; exact g1
      | some fl2 =>
        simp only at hl
        exact ih fl2 fl' (g3 fl2 rfl).1 hl

/-- The merge loop returns when `min_block_size` is at least 1, and it stops at free
lists on which a full scan performs no merge. -/
theorem mergeLoop_returns (total min_size : Nat) (htotal : total ≤ 9223372036854775808)
    (hmin : 1 ≤ min_size) : ∀ (fuel : Nat) (fl : FreeLists), KeysSorted fl →
    BuddyAllocator.freeCount fl < fuel →
    ∃ fl', BuddyAllocator.mergeLoop total min_size fuel fl = some fl' ∧
      BuddyAllocator.mergeScan total 66 min_size fl' = some (none, fl') := by
  intro fuel
  induction fuel with
  | zero => intro fl _ h; omega
  | succ fuel ih =>
    intro fl h hc
    have hd : total ≤ min_size * 2 ^ 63 := by
      have : min_size * 1 ≤ min_size * 2 ^ 63 := Nat.mul_le_mul_left _ (Nat.one_le_two_pow)
      have h63 : (2 : Nat) ^ 63 = 9223372036854775808 := by norm_num
      nlinarith
    obtain ⟨r, hr⟩ := mergeScan_returns total htotal 63 66 min_size fl hmin hd (by omega)
    obtain ⟨res, fl1⟩ := r
    obtain ⟨g1, g2, g3⟩ := mergeScan_count total 66 min_size fl res fl1 h hr
    simp only [BuddyAllocator.mergeLoop, hr]
    cases res with
    | none => exact ⟨fl1, rfl, (mergeScan_fix total 66 min_size fl fl1 hr).1⟩
    | some fl2 =>
      obtain ⟨g4, g5⟩ := g3 fl2 rfl
      exact ih fl2 g4 (by omega)

theorem keysSorted_malloc (a a' : BuddyAllocator) (size : Nat) (r : Int)
    (h : KeysSorted a.free_lists) (hm : a.malloc size = some (a', r)) :
    KeysSorted a'.free_lists ∧ a'.total_memory = a.total_memory ∧
    a'.min_block_size = a.min_block_size := by
  unfold BuddyAllocator.malloc at hm
  split at hm
  · simp only [Option.some.injEq, Prod.mk.injEq] at hm
    rw [← hm.1]; exact ⟨h, rfl, rfl⟩
  · simp only at hm
    split at hm
    · simp only [Option.some.injEq, Prod.mk.injEq] at hm
      rw [← hm.1]; exact ⟨h, rfl, rfl⟩
    · unfold BuddyAllocator.splitBlock at hm
      split at hm
      · exact absurd hm (by simp)
      · rename_i fl' hs
        simp only [Option.some.injEq, Prod.mk.injEq] at hm
        rw [← hm.1]
        exact ⟨keysSorted_splitLoop _ _ _ _ _ _ _ h hs, rfl, rfl⟩
      · rename_i block fl' hs
        simp only [Option.some.injEq, Prod.mk.injEq] at hm
        rw [← hm.1]
        exact ⟨keysSorted_splitLoop _ _ _ _ _ _ _ h hs, rfl, rfl⟩

theorem keysSorted_free (a a' : BuddyAllocator) (block_id : Int) (r : Bool)
    (h : KeysSorted a.free_lists) (hf : a.free block_id = some (a', r)) :
    KeysSorted a'.free_lists ∧ a'.total_memory = a.total_memory ∧
    a'.min_block_size = a.min_block_size := by
  unfold BuddyAllocator.free at hf
  split at hf
  · simp only [Option.some.injEq, Prod.mk.injEq] at hf
    rw [← hf.1]; exact ⟨h, rfl, rfl⟩
  · rename_i block hfind
    simp only [BuddyAllocator.mergeBuddies, Option.map_map] at hf
    cases hl : BuddyAllocator.mergeLoop a.total_memory a.min_block_size
        (BuddyAllocator.freeCount (pushBack block.size
          { block with is_free := true, block_id := -1 } a.free_lists) + 1)
        (pushBack block.size { block with is_free := true, block_id := -1 } a.free_lists) with
    | none => rw [hl] at hf; simp at hf
    | some fl' =>
      rw [hl] at hf
      simp only [Option.map_some', Function.comp_apply, Option.some.injEq, Prod.mk.injEq] at hf
      rw [← hf.1]
      exact ⟨keysSorted_mergeLoop _ _ _ _ _ (keysSorted_pushBack _ _ _ h) hl, rfl, rfl⟩

theorem keysSorted_run : ∀ (ops : List BuddyOp) (a a' : BuddyAllocator),
    KeysSorted a.free_lists → a.run ops = some a' →
    KeysSorted a'.free_lists ∧ a'.total_memory = a.total_memory ∧
    a'.min_block_size = a.min_block_size := by
  intro ops
  induction ops with
  | nil =>
    intro a a' h hr
    simp only [BuddyAllocator.run, Option.some.injEq] at hr
    rw [← hr]; exact ⟨h, rfl, rfl⟩
  | cons op rest ih =>
    intro a a' h hr
    simp only [BuddyAllocator.run] at hr
    cases hs : a.step op with
    | none => rw [hs] at hr; simp at hr
    | some a1 =>
      rw [hs] at hr
      simp only at hr
      have h1 : KeysSorted a1.free_lists ∧ a1.total_memory = a.total_memory ∧
          a1.min_block_size = a.min_block_size := by
        cases op with
        | malloc size =>
          simp only [BuddyAllocator.step] at hs
          cases hm : a.malloc size with
          | none => rw [hm] at hs; simp at hs
          | some p =>
            obtain ⟨a2, r⟩ := p
            rw [hm] at hs
            simp only [Option.map_some', Option.some.injEq] at hs
            subst hs
            exact keysSorted_malloc a a2 size r h hm
        | free block_id =>
          simp only [BuddyAllocator.step] at hs
          cases hm : a.free block_id with
          | none => rw [hm] at hs; simp at hs
          | some p =>
            obtain ⟨a2, r⟩ := p
            rw [hm] at hs
            simp only [Option.map_some', Option.some.injEq] at hs
            subst hs
            exact keysSorted_free a a2 block_id r h hm
      obtain ⟨g1, g2, g3⟩ := ih a1 a' h1.1 hr
      exact ⟨g1, by rw [g2, h1.2.1], by rw [g3, h1.2.2]⟩

theorem keysSorted_new (memory_size min_size : Nat) :
    KeysSorted (BuddyAllocator.new memory_size min_size).free_lists := by
  simp [KeysSorted, BuddyAllocator.new, pushBack, mapInsert]

theorem new_total_bound (memory_size min_size : Nat) (h : memory_size < SIZE_MOD) :
    (BuddyAllocator.new memory_size min_size).total_memory ≤ 9223372036854775808 := by
  obtain ⟨h1, h2⟩ := new_total_memory memory_size min_size h
  by_cases hle : memory_size ≤ 9223372036854775808
  · obtain ⟨t, ht, he⟩ := h1 hle
    rw [he]
    exact two_pow_le_63 t ht
  · rw [h2 (by omega)]
    omega

/-- The method `free` returns in every state with sorted keys, a `total_memory` of at most
`2^63` and a `min_block_size` of at least 1; after a successful `free` a full scan of the
free lists performs no merge. -/
theorem free_returns (a : BuddyAllocator) (h : KeysSorted a.free_lists)
    (htotal : a.total_memory ≤ 9223372036854775808) (hmin : 1 ≤ a.min_block_size)
    (block_id : Int) :
    ∃ a' r, a.free block_id = some (a', r) ∧
      (r = true →
        BuddyAllocator.mergeScan a'.total_memory 66 a'.min_block_size a'.free_lists =
          some (none, a'.free_lists)) := by
  unfold BuddyAllocator.free
  cases hfind : mapFind block_id a.allocated_blocks with
  | none => exact ⟨a, false, rfl, fun hr => absurd hr (by simp)⟩
  | some block =>
    obtain ⟨fl', hl, hfix⟩ := mergeLoop_returns a.total_memory a.min_block_size htotal hmin
      (BuddyAllocator.freeCount (pushBack block.size
        { block with is_free := true, block_id := -1 } a.free_lists) + 1)
      (pushBack block.size { block with is_free := true, block_id := -1 } a.free_lists)
      (keysSorted_pushBack _ _ _ h) (by omega)
    simp only [BuddyAllocator.mergeBuddies, hl, Option.map_some']
    exact ⟨_, true, rfl, fun _ => hfix⟩

/-- For every allocator constructed with a `min_block_size` of at least 1, `free` returns
in every reachable state. -/
theorem free_returns_reachable (memory_size min_size : Nat) (hmem : memory_size < SIZE_MOD)
    (hmin : 1 ≤ min_size) (ops : List BuddyOp) (a : BuddyAllocator)
    (hrun : (BuddyAllocator.new memory_size min_size).run ops = some a) (block_id : Int) :
    ∃ a' r, a.free block_id = some (a', r) ∧
      (r = true →
        BuddyAllocator.mergeScan a'.total_memory 66 a'.min_block_size a'.free_lists =
          some (none, a'.free_lists)) := by
  obtain ⟨g1, g2, g3⟩ := keysSorted_run ops _ a (keysSorted_new memory_size min_size) hrun
  apply free_returns a g1
  · rw [g2]
    exact new_total_bound memory_size min_size hmem
  · rw [g3]
    exact hmin

/-- With `min_block_size = 0` the merge scan starts at size 0, finds the bucket of 0
empty and doubles 0 to 0: no amount of fuel lets it return. -/
theorem mergeScan_zero (total : Nat) (ht : 0 < total) : ∀ (fuel : Nat) (fl : FreeLists),
    bucket fl 0 = [] → BuddyAllocator.mergeScan total fuel 0 fl = none := by
  intro fuel fl h
  cases fuel with
  | zero => rfl
  | succ fuel =>
    have h1 : bucket (touch 0 fl) 0 = [] := by rw [bucket_touch]; exact h
    simp [BuddyAllocator.mergeScan, ht, h1, BuddyAllocator.findPair]

theorem mergeLoop_zero (total : Nat) (ht : 0 < total) (fuel : Nat) (fl : FreeLists)
    (h : bucket fl 0 = []) : BuddyAllocator.mergeLoop total 0 fuel fl = none := by
  cases fuel with
  | zero => rfl
  | succ fuel => simp only [BuddyAllocator.mergeLoop, mergeScan_zero total ht 66 fl h]

/-- **C35** (termination of the merge loop) at `min_block_size = 0`.  On
`BuddyAllocator(16, 0)`, `malloc(16)` returns the id 1 for the block of the whole memory;
`free(1)` pushes the block to the bucket of 16 and calls `mergeBuddies`, whose scan starts
at `size = min_block_size = 0`: `0 < 16`, the bucket of 0 is empty, and `size *= 2` leaves
0, so the scan never ends.  The model reports the call as not returning, for every amount
of fuel given to the scan or to the loop. -/
theorem C35_merge_loop_hangs :
    ((BuddyAllocator.new 16 0).malloc 16).map (fun r => (r.2, r.1.allocated_blocks,
        r.1.free_lists, r.1.min_block_size, r.1.total_memory)) =
      some (1, [(1, { address := 0, size := 16, is_free := false, block_id := 1 })],
        [(16, [])], 0, 16) ∧
    ((BuddyAllocator.new 16 0).run [BuddyOp.malloc 16]).map (fun a => a.free 1) = some none ∧
    (∀ fuel, BuddyAllocator.mergeScan 16 fuel 0 [(16, [{ address := 0, size := 16 }])] = none) ∧
    (∀ fuel, BuddyAllocator.mergeLoop 16 0 fuel [(16, [{ address := 0, size := 16 }])] = none) ∧
    ((BuddyAllocator.new 16 1).run [BuddyOp.malloc 16]).map
        (fun a => (a.free 1).map (fun r => (r.2, r.1.free_lists))) =
      some (some (true, [(1, []), (2, []), (4, []), (8, []),
        (16, [{ address := 0, size := 16 }])])) := by
  refine ⟨rfl, by decide, fun fuel => mergeScan_zero 16 (by decide) fuel _ rfl,
    fun fuel => mergeLoop_zero 16 (by decide) fuel _ rfl, by decide⟩


/-! ## Theorems: the buddy blocks tile the memory -/

theorem core_weaken (total min_size : Nat) (fl : FreeLists) (al : List (Int × BuddyBlock))
    (h : BuddyCore total min_size fl al) : BuddyCore total 0 fl al :=
  ⟨h.key, h.alloc, h.alloc_nodup,
    fun b hb => ⟨(h.shape b hb).1, (h.shape b hb).2.1, (h.shape b hb).2.2.1,
      Or.inl (Nat.zero_le _)⟩,
    h.nodup, h.disjoint, h.cover⟩

/-- The `for` loop of `splitBlock` keeps the tiling, for every requested size of at least
1: a probe that finds a block has a power-of-two size, so the requested size is one too. -/
theorem splitLoop_core (total : Nat) (al : List (Int × BuddyBlock)) (size t : Nat)
    (ht : total = 2 ^ t) (ht63 : t ≤ 63) (hpos : 0 < size) :
    ∀ (fuel i : Nat) (fl : FreeLists) (res : Option BuddyBlock) (fl' : FreeLists),
      size * 2 ^ i < SIZE_MOD → BuddyCore total 0 fl al →
      (∀ i', i' < i → bucket fl (size * 2 ^ i') = []) →
      BuddyAllocator.splitLoop total size fuel (size * 2 ^ i) fl = some (res, fl') →
      (res = none ∧ ∀ k, bucket fl' k = bucket fl k) ∨
      (∃ r fl3, res = some r ∧ BuddyCore total 0 fl3 al ∧
        (bucket fl3 size).getLast? = some r ∧ fl' = popBack size fl3) := by
  have hT := two_pow_le_63 t ht63
  rw [← ht] at hT
  have hM := size_mod_eq
  intro fuel
  induction fuel with
  | zero =>
    intro i fl res fl' _ _ _ h
    simp [BuddyAllocator.splitLoop] at h
  | succ fuel ih =>
    intro i fl res fl' hlt hc hempty h
    simp only [BuddyAllocator.splitLoop] at h
    split at h
    · rename_i hle
      have hc1 : BuddyCore total 0 (touch (size * 2 ^ i) fl) al :=
        core_congr _ _ fl _ al hc (fun k => bucket_touch _ k fl)
      split at h
      · rename_i hne
        obtain ⟨x, hx⟩ := getLast?_of_ne_nil _ hne
        have hxm : x ∈ bucket (touch (size * 2 ^ i) fl) (size * 2 ^ i) := by
          rw [getLast?_split _ _ hx]; simp
        obtain ⟨⟨m, hm⟩, _⟩ := hc1.shape x (live_free _ al _ x hxm)
        rw [(hc1.key _ x hxm).1] at hm
        obtain ⟨e, he, hme⟩ := pow_two_factor size i m hm
        have hi64 : i ≤ 64 := by
          by_contra hcon
          have h1 : 2 ^ 64 ≤ 2 ^ i := Nat.pow_le_pow_right (by norm_num) (by omega)
          have h2 : 2 ^ i ≤ size * 2 ^ i := Nat.le_mul_of_pos_left _ hpos
          norm_num at h1
          omega
        have hempty1 : ∀ k, size ≤ k → k < size * 2 ^ i →
            bucket (touch (size * 2 ^ i) fl) k = [] := by
          intro k h1 h2
          rw [bucket_touch]
          cases hbk : bucket fl k with
          | nil => rfl
          | cons y rest =>
            exfalso
            have hy : y ∈ bucket fl k := by rw [hbk]; exact List.mem_cons_self _ _
            obtain ⟨⟨c, hc'⟩, _⟩ := hc.shape y (live_free _ al _ y hy)
            rw [(hc.key _ y hy).1] at hc'
            rw [hc', he] at h1
            rw [hc', hm] at h2
            have g1 : e ≤ c := (Nat.pow_le_pow_iff_right (by norm_num)).1 h1
            have g2 : c < m := (Nat.pow_lt_pow_iff_right (by norm_num)).1 h2
            have g3 := hempty (c - e) (by omega)
            have g4 : size * 2 ^ (c - e) = k := by
              rw [he, hc', ← pow_add]
              congr 1
              omega
            rw [g4, hbk] at g3
            exact absurd g3 (by simp)
        obtain ⟨fl2, g1, g2, g3, _⟩ :=
          splitDown_spec total 0 al size e he (Nat.zero_le _) (by omega) i 64 _ hi64 hc1 hne
            hempty1
        rw [g1] at h
        simp only at h
        have hc3 : BuddyCore total 0 (touch size fl2) al :=
          core_congr _ _ fl2 _ al g2 (fun k => bucket_touch _ k fl2)
        have hne3 : bucket (touch size fl2) size ≠ [] := by rw [bucket_touch]; exact g3
        obtain ⟨r, hr⟩ := getLast?_of_ne_nil _ hne3
        rw [hr] at h
        simp only [Option.some.injEq, Prod.mk.injEq] at h
        obtain ⟨h1, h2⟩ := h
        right
        exact ⟨r, touch size fl2, h1.symm, hc3, hr, h2.symm⟩
      · rename_i hemp
        simp only [ne_eq, not_not] at hemp
        by_cases hw : size * 2 ^ i * 2 < SIZE_MOD
        · rw [Nat.mod_eq_of_lt hw] at h
          have e1 : size * 2 ^ i * 2 = size * 2 ^ (i + 1) := by rw [pow_succ]; ring
          rw [e1] at h hw
          have hempty1 : ∀ i', i' < i + 1 →
              bucket (touch (size * 2 ^ i) fl) (size * 2 ^ i') = [] := by
            intro i' hi'
            rcases Nat.lt_succ_iff_lt_or_eq.1 hi' with h1 | h1
            · rw [bucket_touch]; exact hempty i' h1
            · rw [h1]; exact hemp
          rcases ih (i + 1) _ res fl' hw hc1 hempty1 h with ⟨g1, g2⟩ | g
          · left
            refine ⟨g1, fun k => ?_⟩
            rw [g2 k, bucket_touch]
          · right; exact g
        · exfalso
          have e0 : size * 2 ^ i * 2 % SIZE_MOD = 0 := by
            have : size * 2 ^ i * 2 = SIZE_MOD := by omega
            rw [this]; exact Nat.mod_self _
          rw [e0, splitLoop_zero total size fuel _ (core_bucket_zero _ _ _ al hc1)] at h
          exact absurd h (by simp)
    · simp only [Option.some.injEq, Prod.mk.injEq] at h
      left
      exact ⟨h.1.symm, fun k => by rw [← h.2]⟩

theorem tileInv_malloc (a a' : BuddyAllocator) (size : Nat) (id : Int) (h : TileInv a)
    (hm : a.malloc size = some (a', id)) : TileInv a' := by
  obtain ⟨t, ht63, ht⟩ := h.total
  have hT := two_pow_le_63 t ht63
  rw [← ht] at hT
  have hM := size_mod_eq
  unfold BuddyAllocator.malloc at hm
  split at hm
  · simp only [Option.some.injEq, Prod.mk.injEq] at hm
    rw [← hm.1]; exact h
  · simp only at hm
    generalize max a.min_block_size (BuddyAllocator.roundUpToPowerOf2 size) = asz at hm
    split at hm
    · simp only [Option.some.injEq, Prod.mk.injEq] at hm
      rw [← hm.1]; exact h
    · rename_i hle
      unfold BuddyAllocator.splitBlock at hm
      by_cases hz : asz = 0
      · rw [hz, splitLoop_zero a.total_memory 0 65 _ (core_bucket_zero _ _ _ _ h.core)] at hm
        exact absurd hm (by simp)
      · have hspec := fun res fl' => splitLoop_core a.total_memory
          a.allocated_blocks asz t ht ht63 (by omega) 65 0 a.free_lists res fl'
          (by simp only [pow_zero, Nat.mul_one]; omega) h.core
          (fun i' hi' => absurd hi' (by omega))
        simp only [pow_zero, Nat.mul_one] at hspec
        split at hm
        · exact absurd hm (by simp)
        · rename_i fl' hs
          simp only [Option.some.injEq, Prod.mk.injEq] at hm
          rw [← hm.1]
          rcases hspec none fl' hs with ⟨_, g⟩ | ⟨r, fl3, g, _⟩
          · exact ⟨h.total, core_congr _ _ _ _ _ h.core g, h.fresh⟩
          · exact absurd g (by simp)
        · rename_i block fl' hs
          simp only [Option.some.injEq, Prod.mk.injEq] at hm
          rw [← hm.1]
          rcases hspec (some block) fl' hs with ⟨g, _⟩ | ⟨r, fl3, g1, g2, g3, g4⟩
          · exact absurd g (by simp)
          · simp only [Option.some.injEq] at g1
            subst g1
            have hfresh : ∀ x ∈ a.allocated_blocks, x.1 < a.next_block_id :=
              fun x hx => h.fresh x.1 x.2 hx
            refine ⟨h.total, ?_, ?_⟩
            · rw [g4]
              exact core_take _ _ fl3 _ asz _ block g2 g3 hfresh
            · intro id' b hb
              have hb' : (id', b) ∈ mapInsert a.next_block_id
                  { block with is_free := false, block_id := a.next_block_id }
                  a.allocated_blocks := hb
              rw [mapInsert_fresh _ _ _ hfresh] at hb'
              show id' < a.next_block_id + 1
              rcases List.mem_append.1 hb' with h1 | h1
              · have := h.fresh id' b h1
                omega
              · simp only [List.mem_singleton, Prod.mk.injEq] at h1
                omega

/-- One pass of the merge scan keeps the tiling, from whatever size it starts: a bucket
that holds a pair of blocks has a power-of-two key. -/
theorem mergeScan_core (total t : Nat) (ht : total = 2 ^ t) (ht63 : t ≤ 63)
    (al : List (Int × BuddyBlock)) :
    ∀ (fuel size : Nat) (fl : FreeLists) (res : Option FreeLists) (fl1 : FreeLists),
      BuddyCore total 0 fl al →
      BuddyAllocator.mergeScan total fuel size fl = some (res, fl1) →
      BuddyCore total 0 fl1 al ∧ (∀ fl2, res = some fl2 → BuddyCore total 0 fl2 al) := by
  have hT := two_pow_le_63 t ht63
  rw [← ht] at hT
  have hM := size_mod_eq
  intro fuel
  induction fuel with
  | zero => intro size fl res fl1 _ hs; simp [BuddyAllocator.mergeScan] at hs
  | succ fuel ih =>
    intro size fl res fl1 hc hs
    simp only [BuddyAllocator.mergeScan] at hs
    split at hs
    · rename_i hlt
      have hc1 : BuddyCore total 0 (touch size fl) al :=
        core_congr _ _ fl _ al hc (fun k => bucket_touch _ k fl)
      split at hs
      · rename_i i j hfp
        simp only [Option.some.injEq, Prod.mk.injEq] at hs
        obtain ⟨e1, e2⟩ := hs
        subst e2
        refine ⟨hc1, ?_⟩
        intro fl2 hfl2
        rw [← e1] at hfl2
        simp only [Option.some.injEq] at hfl2
        subst hfl2
        obtain ⟨x, y, hx, _, hy, hij, hbud⟩ := findPair_some _ _ _ _ _ _ hfp
        have hx' : (bucket (touch size fl) size)[i]? = some x := by simpa using hx
        have hxm : x ∈ bucket (touch size fl) size := List.mem_iff_getElem?.2 ⟨i, hx'⟩
        obtain ⟨⟨e, he⟩, _⟩ := hc1.shape x (live_free _ al _ x hxm)
        rw [(hc1.key _ x hxm).1] at he
        exact core_mergePair total 0 _ al size e t i j x y hc1 he ht hlt (by omega) hx' hy hij
          hbud
      · split at hs
        · exact absurd hs (by simp)
        · exact ih _ _ res fl1 hc1 hs
    · simp only [Option.some.injEq, Prod.mk.injEq] at hs
      obtain ⟨e1, e2⟩ := hs
      subst e2
      refine ⟨hc, ?_⟩
      intro fl2 hfl2
      rw [← e1] at hfl2
      exact absurd hfl2 (by simp)

theorem mergeLoop_core (total min_size t : Nat) (ht : total = 2 ^ t) (ht63 : t ≤ 63)
    (al : List (Int × BuddyBlock)) :
    ∀ (fuel : Nat) (fl fl' : FreeLists), BuddyCore total 0 fl al →
      BuddyAllocator.mergeLoop total min_size fuel fl = some fl' →
      BuddyCore total 0 fl' al := by
  intro fuel
  induction fuel with
  | zero => intro fl fl' _ h; simp [BuddyAllocator.mergeLoop] at h
  | succ fuel ih =>
    intro fl fl' hc hl
    simp only [BuddyAllocator.mergeLoop] at hl
    cases hs : BuddyAllocator.mergeScan total 66 min_size fl with
    | none => rw [hs] at hl; simp at hl
    | some r =>
      obtain ⟨res, fl1⟩ := r
      rw [hs] at hl
      obtain ⟨g1, g2⟩ := mergeScan_core total t ht ht63 al 66 min_size fl res fl1 hc hs
      cases res with
      | none =>
        simp only [Option.some.injEq] at hl
        rw [← hl]; exact g1
      | some fl2 =>
        simp only at hl
        exact ih fl2 fl' (g2 fl2 rfl) hl

theorem tileInv_free (a a' : BuddyAllocator) (block_id : Int) (r : Bool) (h : TileInv a)
    (hf : a.free block_id = some (a', r)) : TileInv a' := by
  obtain ⟨t, ht63, ht⟩ := h.total
  unfold BuddyAllocator.free at hf
  split at hf
  · simp only [Option.some.injEq, Prod.mk.injEq] at hf
    rw [← hf.1]; exact h
  · rename_i block hfind
    simp only [BuddyAllocator.mergeBuddies, Option.map_map] at hf
    cases hml : BuddyAllocator.mergeLoop a.total_memory a.min_block_size
        (BuddyAllocator.freeCount
          (pushBack block.size { block with is_free := true, block_id := -1 } a.free_lists) + 1)
        (pushBack block.size { block with is_free := true, block_id := -1 } a.free_lists) with
    | none => rw [hml] at hf; simp at hf
    | some fl' =>
      rw [hml] at hf
      simp only [Option.map_some', Function.comp_apply, Option.some.injEq, Prod.mk.injEq] at hf
      rw [← hf.1]
      have hc := core_release _ _ _ _ block_id block h.core hfind
      have g1 := mergeLoop_core _ a.min_block_size t ht ht63 _ _ _ fl' hc hml
      refine ⟨h.total, g1, ?_⟩
      intro id b hb
      have hb' : (id, b) ∈ mapErase block_id a.allocated_blocks := hb
      unfold mapErase at hb'
      exact h.fresh id b (List.mem_filter.1 hb').1

theorem tileInv_run : ∀ (ops : List BuddyOp) (a a' : BuddyAllocator), TileInv a →
    a.run ops = some a' → TileInv a' := by
  intro ops
  induction ops with
  | nil =>
    intro a a' h hr
    simp only [BuddyAllocator.run, Option.some.injEq] at hr
    rw [← hr]; exact h
  | cons op rest ih =>
    intro a a' h hr
    simp only [BuddyAllocator.run] at hr
    split at hr
    · exact absurd hr (by simp)
    · rename_i a1 hs
      apply ih a1 a' _ hr
      cases op with
      | malloc size =>
        simp only [BuddyAllocator.step] at hs
        cases hm : a.malloc size with
        | none => rw [hm] at hs; simp at hs
        | some p =>
          rw [hm] at hs
          simp only [Option.map_some', Option.some.injEq] at hs
          rw [← hs]
          exact tileInv_malloc a p.1 size p.2 h hm
      | free block_id =>
        simp only [BuddyAllocator.step] at hs
        cases hm : a.free block_id with
        | none => rw [hm] at hs; simp at hs
        | some p =>
          rw [hm] at hs
          simp only [Option.map_some', Option.some.injEq] at hs
          rw [← hs]
          exact tileInv_free a p.1 block_id p.2 h hm

theorem tileInv_new (memory_size min_size t : Nat) (ht63 : t ≤ 63)
    (ht : (BuddyAllocator.new memory_size min_size).total_memory = 2 ^ t) :
    TileInv (BuddyAllocator.new memory_size min_size) := by
  have h1 := buddyInv_new memory_size 1 t 0 ht63 ht rfl
  exact ⟨⟨t, ht63, ht⟩, core_weaken _ _ _ _ h1.core, h1.fresh⟩

/-- The search of `splitBlock(0)` in an allocator without memory: it returns the last
block of the bucket of 0. -/
theorem splitLoop_total_zero (fuel : Nat) (fl : FreeLists) (res : Option BuddyBlock)
    (fl' : FreeLists) (hunf : BuddyAllocator.splitLoop 0 0 (fuel + 1) 0 fl = some (res, fl')) :
    ∃ r, res = some r ∧ r ∈ bucket fl 0 ∧
      ∀ k, bucket fl' k = if k = 0 then (bucket fl 0).dropLast else bucket fl k := by
  simp only [BuddyAllocator.splitLoop, Nat.le_refl, if_true] at hunf
  by_cases hne : bucket (touch 0 fl) 0 = []
  · simp only [hne, ne_eq, not_true_eq_false, if_false, Nat.zero_mul, Nat.zero_mod] at hunf
    rw [splitLoop_zero 0 0 fuel _ hne] at hunf
    exact absurd hunf (by simp)
  · have hne' : bucket (touch 0 (touch 0 fl)) 0 ≠ [] := by rw [bucket_touch]; exact hne
    obtain ⟨r, hr⟩ := getLast?_of_ne_nil _ hne'
    simp only [hne, ne_eq, not_false_eq_true, if_true, splitDown_done, hr, Option.some.injEq,
      Prod.mk.injEq] at hunf
    refine ⟨r, hunf.1.symm, ?_, ?_⟩
    · have hm : r ∈ bucket (touch 0 (touch 0 fl)) 0 := by
        rw [getLast?_split _ _ hr]; simp
      rw [bucket_touch, bucket_touch] at hm
      exact hm
    · intro k
      rw [← hunf.2, bucket_popBack, bucket_touch, bucket_touch, bucket_touch, bucket_touch]

theorem zeroInv_malloc (a a' : BuddyAllocator) (size : Nat) (id : Int) (h : ZeroInv a)
    (hm : a.malloc size = some (a', id)) : ZeroInv a' := by
  unfold BuddyAllocator.malloc at hm
  split at hm
  · simp only [Option.some.injEq, Prod.mk.injEq] at hm
    rw [← hm.1]; exact h
  · simp only at hm
    generalize max a.min_block_size (BuddyAllocator.roundUpToPowerOf2 size) = asz at hm
    split at hm
    · simp only [Option.some.injEq, Prod.mk.injEq] at hm
      rw [← hm.1]; exact h
    · rename_i hle
      have hz : asz = 0 := by
        have := h.total
        omega
      subst hz
      unfold BuddyAllocator.splitBlock at hm
      split at hm
      · exact absurd hm (by simp)
      · rename_i fl' hs
        rw [h.total] at hs
        obtain ⟨r, hr, _⟩ := splitLoop_total_zero 64 _ _ _ hs
        exact absurd hr (by simp)
      · rename_i block fl' hs
        rw [h.total] at hs
        obtain ⟨r, hr, hmem, hb⟩ := splitLoop_total_zero 64 _ _ _ hs
        simp only [Option.some.injEq] at hr
        subst hr
        simp only [Option.some.injEq, Prod.mk.injEq] at hm
        rw [← hm.1]
        refine ⟨h.total, ?_, ?_⟩
        · intro k b hbk
          have hbk' : b ∈ bucket fl' k := hbk
          rw [hb] at hbk'
          split at hbk'
          · rename_i hk
            rw [hk]
            exact h.free 0 b (List.mem_of_mem_dropLast hbk')
          · exact h.free k b hbk'
        · intro id' b hb'
          have hb2 : (id', b) ∈ mapInsert a.next_block_id
              { block with is_free := false, block_id := a.next_block_id }
              a.allocated_blocks := hb'
          rcases mem_mapInsert _ _ _ _ hb2 with e | e
          · simp only [Prod.mk.injEq] at e
            rw [e.2]
            exact (h.free 0 block hmem).2
          · exact h.alloc id' b e

theorem zeroInv_free (a a' : BuddyAllocator) (block_id : Int) (r : Bool) (h : ZeroInv a)
    (hf : a.free block_id = some (a', r)) : ZeroInv a' := by
  unfold BuddyAllocator.free at hf
  split at hf
  · simp only [Option.some.injEq, Prod.mk.injEq] at hf
    rw [← hf.1]; exact h
  · rename_i block hfind
    have hblk := h.alloc block_id block (mapFind_mem _ _ _ hfind)
    have hloop : ∀ (fuel : Nat) (fl : FreeLists),
        BuddyAllocator.mergeLoop a.total_memory a.min_block_size (fuel + 1) fl = some fl := by
      intro fuel fl
      simp only [BuddyAllocator.mergeLoop]
      rw [show (66 : Nat) = 65 + 1 from rfl,
        mergeScan_ge a.total_memory 65 a.min_block_size fl (by rw [h.total]; omega)]
    simp only [BuddyAllocator.mergeBuddies, hloop, Option.map_some', Option.some.injEq,
      Prod.mk.injEq] at hf
    rw [← hf.1]
    refine ⟨h.total, ?_, ?_⟩
    · intro k b hbk
      have hbk' : b ∈ bucket (pushBack block.size
          { block with is_free := true, block_id := -1 } a.free_lists) k := hbk
      rw [bucket_pushBack] at hbk'
      split at hbk'
      · rename_i hk
        rcases List.mem_append.1 hbk' with e | e
        · rw [hk]
          have := h.free block.size b e
          exact ⟨hblk.2, this.2⟩
        · simp only [List.mem_singleton] at e
          rw [hk, e]
          exact ⟨hblk.2, hblk.1, hblk.2⟩
      · exact h.free k b hbk'
    · intro id b hb
      have hb' : (id, b) ∈ mapErase block_id a.allocated_blocks := hb
      unfold mapErase at hb'
      exact h.alloc id b (List.mem_filter.1 hb').1

theorem zeroInv_run : ∀ (ops : List BuddyOp) (a a' : BuddyAllocator), ZeroInv a →
    a.run ops = some a' → ZeroInv a' := by
  intro ops
  induction ops with
  | nil =>
    intro a a' h hr
    simp only [BuddyAllocator.run, Option.some.injEq] at hr
    rw [← hr]; exact h
  | cons op rest ih =>
    intro a a' h hr
    simp only [BuddyAllocator.run] at hr
    split at hr
    · exact absurd hr (by simp)
    · rename_i a1 hs
      apply ih a1 a' _ hr
      cases op with
      | malloc size =>
        simp only [BuddyAllocator.step] at hs
        cases hm : a.malloc size with
        | none => rw [hm] at hs; simp at hs
        | some p =>
          rw [hm] at hs
          simp only [Option.map_some', Option.some.injEq] at hs
          rw [← hs]
          exact zeroInv_malloc a p.1 size p.2 h hm
      | free block_id =>
        simp only [BuddyAllocator.step] at hs
        cases hm : a.free block_id with
        | none => rw [hm] at hs; simp at hs
        | some p =>
          rw [hm] at hs
          simp only [Option.map_some', Option.some.injEq] at hs
          rw [← hs]
          exact zeroInv_free a p.1 block_id p.2 h hm

theorem zeroInv_new (memory_size min_size : Nat)
    (ht : (BuddyAllocator.new memory_size min_size).total_memory = 0) :
    ZeroInv (BuddyAllocator.new memory_size min_size) := by
  generalize hT : (BuddyAllocator.new memory_size min_size).total_memory = total at ht
  have hfl : (BuddyAllocator.new memory_size min_size).free_lists =
      pushBack total { address := 0, size := total } [] := by
    rw [← hT]; rfl
  refine ⟨by rw [hT, ht], ?_, ?_⟩
  · intro k b hb
    rw [hfl, bucket_pushBack] at hb
    split at hb
    · rename_i hk
      have hb' : b = { address := 0, size := total } := by simpa [bucket, mapFind] using hb
      rw [hk, hb', ht]
      exact ⟨rfl, rfl, rfl⟩
    · simp [bucket, mapFind] at hb
  · intro id b hb
    have : (BuddyAllocator.new memory_size min_size).allocated_blocks = [] := rfl
    rw [this] at hb
    simp at hb

theorem mapFind_of_mem_sorted : ∀ (fl : FreeLists) (k : Nat) (v : List BuddyBlock),
    KeysSorted fl → (k, v) ∈ fl → mapFind k fl = some v := by
  intro fl
  induction fl with
  | nil => intro k v _ h; simp at h
  | cons c rest ih =>
    intro k v hs h
    obtain ⟨k', v'⟩ := c
    have hs' : (∀ x ∈ rest.map Prod.fst, k' < x) ∧ KeysSorted rest := by
      simpa [KeysSorted] using hs
    rcases List.mem_cons.1 h with e | e
    · simp only [Prod.mk.injEq] at e
      simp only [mapFind, e.1, e.2, if_true]
    · have hlt : k' < k := hs'.1 k (List.mem_map.2 ⟨(k, v), e, rfl⟩)
      have hne : ¬ k' = k := by omega
      simp only [mapFind, if_neg hne]
      exact ih k v hs'.2 e

/-- With sorted keys, the list of the free blocks holds exactly the blocks of the
buckets. -/
theorem mem_freeBlocks (fl : FreeLists) (hs : KeysSorted fl) (b : BuddyBlock) :
    b ∈ freeBlocks fl ↔ ∃ k, b ∈ bucket fl k := by
  unfold freeBlocks
  rw [List.mem_flatMap]
  constructor
  · rintro ⟨⟨k, v⟩, he, hb⟩
    refine ⟨k, ?_⟩
    simp only [bucket, mapFind_of_mem_sorted fl k v hs he, Option.getD_some]
    exact hb
  · rintro ⟨k, hb⟩
    cases hf : mapFind k fl with
    | none => simp [bucket, hf] at hb
    | some v =>
      simp only [bucket, hf, Option.getD_some] at hb
      exact ⟨(k, v), mapFind_mem k v fl hf, hb⟩

theorem mem_blocks (a : BuddyAllocator) (hs : KeysSorted a.free_lists) (b : BuddyBlock) :
    b ∈ a.blocks ↔ BuddyLive a.free_lists a.allocated_blocks b := by
  unfold BuddyAllocator.blocks BuddyLive
  rw [List.mem_append, mem_freeBlocks _ hs, List.mem_map]
  constructor
  · rintro (h | ⟨⟨id, c⟩, he, hc⟩)
    · exact Or.inl h
    · simp only at hc
      subst hc
      exact Or.inr ⟨id, he⟩
  · rintro (h | ⟨id, he⟩)
    · exact Or.inl h
    · exact Or.inr ⟨(id, b), he, rfl⟩

/-- No block occurs twice in the list of all blocks. -/
theorem blocks_nodup (a : BuddyAllocator) (min_size : Nat) (hs : KeysSorted a.free_lists)
    (hc : BuddyCore a.total_memory min_size a.free_lists a.allocated_blocks) :
    a.blocks.Nodup := by
  unfold BuddyAllocator.blocks
  rw [List.nodup_append]
  refine ⟨?_, ?_, ?_⟩
  · unfold freeBlocks
    rw [List.nodup_flatMap]
    constructor
    · rintro ⟨k, v⟩ he
      have := hc.nodup k
      simp only [bucket, mapFind_of_mem_sorted _ k v hs he, Option.getD_some] at this
      exact this
    · have hp : a.free_lists.Pairwise (fun e e' => e.1 < e'.1) := List.pairwise_map.1 hs
      refine List.Pairwise.imp_of_mem ?_ hp
      rintro ⟨k, v⟩ ⟨k', v'⟩ he he' hlt
      simp only at hlt
      show List.Disjoint v v'
      intro b hb hb'
      have h1 : b ∈ bucket a.free_lists k := by
        simp only [bucket, mapFind_of_mem_sorted _ k v hs he, Option.getD_some]
        exact hb
      have h2 : b ∈ bucket a.free_lists k' := by
        simp only [bucket, mapFind_of_mem_sorted _ k' v' hs he', Option.getD_some]
        exact hb'
      have e1 := (hc.key k b h1).1
      have e2 := (hc.key k' b h2).1
      omega
  · apply List.Nodup.of_map BuddyBlock.block_id
    have : (a.allocated_blocks.map Prod.snd).map BuddyBlock.block_id =
        a.allocated_blocks.map Prod.fst := by
      rw [List.map_map]
      apply List.map_congr_left
      rintro ⟨id, b⟩ he
      exact (hc.alloc id b he).1
    rw [this]
    exact hc.alloc_nodup
  · intro b hb hb'
    obtain ⟨k, hk⟩ := (mem_freeBlocks _ hs b).1 hb
    obtain ⟨⟨id, c⟩, he, hcb⟩ := List.mem_map.1 hb'
    simp only at hcb
    subst hcb
    have h1 := (hc.key k c hk).2.1
    have h2 := (hc.alloc id c he).2
    rw [h1] at h2
    exact absurd h2 (by simp)

/-- Blocks that pairwise do not overlap, lie in `[0, total)` and cover it have sizes that
sum to `total`. -/
theorem tiling_sum (L : List BuddyBlock) (total : Nat) (hnd : L.Nodup)
    (hapart : ∀ b ∈ L, ∀ c ∈ L, b ≠ c → b.apart c)
    (hin : ∀ b ∈ L, b.address + b.size ≤ total)
    (hcover : ∀ x, x < total → ∃ b ∈ L, b.covers x) :
    (L.map BuddyBlock.size).sum = total := by
  have hU : Finset.range total =
      L.toFinset.biUnion (fun b => Finset.Ico b.address (b.address + b.size)) := by
    ext x
    simp only [Finset.mem_range, Finset.mem_biUnion, List.mem_toFinset, Finset.mem_Ico]
    constructor
    · intro hx
      obtain ⟨b, hb, hbx⟩ := hcover x hx
      exact ⟨b, hb, hbx.1, hbx.2⟩
    · rintro ⟨b, hb, h1, h2⟩
      have := hin b hb
      omega
  have hdisj : ∀ b ∈ L.toFinset, ∀ c ∈ L.toFinset, b ≠ c →
      Disjoint (Finset.Ico b.address (b.address + b.size))
        (Finset.Ico c.address (c.address + c.size)) := by
    intro b hb c hc hne
    rw [Finset.disjoint_left]
    intro x hx hx'
    simp only [Finset.mem_Ico] at hx hx'
    rcases hapart b (List.mem_toFinset.1 hb) c (List.mem_toFinset.1 hc) hne with h | h
    · omega
    · omega
  have hcard := Finset.card_biUnion hdisj
  rw [← hU, Finset.card_range] at hcard
  rw [hcard, ← List.sum_toFinset _ hnd]
  apply Finset.sum_congr rfl
  intro b _
  rw [Nat.card_Ico]
  omega

/-- The tiling facts of an allocator whose total memory is a power of two. -/
theorem tiling_of_tileInv (a : BuddyAllocator) (h : TileInv a) (hs : KeysSorted a.free_lists) :
    (∀ b ∈ a.blocks, b.size ∣ b.address) ∧
    (∀ k, ∀ b ∈ bucket a.free_lists k, b.size = k) ∧
    a.blocks.Pairwise BuddyBlock.apart ∧
    (a.blocks.map BuddyBlock.size).sum = a.total_memory ∧
    (∀ x, x < a.total_memory → ∃ b ∈ a.blocks, b.covers x) ∧
    (∀ b ∈ a.blocks, b.address + b.size ≤ a.total_memory) := by
  have hnd := blocks_nodup a 0 hs h.core
  have hlive := mem_blocks a hs
  have hapart : ∀ b ∈ a.blocks, ∀ c ∈ a.blocks, b ≠ c → b.apart c := by
    intro b hb c hc hne
    obtain ⟨⟨e, he⟩, _⟩ := h.core.shape b ((hlive b).1 hb)
    obtain ⟨⟨e', he'⟩, _⟩ := h.core.shape c ((hlive c).1 hc)
    have hp : 0 < b.size := by rw [he]; exact Nat.two_pow_pos e
    have hp' : 0 < c.size := by rw [he']; exact Nat.two_pow_pos e'
    by_contra hcon
    unfold BuddyBlock.apart at hcon
    apply hne
    apply h.core.disjoint b c (max b.address c.address) ((hlive b).1 hb) ((hlive c).1 hc)
    · constructor
      · exact le_max_left _ _
      · rcases le_total b.address c.address with e1 | e1
        · rw [max_eq_right e1]; omega
        · rw [max_eq_left e1]; omega
    · constructor
      · exact le_max_right _ _
      · rcases le_total b.address c.address with e1 | e1
        · rw [max_eq_right e1]; omega
        · rw [max_eq_left e1]; omega
  have hin : ∀ b ∈ a.blocks, b.address + b.size ≤ a.total_memory :=
    fun b hb => (h.core.shape b ((hlive b).1 hb)).2.2.1
  have hcover : ∀ x, x < a.total_memory → ∃ b ∈ a.blocks, b.covers x := by
    intro x hx
    obtain ⟨b, hb, hbx⟩ := h.core.cover x hx
    exact ⟨b, (hlive b).2 hb, hbx⟩
  exact ⟨fun b hb => (h.core.shape b ((hlive b).1 hb)).2.1,
    fun k b hb => (h.core.key k b hb).1,
    List.Nodup.pairwise_of_forall_ne hnd hapart,
    tiling_sum a.blocks a.total_memory hnd hapart hin hcover, hcover, hin⟩

/-- The tiling facts of an allocator without memory. -/
theorem tiling_of_zeroInv (a : BuddyAllocator) (h : ZeroInv a) (hs : KeysSorted a.free_lists) :
    (∀ b ∈ a.blocks, b.size ∣ b.address) ∧
    (∀ k, ∀ b ∈ bucket a.free_lists k, b.size = k) ∧
    a.blocks.Pairwise BuddyBlock.apart ∧
    (a.blocks.map BuddyBlock.size).sum = a.total_memory ∧
    (∀ x, x < a.total_memory → ∃ b ∈ a.blocks, b.covers x) ∧
    (∀ b ∈ a.blocks, b.address + b.size ≤ a.total_memory) := by
  have hall : ∀ b ∈ a.blocks, b.address = 0 ∧ b.size = 0 := by
    intro b hb
    rcases (mem_blocks a hs b).1 hb with ⟨k, hk⟩ | ⟨id, hid⟩
    · exact (h.free k b hk).2
    · exact h.alloc id b hid
  refine ⟨?_, ?_, ?_, ?_, ?_, ?_⟩
  · intro b hb
    rw [(hall b hb).1]
    exact dvd_zero _
  · intro k b hb
    obtain ⟨h1, _, h3⟩ := h.free k b hb
    rw [h1, h3]
  · apply List.pairwise_of_forall_mem_list
    intro b hb c hc
    left
    rw [(hall b hb).1, (hall b hb).2, (hall c hc).1]
  · rw [h.total]
    apply List.sum_eq_zero
    intro n hn
    obtain ⟨b, hb, rfl⟩ := List.mem_map.1 hn
    exact (hall b hb).2
  · intro x hx
    rw [h.total] at hx
    omega
  · intro b hb
    rw [(hall b hb).1, (hall b hb).2]
    omega

/-- Claim C39 (buddy blocks tile memory on aligned boundaries).  For every
`BuddyAllocator` constructed with a 64-bit `memory_size` and any `min_block_size`, in
every state reached by `malloc`/`free` calls that return: the list `blocks` holds exactly
the blocks of the free lists and of the allocated map; the address of every block is a
multiple of its size; every free block lies in the bucket keyed by its size; the address
ranges of the blocks are pairwise disjoint; the sizes of the blocks sum to `total_memory`;
and the blocks lie inside `[0, total_memory)` and cover it. -/
theorem C39_buddy_tiling (memory_size min_size : Nat) (hmem : memory_size < SIZE_MOD)
    (ops : List BuddyOp) (a : BuddyAllocator)
    (hrun : (BuddyAllocator.new memory_size min_size).run ops = some a) :
    (∀ b, b ∈ a.blocks ↔ BuddyLive a.free_lists a.allocated_blocks b) ∧
    (∀ b ∈ a.blocks, b.size ∣ b.address) ∧
    (∀ k, ∀ b ∈ bucket a.free_lists k, b.size = k) ∧
    a.blocks.Pairwise BuddyBlock.apart ∧
    (a.blocks.map BuddyBlock.size).sum = a.total_memory ∧
    (∀ x, x < a.total_memory → ∃ b ∈ a.blocks, b.covers x) ∧
    (∀ b ∈ a.blocks, b.address + b.size ≤ a.total_memory) := by
  obtain ⟨hs, _, _⟩ := keysSorted_run ops _ a (keysSorted_new memory_size min_size) hrun
  refine ⟨mem_blocks a hs, ?_⟩
  obtain ⟨h1, h2⟩ := new_total_memory memory_size min_size hmem
  by_cases hle : memory_size ≤ 9223372036854775808
  · obtain ⟨t, ht63, ht⟩ := h1 hle
    exact tiling_of_tileInv a
      (tileInv_run ops _ a (tileInv_new memory_size min_size t ht63 ht) hrun) hs
  · exact tiling_of_zeroInv a
      (zeroInv_run ops _ a (zeroInv_new memory_size min_size (h2 (by omega))) hrun) hs

/-- Witness of C39 on `BuddyAllocator(256, 64)` after `malloc(50)`, `malloc(50)`,
`free(1)`: the blocks at 192 (free, 64 bytes), 0 (free, 128 bytes) and 128 (allocated,
64 bytes) have sizes that sum to 256. -/
theorem C39_buddy_tiling_witness :
    (256 : Nat) < SIZE_MOD ∧
    (BuddyAllocator.new 256 64).run [BuddyOp.malloc 50, BuddyOp.malloc 50, BuddyOp.free 1] =
      some BuddyAllocator.scenarioOneFreed ∧
    BuddyAllocator.scenarioOneFreed.blocks =
      [{ address := 192, size := 64 }, { address := 0, size := 128 },
        { address := 128, size := 64, is_free := false, block_id := 2 }] ∧
    (BuddyAllocator.scenarioOneFreed.blocks.map BuddyBlock.size).sum =
      BuddyAllocator.scenarioOneFreed.total_memory :=
  ⟨by decide, by decide, by decide,
    (C39_buddy_tiling 256 64 (by decide)
      [BuddyOp.malloc 50, BuddyOp.malloc 50, BuddyOp.free 1] BuddyAllocator.scenarioOneFreed
      (by decide)).2.2.2.2.1⟩
